import Mathlib

/-!
# winscope-smb: the binary marshalling engine (`pkg/encoding`)

A shallow embedding of `pkg/encoding` (`encoding.go`, `decode.go`, `encode.go`).  The
codecs and messages of `pkg/protocol` that the properties name (`ntlmssp`, `gss`,
`smb/v2`) and the framing of `smb/common/netbios.go` are embedded beside it.

Conventions of the embedding.

* A byte is a `Nat` below 256 and a buffer is a `List Nat`.  Go's `int` is `Int`
  (a 64-bit platform is assumed, so `int(uint32)` never wraps).  The capacity of a
  buffer is its length, as for the buffers that the repository decodes (`make([]byte, n)`
  filled by a read): a slice expression that ends past the length panics.
* A Go type is a `Kind`, a Go value is a `Value`; reflection on a value is a match on
  its kind.  A struct type is its list of fields in declaration order, each with its
  name and the text of its `smb` struct tag.  An embedded structure is the field named
  after its type and is not told from a named field: the engine treats the two alike but
  for `FieldByName` in `getFieldLengthByName`, which also finds the promoted fields of an
  embedded structure; a name that only promotion would find is looked up as in a
  structure without embedded fields, and `namedInFields` tells the names that this
  leaves open.
* The mutable `*Metadata` is passed and returned explicitly.
* A codec (`Codec`) is the pair of its methods, each a function of the receiver and the
  context.  `Marshal` and the functions under it are the encoder for codecs whose
  `MarshalBinary` leaves the receiver as it is, as the codecs of the repository do.  The
  value that a `MarshalBinary` may leave in its receiver is given beside the codec
  (`Writes`), and the last section of the definitions is the encoder with the record
  passed and returned (`MarshalSt`); the two agree when no codec writes
  (`MarshalSt_quiet`).
* A run-time failure of the Go program (slice bounds, `reflect.Set` of a mismatched
  type, nil dereference) is the distinguished result `Error.goPanic`; every other
  `Error` is an `error` value returned by the Go function.
-/

namespace Encoding

/-! ## Results -/

/-- The `error` values of the package (message arguments dropped), the errors of
`encoding/binary` reads, and `goPanic` for a run-time panic. -/
inductive Error where
  | eof
  | unexpectedEOF
  | notImplementedKind
  | notImplementedSliceKind
  | nilPointer
  | expectedBytes
  | sliceLengthOutOfBounds
  | missingLengthReference
  | missingParentBuffer
  | sliceOutOfBounds
  | keyDoesNotExist
  | notAnInt
  | notAString
  | missingTagData
  | atoiFailed
  | invalidType
  | notBinaryMarshallable
  | missingMetadata
  | fieldNotFound
  | invalidField
  | interfaceLength
  | unknownSliceType
  | unknownKind
  | codec (code : Nat)
  | goPanic
  deriving DecidableEq, Repr

instance instDecidableEqExcept {ε α : Type} [DecidableEq ε] [DecidableEq α] :
    DecidableEq (Except ε α)
  | .ok a, .ok b => if h : a = b then isTrue (by rw [h]) else isFalse (fun h2 => h (by cases h2; rfl))
  | .error a, .error b =>
    if h : a = b then isTrue (by rw [h]) else isFalse (fun h2 => h (by cases h2; rfl))
  | .ok _, .error _ => isFalse (fun h => by cases h)
  | .error _, .ok _ => isFalse (fun h => by cases h)

/-- The Go function returned a non-nil `error` (it did not panic and did not succeed). -/
def returnsError {α : Type} (r : Except Error α) : Prop :=
  ∃ e, r = .error e ∧ e ≠ Error.goPanic

/-- The Go function succeeded. -/
def succeeds {α : Type} (r : Except Error α) : Prop :=
  ∃ a, r = .ok a

/-! ## Directive map (`encoding.go`) -/

/-- The dynamic value stored under a directive key (`map[string]any`). -/
inductive TagVal where
  | str (s : String)
  | int (i : Int)
  | bool (b : Bool)
  deriving DecidableEq, Repr

/-- `TagMap`: the maps `m` and `has` are only written together by `Set`, so one
association list stands for both; the most recent binding of a key is first. -/
structure TagMap where
  entries : List (String × TagVal)
  deriving DecidableEq, Repr

/-- `&TagMap{}`: both maps nil. -/
def TagMap.empty : TagMap := ⟨[]⟩

/-- `TagMap.Has`. -/
def TagMap.Has (t : TagMap) (key : String) : Bool :=
  (t.entries.lookup key).isSome

/-- `TagMap.Set`. -/
def TagMap.Set (t : TagMap) (key : String) (val : TagVal) : TagMap :=
  ⟨(key, val) :: t.entries⟩

/-- `TagMap.Get`. -/
def TagMap.Get (t : TagMap) (key : String) : Option TagVal :=
  t.entries.lookup key

/-- `TagMap.GetInt`. -/
def TagMap.GetInt (t : TagMap) (key : String) : Except Error Int :=
  if !t.Has key then .error .keyDoesNotExist
  else match t.Get key with
    | some (.int i) => .ok i
    | _ => .error .notAnInt

/-- `TagMap.GetString`. -/
def TagMap.GetString (t : TagMap) (key : String) : Except Error String :=
  if !t.Has key then .error .keyDoesNotExist
  else match t.Get key with
    | some (.str s) => .ok s
    | _ => .error .notAString

def TagFixed : String := "fixed"
def TagOffset : String := "offset"
def TagLen : String := "len"
def TagASN1 : String := "asn1"
def TagPad : String := "pad"

/-- `strings.Split(s, sep)` for a one-character separator, on the characters of `s`:
the pieces between the separators, in order (one empty piece for the empty string). -/
def splitOnChar (sep : Char) : List Char → List (List Char)
  | [] => [[]]
  | c :: cs =>
    match splitOnChar sep cs with
    | [] => [[]]
    | t :: ts => if c = sep then [] :: t :: ts else (c :: t) :: ts

/-- Value of a run of decimal digits, most significant first, continuing from `acc`;
`none` when a character is not a digit. -/
def digitsValue : List Char → Nat → Option Nat
  | [], acc => some acc
  | c :: cs, acc =>
    if 48 ≤ c.toNat ∧ c.toNat ≤ 57 then digitsValue cs (acc * 10 + (c.toNat - 48)) else none

/-- `strconv.Atoi` with a 64-bit `int`: an optional sign, then at least one decimal
digit, the value within the range of `int64`. -/
def atoi (s : List Char) : Except Error Int :=
  let body (neg : Bool) (ds : List Char) : Except Error Int :=
    match ds with
    | [] => .error .atoiFailed
    | _ =>
      match digitsValue ds 0 with
      | none => .error .atoiFailed
      | some n =>
        if neg then (if n ≤ 2 ^ 63 then .ok (-(n : Int)) else .error .atoiFailed)
        else (if n < 2 ^ 63 then .ok (n : Int) else .error .atoiFailed)
  match s with
  | [] => .error .atoiFailed
  | c :: cs =>
    if c = '-' then body true cs
    else if c = '+' then body false cs
    else body false (c :: cs)

/-- One iteration of the loop of `parseTags`: the token `smbTag` split on `:`. -/
def parseTag (ret : TagMap) (smbTag : List Char) : Except Error TagMap :=
  let tokens := (splitOnChar ':' smbTag).map String.mk
  match tokens with
  | [] => .ok ret
  | key :: args =>
    if key = TagLen ∨ key = TagOffset then
      match args with
      | [val] => .ok (ret.Set key (.str val))
      | _ => .error .missingTagData
    else if key = TagFixed then
      match args with
      | [val] =>
        match atoi val.toList with
        | .ok i => .ok (ret.Set key (.int i))
        | .error e => .error e
      | _ => .error .missingTagData
    else if key = TagASN1 then .ok (ret.Set key (.bool true))
    else if key = TagPad then .ok (ret.Set key (.bool true))
    else .ok ret

/-- The loop of `parseTags` over the comma-separated tokens. -/
def parseTagsLoop : List (List Char) → TagMap → Except Error TagMap
  | [], ret => .ok ret
  | t :: ts, ret =>
    match parseTag ret t with
    | .ok r => parseTagsLoop ts r
    | .error e => .error e

/-- `parseTags`, applied to the text of the field's `smb` struct tag
(`sf.Tag.Get(TagKey)`, empty when the field has none). -/
def parseTags (tag : String) : Except Error TagMap :=
  parseTagsLoop (splitOnChar ',' tag.toList) ⟨[]⟩

/-! ## Values, types and the traversal context -/

/-- A Go value handled by the engine.  `str` holds the bytes of a Go string, `bytes`
a `[]byte`, `u16s` a `[]uint16`, `list` any other slice, `struct` the field values in
declaration order, `ptr none` a nil pointer. -/
inductive Value where
  | u8 (n : Nat)
  | u16 (n : Nat)
  | u32 (n : Nat)
  | u64 (n : Nat)
  | str (s : List Nat)
  | bytes (b : List Nat)
  | u16s (xs : List Nat)
  | list (vs : List Value)
  | struct (fields : List Value)
  | ptr (target : Option Value)

/-- `Metadata`, the traversal context.  Its `Parent` field is only read by the encoder
and is passed beside the context there. -/
structure Metadata where
  Tags : TagMap
  Lens : List (String × Int)
  Offsets : List (String × Int)
  ParentBuf : List Nat
  CurrOffset : Int
  CurrField : String

/-- An implementation of the `BinaryMarshallable` interface.  `UnmarshalBinary` gives
the new value of the receiver and the count of bytes it reports as consumed. -/
structure Codec where
  MarshalBinary : Value → Option Metadata → Except Error (List Nat)
  UnmarshalBinary : List Nat → Option Metadata → Except Error (Value × Int)

/-- A struct field: its name, the text of its `smb` tag, its type. -/
structure Field (κ : Type) where
  name : String
  tag : String
  kind : κ

/-- A Go type as reflection sees it.  `custom c u` is a named type with underlying type
`u` whose pointer type implements `BinaryMarshallable` by `c` (all codecs of the
repository have pointer receivers); it occurs as the type of a field or as the target
of a pointer.  `other` is any kind the engine has no case for. -/
inductive Kind where
  | uint8
  | uint16
  | uint32
  | uint64
  | string
  | slice (elem : Kind)
  | struct (fields : List (Field Kind))
  | ptr (elem : Kind)
  | custom (codec : Codec) (under : Kind)
  | other

/-- The structure type given by a list of fields. -/
abbrev Shape := List (Field Kind)

/-! ## Decode engine (`decode.go`) -/

/-- The slice expression `buf[off:]`, which panics unless `0 <= off <= len(buf)`. -/
def sliceFrom (buf : List Nat) (off : Int) : Except Error (List Nat) :=
  if 0 ≤ off ∧ off ≤ (buf.length : Int) then .ok (buf.drop off.toNat) else .error .goPanic

/-- `binary.LittleEndian` value of a byte sequence. -/
def leValue : List Nat → Nat
  | [] => 0
  | b :: bs => b + 256 * leValue bs

/-- `binary.Read(bytes.NewBuffer(buf), binary.LittleEndian, &ret)` for an unsigned
integer of `w` bytes: `io.EOF` on an empty buffer, `io.ErrUnexpectedEOF` on a short
one. -/
def binaryRead (w : Nat) (buf : List Nat) : Except Error Nat :=
  if buf.length = 0 then .error .eof
  else if buf.length < w then .error .unexpectedEOF
  else .ok (leValue (buf.take w))

/-- `ensureMetadata`. -/
def ensureMetadata (meta : Option Metadata) (buf : List Nat) : Metadata :=
  match meta with
  | some m => m
  | none =>
    { Tags := TagMap.empty, Lens := [], Offsets := [], ParentBuf := buf,
      CurrOffset := 0, CurrField := "" }

/-- `unmarshalUint8`. -/
def unmarshalUint8 (buf : List Nat) (meta : Metadata) : Except Error (Value × Metadata) :=
  match binaryRead 1 buf with
  | .error e => .error e
  | .ok ret => .ok (.u8 ret, { meta with CurrOffset := meta.CurrOffset + 1 })

/-- `unmarshalUint16`: a `len` directive records the value as the length of the
referenced field. -/
def unmarshalUint16 (buf : List Nat) (meta : Metadata) : Except Error (Value × Metadata) :=
  match binaryRead 2 buf with
  | .error e => .error e
  | .ok ret =>
    if meta.Tags.Has "len" then
      match meta.Tags.GetString "len" with
      | .error e => .error e
      | .ok ref =>
        .ok (.u16 ret, { meta with Lens := (ref, (ret : Int)) :: meta.Lens,
                                   CurrOffset := meta.CurrOffset + 2 })
    else .ok (.u16 ret, { meta with CurrOffset := meta.CurrOffset + 2 })

/-- `unmarshalUint32`: an `offset` directive records the value as the offset of the
referenced field. -/
def unmarshalUint32 (buf : List Nat) (meta : Metadata) : Except Error (Value × Metadata) :=
  match binaryRead 4 buf with
  | .error e => .error e
  | .ok ret =>
    if meta.Tags.Has TagOffset then
      match meta.Tags.GetString TagOffset with
      | .error e => .error e
      | .ok ref =>
        .ok (.u32 ret, { meta with Offsets := (ref, (ret : Int)) :: meta.Offsets,
                                   CurrOffset := meta.CurrOffset + 4 })
    else .ok (.u32 ret, { meta with CurrOffset := meta.CurrOffset + 4 })

/-- `unmarshalUint64`. -/
def unmarshalUint64 (buf : List Nat) (meta : Metadata) : Except Error (Value × Metadata) :=
  match binaryRead 8 buf with
  | .error e => .error e
  | .ok ret => .ok (.u64 ret, { meta with CurrOffset := meta.CurrOffset + 8 })

/-- The loop of `unmarshalString`: `r` is what the reader has left, `data` the bytes
appended so far, `off` the value of `meta.CurrOffset`. -/
def unmarshalStringLoop : List Nat → List Nat → Int → Except Error (List Nat × Int)
  | [], _, _ => .error .eof
  | ch :: r, data, off =>
    if ch = 0 then .ok (data, off + 1) else unmarshalStringLoop r (data ++ [ch]) (off + 1)

/-- `unmarshalString`: the result is the `[]byte` before the terminator. -/
def unmarshalString (buf : List Nat) (meta : Metadata) : Except Error (Value × Metadata) :=
  match unmarshalStringLoop buf [] meta.CurrOffset with
  | .error e => .error e
  | .ok (data, off) => .ok (.bytes data, { meta with CurrOffset := off })

/-- The loop of `unmarshalPad`: the count of leading zero bytes. -/
def padBytes : List Nat → Nat
  | [] => 0
  | data :: rest => if data ≠ 0 then 0 else padBytes rest + 1

/-- `unmarshalPad`. -/
def unmarshalPad (buf : List Nat) (meta : Metadata) : Except Error (Value × Metadata) :=
  .ok (.bytes (buf.take (padBytes buf)),
       { meta with CurrOffset := meta.CurrOffset + (padBytes buf : Int) })

/-- `resolveSliceParams`: the length of the block, the bytes the returned reader holds,
and the context.  A recorded length comes from a header that was read out of `ParentBuf`,
so `ParentBuf` is not nil when the bounds are checked and the nil check is dropped. -/
def resolveSliceParams (buf : List Nat) (meta : Metadata) :
    Except Error (Int × List Nat × Metadata) :=
  if meta.Tags.Has TagFixed then
    match meta.Tags.GetInt TagFixed with
    | .error e => .error e
    | .ok length =>
      if length < 0 ∨ length > (buf.length : Int) then .error .sliceLengthOutOfBounds
      else .ok (length, buf.take length.toNat,
                { meta with CurrOffset := meta.CurrOffset + length })
  else
    match meta.Lens.lookup meta.CurrField with
    | none => .error .missingLengthReference
    | some length =>
      let (offset, meta1) :=
        match meta.Offsets.lookup meta.CurrField with
        | some val => (val, meta)
        | none => (meta.CurrOffset, { meta with CurrOffset := meta.CurrOffset + length })
      if offset < 0 ∨ length < 0 ∨ offset + length > (meta.ParentBuf.length : Int) then
        .error .sliceOutOfBounds
      else
        .ok (length, (meta.ParentBuf.drop offset.toNat).take length.toNat, meta1)

/-- `unmarshalUint8Slice`: `binary.Read` of `length` bytes from the reader. -/
def unmarshalUint8Slice (buf : List Nat) (meta : Metadata) : Except Error (Value × Metadata) :=
  match resolveSliceParams buf meta with
  | .error e => .error e
  | .ok (length, r, meta1) =>
    if (r.length : Int) < length then
      .error (if r.length = 0 then .eof else .unexpectedEOF)
    else .ok (.bytes (r.take length.toNat), meta1)

/-- `unmarshalSlice`, on the element type of the slice. -/
def unmarshalSlice (buf : List Nat) (elem : Kind) (meta : Metadata) :
    Except Error (Value × Metadata) :=
  if meta.Tags.Has TagPad then unmarshalPad buf meta
  else
    match elem with
    | .uint8 => unmarshalUint8Slice buf meta
    | _ => .error .notImplementedSliceKind

/-- `unmarshalBinaryMarshallable`: the result is the receiver, a pointer. -/
def unmarshalBinaryMarshallable (bm : Codec) (buf : List Nat) (meta : Option Metadata) :
    Except Error (Value × Option Metadata) :=
  match bm.UnmarshalBinary buf meta with
  | .error e => .error e
  | .ok (val, n) =>
    .ok (.ptr (some val), meta.map (fun m => { m with CurrOffset := m.CurrOffset + n }))

/-- The context `m` a structure is decoded with: fresh, sharing only `ParentBuf`. -/
def structMetadata (meta : Metadata) : Metadata :=
  { Tags := TagMap.empty, Lens := [], Offsets := [], ParentBuf := meta.ParentBuf,
    CurrOffset := 0, CurrField := "" }

/-- The end of `unmarshalStruct`: the caller's cursor advances by what the structure
consumed. -/
def finishStruct (meta : Metadata) (r : Except Error (List Value × Metadata)) :
    Except Error (Value × Metadata) :=
  match r with
  | .error e => .error e
  | .ok (vals, m) => .ok (.struct vals, { meta with CurrOffset := meta.CurrOffset + m.CurrOffset })

mutual

/-- The `switch typev.Kind()` of `unmarshal`, with the context already ensured.  The
kind of a named type is the kind of its underlying type.  The case `struct` is
`unmarshalStruct`. -/
def unmarshalKind (buf : List Nat) : Kind → Metadata → Except Error (Value × Metadata)
  | .uint8, meta => unmarshalUint8 buf meta
  | .uint16, meta => unmarshalUint16 buf meta
  | .uint32, meta => unmarshalUint32 buf meta
  | .uint64, meta => unmarshalUint64 buf meta
  | .string, meta => unmarshalString buf meta
  | .struct fields, meta => finishStruct meta (unmarshalFields buf fields (structMetadata meta))
  | .slice elem, meta => unmarshalSlice buf elem meta
  | .custom _ under, meta => unmarshalKind buf under meta
  | .ptr _, _ => .error .notImplementedKind
  | .other, _ => .error .notImplementedKind

/-- The loop of `unmarshalStruct` over the fields left to decode; the result lists the
values stored into them. -/
def unmarshalFields (buf : List Nat) : List (Field Kind) → Metadata →
    Except Error (List Value × Metadata)
  | [], m => .ok ([], m)
  | field :: rest, m =>
    match parseTags field.tag with
    | .error e => .error e
    | .ok tags =>
      match unmarshalStructField buf { m with CurrField := field.name, Tags := tags } field with
      | .error e => .error e
      | .ok (data, m1) =>
        match unmarshalFields buf rest m1 with
        | .error e => .error e
        | .ok (vals, m2) => .ok (data :: vals, m2)

/-- `unmarshalStructField` followed by the `Set` of the field.  The calls
`unmarshal(buf[m.CurrOffset:], v, m)` are unfolded: `v` is a `BinaryMarshallable` when it
is a pointer to a `custom` type, and otherwise it is resolved to the field (or to the
target of a pointer field) and dispatched on its kind.  Fields are addressable, the
target of `Unmarshal` being a pointer.  `unmarshalSlice` returns a `[]byte`, also for a
`pad` field whose elements are no bytes, and the `Set` of a `[]byte` into a slice of
another element type panics. -/
def unmarshalStructField (buf : List Nat) (m : Metadata) : Field Kind →
    Except Error (Value × Metadata)
  | ⟨_, _, kind⟩ =>
    match sliceFrom buf m.CurrOffset with
    | .error e => .error e
    | .ok sub =>
      match kind with
      | .string =>
        match unmarshalString sub m with
        | .error e => .error e
        | .ok (.bytes data, m1) => .ok (.str data, m1)
        | .ok _ => .error .expectedBytes
      | .ptr (.custom bm _) =>
        match unmarshalBinaryMarshallable bm sub (some m) with
        | .error e => .error e
        | .ok (result, m1) => .ok (result, m1.getD m)
      | .ptr .string =>
        match unmarshalString sub m with
        | .error e => .error e
        | .ok _ => .error .goPanic
      | .ptr (.slice .uint8) =>
        match unmarshalKind sub (.slice .uint8) m with
        | .error e => .error e
        | .ok (result, m1) => .ok (.ptr (some result), m1)
      | .ptr (.slice elem) =>
        match unmarshalKind sub (.slice elem) m with
        | .error e => .error e
        | .ok _ => .error .goPanic
      | .ptr elem =>
        match unmarshalKind sub elem m with
        | .error e => .error e
        | .ok (result, m1) => .ok (.ptr (some result), m1)
      | .custom bm (.struct _) =>
        match unmarshalBinaryMarshallable bm sub (some m) with
        | .error e => .error e
        | .ok _ => .error .goPanic
      | .custom bm .string =>
        match unmarshalBinaryMarshallable bm sub (some m) with
        | .error e => .error e
        | .ok _ => .error .expectedBytes
      | .custom bm _ =>
        match unmarshalBinaryMarshallable bm sub (some m) with
        | .error e => .error e
        | .ok (.ptr (some data), m1) => .ok (data, m1.getD m)
        | .ok (data, m1) => .ok (data, m1.getD m)
      | .slice .uint8 => unmarshalKind sub (.slice .uint8) m
      | .slice elem =>
        match unmarshalKind sub (.slice elem) m with
        | .error e => .error e
        | .ok _ => .error .goPanic
      | k => unmarshalKind sub k m

end

/-- `unmarshalStruct`. -/
def unmarshalStruct (buf : List Nat) (fields : Shape) (meta : Metadata) :
    Except Error (Value × Metadata) :=
  finishStruct meta (unmarshalFields buf fields (structMetadata meta))

mutual

/-- The zero value of a type, what `reflect.New` allocates. -/
def zeroValue : Kind → Value
  | .uint8 => .u8 0
  | .uint16 => .u16 0
  | .uint32 => .u32 0
  | .uint64 => .u64 0
  | .string => .str []
  | .slice .uint8 => .bytes []
  | .slice .uint16 => .u16s []
  | .slice _ => .list []
  | .struct fields => .struct (zeroValues fields)
  | .ptr _ => .ptr none
  | .custom _ under => zeroValue under
  | .other => .ptr none

/-- The zero values of the fields of a structure. -/
def zeroValues : List (Field Kind) → List Value
  | [] => []
  | f :: fs => zeroField f :: zeroValues fs

/-- The zero value of the type of a field. -/
def zeroField : Field Kind → Value
  | ⟨_, _, kind⟩ => zeroValue kind

end

/-- `unmarshal(buf, v, meta)` for `v` a non-nil pointer to a value of type `kind`. -/
def unmarshal (buf : List Nat) (kind : Kind) (meta : Option Metadata) :
    Except Error (Value × Option Metadata) :=
  match kind with
  | .custom bm _ => unmarshalBinaryMarshallable bm buf meta
  | k =>
    match unmarshalKind buf k (ensureMetadata meta buf) with
    | .error e => .error e
    | .ok (v, m) => .ok (v, some m)

/-- `Unmarshal(buf, v)` for `v` a non-nil pointer to a zero value of type `kind`: the
error, or the value found in `*v` after the call.  A structure is filled field by field
and a codec writes to its receiver; for any other type the decoded value is returned by
`unmarshal` and dropped, and `*v` keeps its zero value. -/
def Unmarshal (buf : List Nat) (kind : Kind) : Except Error Value :=
  match unmarshal buf kind none with
  | .error e => .error e
  | .ok (v, _) =>
    match kind with
    | .struct _ => .ok v
    | .custom _ _ =>
      match v with
      | .ptr (some x) => .ok x
      | x => .ok x
    | k => .ok (zeroValue k)

/-! ## Encode engine (`encode.go`) -/

/-- `binary.Write(w, binary.LittleEndian, v)` for an unsigned integer of `w` bytes. -/
def leBytes : Nat → Nat → List Nat
  | 0, _ => []
  | w + 1, v => (v % 256) :: leBytes w (v / 256)

/-- A field of `meta.Parent` as the encoder reaches it by reflection: its name, type and
value, and the result of `Marshal(field.Interface())`, which `getOffsetByFieldName` and
`getFieldLengthByName` call on it.  (For a non-nil pointer to a structure without codec,
`Marshal` of the pointer and of its target are the same call of `marshalStruct`.) -/
structure Sibling where
  name : String
  kind : Kind
  value : Value
  marshalled : Except Error (List Nat)

/-- The conversions `uint16(l)` and `uint32(l)` of an `int`, to `bits` bits. -/
def truncate (bits : Nat) (l : Int) : Nat := (l % (2 ^ bits : Int)).toNat

/-- The `switch field.Kind()` of `getFieldLengthByName`, after the codec check and the
dereference of a pointer.  `named` tells that the type is a named one, on which the
single-value type assertions to `[]byte` and to the integer types panic. -/
def fieldKindLength (s : Sibling) : Kind → Value → Bool → Except Error Int
  | .struct _, _, _ =>
    match s.marshalled with
    | .error e => .error e
    | .ok buf => .ok buf.length
  | .slice .uint8, .bytes b, named => if named then .error .goPanic else .ok b.length
  | .slice _, _, _ => .error .unknownSliceType
  | .uint8, _, named => if named then .error .goPanic else .ok 1
  | .uint16, _, named => if named then .error .goPanic else .ok 2
  | .uint32, _, named => if named then .error .goPanic else .ok 4
  | .uint64, _, named => if named then .error .goPanic else .ok 8
  | _, _, _ => .error .unknownKind

/-- `getFieldLengthByName`, for a context made by `marshalStruct` (its `Tags`, `Parent`
and `Lens` are not nil).  `FieldByName` is the search among the fields that the structure
declares: it is exact for a structure without embedded fields, and for any structure when
the name lies in no field at any depth (`namedInFields`); the promoted fields of an
embedded structure, which `FieldByName` finds too, are not searched. -/
def getFieldLengthByName (fieldName : String) (meta : Metadata) (parent : List Sibling) :
    Except Error (Int × Metadata) :=
  match meta.Lens.lookup fieldName with
  | some val => .ok (val, meta)
  | none =>
    match parent.find? (fun s => s.name = fieldName) with
    | none => .error .invalidField
    | some s =>
      let memo (r : Except Error Int) : Except Error (Int × Metadata) :=
        match r with
        | .error e => .error e
        | .ok ret => .ok (ret, { meta with Lens := (fieldName, ret) :: meta.Lens })
      match s.kind, s.value with
      | .ptr (.custom bm _), .ptr (some x) =>
        match bm.MarshalBinary x (some meta) with
        | .error e => .error e
        | .ok buf => .ok (buf.length, meta)
      | .ptr (.custom _ _), _ => .error .goPanic
      | .ptr elem, .ptr (some x) => memo (fieldKindLength s elem x false)
      | .ptr _, _ => .error .unknownKind
      | .custom _ under, v => memo (fieldKindLength s under v true)
      | k, v => memo (fieldKindLength s k v false)

/-- The loop of `getOffsetByFieldName` over the fields of the parent: `ret` is the sum
so far. -/
def getOffsetLoop (fieldName : String) : List Sibling → Int → Metadata →
    Except Error (Int × Metadata)
  | [], _, _ => .error .fieldNotFound
  | s :: rest, ret, meta =>
    if s.name = fieldName then .ok (ret, meta)
    else
      match meta.Lens.lookup s.name with
      | some l => getOffsetLoop fieldName rest (ret + l) meta
      | none =>
        match s.marshalled with
        | .error e => .error e
        | .ok buf =>
          getOffsetLoop fieldName rest (ret + buf.length)
            { meta with Lens := (s.name, (buf.length : Int)) :: meta.Lens }

/-- `getOffsetByFieldName`, for a context made by `marshalStruct`. -/
def getOffsetByFieldName (fieldName : String) (meta : Metadata) (parent : List Sibling) :
    Except Error (Int × Metadata) :=
  getOffsetLoop fieldName parent 0 meta

/-- The part of `marshalUint16` and `marshalUint32` under `if meta != nil`: the value
to write, of `bits` bits, and the context. -/
def resolveHeader (bits : Nat) (data : Nat) (meta : Metadata) (parent : List Sibling) :
    Except Error (Nat × Metadata) :=
  let afterLen : Except Error (Nat × Metadata) :=
    if meta.Tags.Has "len" then
      match meta.Tags.GetString "len" with
      | .error e => .error e
      | .ok fieldName =>
        match getFieldLengthByName fieldName meta parent with
        | .error e => .error e
        | .ok (l, meta1) => .ok (truncate bits l, meta1)
    else .ok (data, meta)
  match afterLen with
  | .error e => .error e
  | .ok (data1, meta1) =>
    if meta1.Tags.Has "offset" then
      match meta1.Tags.GetString "offset" with
      | .error e => .error e
      | .ok fieldName =>
        match getOffsetByFieldName fieldName meta1 parent with
        | .error e => .error e
        | .ok (l, meta2) => .ok (truncate bits l, meta2)
    else .ok (data1, meta1)

/-- `marshalUint8`. -/
def marshalUint8 (val : Nat) : Except Error (List Nat) := .ok (leBytes 1 val)

/-- `marshalUint16`. -/
def marshalUint16 (data : Nat) (meta : Option Metadata) (parent : List Sibling) :
    Except Error (List Nat × Option Metadata) :=
  match meta with
  | none => .ok (leBytes 2 data, none)
  | some m =>
    match resolveHeader 16 data m parent with
    | .error e => .error e
    | .ok (data1, m1) => .ok (leBytes 2 data1, some m1)

/-- `marshalUint32`. -/
def marshalUint32 (data : Nat) (meta : Option Metadata) (parent : List Sibling) :
    Except Error (List Nat × Option Metadata) :=
  match meta with
  | none => .ok (leBytes 4 data, none)
  | some m =>
    match resolveHeader 32 data m parent with
    | .error e => .error e
    | .ok (data1, m1) => .ok (leBytes 4 data1, some m1)

/-- `marshalUint64`. -/
def marshalUint64 (val : Nat) : Except Error (List Nat) := .ok (leBytes 8 val)

/-- The context `m` a structure is encoded with. -/
def marshalMetadata : Metadata :=
  { Tags := TagMap.empty, Lens := [], Offsets := [], ParentBuf := [],
    CurrOffset := 0, CurrField := "" }

mutual

/-- The `switch typev.Kind()` of `marshal`, on the resolved type and value.  `direct`
tells that `v` itself is the resolved value (it is not a pointer); `marshalSlice` asserts
`v.([]uint8)` or `v.([]uint16)`, which panics on a pointer and on a named type, and the
integer cases assert the unnamed integer type, with an error on a named one.  The cases
`struct` are `marshalStruct`.  A value that does not have the type is answered by
`invalidType`; a typed Go value never is one. -/
def marshalKind : Kind → Value → Bool → Option Metadata → List Sibling →
    Except Error (List Nat × Option Metadata)
  | .struct fields, .struct vals, _, meta, _ =>
    match marshalFields fields vals (siblings fields vals) marshalMetadata with
    | .error e => .error e
    | .ok buf => .ok (buf, meta)
  | .slice .uint8, .bytes b, direct, meta, _ =>
    if direct then .ok (b, meta) else .error .goPanic
  | .slice .uint16, .u16s xs, direct, meta, _ =>
    if direct then .ok ((xs.map (leBytes 2)).flatten, meta) else .error .goPanic
  | .slice .uint8, _, _, _, _ => .error .invalidType
  | .slice .uint16, _, _, _, _ => .error .invalidType
  | .slice _, _, _, _, _ => .error .notImplementedSliceKind
  | .uint8, .u8 n, _, meta, _ =>
    match marshalUint8 n with
    | .error e => .error e
    | .ok buf => .ok (buf, meta)
  | .uint16, .u16 n, _, meta, parent => marshalUint16 n meta parent
  | .uint32, .u32 n, _, meta, parent => marshalUint32 n meta parent
  | .uint64, .u64 n, _, meta, _ =>
    match marshalUint64 n with
    | .error e => .error e
    | .ok buf => .ok (buf, meta)
  | .custom _ (.struct fields), .struct vals, _, meta, _ =>
    match marshalFields fields vals (siblings fields vals) marshalMetadata with
    | .error e => .error e
    | .ok buf => .ok (buf, meta)
  | .custom _ (.slice .uint8), _, _, _, _ => .error .goPanic
  | .custom _ (.slice .uint16), _, _, _, _ => .error .goPanic
  | .custom _ (.slice _), _, _, _, _ => .error .notImplementedSliceKind
  | .custom _ .uint8, _, _, _, _ => .error .invalidType
  | .custom _ .uint16, _, _, _, _ => .error .invalidType
  | .custom _ .uint32, _, _, _, _ => .error .invalidType
  | .custom _ .uint64, _, _, _, _ => .error .invalidType
  | .custom _ (.struct _), _, _, _, _ => .error .invalidType
  | .custom _ _, _, _, _, _ => .error .notImplementedKind
  | .struct _, _, _, _, _ => .error .invalidType
  | .uint8, _, _, _, _ => .error .invalidType
  | .uint16, _, _, _, _ => .error .invalidType
  | .uint32, _, _, _, _ => .error .invalidType
  | .uint64, _, _, _, _ => .error .invalidType
  | .string, _, _, _, _ => .error .notImplementedKind
  | .ptr _, _, _, _, _ => .error .notImplementedKind
  | .other, _, _, _, _ => .error .notImplementedKind

/-- The loop of `marshalStruct` over the fields left to encode, with their values;
`parent` is the structure being encoded. -/
def marshalFields : List (Field Kind) → List Value → List Sibling → Metadata →
    Except Error (List Nat)
  | [], _, _, _ => .ok []
  | _ :: _, [], _, _ => .error .invalidType
  | field :: rest, v :: vals, parent, m =>
    match parseTags field.tag with
    | .error e => .error e
    | .ok tags =>
      match marshalField field v (some { m with Tags := tags }) parent with
      | .error e => .error e
      | .ok (buf, m1) =>
        let m2 := m1.getD { m with Tags := tags }
        match marshalFields rest vals parent
            { m2 with Lens := (field.name, (buf.length : Int)) :: m2.Lens } with
        | .error e => .error e
        | .ok out => .ok (buf ++ out)

/-- The fields of a structure with their values, each with the result of `Marshal` on
it. -/
def siblings : List (Field Kind) → List Value → List Sibling
  | [], _ => []
  | _ :: _, [] => []
  | field :: rest, v :: vals =>
    { name := field.name, kind := field.kind, value := v,
      marshalled :=
        match marshalField field v none [] with
        | .error e => .error e
        | .ok (buf, _) => .ok buf } :: siblings rest vals

/-- The call `marshal(v, meta)` for `v` the value of a field: the codec of a
`BinaryMarshallable` first and, when `v` is not one or its codec returns an error,
`resolveMarshalTypeAndValue` and the switch on the kind.  A nil pointer panics, in the
codec or in `valuev.Type()`. -/
def marshalField : Field Kind → Value → Option Metadata → List Sibling →
    Except Error (List Nat × Option Metadata)
  | ⟨_, _, kind⟩, v, meta, parent =>
    match kind, v with
    | .ptr (.custom bm under), .ptr (some x) =>
      match bm.MarshalBinary x meta with
      | .ok buf => .ok (buf, meta)
      | .error _ => marshalKind (.custom bm under) x false meta parent
    | .ptr elem, .ptr (some x) => marshalKind elem x false meta parent
    | .ptr _, .ptr none => .error .goPanic
    | .ptr _, _ => .error .invalidType
    | k, v => marshalKind k v true meta parent

end

/-- `marshalStruct`. -/
def marshalStruct (fields : Shape) (vals : List Value) : Except Error (List Nat) :=
  marshalFields fields vals (siblings fields vals) marshalMetadata

/-- `marshal(v, meta)` for `v` a value of type `kind`; `parent` is `meta.Parent`. -/
def marshal (kind : Kind) (v : Value) (meta : Option Metadata) (parent : List Sibling) :
    Except Error (List Nat × Option Metadata) :=
  marshalField ⟨"", "", kind⟩ v meta parent

/-- `Marshal(v)` for `v` a value of type `kind`. -/
def Marshal (kind : Kind) (v : Value) : Except Error (List Nat) :=
  match marshal kind v none [] with
  | .error e => .error e
  | .ok (buf, _) => .ok buf

/-! ## Record shapes of the tests and of the properties -/

/-- `TestStructWithLenField` (`TestDecodeStructWithLenField`, `TestDecodeStructWithLenField2`). -/
def TestStructWithLenField : Shape :=
  [⟨"DataLen", "len:Data", .uint16⟩, ⟨"Data", "", .slice .uint8⟩]

/-- `TestDecodeStructWithFixedSlice`. -/
def TestDecodeStructWithFixedSlice : Shape :=
  [⟨"A", "", .uint8⟩, ⟨"B", "fixed:4", .slice .uint8⟩, ⟨"C", "", .uint16⟩]

/-- A length header, an offset header, the data they address and a trailing byte. -/
def OffsetLenStruct : Shape :=
  [⟨"Len", "len:Data", .uint16⟩, ⟨"Off", "offset:Data", .uint32⟩,
   ⟨"Data", "", .slice .uint8⟩, ⟨"Tail", "", .uint8⟩]

/-- `TestDecodeUint8`. -/
def TestDecodeUint8 : Shape := [⟨"Value", "", .uint8⟩]

/-- `TestDecodeUint16`. -/
def TestDecodeUint16 : Shape := [⟨"Value", "", .uint16⟩]

/-- `TestDecodeUint32`. -/
def TestDecodeUint32 : Shape := [⟨"Value", "", .uint32⟩]

/-- `TestDecodeUint64`. -/
def TestDecodeUint64 : Shape := [⟨"Value", "", .uint64⟩]

/-- `TestDecodeString`. -/
def TestDecodeString : Shape := [⟨"Value", "", .string⟩]

/-- The context `Unmarshal` decodes a top-level structure with (`ensureMetadata`, then
the fresh context of `unmarshalStruct`). -/
def topMetadata (buf : List Nat) : Metadata :=
  { Tags := TagMap.empty, Lens := [], Offsets := [], ParentBuf := buf,
    CurrOffset := 0, CurrField := "" }

/-- The values `Unmarshal` stores into a top-level structure together with the cursor
(`CurrOffset` of the context of the structure) after its last field. -/
def unmarshalWithCursor (buf : List Nat) (fields : Shape) : Except Error (List Value × Int) :=
  match unmarshalFields buf fields (topMetadata buf) with
  | .error e => .error e
  | .ok (vals, m) => .ok (vals, m.CurrOffset)

/-! ## Records that survive a round trip

The class of top-level records for which `Unmarshal` inverts `Marshal`: every header
already stores what the encoder derives, every field is read where the encoder wrote it,
and nested structures hold nothing that is addressed through the parent buffer. -/

/-- The role of a field of a flat structure. -/
inductive FlatField where
  | uint (width : Nat)
  | lenHeader (ref : String)
  | offsetHeader (ref : String)
  | fixed (size : Nat)
  | block
  | nested
  deriving DecidableEq, Repr

/-- The role of a field: an unsigned integer without `len` or `offset` directive that
the codec obeys (`uint`), a `uint16` tagged `len:ref` (`lenHeader`), a `uint32` tagged
`offset:ref` (`offsetHeader`), a `[]byte` tagged `fixed:N` (`fixed`), a `[]byte` without
`fixed` and `pad` (`block`), a structure or a pointer to a structure (`nested`); `none`
for any other field. -/
def flatField (f : Field Kind) : Option FlatField :=
  match parseTags f.tag with
  | .error _ => none
  | .ok tags =>
    match f.kind with
    | .uint8 => some (.uint 1)
    | .uint16 =>
      if tags.Has "offset" then none
      else if tags.Has "len" then
        match tags.GetString "len" with
        | .ok ref => some (.lenHeader ref)
        | .error _ => none
      else some (.uint 2)
    | .uint32 =>
      if tags.Has "len" then none
      else if tags.Has "offset" then
        match tags.GetString "offset" with
        | .ok ref => some (.offsetHeader ref)
        | .error _ => none
      else some (.uint 4)
    | .uint64 => some (.uint 8)
    | .slice .uint8 =>
      if tags.Has TagPad then none
      else if tags.Has TagFixed then
        match tags.GetInt TagFixed with
        | .ok n => if 0 ≤ n then some (.fixed n.toNat) else none
        | .error _ => none
      else some .block
    | .struct _ => some .nested
    | .ptr (.struct _) => some .nested
    | _ => none

mutual

/-- The count of bytes a value of a flat record takes on the wire. -/
def valueSize : Value → Nat
  | .u8 _ => 1
  | .u16 _ => 2
  | .u32 _ => 4
  | .u64 _ => 8
  | .bytes b => b.length
  | .struct vs => valueSizes vs
  | .ptr (some v) => valueSize v
  | _ => 0

/-- The count of bytes the values of a structure take on the wire. -/
def valueSizes : List Value → Nat
  | [] => 0
  | v :: vs => valueSize v + valueSizes vs

end

mutual

/-- The bytes a value of a flat record is encoded to. -/
def encodeValue : Value → List Nat
  | .u8 n => leBytes 1 n
  | .u16 n => leBytes 2 n
  | .u32 n => leBytes 4 n
  | .u64 n => leBytes 8 n
  | .bytes b => b
  | .struct vs => encodeValues vs
  | .ptr (some v) => encodeValue v
  | _ => []

/-- The bytes the values of a structure are encoded to, in order. -/
def encodeValues : List Value → List Nat
  | [] => []
  | v :: vs => encodeValue v ++ encodeValues vs

end

/-- The directives of the field can be parsed. -/
def tagsParse (tag : String) : Bool :=
  match parseTags tag with
  | .ok _ => true
  | .error _ => false

/-- A field of a nested structure of a flat record that is not itself a structure, with
its value: an unsigned integer without `len` and `offset` directive, in range, or a
`fixed:N` block of `N` bytes. -/
def staticLeafOK (f : Field Kind) (v : Value) : Bool :=
  match parseTags f.tag with
  | .error _ => false
  | .ok tags =>
    match f.kind, v with
    | .uint8, .u8 n => decide (n < 2 ^ 8)
    | .uint16, .u16 n => !tags.Has "len" && !tags.Has "offset" && decide (n < 2 ^ 16)
    | .uint32, .u32 n => !tags.Has "len" && !tags.Has "offset" && decide (n < 2 ^ 32)
    | .uint64, .u64 n => decide (n < 2 ^ 64)
    | .slice .uint8, .bytes b =>
      !tags.Has TagPad && tags.Has TagFixed
        && decide (tags.GetInt TagFixed = .ok (b.length : Int))
        && b.all (fun x => decide (x < 256))
    | _, _ => false

mutual

/-- The fields of a nested structure of a flat record, with their values: unsigned
integers without `len` and `offset` directive, `fixed:N` blocks of `N` bytes, and
structures (or non-nil pointers to structures) of such fields. -/
def staticFieldsOK : List (Field Kind) → List Value → Bool
  | [], [] => true
  | f :: fs, v :: vs => staticFieldOK f v && staticFieldsOK fs vs
  | _, _ => false

/-- One field of a nested structure of a flat record, with its value. -/
def staticFieldOK : Field Kind → Value → Bool
  | ⟨_, tag, .struct fs⟩, .struct vs => tagsParse tag && staticFieldsOK fs vs
  | ⟨_, tag, .ptr (.struct fs)⟩, .ptr (some (.struct vs)) => tagsParse tag && staticFieldsOK fs vs
  | f, v => staticLeafOK f v

end

/-- The wire size of the first field called `name`, what `FieldByName` finds. -/
def sizeByName (fields : Shape) (vals : List Value) (name : String) : Option Nat :=
  ((fields.zip vals).find? (fun p => p.1.name = name)).map (fun p => valueSize p.2)

/-- The sum of the wire sizes of the fields before the first field called `name`, what
the loop of `getOffsetByFieldName` adds up. -/
def offsetByName : Shape → List Value → String → Option Nat
  | f :: fs, v :: vs, name =>
    if f.name = name then some 0
    else (offsetByName fs vs name).map (fun n => valueSize v + n)
  | _, _, _ => none

/-- One field of a flat record and its value.  `hdrs` and `offs` list the references
of the `len` and `offset` headers before the field, `tail` tells that a block addressed
by an offset came before it.  The value has the type of the field and is in its range;
a `len:ref` header stores the wire size of the field `ref`; an `offset:ref` header stores
the sum of the wire sizes of the fields before `ref`; a `fixed:N` block holds `N` bytes;
a block has a `len` header before it; a nested structure has static fields; and after a
block addressed by an offset only such blocks follow. -/
def flatFieldOK (size offset : String → Option Nat) (hdrs offs : List String) (tail : Bool)
    (f : Field Kind) (v : Value) : Bool :=
  match flatField f, f.kind, v with
  | some (.uint _), .uint8, .u8 n => !tail && decide (n < 2 ^ 8)
  | some (.uint _), .uint16, .u16 n => !tail && decide (n < 2 ^ 16)
  | some (.uint _), .uint32, .u32 n => !tail && decide (n < 2 ^ 32)
  | some (.uint _), .uint64, .u64 n => !tail && decide (n < 2 ^ 64)
  | some (.lenHeader ref), _, .u16 n =>
    !tail && decide (n < 2 ^ 16) && decide (size ref = some n)
  | some (.offsetHeader ref), _, .u32 n =>
    !tail && decide (n < 2 ^ 32) && decide (offset ref = some n)
  | some (.fixed k), _, .bytes b =>
    !tail && decide (b.length = k) && b.all (fun x => decide (x < 256))
  | some .block, _, .bytes b =>
    b.all (fun x => decide (x < 256)) && decide (f.name ∈ hdrs)
      && (decide (f.name ∈ offs) || !tail)
  | some .nested, .struct fs, .struct vs => !tail && staticFieldsOK fs vs
  | some .nested, .ptr (.struct fs), .ptr (some (.struct vs)) => !tail && staticFieldsOK fs vs
  | _, _, _ => false

/-- The references of the `len` headers up to and including a field. -/
def addHeader (hdrs : List String) (f : Field Kind) : List String :=
  match flatField f with
  | some (.lenHeader ref) => ref :: hdrs
  | _ => hdrs

/-- The references of the `offset` headers up to and including a field. -/
def addOffset (offs : List String) (f : Field Kind) : List String :=
  match flatField f with
  | some (.offsetHeader ref) => ref :: offs
  | _ => offs

/-- Every field of the record, in order, is a field of a flat record. -/
def flatFieldsOK (size offset : String → Option Nat) :
    List String → List String → Bool → Shape → List Value → Bool
  | _, _, _, [], [] => true
  | hdrs, offs, tail, f :: fs, v :: vs =>
    flatFieldOK size offset hdrs offs tail f v
      && flatFieldsOK size offset (addHeader hdrs f) (addOffset offs f)
          (tail || decide (f.name ∈ offs)) fs vs
  | _, _, _, _, _ => false

/-- A flat record: the field names are distinct and every field is a flat field. -/
def flatRecord (fields : Shape) (vals : List Value) : Bool :=
  decide ((fields.map (fun f => f.name)).Nodup)
    && flatFieldsOK (sizeByName fields vals) (offsetByName fields vals) [] [] false fields vals

/-- The ways a field and its value pass `staticFieldOK`, with what the codec reads in the
directive map of the field. -/
inductive StaticCase : Field Kind → Value → Prop where
  | uint8 (name tag : String) (tags : TagMap) (n : Nat) :
    parseTags tag = .ok tags → n < 2 ^ 8 → StaticCase ⟨name, tag, .uint8⟩ (.u8 n)
  | uint16 (name tag : String) (tags : TagMap) (n : Nat) :
    parseTags tag = .ok tags → tags.Has "len" = false → tags.Has "offset" = false →
    n < 2 ^ 16 → StaticCase ⟨name, tag, .uint16⟩ (.u16 n)
  | uint32 (name tag : String) (tags : TagMap) (n : Nat) :
    parseTags tag = .ok tags → tags.Has "len" = false → tags.Has "offset" = false →
    n < 2 ^ 32 → StaticCase ⟨name, tag, .uint32⟩ (.u32 n)
  | uint64 (name tag : String) (tags : TagMap) (n : Nat) :
    parseTags tag = .ok tags → n < 2 ^ 64 → StaticCase ⟨name, tag, .uint64⟩ (.u64 n)
  | fixed (name tag : String) (tags : TagMap) (b : List Nat) :
    parseTags tag = .ok tags → tags.Has TagPad = false → tags.Has TagFixed = true →
    tags.GetInt TagFixed = .ok (b.length : Int) → (∀ x ∈ b, x < 256) →
    StaticCase ⟨name, tag, .slice .uint8⟩ (.bytes b)
  | struct (name tag : String) (tags : TagMap) (fs : Shape) (vs : List Value) :
    parseTags tag = .ok tags → staticFieldsOK fs vs = true →
    StaticCase ⟨name, tag, .struct fs⟩ (.struct vs)
  | ptr (name tag : String) (tags : TagMap) (fs : Shape) (vs : List Value) :
    parseTags tag = .ok tags → staticFieldsOK fs vs = true →
    StaticCase ⟨name, tag, .ptr (.struct fs)⟩ (.ptr (some (.struct vs)))

/-- The ways a field and its value pass `flatFieldOK`, with what the codec reads in the
directive map of the field. -/
inductive FlatCase (size offset : String → Option Nat) (hdrs offs : List String)
    (tail : Bool) : Field Kind → Value → Prop where
  | static (f : Field Kind) (v : Value) :
    tail = false → StaticCase f v → FlatCase size offset hdrs offs tail f v
  | header (name tag : String) (tags : TagMap) (n : Nat) (ref : String) :
    parseTags tag = .ok tags → tags.Has "len" = true → tags.GetString "len" = .ok ref →
    tags.Has "offset" = false → tail = false → n < 2 ^ 16 → size ref = some n →
    FlatCase size offset hdrs offs tail ⟨name, tag, .uint16⟩ (.u16 n)
  | offsetHeader (name tag : String) (tags : TagMap) (n : Nat) (ref : String) :
    parseTags tag = .ok tags → tags.Has "len" = false → tags.Has "offset" = true →
    tags.GetString "offset" = .ok ref → tail = false → n < 2 ^ 32 → offset ref = some n →
    FlatCase size offset hdrs offs tail ⟨name, tag, .uint32⟩ (.u32 n)
  | block (name tag : String) (tags : TagMap) (b : List Nat) :
    parseTags tag = .ok tags → tags.Has TagPad = false → tags.Has TagFixed = false →
    name ∈ hdrs → name ∉ offs → tail = false → (∀ x ∈ b, x < 256) →
    FlatCase size offset hdrs offs tail ⟨name, tag, .slice .uint8⟩ (.bytes b)
  | tailBlock (name tag : String) (tags : TagMap) (b : List Nat) :
    parseTags tag = .ok tags → tags.Has TagPad = false → tags.Has TagFixed = false →
    name ∈ hdrs → name ∈ offs → (∀ x ∈ b, x < 256) →
    FlatCase size offset hdrs offs tail ⟨name, tag, .slice .uint8⟩ (.bytes b)

/-- Every recorded length is the wire size of the field it is recorded for. -/
def LensAgree (size : String → Option Nat) (lens : List (String × Int)) : Prop :=
  ∀ name l, lens.lookup name = some l → ∃ n : Nat, size name = some n ∧ l = (n : Int)

/-- The decoder has recorded an offset for the references in `offs` and for no other
name, and every recorded offset is the sum of the wire sizes before the field. -/
def OffsetsAgree (offset : String → Option Nat) (offs : List String)
    (offsets : List (String × Int)) : Prop :=
  (∀ name o, offsets.lookup name = some o →
      name ∈ offs ∧ ∃ n : Nat, offset name = some n ∧ o = (n : Int))
    ∧ ∀ name ∈ offs, ∃ o, offsets.lookup name = some o

/-- For a field that has a wire size and no memoized length, `getFieldLengthByName`
answers the size and memoizes it. -/
def ParentAgree (size : String → Option Nat) (parent : List Sibling) : Prop :=
  ∀ ref n (m : Metadata), size ref = some n → m.Lens.lookup ref = none →
    getFieldLengthByName ref m parent
      = .ok ((n : Int), { m with Lens := (ref, (n : Int)) :: m.Lens })

/-- The fields left to process start at the byte position `pos`: the first field with
the name of each of them is the field itself. -/
def Positions (size offset : String → Option Nat) : Nat → Shape → List Value → Prop
  | pos, f :: fs, v :: vs =>
    size f.name = some (valueSize v) ∧ offset f.name = some pos
      ∧ Positions size offset (pos + valueSize v) fs vs
  | _, _, _ => True

/-- The fields of a flat record as the encoder finds them in its parent: `Marshal` of
each field is the encoding of its value. -/
def flatSiblings : Shape → List Value → List Sibling
  | f :: fs, v :: vs =>
    { name := f.name, kind := f.kind, value := v, marshalled := .ok (encodeValue v) }
      :: flatSiblings fs vs
  | _, _ => []

/-- For a field that has an offset, `getOffsetByFieldName` answers it and keeps the
memoized lengths right. -/
def ParentOffsets (size offset : String → Option Nat) (parent : List Sibling) : Prop :=
  ∀ ref n (m : Metadata), offset ref = some n → LensAgree size m.Lens →
    ∃ m1, getOffsetByFieldName ref m parent = .ok ((n : Int), m1) ∧ m1.Tags = m.Tags
      ∧ LensAgree size m1.Lens

/-- A structure `{L uint16 len:D; D []byte}`, held as a field by `NestedThenFixed`. -/
def LenBlockStruct : Shape :=
  [⟨"L", "len:D", .uint16⟩, ⟨"D", "", .slice .uint8⟩]

/-- A top-level structure `{A uint8; In LenBlockStruct; B []byte fixed:1}`. -/
def NestedThenFixed : Shape :=
  [⟨"A", "", .uint8⟩, ⟨"In", "", .struct LenBlockStruct⟩, ⟨"B", "fixed:1", .slice .uint8⟩]

/-- A top-level structure `{A uint8; In LenBlockStruct; B []byte}`: no field names `B`
in a `len` tag. -/
def NestedThenBlock : Shape :=
  [⟨"A", "", .uint8⟩, ⟨"In", "", .struct LenBlockStruct⟩, ⟨"B", "", .slice .uint8⟩]

/-- A top-level structure `{A uint8; In LenBlockStruct; P []byte pad}`. -/
def NestedThenPad : Shape :=
  [⟨"A", "", .uint8⟩, ⟨"In", "", .struct LenBlockStruct⟩, ⟨"P", "pad", .slice .uint8⟩]

/-- A structure `{L uint16 len:D; O uint32 offset:D; D []byte}`. -/
def LenOffsetBlockStruct : Shape :=
  [⟨"L", "len:D", .uint16⟩, ⟨"O", "offset:D", .uint32⟩, ⟨"D", "", .slice .uint8⟩]

/-- `ntlmssp.Header`. -/
def NtlmHeader : Shape :=
  [⟨"Signature", "fixed:8", .slice .uint8⟩, ⟨"MessageType", "", .uint32⟩]

/-- `ntlmssp.Negotiate`. -/
def NtlmNegotiate : Shape :=
  [⟨"Header", "", .struct NtlmHeader⟩,
   ⟨"NegotiateFlags", "", .uint32⟩,
   ⟨"DomainNameLen", "len:DomainName", .uint16⟩,
   ⟨"DomainNameMaxLen", "len:DomainName", .uint16⟩,
   ⟨"DomainNameBufferOffset", "offset:DomainName", .uint32⟩,
   ⟨"WorkstationLen", "len:Workstation", .uint16⟩,
   ⟨"WorkstationMaxLen", "len:Workstation", .uint16⟩,
   ⟨"WorkstationBufferOffset", "offset:Workstation", .uint32⟩,
   ⟨"DomainName", "", .slice .uint8⟩,
   ⟨"Workstation", "", .slice .uint8⟩]

/-- A `Negotiate` message for the domain `AB` and the workstation `CDE`, with the
headers the encoder derives. -/
def negotiateRecord : List Value :=
  [.struct [.bytes [78, 84, 76, 77, 83, 83, 80, 0], .u32 1],
   .u32 7, .u16 2, .u16 2, .u32 32, .u16 3, .u16 3, .u32 34,
   .bytes [65, 66], .bytes [67, 68, 69]]

/-! ## The codec of `ntlmssp.AvPairSlice` and the `Challenge` message (`ntlmssp.go`) -/

/-- `ntlmssp.AvPair`. -/
def AvPair : Shape :=
  [⟨"AvID", "", .uint16⟩, ⟨"AvLen", "len:Value", .uint16⟩, ⟨"Value", "", .slice .uint8⟩]

/-- The slice expression `buf[low:high]` of a buffer whose capacity is its length: it
panics unless `0 <= low <= high <= len(buf)`. -/
def sliceRange (buf : List Nat) (low high : Int) : Except Error (List Nat) :=
  if 0 ≤ low ∧ low ≤ high ∧ high ≤ (buf.length : Int) then
    .ok ((buf.drop low.toNat).take (high - low).toNat)
  else .error .goPanic

/-- The loop of `AvPairSlice.MarshalBinary`: `encoding.Marshal` of every pair, written
one after the other. -/
def avPairsMarshal : List Value → Except Error (List Nat)
  | [] => .ok []
  | pair :: rest =>
    match Marshal (.struct AvPair) pair with
    | .error e => .error e
    | .ok buf =>
      match avPairsMarshal rest with
      | .error e => .error e
      | .ok out => .ok (buf ++ out)

/-- The loop `for i := l; i > 0` of `AvPairSlice.UnmarshalBinary`: `o` and `i` are its
variables, `slice` the pairs appended so far; the result is the slice and the last `o`.
`AvPair.Size()` is `2 + 2 + AvLen`, so `i` decreases at every round. -/
def avPairLoop (parentBuf : List Nat) (o i : Int) (slice : List Value) :
    Except Error (List Value × Int) :=
  if _h : 0 < i then
    match sliceRange parentBuf o (o + i) with
    | .error e => .error e
    | .ok sub =>
      match Unmarshal sub (.struct AvPair) with
      | .error e => .error e
      | .ok (.struct [avID, .u16 avLen, value]) =>
        avPairLoop parentBuf (o + (4 + (avLen : Int))) (i - (4 + (avLen : Int)))
          (slice ++ [.struct [avID, .u16 avLen, value]])
      | .ok _ => .error .invalidType
  else .ok (slice, o)
termination_by i.toNat
decreasing_by omega

/-- `AvPairSlice.UnmarshalBinary`: the new value of the receiver and the count returned.
The errors for a field without recorded length and without recorded offset are
`codec 1` and `codec 2`. -/
def avPairSliceUnmarshal (_buf : List Nat) (meta : Option Metadata) :
    Except Error (Value × Int) :=
  match meta with
  | none => .error .missingMetadata
  | some m =>
    match m.Lens.lookup m.CurrField with
    | none => .error (.codec 1)
    | some l =>
      match m.Offsets.lookup m.CurrField with
      | none => .error (.codec 2)
      | some o =>
        match avPairLoop m.ParentBuf o l [] with
        | .error e => .error e
        | .ok (slice, o1) => .ok (.list slice, o1 - o)

/-- The `BinaryMarshallable` implementation of `*ntlmssp.AvPairSlice`. -/
def AvPairSliceCodec : Codec :=
  { MarshalBinary := fun v _ =>
      match v with
      | .list pairs => avPairsMarshal pairs
      | _ => .error .invalidType,
    UnmarshalBinary := avPairSliceUnmarshal }

/-- `ntlmssp.Version`. -/
def NtlmVersion : Shape :=
  [⟨"Major", "", .uint8⟩, ⟨"Minor", "", .uint8⟩, ⟨"Build", "", .uint16⟩,
   ⟨"Reserved", "fixed:3", .slice .uint8⟩, ⟨"Revision", "", .uint8⟩]

/-- `ntlmssp.Challenge`. -/
def NtlmChallenge : Shape :=
  [⟨"Header", "", .struct NtlmHeader⟩,
   ⟨"TargetNameLen", "len:TargetName", .uint16⟩,
   ⟨"TargetNameMaxLen", "len:TargetName", .uint16⟩,
   ⟨"TargetNameBufferOffset", "offset:TargetName", .uint32⟩,
   ⟨"NegotiateFlags", "", .uint32⟩,
   ⟨"ServerChallenge", "", .uint64⟩,
   ⟨"Reserved", "", .uint64⟩,
   ⟨"TargetInfoLen", "len:TargetInfo", .uint16⟩,
   ⟨"TargetInfoMaxLen", "len:TargetInfo", .uint16⟩,
   ⟨"TargetInfoBufferOffset", "offset:TargetInfo", .uint32⟩,
   ⟨"Version", "", .ptr (.struct NtlmVersion)⟩,
   ⟨"TargetName", "", .slice .uint8⟩,
   ⟨"TargetInfo", "", .ptr (.custom AvPairSliceCodec (.slice (.struct AvPair)))⟩]

/-- A `Challenge` message of 56 bytes that announces 4 bytes of `TargetInfo` at offset
56 and ends there. -/
def truncatedChallenge : List Nat :=
  [78, 84, 76, 77, 83, 83, 80, 0, 2, 0, 0, 0] ++ List.replicate 28 0
    ++ [4, 0, 4, 0, 56, 0, 0, 0] ++ List.replicate 8 0

/-! ## Codecs of the tests and codecs that stand for code outside the engine -/

/-- The type `struct { Value uint16 }` of `TestCustomMarshal` (`encode_test.go`). -/
def TestCustomMarshal : Shape := [⟨"Value", "", .uint16⟩]

/-- A `BinaryMarshallable` implementation whose `MarshalBinary` and `UnmarshalBinary`
return the error `codec code`. -/
def failingCodec (code : Nat) : Codec :=
  { MarshalBinary := fun _ _ => .error (.codec code),
    UnmarshalBinary := fun _ _ => .error (.codec code) }

/-- A `BinaryMarshallable` implementation whose `MarshalBinary` reads the context: it
returns one byte when it is called without a context and two bytes with one. -/
def contextCodec : Codec :=
  { MarshalBinary := fun _ meta =>
      match meta with
      | none => .ok [1]
      | some _ => .ok [1, 2],
    UnmarshalBinary := fun _ _ => .error (.codec 0) }

/-- A structure `{Off uint16 offset:F; X *T; F []byte}` for a codec type `T`. -/
def OffsetOverCodec (c : Codec) : Shape :=
  [⟨"Off", "offset:F", .uint16⟩, ⟨"X", "", .ptr (.custom c (.struct []))⟩,
   ⟨"F", "", .slice .uint8⟩]

/-! ## The target record of `Unmarshal`

`unmarshalStruct` stores every decoded value into its field as soon as it is decoded
(`valuev.Field(i).Set`), and a nested structure is decoded in place, through the address
of the field.  The definitions below keep the record that is being filled beside the
result, to tell what the caller finds in it when `Unmarshal` returns an error. -/


mutual

/-- The loop of `unmarshalStruct` with the record it fills: `target` holds the values
of the fields left to decode, and the result gives what they hold when the loop ends or
returns an error. -/
def storeFields (buf : List Nat) : List (Field Kind) → List Value → Metadata →
    List Value × Except Error Metadata
  | [], target, m => (target, .ok m)
  | _ :: _, [], _ => ([], .error .invalidType)
  | field :: rest, t :: ts, m =>
    match parseTags field.tag with
    | .error e => (t :: ts, .error e)
    | .ok tags =>
      match unmarshalStructField buf { m with CurrField := field.name, Tags := tags } field with
      | .error e =>
        (failedField buf { m with CurrField := field.name, Tags := tags } field t :: ts, .error e)
      | .ok (data, m1) =>
        match storeFields buf rest ts m1 with
        | (ts1, r) => (data :: ts1, r)

/-- What a field holds after `unmarshalStructField` returned an error for it. -/
def failedField (buf : List Nat) (m : Metadata) : Field Kind → Value → Value
  | ⟨_, _, kind⟩, t => failedKind buf m kind t

/-- What a field of type `kind` that held `t` holds after its decoding returned an
error: a nested structure, decoded in place, keeps what was stored into it; a nil
pointer has been set to a new zero value before the decoding; any other field is as it
was (a codec that returns an error is taken to have left its receiver as it was, as
those of the repository do). -/
def failedKind (buf : List Nat) (m : Metadata) : Kind → Value → Value
  | .struct fields, .struct ts =>
    match sliceFrom buf m.CurrOffset with
    | .error _ => .struct ts
    | .ok sub => .struct (storeFields sub fields ts (structMetadata m)).1
  | .ptr (.struct fields), .ptr (some (.struct ts)) =>
    match sliceFrom buf m.CurrOffset with
    | .error _ => .ptr (some (.struct ts))
    | .ok sub => .ptr (some (.struct (storeFields sub fields ts (structMetadata m)).1))
  | .ptr (.struct fields), .ptr none =>
    match sliceFrom buf m.CurrOffset with
    | .error _ => .ptr (some (.struct (zeroValues fields)))
    | .ok sub =>
      .ptr (some (.struct (storeFields sub fields (zeroValues fields) (structMetadata m)).1))
  | .ptr elem, .ptr none => .ptr (some (zeroValue elem))
  | _, t => t

end

/-- `Unmarshal(buf, &r)` for `r` a structure whose fields hold `target`: the values the
fields of `r` hold after the call, and the error returned, if any. -/
def UnmarshalInto (buf : List Nat) (fields : Shape) (target : List Value) :
    List Value × Option Error :=
  match storeFields buf fields target (topMetadata buf) with
  | (stored, .ok _) => (stored, none)
  | (stored, .error e) => (stored, some e)

/-! ## The encoding of each field of a structure -/

/-- The kinds of field whose encoding depends on the context of the structure: the 16-
and 32-bit integers, which may be `len` and `offset` headers, directly or behind a
pointer, and the pointers to a codec type, whose codec receives the context. -/
def contextual : Kind → Bool
  | .uint16 => true
  | .uint32 => true
  | .ptr .uint16 => true
  | .ptr .uint32 => true
  | .ptr (.custom _ _) => true
  | _ => false

/-- The buffers `bufs` are the encodings of the fields of a structure, in declaration
order: each is what `marshal` returns for the value of the field in a context that holds
the directives of the field, and, for a field whose encoding does not depend on the
context, it is `Marshal` of the value. -/
inductive FieldsEncoded (parent : List Sibling) : Shape → List Value → List (List Nat) → Prop
  | nil (vals : List Value) : FieldsEncoded parent [] vals []
  | cons (f : Field Kind) (v : Value) (fs : Shape) (vs : List Value) (buf : List Nat)
      (bufs : List (List Nat)) (m : Metadata) (mo : Option Metadata) :
    parseTags f.tag = .ok m.Tags →
    marshalField f v (some m) parent = .ok (buf, mo) →
    (contextual f.kind = false → Marshal f.kind v = .ok buf) →
    FieldsEncoded parent fs vs bufs →
    FieldsEncoded parent (f :: fs) (v :: vs) (buf :: bufs)

/-! ## The offset the encoder computes -/

/-- The length of `Marshal` of a field of the parent, `0` when it fails. -/
def Sibling.wireLength (s : Sibling) : Nat :=
  match s.marshalled with
  | .ok buf => buf.length
  | .error _ => 0

/-- The fields of the parent that `getOffsetByFieldName` adds up for `fieldName`: those
declared before the first field of that name. -/
def siblingsBefore (fieldName : String) (parent : List Sibling) : List Sibling :=
  parent.takeWhile (fun s => decide (s.name ≠ fieldName))

/-- The memoized lengths are right for the fields in `before`: a length recorded under
the name of one of them is the length of `Marshal` of that field. -/
def LensSound (before : List Sibling) (lens : List (String × Int)) : Prop :=
  ∀ name l, lens.lookup name = some l →
    ∀ s ∈ before, s.name = name → l = (s.wireLength : Int)

/-- A field of the parent that `Marshal` encodes on its own: `marshalled` is the result
of `Marshal` on its value. -/
def SiblingOK (s : Sibling) : Prop :=
  ∃ b, s.marshalled = .ok b ∧ marshalField ⟨s.name, "", s.kind⟩ s.value none [] = .ok (b, none)

/-- The encoding of a field of this type does not depend on the context it is encoded
in: when the type is a pointer to a codec type, `MarshalBinary` returns with a context
what it returns without one.  (The codecs of the repository do not read the context.) -/
def ContextFree (k : Kind) : Prop :=
  ∀ c u, k = .ptr (.custom c u) → ∀ x meta, c.MarshalBinary x meta = c.MarshalBinary x none

/-- The width in bytes of a field that is a header for the offset of `fieldName`: a
`uint16` or `uint32` field tagged `offset:fieldName`; `none` for any other field. -/
def offsetHeaderWidth (fieldName : String) (f : Field Kind) : Option Nat :=
  match parseTags f.tag with
  | .error _ => none
  | .ok tags =>
    if tags.Has "offset" && decide (tags.GetString "offset" = .ok fieldName) then
      match f.kind with
      | .uint16 => some 2
      | .uint32 => some 4
      | _ => none
    else none

/-- A pointer to a codec type: the kind of field that `marshal` hands to
`MarshalBinary`, with the context. -/
def codecPointer : Kind → Bool
  | .ptr (.custom _ _) => true
  | _ => false

/-! ## The session setup request of SMB2 (`smb/v2`, `gss`) -/

/-- The codec of `*gss.NegTokenInit`.  `encoding/asn1` is not part of the repository:
`asn1Marshal` stands for `asn1.Marshal` and `asn1Unmarshal` for
`asn1.UnmarshalWithParams(buf, &data, "application")`, which gives the decoded value and
the rest of the buffer.  `MarshalBinary` overrides the first byte with `0x60`; the error
for an empty encoding is `codec 3`. -/
def NegTokenInitCodec (asn1Marshal : Value → Except Error (List Nat))
    (asn1Unmarshal : List Nat → Except Error (Value × List Nat)) : Codec :=
  { MarshalBinary := fun v _ =>
      match asn1Marshal v with
      | .error e => .error e
      | .ok buf => if buf.length = 0 then .error (.codec 3) else .ok (96 :: buf.drop 1),
    UnmarshalBinary := fun buf _ =>
      match asn1Unmarshal buf with
      | .error e => .error e
      | .ok (data, rest) => .ok (data, (buf.length : Int) - (rest.length : Int)) }

/-- `gss.NegTokenInit`, as far as the engine sees it. -/
def NegTokenInit : Shape :=
  [⟨"OID", "", .slice .other⟩,
   ⟨"Data", "", .struct [⟨"MechTypes", "", .slice (.slice .other)⟩,
                         ⟨"ReqFlags", "", .struct [⟨"Bytes", "", .slice .uint8⟩,
                                                   ⟨"BitLength", "", .other⟩]⟩,
                         ⟨"MechToken", "", .slice .uint8⟩,
                         ⟨"MechTokenMIC", "", .slice .uint8⟩]⟩]

/-- `v2.Header`. -/
def Smb2Header : Shape :=
  [⟨"ProtocolID", "fixed:4", .slice .uint8⟩, ⟨"StructureSize", "", .uint16⟩,
   ⟨"CreditCharge", "", .uint16⟩, ⟨"Status", "", .uint32⟩, ⟨"Command", "", .uint16⟩,
   ⟨"Credits", "", .uint16⟩, ⟨"Flags", "", .uint32⟩, ⟨"NextCommand", "", .uint32⟩,
   ⟨"MessageID", "", .uint64⟩, ⟨"Reserved", "", .uint32⟩, ⟨"TreeID", "", .uint32⟩,
   ⟨"SessionID", "", .uint64⟩, ⟨"Signature", "fixed:16", .slice .uint8⟩]

/-- `v2.SessionSetup1Req`, for a codec of its `SecurityBlob`. -/
def SessionSetup1Req (blob : Codec) : Shape :=
  [⟨"Header", "", .struct Smb2Header⟩, ⟨"StructureSize", "", .uint16⟩,
   ⟨"Flags", "", .uint8⟩, ⟨"SecurityMode", "", .uint8⟩, ⟨"Capabilities", "", .uint32⟩,
   ⟨"Channel", "", .uint32⟩,
   ⟨"SecurityBufferOffset", "offset:SecurityBlob", .uint16⟩,
   ⟨"SecurityBufferLength", "len:SecurityBlob", .uint16⟩,
   ⟨"PreviousSessionID", "", .uint64⟩,
   ⟨"SecurityBlob", "", .ptr (.custom blob (.struct NegTokenInit))⟩]

/-- A stand-in for `encoding/asn1`: every value is encoded as the empty sequence
`30 00`, and nothing is decoded. -/
def emptySequenceCodec : Codec :=
  NegTokenInitCodec (fun _ => .ok [48, 0]) (fun _ => .error (.codec 0))

/-- The header `newHeader` makes, with the command and the credit charge of a session
setup. -/
def smb2HeaderRecord : List Value :=
  [.bytes [254, 83, 77, 66], .u16 64, .u16 1, .u32 0, .u16 1, .u16 0, .u32 0, .u32 0,
   .u64 0, .u32 0, .u32 0, .u64 0, .bytes (List.replicate 16 0)]

/-- A request like the one of `NewSessionSetup1Req`, with `stored` in its
`SecurityBufferOffset`. -/
def sessionSetup1Record (stored : Nat) : List Value :=
  [.struct smb2HeaderRecord,
   .u16 25, .u8 0, .u8 1, .u32 0, .u32 0, .u16 stored, .u16 0, .u64 0,
   .ptr (some (.struct [.list [], .struct [.list [], .struct [.bytes [], .ptr none],
                                          .bytes [], .bytes []]]))]

/-! ## Tokens of a field annotation -/

/-- The key of a token of the annotation: `tokens[0]` of `parseTags`, the text before the
first `:`. -/
def tagKey (smbTag : List Char) : String :=
  match (splitOnChar ':' smbTag).map String.mk with
  | [] => ""
  | key :: _ => key

/-- The keys `parseTags` has a case for. -/
def knownKey (key : String) : Bool :=
  decide (key = TagLen ∨ key = TagOffset ∨ key = TagFixed ∨ key = TagASN1 ∨ key = TagPad)

/-! ## Headers that refer to a field -/

/-- The value `v` has the type of a header field of kind `k`: a `uint16` or a `uint32`. -/
def headerValue (k : Kind) (v : Value) : Prop :=
  (k = .uint16 ∧ ∃ n, v = .u16 n) ∨ (k = .uint32 ∧ ∃ n, v = .u32 n)

/-- The width in bytes of a field that is a header for the length of `fieldName`: a
`uint16` or `uint32` field tagged `len:fieldName` that has no `offset` directive beside
it; `none` for any other field. -/
def lenHeaderWidth (fieldName : String) (f : Field Kind) : Option Nat :=
  match parseTags f.tag with
  | .error _ => none
  | .ok tags =>
    if decide (tags.GetString "len" = .ok fieldName) && !tags.Has "offset" then
      match f.kind with
      | .uint16 => some 2
      | .uint32 => some 4
      | _ => none
    else none

/-! ## Lists of `AvPair` (`ntlmssp.go`, `encode_test.go`, `decode_test.go`) -/

/-- A value of type `ntlmssp.AvPair`, by its three fields. -/
structure AvPairRecord where
  AvID : Nat
  AvLen : Nat
  Value : List Nat

/-- The Go value of an `AvPair`. -/
def AvPairRecord.toValue (p : AvPairRecord) : Encoding.Value :=
  .struct [.u16 p.AvID, .u16 p.AvLen, .bytes p.Value]

/-- The type `ntlmssp.AvPairSlice`, whose pointer type has the codec. -/
def AvPairSliceKind : Kind := .custom AvPairSliceCodec (.slice (.struct AvPair))

/-- `TestAvPairSliceStruct` (`TestUnmarshal_AvPairSlice`). -/
def TestAvPairSliceStruct : Shape :=
  [⟨"Len", "len:Data", .uint16⟩, ⟨"Offset", "offset:Data", .uint32⟩,
   ⟨"Data", "", AvPairSliceKind⟩]

/-! ## NetBIOS framing (`smb/common/netbios.go`)

The connection is a reliable in-memory byte stream (as a `bytes.Buffer` is): its state is
the list of bytes written and not yet read, a `Write` appends to it and never fails, a
read takes from its front, and it has no `Flush` method. -/

/-- The `error` values of `SendNetBIOSMessage` and `ReceiveNetBIOSMessage`: those of the
reads, and the two of the package. -/
inductive NetBIOSError where
  | eof
  | unexpectedEOF
  | invalidSessionMessage
  | messageSizeInvalid
  deriving DecidableEq, Repr

/-- `binary.Write(buf, binary.BigEndian, v)` for an unsigned integer of `w` bytes. -/
def beBytes : Nat → Nat → List Nat
  | 0, _ => []
  | w + 1, v => (v / 256 ^ w % 256) :: beBytes w v

/-- `binary.BigEndian` value of a byte sequence, continuing from `acc`. -/
def beValue : List Nat → Nat → Nat
  | [], acc => acc
  | b :: bs, acc => beValue bs (acc * 256 + b)

/-- `maxNetBIOSSize`. -/
def maxNetBIOSSize : Nat := 0x00FFFFFF

/-- `conn.Write(p)` on the stream: the state after the call. -/
def connWrite (conn p : List Nat) : Except NetBIOSError (List Nat) := .ok (conn ++ p)

/-- `io.ReadFull(conn, data)` with `len(data) = n` (and the read of `binary.Read`, which
is one): the bytes read and the state after the call; `io.EOF` when no byte could be
read, `io.ErrUnexpectedEOF` when fewer than `n` could. -/
def connReadFull (conn : List Nat) (n : Nat) : Except NetBIOSError (List Nat × List Nat) :=
  if n = 0 then .ok ([], conn)
  else if conn.length = 0 then .error .eof
  else if conn.length < n then .error .unexpectedEOF
  else .ok (conn.take n, conn.drop n)

/-- `SendNetBIOSMessage`: the state of the stream after the call.  `uint32(len(data))`
is the length reduced to 32 bits. -/
def SendNetBIOSMessage (conn data : List Nat) : Except NetBIOSError (List Nat) :=
  let buf := beBytes 4 (data.length % 2 ^ 32)
  match connWrite conn (buf ++ data) with
  | .error e => .error e
  | .ok conn1 => .ok conn1

/-- `ReceiveNetBIOSMessage`: the message and the state of the stream after the call. -/
def ReceiveNetBIOSMessage (conn : List Nat) : Except NetBIOSError (List Nat × List Nat) :=
  match connReadFull conn 4 with
  | .error e => .error e
  | .ok (hdr, conn1) =>
    let size := beValue hdr 0
    if size > maxNetBIOSSize then .error .invalidSessionMessage
    else
      match connReadFull conn1 size with
      | .error e => .error e
      | .ok (data, conn2) =>
        if data.length % 2 ^ 32 ≠ size then .error .messageSizeInvalid
        else .ok (data, conn2)

/-! ## Shapes around `AvPairSlice` -/

/-- A structure `{Len uint16 len:Data; Offset uint32 offset:Data; Data AvPairSlice;
Tail uint8}`: the list of pairs is addressed by its headers and a field follows it. -/
def AvPairSliceThenTail : Shape :=
  [⟨"Len", "len:Data", .uint16⟩, ⟨"Offset", "offset:Data", .uint32⟩,
   ⟨"Data", "", AvPairSliceKind⟩, ⟨"Tail", "", .uint8⟩]

/-- The structure `{Len uint16 len:Data; Offset uint32 offset:Data; Data *AvPairSlice}`:
`TestAvPairSliceStruct` with the list held by pointer, as `Challenge` holds `TargetInfo`. -/
def AvPairSlicePtrStruct : Shape :=
  [⟨"Len", "len:Data", .uint16⟩, ⟨"Offset", "offset:Data", .uint32⟩,
   ⟨"Data", "", .ptr AvPairSliceKind⟩]

/-- `AvPair.Size()` of a decoded pair: `binary.Size(p.AvID) + binary.Size(p.AvLen) + int(p.AvLen)`. -/
def AvPairSize : Value → Nat
  | .struct [_, .u16 avLen, _] => 2 + 2 + avLen
  | _ => 0

/-- The context in which `TestUnmarshal_AvPairSlice` reaches the field `Data`: 12 bytes
are announced at offset 6 of the 18 bytes of the test. -/
def avPairSliceTestContext : Metadata :=
  { Tags := TagMap.empty, Lens := [("Data", 12)], Offsets := [("Data", 6)],
    ParentBuf := [12, 0, 6, 0, 0, 0, 1, 0, 4, 0, 1, 2, 3, 4, 0, 0, 0, 0],
    CurrOffset := 6, CurrField := "Data" }

/-! ## `Filetime` (`ntlmssp/filetime.go`) -/

/-- The value of an `int64` after an operation whose exact result is `x`: Go's signed
integers wrap around, to the residue of `x` modulo `2^64` between `-2^63` and `2^63 - 1`. -/
def wrapInt64 (x : Int) : Int := (x + 2 ^ 63) % 2 ^ 64 - 2 ^ 63

/-- `Filetime.Nanoseconds`, for the fields `LowDateTime` and `HighDateTime`, on `int64`. -/
def FiletimeNanoseconds (LowDateTime HighDateTime : Nat) : Int :=
  let nsec := wrapInt64 (wrapInt64 ((HighDateTime : Int) * 2 ^ 32) + (LowDateTime : Int))
  let nsec1 := wrapInt64 (nsec - 116444736000000000)
  wrapInt64 (nsec1 * 100)

/-! ## Classes of record shapes -/

/-- The decoder records a length for the field `ref` at this field: the field is a
`uint16` (or a pointer to one) whose `len` directive names `ref`. -/
def recordsLen (ref : String) (f : Field Kind) : Bool :=
  match f.kind with
  | .uint16 | .ptr .uint16 =>
    match parseTags f.tag with
    | .ok tags => decide (tags.GetString "len" = .ok ref)
    | .error _ => false
  | _ => false

/-- The types of the fields of a record without nested structures, pointers and codecs:
unsigned integers, texts and byte blocks (sized by `fixed`, `pad`, or `len` and `offset`
headers). -/
def leafKind : Kind → Bool
  | .uint8 => true
  | .uint16 => true
  | .uint32 => true
  | .uint64 => true
  | .string => true
  | .slice .uint8 => true
  | _ => false

/-- The directives of the field hold no `pad` (directives that do not parse hold none). -/
def noPad (tag : String) : Bool :=
  match parseTags tag with
  | .ok tags => !tags.Has TagPad
  | .error _ => true

mutual

/-- A type without custom codec whose structures have no `pad` field and no field with
a custom codec, at any depth. -/
def plainKind : Kind → Bool
  | .uint8 => true
  | .uint16 => true
  | .uint32 => true
  | .uint64 => true
  | .string => true
  | .slice _ => true
  | .struct fields => plainFields fields
  | .ptr elem => plainKind elem
  | .custom _ _ => false
  | .other => true

/-- The fields of a structure without `pad` field and without custom codec. -/
def plainFields : List (Field Kind) → Bool
  | [] => true
  | f :: rest => plainField f && plainFields rest

/-- A field that is no `pad` field and has no custom codec. -/
def plainField : Field Kind → Bool
  | ⟨_, tag, kind⟩ => noPad tag && plainKind kind

end

/-- The fields left of a record that is re-encoded to the bytes it was decoded from:
unsigned integers, `uint16` headers `len:ref`, `fixed:N` blocks and blocks.  `pending`
lists the references of the headers whose block has not come yet: a header refers to a
block that no earlier header refers to, a block has its header before it, and at the end
no header is left without its block. -/
def reencodableFields : List String → Shape → Bool
  | pending, [] => pending.isEmpty
  | pending, f :: fs =>
    match flatField f with
    | some (.uint _) => reencodableFields pending fs
    | some (.lenHeader ref) => decide (ref ∉ pending) && reencodableFields (ref :: pending) fs
    | some (.fixed _) => reencodableFields pending fs
    | some .block => decide (f.name ∈ pending) && reencodableFields (pending.erase f.name) fs
    | some (.offsetHeader _) => false
    | some .nested => false
    | none => false

/-- A record shape built only from unsigned integers, `fixed:N` byte blocks and byte
blocks sized by exactly one preceding `uint16` header `len`, with distinct field names. -/
def reencodable (fields : Shape) : Bool :=
  decide ((fields.map (fun f => f.name)).Nodup) && reencodableFields [] fields

mutual

/-- A field named `fieldName` lies in a type, below a field of that type: in a structure,
in the target of a pointer or in the type under a codec, at any depth.  These are the
names that `FieldByName` can reach through a field of the type when the field is an
embedded one. -/
def namedInKind (fieldName : String) : Kind → Bool
  | .struct fields => namedInFields fieldName fields
  | .ptr elem => namedInKind fieldName elem
  | .custom _ under => namedInKind fieldName under
  | _ => false

/-- A field named `fieldName` is among the fields or lies in the type of one, at any
depth. -/
def namedInFields (fieldName : String) : List (Field Kind) → Bool
  | [] => false
  | f :: rest => namedInField fieldName f || namedInFields fieldName rest

/-- The field is named `fieldName` or a field of that name lies in its type. -/
def namedInField (fieldName : String) : Field Kind → Bool
  | ⟨name, _, kind⟩ => decide (name = fieldName) || namedInKind fieldName kind

end

/-! ## The encoder with the writes of the codecs

`MarshalBinary` is a Go method with a pointer receiver: besides returning bytes it may
assign to its receiver, which is part of the record.  The functions of this section are
the encoder of `encode.go` once more, with the record passed and returned explicitly:
every function returns, beside its result, the values it leaves in the record.  The
engine itself has no assignment to the record; the only writes are those of the codecs
it calls. -/

/-- The value that `MarshalBinary` of a codec leaves in its receiver, for the receiver it
is called on and the context it is given. -/
abbrev Writes := Codec → Value → Option Metadata → Value

/-- The writes of codecs that leave their receiver as it is, as the codecs of the
repository do (`AvPairSlice`, `NegTokenInit`, `NegTokenResp`, the codecs of the tests). -/
def noWrites : Writes := fun _ v _ => v

/-- A field of `meta.Parent` as the encoder reaches it by reflection: its name and type,
and the call `Marshal(field.Interface())` on the value that the field holds when the call
is made: the result of the call and the value it leaves in the field. -/
structure SiblingSt where
  name : String
  kind : Kind
  marshalled : Value → Except Error (List Nat) × Value

/-- The `switch field.Kind()` of `getFieldLengthByName` (see `fieldKindLength`), for the
field `s` that holds `v`: the length, and the value left in the field. -/
def fieldKindLengthSt (s : SiblingSt) (v : Value) : Kind → Value → Bool →
    Except Error Int × Value
  | .struct _, _, _ =>
    match s.marshalled v with
    | (.error e, v1) => (.error e, v1)
    | (.ok buf, v1) => (.ok buf.length, v1)
  | .slice .uint8, .bytes b, named => (if named then .error .goPanic else .ok b.length, v)
  | .slice _, _, _ => (.error .unknownSliceType, v)
  | .uint8, _, named => (if named then .error .goPanic else .ok 1, v)
  | .uint16, _, named => (if named then .error .goPanic else .ok 2, v)
  | .uint32, _, named => (if named then .error .goPanic else .ok 4, v)
  | .uint64, _, named => (if named then .error .goPanic else .ok 8, v)
  | _, _, _ => (.error .unknownKind, v)

/-- The part of `getFieldLengthByName` after `FieldByName` has found the field `s`, which
holds `v`: the length with the context, and the value left in the field. -/
def fieldLengthSt (w : Writes) (fieldName : String) (meta : Metadata) (s : SiblingSt)
    (v : Value) : Except Error (Int × Metadata) × Value :=
  let memo (r : Except Error Int) : Except Error (Int × Metadata) :=
    match r with
    | .error e => .error e
    | .ok ret => .ok (ret, { meta with Lens := (fieldName, ret) :: meta.Lens })
  match s.kind, v with
  | .ptr (.custom bm _), .ptr (some x) =>
    match bm.MarshalBinary x (some meta) with
    | .error e => (.error e, .ptr (some (w bm x (some meta))))
    | .ok buf => (.ok (buf.length, meta), .ptr (some (w bm x (some meta))))
  | .ptr (.custom _ _), _ => (.error .goPanic, v)
  | .ptr elem, .ptr (some x) =>
    match fieldKindLengthSt s v elem x false with
    | (r, v1) => (memo r, v1)
  | .ptr _, _ => (.error .unknownKind, v)
  | .custom _ under, v =>
    match fieldKindLengthSt s v under v true with
    | (r, v1) => (memo r, v1)
  | k, v =>
    match fieldKindLengthSt s v k v false with
    | (r, v1) => (memo r, v1)

/-- `FieldByName` among the fields of the parent, with the values they hold: the first
field of the name is measured, and its value replaced by the one the measure leaves. -/
def lengthOfFieldSt (w : Writes) (fieldName : String) (meta : Metadata) :
    List SiblingSt → List Value → Except Error (Int × Metadata) × List Value
  | s :: rest, v :: vals =>
    if s.name = fieldName then
      match fieldLengthSt w fieldName meta s v with
      | (r, v1) => (r, v1 :: vals)
    else
      match lengthOfFieldSt w fieldName meta rest vals with
      | (r, vals1) => (r, v :: vals1)
  | _, vals => (.error .invalidField, vals)

/-- `getFieldLengthByName` (see there), with the values that the fields of the parent
hold and those they hold after the call. -/
def getFieldLengthByNameSt (w : Writes) (fieldName : String) (meta : Metadata)
    (parent : List SiblingSt) (vals : List Value) :
    Except Error (Int × Metadata) × List Value :=
  match meta.Lens.lookup fieldName with
  | some val => (.ok (val, meta), vals)
  | none => lengthOfFieldSt w fieldName meta parent vals

/-- The loop of `getOffsetByFieldName` (see `getOffsetLoop`), with the values that the
fields of the parent hold and those they hold after the loop. -/
def getOffsetLoopSt (fieldName : String) : List SiblingSt → List Value → Int → Metadata →
    Except Error (Int × Metadata) × List Value
  | s :: rest, v :: vals, ret, meta =>
    if s.name = fieldName then (.ok (ret, meta), v :: vals)
    else
      match meta.Lens.lookup s.name with
      | some l =>
        match getOffsetLoopSt fieldName rest vals (ret + l) meta with
        | (r, vals1) => (r, v :: vals1)
      | none =>
        match s.marshalled v with
        | (.error e, v1) => (.error e, v1 :: vals)
        | (.ok buf, v1) =>
          match getOffsetLoopSt fieldName rest vals (ret + buf.length)
              { meta with Lens := (s.name, (buf.length : Int)) :: meta.Lens } with
          | (r, vals1) => (r, v1 :: vals1)
  | _, vals, _, _ => (.error .fieldNotFound, vals)

/-- The part of `marshalUint16` and `marshalUint32` under `if meta != nil` (see
`resolveHeader`), with the values of the fields of the parent before and after. -/
def resolveHeaderSt (w : Writes) (bits : Nat) (data : Nat) (meta : Metadata)
    (parent : List SiblingSt) (vals : List Value) :
    Except Error (Nat × Metadata) × List Value :=
  let afterLen : Except Error (Nat × Metadata) × List Value :=
    if meta.Tags.Has "len" then
      match meta.Tags.GetString "len" with
      | .error e => (.error e, vals)
      | .ok fieldName =>
        match getFieldLengthByNameSt w fieldName meta parent vals with
        | (.error e, vals1) => (.error e, vals1)
        | (.ok (l, meta1), vals1) => (.ok (truncate bits l, meta1), vals1)
    else (.ok (data, meta), vals)
  match afterLen with
  | (.error e, vals1) => (.error e, vals1)
  | (.ok (data1, meta1), vals1) =>
    if meta1.Tags.Has "offset" then
      match meta1.Tags.GetString "offset" with
      | .error e => (.error e, vals1)
      | .ok fieldName =>
        match getOffsetLoopSt fieldName parent vals1 0 meta1 with
        | (.error e, vals2) => (.error e, vals2)
        | (.ok (l, meta2), vals2) => (.ok (truncate bits l, meta2), vals2)
    else (.ok (data1, meta1), vals1)

/-- `marshalUint16` (see there), with the values of the fields of the parent before and
after. -/
def marshalUint16St (w : Writes) (data : Nat) (meta : Option Metadata)
    (parent : List SiblingSt) (vals : List Value) :
    Except Error (List Nat × Option Metadata) × List Value :=
  match meta with
  | none => (.ok (leBytes 2 data, none), vals)
  | some m =>
    match resolveHeaderSt w 16 data m parent vals with
    | (.error e, vals1) => (.error e, vals1)
    | (.ok (data1, m1), vals1) => (.ok (leBytes 2 data1, some m1), vals1)

/-- `marshalUint32` (see there), with the values of the fields of the parent before and
after. -/
def marshalUint32St (w : Writes) (data : Nat) (meta : Option Metadata)
    (parent : List SiblingSt) (vals : List Value) :
    Except Error (List Nat × Option Metadata) × List Value :=
  match meta with
  | none => (.ok (leBytes 4 data, none), vals)
  | some m =>
    match resolveHeaderSt w 32 data m parent vals with
    | (.error e, vals1) => (.error e, vals1)
    | (.ok (data1, m1), vals1) => (.ok (leBytes 4 data1, some m1), vals1)

mutual

/-- The `switch typev.Kind()` of `marshal` (see `marshalKind`) on the value `v`, for a
parent whose fields hold `pvals`: the result, the value left in `v` and the values left in
the fields of the parent.  The cases that reach neither `marshalStruct` nor the
resolution of a header call no codec: they are those of `marshalKind`, which reads no
parent there, and they leave every value as it is. -/
def marshalKindSt (w : Writes) : Kind → Value → Bool → Option Metadata → List SiblingSt →
    List Value → Except Error (List Nat × Option Metadata) × Value × List Value
  | .struct fields, .struct vals, _, meta, _, pvals =>
    match marshalFieldsSt w fields 0 (siblingsSt w fields) vals marshalMetadata with
    | (.error e, vals1) => (.error e, .struct vals1, pvals)
    | (.ok buf, vals1) => (.ok (buf, meta), .struct vals1, pvals)
  | .uint16, .u16 n, _, meta, parent, pvals =>
    match marshalUint16St w n meta parent pvals with
    | (r, pvals1) => (r, .u16 n, pvals1)
  | .uint32, .u32 n, _, meta, parent, pvals =>
    match marshalUint32St w n meta parent pvals with
    | (r, pvals1) => (r, .u32 n, pvals1)
  | .custom _ (.struct fields), .struct vals, _, meta, _, pvals =>
    match marshalFieldsSt w fields 0 (siblingsSt w fields) vals marshalMetadata with
    | (.error e, vals1) => (.error e, .struct vals1, pvals)
    | (.ok buf, vals1) => (.ok (buf, meta), .struct vals1, pvals)
  | k, v, direct, meta, _, pvals => (marshalKind k v direct meta [], v, pvals)

/-- The loop of `marshalStruct` (see `marshalFields`) from the field of index `j` on:
`vals` are the values that the fields of the structure hold, and the loop returns those
they hold at its end. -/
def marshalFieldsSt (w : Writes) : List (Field Kind) → Nat → List SiblingSt → List Value →
    Metadata → Except Error (List Nat) × List Value
  | [], _, _, vals, _ => (.ok [], vals)
  | field :: rest, j, parent, vals, m =>
    match vals[j]? with
    | none => (.error .invalidType, vals)
    | some v =>
      match parseTags field.tag with
      | .error e => (.error e, vals)
      | .ok tags =>
        match marshalFieldSt w field v (some { m with Tags := tags }) parent vals with
        | (.error e, v1, vals1) => (.error e, vals1.set j v1)
        | (.ok (buf, m1), v1, vals1) =>
          let m2 := m1.getD { m with Tags := tags }
          match marshalFieldsSt w rest (j + 1) parent (vals1.set j v1)
              { m2 with Lens := (field.name, (buf.length : Int)) :: m2.Lens } with
          | (.error e, vals2) => (.error e, vals2)
          | (.ok out, vals2) => (.ok (buf ++ out), vals2)

/-- The fields of a structure, each with the call of `Marshal` on it. -/
def siblingsSt (w : Writes) : List (Field Kind) → List SiblingSt
  | [] => []
  | field :: rest =>
    { name := field.name, kind := field.kind,
      marshalled := fun v =>
        match marshalFieldSt w field v none [] [] with
        | (.error e, v1, _) => (.error e, v1)
        | (.ok (buf, _), v1, _) => (.ok buf, v1) } :: siblingsSt w rest

/-- The call `marshal(v, meta)` for `v` the value of a field (see `marshalField`): the
codec of a `BinaryMarshallable`, which may write to its receiver, and, when `v` is not one
or its codec returns an error, the switch on the kind. -/
def marshalFieldSt (w : Writes) : Field Kind → Value → Option Metadata → List SiblingSt →
    List Value → Except Error (List Nat × Option Metadata) × Value × List Value
  | ⟨_, _, kind⟩, v, meta, parent, pvals =>
    match kind, v with
    | .ptr (.custom bm under), .ptr (some x) =>
      match bm.MarshalBinary x meta with
      | .ok buf => (.ok (buf, meta), .ptr (some (w bm x meta)), pvals)
      | .error _ =>
        match marshalKindSt w (.custom bm under) (w bm x meta) false meta parent pvals with
        | (r, x1, pvals1) => (r, .ptr (some x1), pvals1)
    | .ptr elem, .ptr (some x) =>
      match marshalKindSt w elem x false meta parent pvals with
      | (r, x1, pvals1) => (r, .ptr (some x1), pvals1)
    | .ptr _, .ptr none => (.error .goPanic, v, pvals)
    | .ptr _, _ => (.error .invalidType, v, pvals)
    | k, v => marshalKindSt w k v true meta parent pvals

end

/-- `Marshal(v)` for `v` a value of type `kind`: the result, and the record after the
call. -/
def MarshalSt (w : Writes) (kind : Kind) (v : Value) : Except Error (List Nat) × Value :=
  match marshalFieldSt w ⟨"", "", kind⟩ v none [] [] with
  | (.error e, v1, _) => (.error e, v1)
  | (.ok (buf, _), v1, _) => (.ok buf, v1)

/-- The fields of the parent as the encoder without writes sees them (`Sibling`), for the
values that the fields hold. -/
def pureSiblings : List SiblingSt → List Value → List Sibling
  | s :: rest, v :: vals =>
    { name := s.name, kind := s.kind, value := v, marshalled := (s.marshalled v).1 }
      :: pureSiblings rest vals
  | _, _ => []

/-- The call of `Marshal` on any field of the parent leaves the value of the field as it
is. -/
def quiet : List SiblingSt → List Value → Prop
  | s :: rest, v :: vals => (s.marshalled v).2 = v ∧ quiet rest vals
  | _, _ => True

/-- A codec that writes to its receiver, for a type `Counter struct { N uint8 }`:
`MarshalBinary` returns the byte `N` (and adds one to `N`, see `countingWrites`);
`UnmarshalBinary` reads `N` from one byte. -/
def countingCodec : Codec :=
  { MarshalBinary := fun v _ =>
      match v with
      | .struct [.u8 n] => .ok [n]
      | _ => .error .invalidType,
    UnmarshalBinary := fun buf _ =>
      match buf with
      | b :: _ => .ok (.struct [.u8 b], 1)
      | [] => .error .goPanic }

/-- The write of `MarshalBinary` of `countingCodec`: `N` becomes `N + 1`, as a `uint8`. -/
def countingWrites : Writes := fun _ v _ =>
  match v with
  | .struct [.u8 n] => .struct [.u8 ((n + 1) % 256)]
  | x => x

/-- A record type `struct { C *Counter }`. -/
def CounterHolder : Shape :=
  [⟨"C", "", .ptr (.custom countingCodec (.struct [⟨"N", "", .uint8⟩]))⟩]

/-! # Theorems -/

/-! ## Basic facts -/

theorem sliceFrom_ok (buf : List Nat) (off : Int) (h0 : 0 ≤ off)
    (h1 : off ≤ (buf.length : Int)) :
    sliceFrom buf off = .ok (buf.drop off.toNat) := by
  simp [sliceFrom, h0, h1]

theorem binaryRead_ok (w : Nat) (buf : List Nat) (hw : 0 < w) (h : w ≤ buf.length) :
    binaryRead w buf = .ok (leValue (buf.take w)) := by
  unfold binaryRead
  have h1 : buf.length ≠ 0 := by omega
  have h2 : ¬ buf.length < w := by omega
  simp [h1, h2]

theorem binaryRead_short (w : Nat) (buf : List Nat) (h : buf.length < w) :
    binaryRead w buf = .error (if buf.length = 0 then .eof else .unexpectedEOF) := by
  unfold binaryRead
  by_cases h0 : buf.length = 0
  · simp [h0]
  · simp [h0, h]

@[simp] theorem length_leBytes (w v : Nat) : (leBytes w v).length = w := by
  induction w generalizing v with
  | zero => rfl
  | succ w ih => simp [leBytes, ih]

theorem parseTags_empty : parseTags "" = .ok ⟨[]⟩ := by decide

theorem parseTags_len_Data : parseTags "len:Data" = .ok ⟨[("len", .str "Data")]⟩ := by decide

theorem parseTags_offset_Data :
    parseTags "offset:Data" = .ok ⟨[("offset", .str "Data")]⟩ := by decide

theorem parseTags_fixed_4 : parseTags "fixed:4" = .ok ⟨[("fixed", .int 4)]⟩ := by decide

theorem leValue_leBytes_two (n : Nat) (hn : n ≤ 65535) : leValue (leBytes 2 n) = n := by
  simp only [leBytes, leValue]
  omega

theorem truncate_of_lt (bits n : Nat) (h : n < 2 ^ bits) : truncate bits (n : Int) = n := by
  unfold truncate
  have h2 : ((n : Int) % (2 ^ bits : Int)) = (n : Int) := by
    apply Int.emod_eq_of_lt (by omega)
    exact_mod_cast h
  rw [h2]
  simp

theorem Unmarshal_struct (buf : List Nat) (fields : Shape) :
    Unmarshal buf (.struct fields) =
      match unmarshalFields buf fields (topMetadata buf) with
      | .error e => .error e
      | .ok (vals, _) => .ok (.struct vals) := by
  simp only [Unmarshal, unmarshal, unmarshalKind, finishStruct, structMetadata, ensureMetadata,
    topMetadata]
  cases unmarshalFields buf fields _ with
  | error e => rfl
  | ok p => rfl

theorem unmarshalFields_cons_ok {buf : List Nat} {field : Field Kind} {rest : Shape}
    {m m1 m2 : Metadata} {tags : TagMap} {data : Value} {vals : List Value}
    (hp : parseTags field.tag = .ok tags)
    (hf : unmarshalStructField buf { m with CurrField := field.name, Tags := tags } field
      = .ok (data, m1))
    (hr : unmarshalFields buf rest m1 = .ok (vals, m2)) :
    unmarshalFields buf (field :: rest) m = .ok (data :: vals, m2) := by
  rw [unmarshalFields]
  simp only [hp, hf, hr]

theorem unmarshalFields_cons_error {buf : List Nat} {field : Field Kind} {rest : Shape}
    {m : Metadata} {tags : TagMap} {e : Error}
    (hp : parseTags field.tag = .ok tags)
    (hf : unmarshalStructField buf { m with CurrField := field.name, Tags := tags } field
      = .error e) :
    unmarshalFields buf (field :: rest) m = .error e := by
  rw [unmarshalFields]
  simp only [hp, hf]

/-! ## One field decoded at the cursor -/

theorem unmarshalStructField_uint8 (buf : List Nat) (m : Metadata) (name tag : String)
    (h0 : 0 ≤ m.CurrOffset) (h1 : m.CurrOffset + 1 ≤ (buf.length : Int)) :
    unmarshalStructField buf m ⟨name, tag, .uint8⟩ =
      .ok (.u8 (leValue ((buf.drop m.CurrOffset.toNat).take 1)),
           { m with CurrOffset := m.CurrOffset + 1 }) := by
  have h2 : m.CurrOffset ≤ (buf.length : Int) := by omega
  simp only [unmarshalStructField, sliceFrom_ok buf _ h0 h2, unmarshalKind, unmarshalUint8]
  rw [binaryRead_ok 1 _ (by omega) (by simp; omega)]

theorem unmarshalStructField_uint16 (buf : List Nat) (m : Metadata) (name tag : String)
    (h0 : 0 ≤ m.CurrOffset) (h1 : m.CurrOffset + 2 ≤ (buf.length : Int))
    (ht : m.Tags.Has "len" = false) :
    unmarshalStructField buf m ⟨name, tag, .uint16⟩ =
      .ok (.u16 (leValue ((buf.drop m.CurrOffset.toNat).take 2)),
           { m with CurrOffset := m.CurrOffset + 2 }) := by
  have h2 : m.CurrOffset ≤ (buf.length : Int) := by omega
  simp only [unmarshalStructField, sliceFrom_ok buf _ h0 h2, unmarshalKind, unmarshalUint16]
  rw [binaryRead_ok 2 _ (by omega) (by simp; omega)]
  simp [ht]

theorem unmarshalStructField_uint16_len (buf : List Nat) (m : Metadata) (name tag ref : String)
    (h0 : 0 ≤ m.CurrOffset) (h1 : m.CurrOffset + 2 ≤ (buf.length : Int))
    (ht : m.Tags.Has "len" = true) (hg : m.Tags.GetString "len" = .ok ref) :
    unmarshalStructField buf m ⟨name, tag, .uint16⟩ =
      .ok (.u16 (leValue ((buf.drop m.CurrOffset.toNat).take 2)),
           { m with
             Lens := (ref, (leValue ((buf.drop m.CurrOffset.toNat).take 2) : Int)) :: m.Lens,
             CurrOffset := m.CurrOffset + 2 }) := by
  have h2 : m.CurrOffset ≤ (buf.length : Int) := by omega
  simp only [unmarshalStructField, sliceFrom_ok buf _ h0 h2, unmarshalKind, unmarshalUint16]
  rw [binaryRead_ok 2 _ (by omega) (by simp; omega)]
  simp [ht, hg]

theorem unmarshalStructField_uint32 (buf : List Nat) (m : Metadata) (name tag : String)
    (h0 : 0 ≤ m.CurrOffset) (h1 : m.CurrOffset + 4 ≤ (buf.length : Int))
    (ht : m.Tags.Has TagOffset = false) :
    unmarshalStructField buf m ⟨name, tag, .uint32⟩ =
      .ok (.u32 (leValue ((buf.drop m.CurrOffset.toNat).take 4)),
           { m with CurrOffset := m.CurrOffset + 4 }) := by
  have h2 : m.CurrOffset ≤ (buf.length : Int) := by omega
  simp only [unmarshalStructField, sliceFrom_ok buf _ h0 h2, unmarshalKind, unmarshalUint32]
  rw [binaryRead_ok 4 _ (by omega) (by simp; omega)]
  simp [ht]

theorem unmarshalStructField_uint32_offset (buf : List Nat) (m : Metadata)
    (name tag ref : String)
    (h0 : 0 ≤ m.CurrOffset) (h1 : m.CurrOffset + 4 ≤ (buf.length : Int))
    (ht : m.Tags.Has TagOffset = true) (hg : m.Tags.GetString TagOffset = .ok ref) :
    unmarshalStructField buf m ⟨name, tag, .uint32⟩ =
      .ok (.u32 (leValue ((buf.drop m.CurrOffset.toNat).take 4)),
           { m with
             Offsets := (ref, (leValue ((buf.drop m.CurrOffset.toNat).take 4) : Int)) :: m.Offsets,
             CurrOffset := m.CurrOffset + 4 }) := by
  have h2 : m.CurrOffset ≤ (buf.length : Int) := by omega
  simp only [unmarshalStructField, sliceFrom_ok buf _ h0 h2, unmarshalKind, unmarshalUint32]
  rw [binaryRead_ok 4 _ (by omega) (by simp; omega)]
  simp [ht, hg]

theorem unmarshalStructField_uint64 (buf : List Nat) (m : Metadata) (name tag : String)
    (h0 : 0 ≤ m.CurrOffset) (h1 : m.CurrOffset + 8 ≤ (buf.length : Int)) :
    unmarshalStructField buf m ⟨name, tag, .uint64⟩ =
      .ok (.u64 (leValue ((buf.drop m.CurrOffset.toNat).take 8)),
           { m with CurrOffset := m.CurrOffset + 8 }) := by
  have h2 : m.CurrOffset ≤ (buf.length : Int) := by omega
  simp only [unmarshalStructField, sliceFrom_ok buf _ h0 h2, unmarshalKind, unmarshalUint64]
  rw [binaryRead_ok 8 _ (by omega) (by simp; omega)]

theorem unmarshalStructField_fixed (buf : List Nat) (m : Metadata) (name tag : String)
    (n : Int) (h0 : 0 ≤ m.CurrOffset) (hn : 0 ≤ n) (h1 : m.CurrOffset + n ≤ (buf.length : Int))
    (hp : m.Tags.Has TagPad = false) (ht : m.Tags.Has TagFixed = true)
    (hg : m.Tags.GetInt TagFixed = .ok n) :
    unmarshalStructField buf m ⟨name, tag, .slice .uint8⟩ =
      .ok (.bytes ((buf.drop m.CurrOffset.toNat).take n.toNat),
           { m with CurrOffset := m.CurrOffset + n }) := by
  have h2 : m.CurrOffset ≤ (buf.length : Int) := by omega
  have h3 : ¬ (n < 0 ∨ n > ((buf.drop m.CurrOffset.toNat).length : Int)) := by
    simp only [List.length_drop]; omega
  have h4 : ¬ ((((buf.drop m.CurrOffset.toNat).take n.toNat).length : Int) < n) := by
    simp only [List.length_take, List.length_drop]; omega
  simp only [unmarshalStructField, sliceFrom_ok buf _ h0 h2, unmarshalKind, unmarshalSlice, hp,
    unmarshalUint8Slice, resolveSliceParams, ht, hg, h3, h4, if_false, if_true,
    Bool.false_eq_true, List.take_take, min_self]

theorem unmarshalStructField_len (buf : List Nat) (m : Metadata) (name tag : String)
    (l : Int) (h0 : 0 ≤ m.CurrOffset) (h2 : m.CurrOffset ≤ (buf.length : Int)) (hl : 0 ≤ l)
    (h1 : m.CurrOffset + l ≤ (m.ParentBuf.length : Int))
    (hp : m.Tags.Has TagPad = false) (ht : m.Tags.Has TagFixed = false)
    (hlen : m.Lens.lookup m.CurrField = some l) (hoff : m.Offsets.lookup m.CurrField = none) :
    unmarshalStructField buf m ⟨name, tag, .slice .uint8⟩ =
      .ok (.bytes ((m.ParentBuf.drop m.CurrOffset.toNat).take l.toNat),
           { m with CurrOffset := m.CurrOffset + l }) := by
  have h3 : ¬ (m.CurrOffset < 0 ∨ l < 0 ∨ m.CurrOffset + l > (m.ParentBuf.length : Int)) := by
    omega
  have h4 : ¬ ((((m.ParentBuf.drop m.CurrOffset.toNat).take l.toNat).length : Int) < l) := by
    simp only [List.length_take, List.length_drop]; omega
  simp only [unmarshalStructField, sliceFrom_ok buf _ h0 h2, unmarshalKind, unmarshalSlice, hp,
    unmarshalUint8Slice, resolveSliceParams, ht, hlen, hoff, h3, h4, if_false,
    Bool.false_eq_true, List.take_take, min_self]

theorem unmarshalStructField_offset (buf : List Nat) (m : Metadata) (name tag : String)
    (l o : Int) (h0 : 0 ≤ m.CurrOffset) (h2 : m.CurrOffset ≤ (buf.length : Int)) (hl : 0 ≤ l)
    (ho : 0 ≤ o) (h1 : o + l ≤ (m.ParentBuf.length : Int))
    (hp : m.Tags.Has TagPad = false) (ht : m.Tags.Has TagFixed = false)
    (hlen : m.Lens.lookup m.CurrField = some l) (hoff : m.Offsets.lookup m.CurrField = some o) :
    unmarshalStructField buf m ⟨name, tag, .slice .uint8⟩ =
      .ok (.bytes ((m.ParentBuf.drop o.toNat).take l.toNat), m) := by
  have h3 : ¬ (o < 0 ∨ l < 0 ∨ o + l > (m.ParentBuf.length : Int)) := by omega
  have h4 : ¬ ((((m.ParentBuf.drop o.toNat).take l.toNat).length : Int) < l) := by
    simp only [List.length_take, List.length_drop]; omega
  simp only [unmarshalStructField, sliceFrom_ok buf _ h0 h2, unmarshalKind, unmarshalSlice, hp,
    unmarshalUint8Slice, resolveSliceParams, ht, hlen, hoff, h3, h4, if_false,
    Bool.false_eq_true, List.take_take, min_self]

/-! ## Round trip of flat records -/

theorem leValue_leBytes (w n : Nat) (h : n < 256 ^ w) : leValue (leBytes w n) = n := by
  induction w generalizing n with
  | zero =>
    simp only [pow_zero, Nat.lt_one_iff] at h
    simp [leBytes, leValue, h]
  | succ w ih =>
    have h2 : n / 256 < 256 ^ w := by
      apply Nat.div_lt_of_lt_mul
      rw [pow_succ] at h
      omega
    rw [leBytes, leValue, ih _ h2]
    omega

theorem take_drop_middle (pre mid rest : List Nat) (k : Nat) (hk : k = mid.length) :
    ((pre ++ mid ++ rest).drop pre.length).take k = mid := by
  subst hk
  rw [List.append_assoc, List.drop_left' rfl, List.take_left' rfl]

theorem tagsParse_ok {tag : String} (h : tagsParse tag = true) :
    ∃ tags, parseTags tag = .ok tags := by
  unfold tagsParse at h
  cases hp : parseTags tag with
  | error e => simp [hp] at h
  | ok tags => exact ⟨tags, rfl⟩

theorem staticLeafOK_cases (name tag : String) (kind : Kind) (v : Value)
    (h : staticLeafOK ⟨name, tag, kind⟩ v = true) : StaticCase ⟨name, tag, kind⟩ v := by
  unfold staticLeafOK at h
  cases hp : parseTags tag with
  | error e => simp [hp] at h
  | ok tags =>
    simp only [hp] at h
    cases kind with
    | uint8 =>
      cases v <;> simp at h
      exact .uint8 name tag tags _ hp h
    | uint16 =>
      cases v <;> simp at h
      exact .uint16 name tag tags _ hp h.1.1 h.1.2 h.2
    | uint32 =>
      cases v <;> simp at h
      exact .uint32 name tag tags _ hp h.1.1 h.1.2 h.2
    | uint64 =>
      cases v <;> simp at h
      exact .uint64 name tag tags _ hp h
    | slice elem =>
      cases elem <;> cases v <;> simp at h
      exact .fixed name tag tags _ hp h.1.1.1 h.1.1.2 h.1.2 h.2
    | struct fs => simp at h
    | ptr e => simp at h
    | string => simp at h
    | custom c u => simp at h
    | other => simp at h

theorem staticFieldOK_cases (f : Field Kind) (v : Value) (h : staticFieldOK f v = true) :
    StaticCase f v := by
  obtain ⟨name, tag, kind⟩ := f
  by_cases hs : ∃ fs vs, kind = .struct fs ∧ v = .struct vs
  · obtain ⟨fs, vs, rfl, rfl⟩ := hs
    simp only [staticFieldOK, Bool.and_eq_true] at h
    obtain ⟨tags, hp⟩ := tagsParse_ok h.1
    exact .struct _ _ tags _ _ hp h.2
  · by_cases hq : ∃ fs vs, kind = .ptr (.struct fs) ∧ v = .ptr (some (.struct vs))
    · obtain ⟨fs, vs, rfl, rfl⟩ := hq
      simp only [staticFieldOK, Bool.and_eq_true] at h
      obtain ⟨tags, hp⟩ := tagsParse_ok h.1
      exact .ptr _ _ tags _ _ hp h.2
    · apply staticLeafOK_cases
      unfold staticFieldOK at h
      split at h
      · rename_i heq
        simp only [Field.mk.injEq] at heq
        exact absurd ⟨_, _, heq.2.2, rfl⟩ hs
      · rename_i heq
        simp only [Field.mk.injEq] at heq
        exact absurd ⟨_, _, heq.2.2, rfl⟩ hq
      · exact h

theorem staticFieldsOK_cons {f : Field Kind} {fs : Shape} {v : Value} {vs : List Value}
    (h : staticFieldsOK (f :: fs) (v :: vs) = true) :
    StaticCase f v ∧ staticFieldsOK fs vs = true := by
  simp only [staticFieldsOK, Bool.and_eq_true] at h
  exact ⟨staticFieldOK_cases _ _ h.1, h.2⟩

theorem length_encodeValues_cons (v : Value) (vs : List Value) :
    (encodeValues (v :: vs)).length = (encodeValue v).length + (encodeValues vs).length := by
  simp [encodeValues]

theorem parseTags_of_static {f : Field Kind} {v : Value} (hc : StaticCase f v) :
    ∃ tags, parseTags f.tag = .ok tags := by
  cases hc <;> exact ⟨_, by assumption⟩

mutual

/-- Encoding the fields of a static structure writes the values one after the other. -/
theorem static_marshalFields : ∀ (fs : List (Field Kind)) (vs : List Value)
    (parent : List Sibling) (m : Metadata), staticFieldsOK fs vs = true →
    marshalFields fs vs parent m = .ok (encodeValues vs)
  | [], [], _, _, _ => by simp [marshalFields, encodeValues]
  | [], _ :: _, _, _, h => by simp [staticFieldsOK] at h
  | _ :: _, [], _, _, h => by simp [staticFieldsOK] at h
  | f :: fs, v :: vs, parent, m, h => by
    obtain ⟨hc, hrest⟩ := staticFieldsOK_cons h
    obtain ⟨tags, hp⟩ := parseTags_of_static hc
    have hf := static_marshalField f v tags m parent hc hp
    have hr := static_marshalFields fs vs parent
      { m with Tags := tags, Lens := (f.name, ((encodeValue v).length : Int)) :: m.Lens } hrest
    rw [marshalFields]
    simp only [hp, hf, Option.getD_some, hr, encodeValues]
termination_by fs => sizeOf fs

/-- Encoding a field of a static structure writes its value, whatever the context. -/
theorem static_marshalField (f : Field Kind) (v : Value) (tags : TagMap) (m : Metadata)
    (parent : List Sibling) (hc : StaticCase f v) (hp : parseTags f.tag = .ok tags) :
    marshalField f v (some { m with Tags := tags }) parent
      = .ok (encodeValue v, some { m with Tags := tags }) := by
  cases hc with
  | uint8 name tag tags2 n hp2 hn =>
    simp [marshalField, marshalKind, marshalUint8, encodeValue]
  | uint64 name tag tags2 n hp2 hn =>
    simp [marshalField, marshalKind, marshalUint64, encodeValue]
  | uint16 name tag tags2 n hp2 hlen hoff hn =>
    simp only at hp
    rw [hp2] at hp
    cases hp
    simp [marshalField, marshalKind, marshalUint16, resolveHeader, hlen, hoff, encodeValue]
  | uint32 name tag tags2 n hp2 hlen hoff hn =>
    simp only at hp
    rw [hp2] at hp
    cases hp
    simp [marshalField, marshalKind, marshalUint32, resolveHeader, hlen, hoff, encodeValue]
  | fixed name tag tags2 b hp2 hpad hfix hget hb =>
    simp [marshalField, marshalKind, encodeValue]
  | struct name tag tags2 fs vs hp2 hs =>
    have hr := static_marshalFields fs vs (siblings fs vs) marshalMetadata hs
    simp [marshalField, marshalKind, hr, encodeValue]
  | ptr name tag tags2 fs vs hp2 hs =>
    have hr := static_marshalFields fs vs (siblings fs vs) marshalMetadata hs
    simp [marshalField, marshalKind, hr, encodeValue]
termination_by sizeOf f

end

mutual

/-- Decoding the fields of a static structure at the cursor, over the bytes its values
were written to, gives the values back and moves the cursor past them. -/
theorem static_unmarshalFields (fs : List (Field Kind)) (vs : List Value) (m : Metadata)
    (pre post : List Nat) (h : staticFieldsOK fs vs = true)
    (hcur : m.CurrOffset = (pre.length : Int)) :
    ∃ m1, unmarshalFields (pre ++ encodeValues vs ++ post) fs m = .ok (vs, m1)
      ∧ m1.CurrOffset = ((pre ++ encodeValues vs).length : Int) ∧ m1.Lens = m.Lens
      ∧ m1.Offsets = m.Offsets ∧ m1.ParentBuf = m.ParentBuf := by
  match fs, vs, h with
  | [], [], _ => exact ⟨m, by simp [unmarshalFields], by simp [encodeValues, hcur], rfl, rfl, rfl⟩
  | [], _ :: _, h => simp [staticFieldsOK] at h
  | _ :: _, [], h => simp [staticFieldsOK] at h
  | f :: fs, v :: vs, h =>
    obtain ⟨hc, hrest⟩ := staticFieldsOK_cons h
    obtain ⟨tags, hp⟩ := parseTags_of_static hc
    have hsplit : pre ++ encodeValues (v :: vs) ++ post
        = pre ++ encodeValue v ++ (encodeValues vs ++ post) := by
      simp [encodeValues, List.append_assoc]
    have hsplit2 : pre ++ encodeValues (v :: vs) ++ post
        = (pre ++ encodeValue v) ++ encodeValues vs ++ post := by
      simp [encodeValues, List.append_assoc]
    obtain ⟨m1, hm1, hc1, hl1, ho1, hb1⟩ :=
      static_unmarshalStructField f v tags m pre (encodeValues vs ++ post) hc hp hcur
    obtain ⟨m2, hm2, hc2, hl2, ho2, hb2⟩ :=
      static_unmarshalFields fs vs m1 (pre ++ encodeValue v) post hrest hc1
    refine ⟨m2, ?_, ?_, by rw [hl2, hl1], by rw [ho2, ho1], by rw [hb2, hb1]⟩
    · rw [unmarshalFields]
      rw [← hsplit2] at hm2
      rw [← hsplit] at hm1
      simp only [hp, hm1, hm2]
    · rw [hc2]
      simp [encodeValues, List.append_assoc]
termination_by sizeOf fs

/-- Decoding a field of a static structure at the cursor, over the bytes its value was
written to, gives the value back and moves the cursor past it. -/
theorem static_unmarshalStructField (f : Field Kind) (v : Value) (tags : TagMap)
    (m : Metadata) (pre rest : List Nat) (hc : StaticCase f v)
    (hp : parseTags f.tag = .ok tags) (hcur : m.CurrOffset = (pre.length : Int)) :
    ∃ m1, unmarshalStructField (pre ++ encodeValue v ++ rest)
          { m with CurrField := f.name, Tags := tags } f = .ok (v, m1)
      ∧ m1.CurrOffset = ((pre ++ encodeValue v).length : Int) ∧ m1.Lens = m.Lens
      ∧ m1.Offsets = m.Offsets ∧ m1.ParentBuf = m.ParentBuf := by
  cases hc with
  | uint8 name tag tags2 n hp2 hn =>
    rw [unmarshalStructField_uint8 _ _ _ _ ?h0 ?h1]
    case h0 => simp [hcur]
    case h1 => simp [hcur, encodeValue]; try omega
    simp only [hcur, Int.toNat_ofNat, encodeValue]
    rw [take_drop_middle _ _ _ _ (by simp), leValue_leBytes _ _ (by simpa using hn)]
    exact ⟨_, rfl, by simp, rfl, rfl, rfl⟩
  | uint64 name tag tags2 n hp2 hn =>
    rw [unmarshalStructField_uint64 _ _ _ _ ?h0 ?h1]
    case h0 => simp [hcur]
    case h1 => simp [hcur, encodeValue]; try omega
    simp only [hcur, Int.toNat_ofNat, encodeValue]
    rw [take_drop_middle _ _ _ _ (by simp), leValue_leBytes _ _ (by simpa using hn)]
    exact ⟨_, rfl, by simp, rfl, rfl, rfl⟩
  | uint16 name tag tags2 n hp2 hlen hoff hn =>
    simp only at hp
    rw [hp2] at hp
    cases hp
    rw [unmarshalStructField_uint16 _ _ _ _ ?h0 ?h1 ?ht]
    case h0 => simp [hcur]
    case h1 => simp [hcur, encodeValue]; try omega
    case ht => exact hlen
    simp only [hcur, Int.toNat_ofNat, encodeValue]
    rw [take_drop_middle _ _ _ _ (by simp), leValue_leBytes _ _ (by simpa using hn)]
    exact ⟨_, rfl, by simp, rfl, rfl, rfl⟩
  | uint32 name tag tags2 n hp2 hlen hoff hn =>
    simp only at hp
    rw [hp2] at hp
    cases hp
    rw [unmarshalStructField_uint32 _ _ _ _ ?h0 ?h1 ?ht]
    case h0 => simp [hcur]
    case h1 => simp [hcur, encodeValue]; try omega
    case ht => exact hoff
    simp only [hcur, Int.toNat_ofNat, encodeValue]
    rw [take_drop_middle _ _ _ _ (by simp), leValue_leBytes _ _ (by simpa using hn)]
    exact ⟨_, rfl, by simp, rfl, rfl, rfl⟩
  | fixed name tag tags2 b hp2 hpad hfix hget hb =>
    simp only at hp
    rw [hp2] at hp
    cases hp
    rw [unmarshalStructField_fixed _ _ _ _ (b.length : Int) ?h0 ?hn ?h1 ?hp ?ht ?hg]
    case h0 => simp [hcur]
    case hn => omega
    case h1 => simp [hcur, encodeValue]; try omega
    case hp => exact hpad
    case ht => exact hfix
    case hg => exact hget
    simp only [hcur, Int.toNat_ofNat, encodeValue]
    rw [take_drop_middle _ _ _ _ rfl]
    exact ⟨_, rfl, by simp, rfl, rfl, rfl⟩
  | struct name tag tags2 fs vs hp2 hs =>
    obtain ⟨m1, hm1, hc1, _, _, _⟩ := static_unmarshalFields fs vs
      (structMetadata { m with CurrField := name, Tags := tags }) [] rest hs
      (by simp [structMetadata])
    have hdrop : List.drop pre.length (pre ++ encodeValues vs ++ rest)
        = [] ++ encodeValues vs ++ rest := by
      rw [List.append_assoc, List.drop_left' rfl]
      simp
    simp only [structMetadata] at hm1
    simp only [unmarshalStructField, encodeValue]
    rw [sliceFrom_ok _ _ (by simp [hcur]) (by simp [hcur]; try omega)]
    simp only [unmarshalKind, hcur, Int.toNat_ofNat, hdrop, structMetadata, hm1, finishStruct]
    exact ⟨_, rfl, by simp [hc1], rfl, rfl, rfl⟩
  | ptr name tag tags2 fs vs hp2 hs =>
    obtain ⟨m1, hm1, hc1, _, _, _⟩ := static_unmarshalFields fs vs
      (structMetadata { m with CurrField := name, Tags := tags }) [] rest hs
      (by simp [structMetadata])
    have hdrop : List.drop pre.length (pre ++ encodeValues vs ++ rest)
        = [] ++ encodeValues vs ++ rest := by
      rw [List.append_assoc, List.drop_left' rfl]
      simp
    simp only [structMetadata] at hm1
    simp only [unmarshalStructField, encodeValue]
    rw [sliceFrom_ok _ _ (by simp [hcur]) (by simp [hcur]; try omega)]
    simp only [unmarshalKind, hcur, Int.toNat_ofNat, hdrop, structMetadata, hm1, finishStruct]
    exact ⟨_, rfl, by simp [hc1], rfl, rfl, rfl⟩
termination_by sizeOf f

end

theorem staticLeaf_of_flat {f : Field Kind} {v : Value} (h : staticLeafOK f v = true) :
    StaticCase f v := by
  obtain ⟨name, tag, kind⟩ := f
  exact staticLeafOK_cases _ _ _ _ h

theorem flatFieldOK_cases (size offset : String → Option Nat) (hdrs offs : List String)
    (tail : Bool) (f : Field Kind) (v : Value)
    (h : flatFieldOK size offset hdrs offs tail f v = true) :
    FlatCase size offset hdrs offs tail f v := by
  obtain ⟨name, tag, kind⟩ := f
  unfold flatFieldOK flatField at h
  cases hp : parseTags tag with
  | error e => simp [hp] at h
  | ok tags =>
    simp only [hp] at h
    cases kind with
    | uint8 =>
      cases v <;> simp at h
      exact .static _ _ h.1 (.uint8 name tag tags _ hp h.2)
    | uint16 =>
      by_cases ho : tags.Has "offset" = true
      · simp [ho] at h
      · by_cases hl : tags.Has "len" = true
        · cases hg : tags.GetString "len" with
          | error e => simp [ho, hl, hg] at h
          | ok ref =>
            cases v <;> simp [ho, hl, hg] at h
            exact .header name tag tags _ ref hp hl hg (by simpa using ho) h.1.1 h.1.2 h.2
        · cases v <;> simp [ho, hl] at h
          exact .static _ _ h.1
            (.uint16 name tag tags _ hp (by simpa using hl) (by simpa using ho) h.2)
    | uint32 =>
      by_cases hl : tags.Has "len" = true
      · simp [hl] at h
      · by_cases ho : tags.Has "offset" = true
        · cases hg : tags.GetString "offset" with
          | error e => simp [ho, hl, hg] at h
          | ok ref =>
            cases v <;> simp [ho, hl, hg] at h
            exact .offsetHeader name tag tags _ ref hp (by simpa using hl) ho hg h.1.1 h.1.2 h.2
        · cases v <;> simp [ho, hl] at h
          exact .static _ _ h.1
            (.uint32 name tag tags _ hp (by simpa using hl) (by simpa using ho) h.2)
    | uint64 =>
      cases v <;> simp at h
      exact .static _ _ h.1 (.uint64 name tag tags _ hp h.2)
    | slice elem =>
      cases elem <;> try (simp at h; done)
      by_cases hpad : tags.Has TagPad = true
      · simp [hpad] at h
      · by_cases hf : tags.Has TagFixed = true
        · cases hg : tags.GetInt TagFixed with
          | error e => simp [hpad, hf, hg] at h
          | ok k =>
            by_cases hk : 0 ≤ k
            · cases v <;> simp [hpad, hf, hg, hk] at h
              rename_i b
              have hkb : k = (b.length : Int) := by omega
              subst hkb
              exact .static _ _ h.1.1
                (.fixed name tag tags _ hp (by simpa using hpad) hf hg h.2)
            · simp [hpad, hf, hg, hk] at h
        · cases v <;> simp [hpad, hf] at h
          by_cases hmo : name ∈ offs
          · exact .tailBlock name tag tags _ hp (by simpa using hpad) (by simpa using hf)
              h.1.2 hmo h.1.1
          · exact .block name tag tags _ hp (by simpa using hpad) (by simpa using hf)
              h.1.2 hmo (by simpa [hmo] using h.2) h.1.1
    | struct fs =>
      cases v <;> simp at h
      exact .static _ _ h.1 (.struct name tag tags fs _ hp h.2)
    | ptr e =>
      cases e <;> cases v <;> simp at h
      rename_i fs t
      cases t with
      | none => simp at h
      | some x =>
        cases x <;> simp at h
        exact .static _ _ h.1 (.ptr name tag tags fs _ hp h.2)
    | string => simp at h
    | custom c u => simp at h
    | other => simp at h

theorem static_marshalField_none (f : Field Kind) (v : Value) (parent : List Sibling)
    (hc : StaticCase f v) : marshalField f v none parent = .ok (encodeValue v, none) := by
  cases hc with
  | uint8 name tag tags2 n hp2 hn =>
    simp [marshalField, marshalKind, marshalUint8, encodeValue]
  | uint64 name tag tags2 n hp2 hn =>
    simp [marshalField, marshalKind, marshalUint64, encodeValue]
  | uint16 name tag tags2 n hp2 hlen hoff hn =>
    simp [marshalField, marshalKind, marshalUint16, encodeValue]
  | uint32 name tag tags2 n hp2 hlen hoff hn =>
    simp [marshalField, marshalKind, marshalUint32, encodeValue]
  | fixed name tag tags2 b hp2 hpad hfix hget hb =>
    simp [marshalField, marshalKind, encodeValue]
  | struct name tag tags2 fs vs hp2 hs =>
    have hr := static_marshalFields fs vs (siblings fs vs) marshalMetadata hs
    simp [marshalField, marshalKind, hr, encodeValue]
  | ptr name tag tags2 fs vs hp2 hs =>
    have hr := static_marshalFields fs vs (siblings fs vs) marshalMetadata hs
    simp [marshalField, marshalKind, hr, encodeValue]

theorem marshalField_none {size offset : String → Option Nat} {hdrs offs : List String}
    {tail : Bool} {f : Field Kind} {v : Value} (hc : FlatCase size offset hdrs offs tail f v) :
    marshalField f v none [] = .ok (encodeValue v, none) := by
  cases hc with
  | static f v ht hs => exact static_marshalField_none f v [] hs
  | header name tag tags n ref hp hlen hget hoff ht hn hsize =>
    simp [marshalField, marshalKind, marshalUint16, encodeValue]
  | offsetHeader name tag tags n ref hp hlen hoff hget ht hn hsize =>
    simp [marshalField, marshalKind, marshalUint32, encodeValue]
  | block name tag tags b hp hpad hfix hmem hno ht hb =>
    simp [marshalField, marshalKind, encodeValue]
  | tailBlock name tag tags b hp hpad hfix hmem hmo hb =>
    simp [marshalField, marshalKind, encodeValue]

mutual

theorem static_length_encodeValues (fs : List (Field Kind)) (vs : List Value)
    (h : staticFieldsOK fs vs = true) : (encodeValues vs).length = valueSizes vs := by
  match fs, vs, h with
  | [], [], _ => simp [encodeValues, valueSizes]
  | [], _ :: _, h => simp [staticFieldsOK] at h
  | _ :: _, [], h => simp [staticFieldsOK] at h
  | f :: fs, v :: vs, h =>
    obtain ⟨hc, hrest⟩ := staticFieldsOK_cons h
    simp only [encodeValues, valueSizes, List.length_append]
    rw [static_length_encodeValue f v hc, static_length_encodeValues fs vs hrest]
termination_by sizeOf fs

theorem static_length_encodeValue (f : Field Kind) (v : Value) (hc : StaticCase f v) :
    (encodeValue v).length = valueSize v := by
  cases hc with
  | uint8 name tag tags2 n hp2 hn => simp [encodeValue, valueSize]
  | uint64 name tag tags2 n hp2 hn => simp [encodeValue, valueSize]
  | uint16 name tag tags2 n hp2 hlen hoff hn => simp [encodeValue, valueSize]
  | uint32 name tag tags2 n hp2 hlen hoff hn => simp [encodeValue, valueSize]
  | fixed name tag tags2 b hp2 hpad hfix hget hb => simp [encodeValue, valueSize]
  | struct name tag tags2 fs vs hp2 hs =>
    simp only [encodeValue, valueSize]
    exact static_length_encodeValues fs vs hs
  | ptr name tag tags2 fs vs hp2 hs =>
    simp only [encodeValue, valueSize]
    exact static_length_encodeValues fs vs hs
termination_by sizeOf f

end

theorem length_encodeValue_of_case {size offset : String → Option Nat}
    {hdrs offs : List String} {tail : Bool} {f : Field Kind} {v : Value}
    (hc : FlatCase size offset hdrs offs tail f v) :
    (encodeValue v).length = valueSize v := by
  cases hc with
  | static f v ht hs => exact static_length_encodeValue f v hs
  | header name tag tags n ref hp hlen hget hoff ht hn hsize => simp [encodeValue, valueSize]
  | offsetHeader name tag tags n ref hp hlen hoff hget ht hn hsize =>
    simp [encodeValue, valueSize]
  | block name tag tags b hp hpad hfix hmem hno ht hb => simp [encodeValue, valueSize]
  | tailBlock name tag tags b hp hpad hfix hmem hmo hb => simp [encodeValue, valueSize]

theorem flatFieldsOK_cons {size offset : String → Option Nat} {hdrs offs : List String}
    {tail : Bool} {f : Field Kind} {fs : Shape} {v : Value} {vs : List Value}
    (h : flatFieldsOK size offset hdrs offs tail (f :: fs) (v :: vs) = true) :
    FlatCase size offset hdrs offs tail f v
      ∧ flatFieldsOK size offset (addHeader hdrs f) (addOffset offs f)
          (tail || decide (f.name ∈ offs)) fs vs = true := by
  simp only [flatFieldsOK, Bool.and_eq_true] at h
  exact ⟨flatFieldOK_cases _ _ _ _ _ _ _ h.1, h.2⟩

theorem flatCase_of_flatFieldsOK {size offset : String → Option Nat} (fs : Shape) :
    ∀ (vs : List Value) (hdrs offs : List String) (tail : Bool),
      flatFieldsOK size offset hdrs offs tail fs vs = true →
      ∀ p ∈ fs.zip vs, ∃ hdrs2 offs2 tail2, FlatCase size offset hdrs2 offs2 tail2 p.1 p.2 := by
  induction fs with
  | nil => intro vs hdrs offs tail _ p hp; simp at hp
  | cons f fs ih =>
    intro vs hdrs offs tail h p hp
    cases vs with
    | nil => simp at hp
    | cons v vs =>
      obtain ⟨hc, hrest⟩ := flatFieldsOK_cons h
      simp only [List.zip_cons_cons, List.mem_cons] at hp
      rcases hp with rfl | hp
      · exact ⟨_, _, _, hc⟩
      · exact ih vs _ _ _ hrest p hp

theorem siblings_eq_flat (fs : Shape) :
    ∀ (vs : List Value),
      (∀ p ∈ fs.zip vs, marshalField p.1 p.2 none [] = .ok (encodeValue p.2, none)) →
      siblings fs vs = flatSiblings fs vs := by
  induction fs with
  | nil => intro vs _; cases vs <;> simp [siblings, flatSiblings]
  | cons f fs ih =>
    intro vs h
    cases vs with
    | nil => simp [siblings, flatSiblings]
    | cons v vs =>
      rw [siblings, flatSiblings, ih vs (fun p hp => h p (by simp [hp])), h (f, v) (by simp)]

theorem lensAgree_cons {size : String → Option Nat} {lens : List (String × Int)}
    {name : String} {n : Nat} (h : LensAgree size lens) (hs : size name = some n) :
    LensAgree size ((name, (n : Int)) :: lens) := by
  intro x l hl
  by_cases hx : x = name
  · subst hx
    simp [List.lookup] at hl
    exact ⟨n, hs, hl.symm⟩
  · have hb : (x == name) = false := by simpa using hx
    simp only [List.lookup, hb] at hl
    exact h x l hl

theorem getFieldLengthByName_skip (s : Sibling) (rest : List Sibling) (m : Metadata)
    (ref : String) (hne : s.name ≠ ref) :
    getFieldLengthByName ref m (s :: rest) = getFieldLengthByName ref m rest := by
  unfold getFieldLengthByName
  simp only [List.find?, hne, decide_False]

theorem getFieldLengthByName_head {size offset : String → Option Nat}
    {hdrs offs : List String} {tail : Bool} {f : Field Kind} {v : Value}
    (hc : FlatCase size offset hdrs offs tail f v) (rest : List Sibling) (m : Metadata)
    (hlook : m.Lens.lookup f.name = none) :
    getFieldLengthByName f.name m
        ({ name := f.name, kind := f.kind, value := v, marshalled := .ok (encodeValue v) } :: rest)
      = .ok ((valueSize v : Int),
          { m with Lens := (f.name, (valueSize v : Int)) :: m.Lens }) := by
  have hlen := length_encodeValue_of_case hc
  unfold getFieldLengthByName
  simp only [hlook, List.find?, decide_True]
  cases hc with
  | static f v ht hs =>
    cases hs with
    | uint8 name tag tags2 n hp2 hn => simp [fieldKindLength, valueSize]
    | uint64 name tag tags2 n hp2 hn => simp [fieldKindLength, valueSize]
    | uint16 name tag tags2 n hp2 hlen hoff hn => simp [fieldKindLength, valueSize]
    | uint32 name tag tags2 n hp2 hlen hoff hn => simp [fieldKindLength, valueSize]
    | fixed name tag tags2 b hp2 hpad hfix hget hb => simp [fieldKindLength, valueSize]
    | struct name tag tags2 fs vs hp2 hs => simp [fieldKindLength, hlen]
    | ptr name tag tags2 fs vs hp2 hs => simp [fieldKindLength, hlen]
  | header name tag tags n ref hp hlen hget hoff ht hn hsize =>
    simp [fieldKindLength, valueSize]
  | offsetHeader name tag tags n ref hp hlen hoff hget ht hn hsize =>
    simp [fieldKindLength, valueSize]
  | block name tag tags b hp hpad hfix hmem hno ht hb => simp [fieldKindLength, valueSize]
  | tailBlock name tag tags b hp hpad hfix hmem hmo hb => simp [fieldKindLength, valueSize]

theorem parentAgree_flatSiblings {size offset : String → Option Nat} (fs : Shape) :
    ∀ (vs : List Value),
      (∀ p ∈ fs.zip vs, ∃ hdrs offs tail, FlatCase size offset hdrs offs tail p.1 p.2) →
      ParentAgree (sizeByName fs vs) (flatSiblings fs vs) := by
  induction fs with
  | nil =>
    intro vs _ ref n m h
    simp [sizeByName] at h
  | cons f fs ih =>
    intro vs hall ref n m h hlook
    cases vs with
    | nil => simp [sizeByName] at h
    | cons v vs =>
      rw [flatSiblings]
      by_cases hname : f.name = ref
      · simp only [sizeByName, List.zip_cons_cons, List.find?, hname, decide_True,
          Option.map_some', Option.some.injEq] at h
        obtain ⟨hdrs, offs, tail, hc⟩ := hall (f, v) (by simp)
        subst hname
        subst h
        exact getFieldLengthByName_head hc _ m hlook
      · rw [getFieldLengthByName_skip _ _ _ _ hname]
        exact ih vs (fun p hp => hall p (by simp [hp])) ref n m
          (by simpa [sizeByName, List.find?, hname] using h) hlook

theorem getFieldLengthByName_flat {size : String → Option Nat} {parent : List Sibling}
    (m : Metadata) (ref : String) (n : Nat) (hl : LensAgree size m.Lens)
    (hp : ParentAgree size parent) (hs : size ref = some n) :
    ∃ m1, getFieldLengthByName ref m parent = .ok ((n : Int), m1) ∧ m1.Tags = m.Tags
      ∧ LensAgree size m1.Lens := by
  cases hlook : m.Lens.lookup ref with
  | some l =>
    obtain ⟨k, hk, hlk⟩ := hl ref l hlook
    rw [hs] at hk
    cases hk
    exact ⟨m, by simp [getFieldLengthByName, hlook, hlk], rfl, hl⟩
  | none =>
    exact ⟨_, hp ref n m hs hlook, rfl, lensAgree_cons hl hs⟩

theorem getOffsetLoop_flatSiblings {size : String → Option Nat} (ref : String)
    (fs : Shape) :
    ∀ (vs : List Value) (n : Nat) (ret : Int) (m : Metadata),
      (∀ p ∈ fs.zip vs, size p.1.name = some (valueSize p.2)
        ∧ (encodeValue p.2).length = valueSize p.2) →
      offsetByName fs vs ref = some n → LensAgree size m.Lens →
      ∃ m1, getOffsetLoop ref (flatSiblings fs vs) ret m = .ok (ret + (n : Int), m1)
        ∧ m1.Tags = m.Tags ∧ LensAgree size m1.Lens := by
  induction fs with
  | nil => intro vs n ret m _ h; simp [offsetByName] at h
  | cons f fs ih =>
    intro vs n ret m hall h hl
    cases vs with
    | nil => simp [offsetByName] at h
    | cons v vs =>
      rw [flatSiblings, getOffsetLoop]
      by_cases hname : f.name = ref
      · simp only [offsetByName, hname, if_true, Option.some.injEq] at h
        subst h
        exact ⟨m, by simp [hname], rfl, hl⟩
      · simp only [offsetByName, hname, if_false, Option.map_eq_some'] at h
        obtain ⟨k, hk, rfl⟩ := h
        obtain ⟨hsz, hlen⟩ := hall (f, v) (by simp)
        simp only [hname, if_false]
        cases hlook : m.Lens.lookup f.name with
        | some l =>
          obtain ⟨j, hj, hlj⟩ := hl f.name l hlook
          simp only at hsz
          rw [hsz] at hj
          cases hj
          subst hlj
          obtain ⟨m1, h1, h2, h3⟩ := ih vs k (ret + (valueSize v : Int)) m
            (fun p hp => hall p (by simp [hp])) hk hl
          refine ⟨m1, ?_, h2, h3⟩
          simp only [h1, Nat.cast_add, Except.ok.injEq, Prod.mk.injEq, and_true]
          omega
        | none =>
          simp only at hsz hlen
          obtain ⟨m1, h1, h2, h3⟩ := ih vs k (ret + ((encodeValue v).length : Int))
            { m with Lens := (f.name, ((encodeValue v).length : Int)) :: m.Lens }
            (fun p hp => hall p (by simp [hp])) hk
            (by rw [hlen]; exact lensAgree_cons hl hsz)
          refine ⟨m1, ?_, h2, h3⟩
          rw [h1]
          simp only [hlen, Nat.cast_add, Except.ok.injEq, Prod.mk.injEq, and_true]
          omega

theorem parentOffsets_flatSiblings {size : String → Option Nat} (fs : Shape)
    (vs : List Value)
    (hall : ∀ p ∈ fs.zip vs, size p.1.name = some (valueSize p.2)
        ∧ (encodeValue p.2).length = valueSize p.2) :
    ParentOffsets size (offsetByName fs vs) (flatSiblings fs vs) := by
  intro ref n m h hl
  obtain ⟨m1, h1, h2, h3⟩ := getOffsetLoop_flatSiblings ref fs vs n 0 m hall h hl
  exact ⟨m1, by simpa [getOffsetByFieldName] using h1, h2, h3⟩

theorem parseTags_of_case {size offset : String → Option Nat} {hdrs offs : List String}
    {tail : Bool} {f : Field Kind} {v : Value}
    (hc : FlatCase size offset hdrs offs tail f v) : ∃ tags, parseTags f.tag = .ok tags := by
  cases hc with
  | static f v ht hs => exact parseTags_of_static hs
  | header name tag tags n ref hp hlen hget hoff ht hn hsize => exact ⟨_, hp⟩
  | offsetHeader name tag tags n ref hp hlen hoff hget ht hn hsize => exact ⟨_, hp⟩
  | block name tag tags b hp hpad hfix hmem hno ht hb => exact ⟨_, hp⟩
  | tailBlock name tag tags b hp hpad hfix hmem hmo hb => exact ⟨_, hp⟩

theorem marshalField_flat {size offset : String → Option Nat} {hdrs offs : List String}
    {tail : Bool} {parent : List Sibling} {f : Field Kind} {v : Value} (tags : TagMap)
    (m : Metadata) (hc : FlatCase size offset hdrs offs tail f v)
    (hp : parseTags f.tag = .ok tags) (hl : LensAgree size m.Lens)
    (hpa : ParentAgree size parent) (hpo : ParentOffsets size offset parent) :
    ∃ m1, marshalField f v (some { m with Tags := tags }) parent
        = .ok (encodeValue v, some m1) ∧ LensAgree size m1.Lens := by
  cases hc with
  | static f v ht hs =>
    exact ⟨{ m with Tags := tags }, static_marshalField f v tags m parent hs hp, hl⟩
  | header name tag tags2 n ref hp2 hlen hget hoff ht hn hsize =>
    simp only at hp
    rw [hp2] at hp
    cases hp
    obtain ⟨m1, h1, h2, h3⟩ :=
      getFieldLengthByName_flat { m with Tags := tags } ref n hl hpa hsize
    refine ⟨m1, ?_, h3⟩
    simp only at h2
    have htr : truncate 16 (n : Int) = n := truncate_of_lt 16 n hn
    simp [marshalField, marshalKind, marshalUint16, resolveHeader, hlen, hget, h1, h2, hoff,
      htr, encodeValue]
  | offsetHeader name tag tags2 n ref hp2 hlen hoff hget ht hn hsize =>
    simp only at hp
    rw [hp2] at hp
    cases hp
    obtain ⟨m1, h1, h2, h3⟩ := hpo ref n { m with Tags := tags } hsize hl
    refine ⟨m1, ?_, h3⟩
    have htr : truncate 32 (n : Int) = n := truncate_of_lt 32 n hn
    simp [marshalField, marshalKind, marshalUint32, resolveHeader, hlen, hget, h1, hoff,
      htr, encodeValue]
  | block name tag tags2 b hp2 hpad hfix hmem hno ht hb =>
    exact ⟨{ m with Tags := tags }, by simp [marshalField, marshalKind, encodeValue], hl⟩
  | tailBlock name tag tags2 b hp2 hpad hfix hmem hmo hb =>
    exact ⟨{ m with Tags := tags }, by simp [marshalField, marshalKind, encodeValue], hl⟩

theorem marshalFields_flat {size offset : String → Option Nat} {parent : List Sibling}
    (hpa : ParentAgree size parent) (hpo : ParentOffsets size offset parent) (fs : Shape) :
    ∀ (vs : List Value) (hdrs offs : List String) (tail : Bool) (m : Metadata),
      flatFieldsOK size offset hdrs offs tail fs vs = true →
      (∀ p ∈ fs.zip vs, size p.1.name = some (valueSize p.2)) →
      LensAgree size m.Lens →
      marshalFields fs vs parent m = .ok (encodeValues vs) := by
  induction fs with
  | nil =>
    intro vs hdrs offs tail m h _ _
    cases vs with
    | nil => simp [marshalFields, encodeValues]
    | cons v vs => simp [flatFieldsOK] at h
  | cons f fs ih =>
    intro vs hdrs offs tail m h hself hl
    cases vs with
    | nil => simp [flatFieldsOK] at h
    | cons v vs =>
      obtain ⟨hc, hrest⟩ := flatFieldsOK_cons h
      obtain ⟨tags, hp⟩ := parseTags_of_case hc
      obtain ⟨m1, hm1, hl1⟩ := marshalField_flat tags m hc hp hl hpa hpo
      have hsz : size f.name = some (valueSize v) := hself (f, v) (by simp)
      have hl2 : LensAgree size ((f.name, ((encodeValue v).length : Int)) :: m1.Lens) := by
        rw [length_encodeValue_of_case hc]
        exact lensAgree_cons hl1 hsz
      have hrec := ih vs _ _ _
        { m1 with Lens := (f.name, ((encodeValue v).length : Int)) :: m1.Lens } hrest
        (fun p hp => hself p (by simp [hp])) hl2
      rw [marshalFields]
      simp only [hp, hm1, Option.getD_some, hrec, encodeValues]

theorem sizeByName_self (fs : Shape) :
    ∀ (vs : List Value), (fs.map (fun f => f.name)).Nodup →
      ∀ p ∈ fs.zip vs, sizeByName fs vs p.1.name = some (valueSize p.2) := by
  induction fs with
  | nil => intro vs _ p hp; simp at hp
  | cons f fs ih =>
    intro vs hnd p hp
    cases vs with
    | nil => simp at hp
    | cons v vs =>
      simp only [List.map_cons, List.nodup_cons] at hnd
      simp only [List.zip_cons_cons, List.mem_cons] at hp
      rcases hp with rfl | hp
      · simp [sizeByName, List.find?]
      · have hne : f.name ≠ p.1.name := by
          intro heq
          apply hnd.1
          rw [heq]
          exact List.mem_map.mpr ⟨p.1, (List.of_mem_zip hp).1, rfl⟩
        have := ih vs hnd.2 p hp
        simpa [sizeByName, List.find?, hne] using this

theorem Marshal_struct (fields : Shape) (vals : List Value) :
    Marshal (.struct fields) (.struct vals) =
      marshalFields fields vals (siblings fields vals) marshalMetadata := by
  simp only [Marshal, marshal, marshalField, marshalKind]
  cases marshalFields fields vals (siblings fields vals) marshalMetadata <;> rfl

theorem Marshal_flat (fields : Shape) (vals : List Value) (h : flatRecord fields vals = true) :
    Marshal (.struct fields) (.struct vals) = .ok (encodeValues vals) := by
  simp only [flatRecord, Bool.and_eq_true, decide_eq_true_eq] at h
  have hcases := flatCase_of_flatFieldsOK fields vals [] [] false h.2
  have hself := sizeByName_self fields vals h.1
  have hsib : siblings fields vals = flatSiblings fields vals :=
    siblings_eq_flat fields vals (fun p hp => by
      obtain ⟨_, _, _, hc⟩ := hcases p hp
      exact marshalField_none hc)
  rw [Marshal_struct, hsib]
  exact marshalFields_flat (parentAgree_flatSiblings fields vals hcases)
    (parentOffsets_flatSiblings fields vals (fun p hp => by
      obtain ⟨_, _, _, hc⟩ := hcases p hp
      exact ⟨hself p hp, length_encodeValue_of_case hc⟩))
    fields vals [] [] false marshalMetadata h.2 hself
    (by intro name l hl; simp [marshalMetadata] at hl)

theorem addHeader_static {f : Field Kind} {v : Value} (hc : StaticCase f v)
    (hs os : List String) : addHeader hs f = hs ∧ addOffset os f = os := by
  cases hc with
  | uint8 name tag tags n hp hn => simp [addHeader, addOffset, flatField, hp]
  | uint64 name tag tags n hp hn => simp [addHeader, addOffset, flatField, hp]
  | uint16 name tag tags n hp hlen hoff hn =>
    simp [addHeader, addOffset, flatField, hp, hlen, hoff]
  | uint32 name tag tags n hp hlen hoff hn =>
    simp [addHeader, addOffset, flatField, hp, hlen, hoff]
  | fixed name tag tags b hp hpad hfix hget hb =>
    simp [addHeader, addOffset, flatField, hp, hpad, hfix, hget]
  | struct name tag tags fs vs hp hs => simp [addHeader, addOffset, flatField, hp]
  | ptr name tag tags fs vs hp hs => simp [addHeader, addOffset, flatField, hp]

theorem lookup_cons_of_mem {lens : List (String × Int)} {hs : List String} (ref : String)
    (n : Int) (h : ∀ r ∈ hs, ∃ l, lens.lookup r = some l) :
    ∀ r ∈ ref :: hs, ∃ l, ((ref, n) :: lens).lookup r = some l := by
  intro r hr
  by_cases hx : r = ref
  · subst hx
    exact ⟨n, by simp [List.lookup]⟩
  · have hb : (r == ref) = false := by simpa using hx
    simp only [List.mem_cons, hx, false_or] at hr
    obtain ⟨l, hl⟩ := h r hr
    exact ⟨l, by simp only [List.lookup, hb, hl]⟩

theorem offsetsAgree_cons {offset : String → Option Nat} {offs : List String}
    {offsets : List (String × Int)} {ref : String} {n : Nat}
    (h : OffsetsAgree offset offs offsets) (hs : offset ref = some n) :
    OffsetsAgree offset (ref :: offs) ((ref, (n : Int)) :: offsets) := by
  refine ⟨?_, lookup_cons_of_mem ref n h.2⟩
  intro x o ho
  by_cases hx : x = ref
  · subst hx
    simp [List.lookup] at ho
    exact ⟨by simp, n, hs, ho.symm⟩
  · have hb : (x == ref) = false := by simpa using hx
    simp only [List.lookup, hb] at ho
    obtain ⟨h1, h2⟩ := h.1 x o ho
    exact ⟨by simp [h1], h2⟩

theorem positions_of_nodup (size offset : String → Option Nat) (fs : Shape) :
    ∀ (vs : List Value) (pos : Nat), (fs.map (fun f => f.name)).Nodup →
      (∀ f ∈ fs, size f.name = sizeByName fs vs f.name
        ∧ offset f.name = (offsetByName fs vs f.name).map (fun n => pos + n)) →
      Positions size offset pos fs vs := by
  induction fs with
  | nil => intro vs pos _ _; simp [Positions]
  | cons f fs ih =>
    intro vs pos hnd h
    cases vs with
    | nil => simp [Positions]
    | cons v vs =>
      simp only [List.map_cons, List.nodup_cons] at hnd
      have hhead := h f (by simp)
      simp only [sizeByName, offsetByName, List.zip_cons_cons, List.find?, decide_True,
        if_true, Option.map_some', Nat.add_zero] at hhead
      refine ⟨hhead.1, hhead.2, ih vs _ hnd.2 ?_⟩
      intro g hg
      have hne : f.name ≠ g.name := by
        intro heq
        apply hnd.1
        rw [heq]
        exact List.mem_map.mpr ⟨g, hg, rfl⟩
      have hg2 := h g (by simp [hg])
      simp only [sizeByName, offsetByName, List.zip_cons_cons, List.find?, hne, decide_False,
        if_false, Option.map_map] at hg2
      refine ⟨by simpa [sizeByName] using hg2.1, ?_⟩
      rw [hg2.2]
      congr 1
      funext n
      simp only [Function.comp]
      omega

/-- Decoding one field of a flat record, over the bytes the record was encoded to,
gives back the value of the field; the cursor moves past the bytes of the field unless
an offset addresses it. -/
theorem unmarshalStructField_flat {size offset : String → Option Nat}
    {hdrs offs : List String} {tail : Bool} {f : Field Kind} {v : Value} (tags : TagMap)
    (m : Metadata) (pre rest : List Nat) (hc : FlatCase size offset hdrs offs tail f v)
    (hp : parseTags f.tag = .ok tags) (hself : size f.name = some (valueSize v))
    (hpos : offset f.name = some pre.length)
    (hbuf : m.ParentBuf = pre ++ encodeValue v ++ rest)
    (hc0 : 0 ≤ m.CurrOffset) (hc1 : m.CurrOffset ≤ (pre.length : Int))
    (hcur : tail = false → m.CurrOffset = (pre.length : Int))
    (hl : LensAgree size m.Lens) (hh : ∀ ref ∈ hdrs, ∃ l, m.Lens.lookup ref = some l)
    (ho : OffsetsAgree offset offs m.Offsets) :
    ∃ m1, unmarshalStructField (pre ++ encodeValue v ++ rest)
          { m with CurrField := f.name, Tags := tags } f = .ok (v, m1)
      ∧ m1.ParentBuf = pre ++ encodeValue v ++ rest
      ∧ 0 ≤ m1.CurrOffset ∧ m1.CurrOffset ≤ ((pre ++ encodeValue v).length : Int)
      ∧ ((tail || decide (f.name ∈ offs)) = false →
          m1.CurrOffset = ((pre ++ encodeValue v).length : Int))
      ∧ LensAgree size m1.Lens
      ∧ (∀ ref ∈ addHeader hdrs f, ∃ l, m1.Lens.lookup ref = some l)
      ∧ OffsetsAgree offset (addOffset offs f) m1.Offsets := by
  cases hc with
  | static f v ht hs =>
    obtain ⟨m1, h1, h2, h3, h4, h5⟩ :=
      static_unmarshalStructField f v tags m pre rest hs hp (hcur ht)
    obtain ⟨ha, hb⟩ := addHeader_static hs hdrs offs
    rw [ha, hb]
    exact ⟨m1, h1, by rw [h5, hbuf], by rw [h2]; omega, by rw [h2], fun _ => h2,
      by rw [h3]; exact hl, by rw [h3]; exact hh, by rw [h4]; exact ho⟩
  | header name tag tags2 n ref hp2 hlen hget hoff ht hn hsize =>
    simp only at hp
    rw [hp2] at hp
    cases hp
    have hcu := hcur ht
    have ha : addHeader hdrs ⟨name, tag, .uint16⟩ = ref :: hdrs := by
      simp [addHeader, flatField, hp2, hlen, hoff, hget]
    have hb : addOffset offs ⟨name, tag, .uint16⟩ = offs := by
      simp [addOffset, flatField, hp2, hlen, hoff, hget]
    rw [ha, hb, unmarshalStructField_uint16_len _ _ _ _ ref ?h0 ?h1 ?ht ?hg]
    case h0 => simp [hcu]
    case h1 => simp [hcu, encodeValue]; try omega
    case ht => exact hlen
    case hg => exact hget
    simp only [hcu, Int.toNat_ofNat, encodeValue]
    rw [take_drop_middle _ _ _ _ (by simp), leValue_leBytes _ _ (by simpa using hn)]
    exact ⟨_, rfl, hbuf, by simp; omega, by simp, fun _ => by simp,
      lensAgree_cons hl hsize, lookup_cons_of_mem _ _ hh, ho⟩
  | offsetHeader name tag tags2 n ref hp2 hlen hoff hget ht hn hsize =>
    simp only at hp
    rw [hp2] at hp
    cases hp
    have hcu := hcur ht
    have ha : addHeader hdrs ⟨name, tag, .uint32⟩ = hdrs := by
      simp [addHeader, flatField, hp2, hlen, hoff, hget]
    have hb : addOffset offs ⟨name, tag, .uint32⟩ = ref :: offs := by
      simp [addOffset, flatField, hp2, hlen, hoff, hget]
    rw [ha, hb, unmarshalStructField_uint32_offset _ _ _ _ ref ?h0 ?h1 ?ht ?hg]
    case h0 => simp [hcu]
    case h1 => simp [hcu, encodeValue]; try omega
    case ht => exact hoff
    case hg => exact hget
    simp only [hcu, Int.toNat_ofNat, encodeValue]
    rw [take_drop_middle _ _ _ _ (by simp), leValue_leBytes _ _ (by simpa using hn)]
    exact ⟨_, rfl, hbuf, by simp; omega, by simp, fun _ => by simp, hl, hh,
      offsetsAgree_cons ho hsize⟩
  | block name tag tags2 b hp2 hpad hfix hmem hno ht hb =>
    simp only at hp
    rw [hp2] at hp
    cases hp
    have hcu := hcur ht
    obtain ⟨l, hlook⟩ := hh name hmem
    obtain ⟨k, hk1, hk2⟩ := hl name l hlook
    simp only [valueSize] at hself
    rw [hself] at hk1
    cases hk1
    subst hk2
    have hnone : m.Offsets.lookup name = none := by
      cases hlk : m.Offsets.lookup name with
      | none => rfl
      | some o => exact absurd (ho.1 name o hlk).1 hno
    have ha : addHeader hdrs ⟨name, tag, .slice .uint8⟩ = hdrs := by
      simp [addHeader, flatField, hp2, hpad, hfix]
    have hbo : addOffset offs ⟨name, tag, .slice .uint8⟩ = offs := by
      simp [addOffset, flatField, hp2, hpad, hfix]
    rw [ha, hbo, unmarshalStructField_len _ _ _ _ (b.length : Int) ?h0 ?h2 ?hl ?h1 ?hp ?ht
      ?hlen ?hoff]
    case h0 => simp [hcu]
    case h2 => simp [hcu, encodeValue]; try omega
    case hl => omega
    case h1 => simp [hcu, hbuf, encodeValue]; try omega
    case hp => exact hpad
    case ht => exact hfix
    case hlen => exact hlook
    case hoff => exact hnone
    simp only [hcu, hbuf, Int.toNat_ofNat, encodeValue]
    rw [take_drop_middle _ _ _ _ rfl]
    exact ⟨_, rfl, by simp [encodeValue], by simp; omega, by simp, fun _ => by simp, hl, hh,
      ho⟩
  | tailBlock name tag tags2 b hp2 hpad hfix hmem hmo hb =>
    simp only at hp
    rw [hp2] at hp
    cases hp
    obtain ⟨l, hlook⟩ := hh name hmem
    obtain ⟨k, hk1, hk2⟩ := hl name l hlook
    simp only [valueSize] at hself
    rw [hself] at hk1
    cases hk1
    subst hk2
    obtain ⟨o, holook⟩ := ho.2 name hmo
    obtain ⟨_, j, hj1, hj2⟩ := ho.1 name o holook
    simp only at hpos
    rw [hpos] at hj1
    cases hj1
    subst hj2
    have ha : addHeader hdrs ⟨name, tag, .slice .uint8⟩ = hdrs := by
      simp [addHeader, flatField, hp2, hpad, hfix]
    have hbo : addOffset offs ⟨name, tag, .slice .uint8⟩ = offs := by
      simp [addOffset, flatField, hp2, hpad, hfix]
    rw [ha, hbo, unmarshalStructField_offset _ _ _ _ (b.length : Int) (pre.length : Int)
      ?h0 ?h2 ?hl ?ho ?h1 ?hp ?ht ?hlen ?hoff]
    case h0 => exact hc0
    case h2 => simp [encodeValue]; try omega
    case hl => omega
    case ho => omega
    case h1 => simp [hbuf, encodeValue]; try omega
    case hp => exact hpad
    case ht => exact hfix
    case hlen => exact hlook
    case hoff => exact holook
    simp only [hbuf, Int.toNat_ofNat, encodeValue]
    rw [take_drop_middle _ _ _ _ rfl]
    exact ⟨_, rfl, by simp [encodeValue, hbuf], hc0,
      by simp only [List.length_append, Nat.cast_add]; omega,
      fun h => by simp [hmo] at h, hl, hh, ho⟩

theorem unmarshalFields_flat {size offset : String → Option Nat} (fs : Shape) :
    ∀ (vs : List Value) (hdrs offs : List String) (tail : Bool) (m : Metadata)
      (pre post : List Nat),
      flatFieldsOK size offset hdrs offs tail fs vs = true →
      Positions size offset pre.length fs vs →
      m.ParentBuf = pre ++ encodeValues vs ++ post →
      0 ≤ m.CurrOffset → m.CurrOffset ≤ (pre.length : Int) →
      (tail = false → m.CurrOffset = (pre.length : Int)) →
      LensAgree size m.Lens → (∀ ref ∈ hdrs, ∃ l, m.Lens.lookup ref = some l) →
      OffsetsAgree offset offs m.Offsets →
      ∃ m1, unmarshalFields (pre ++ encodeValues vs ++ post) fs m = .ok (vs, m1) := by
  induction fs with
  | nil =>
    intro vs hdrs offs tail m pre post h _ _ _ _ _ _ _ _
    cases vs with
    | nil => exact ⟨m, by simp [unmarshalFields]⟩
    | cons v vs => simp [flatFieldsOK] at h
  | cons f fs ih =>
    intro vs hdrs offs tail m pre post h hpos hbuf hc0 hc1 hcur hl hh ho
    cases vs with
    | nil => simp [flatFieldsOK] at h
    | cons v vs =>
      obtain ⟨hc, hrest⟩ := flatFieldsOK_cons h
      obtain ⟨tags, hp⟩ := parseTags_of_case hc
      obtain ⟨hsz, hoff, hnext⟩ := hpos
      have hsplit : pre ++ encodeValues (v :: vs) ++ post
          = pre ++ encodeValue v ++ (encodeValues vs ++ post) := by
        simp [encodeValues, List.append_assoc]
      have hsplit2 : pre ++ encodeValues (v :: vs) ++ post
          = (pre ++ encodeValue v) ++ encodeValues vs ++ post := by
        simp [encodeValues, List.append_assoc]
      obtain ⟨m1, hm1, hb1, h01, h11, hcur1, hl1, hh1, ho1⟩ :=
        unmarshalStructField_flat tags m pre (encodeValues vs ++ post) hc hp hsz hoff
          (by rw [hbuf, hsplit]) hc0 hc1 hcur hl hh ho
      obtain ⟨m2, hm2⟩ := ih vs _ _ _ m1 (pre ++ encodeValue v) post hrest
        (by rw [List.length_append, length_encodeValue_of_case hc]; exact hnext)
        (by rw [hb1, ← hsplit, hsplit2]) h01 h11 hcur1 hl1 hh1 ho1
      refine ⟨m2, ?_⟩
      rw [unmarshalFields]
      rw [← hsplit2] at hm2
      rw [← hsplit] at hm1
      simp only [hp, hm1, hm2]

theorem Unmarshal_flat (fields : Shape) (vals : List Value)
    (h : flatRecord fields vals = true) :
    Unmarshal (encodeValues vals) (.struct fields) = .ok (.struct vals) := by
  simp only [flatRecord, Bool.and_eq_true, decide_eq_true_eq] at h
  obtain ⟨m1, hm1⟩ := unmarshalFields_flat fields vals [] [] false
      (topMetadata (encodeValues vals)) [] [] h.2
    (positions_of_nodup _ _ fields vals 0 h.1 (fun f _ => ⟨rfl, by simp⟩))
    (by simp [topMetadata]) (by simp [topMetadata]) (by simp [topMetadata])
    (by simp [topMetadata])
    (by intro name l hl; simp [topMetadata] at hl) (by intro ref hr; simp at hr)
    ⟨by intro name o ho; simp [topMetadata] at ho, by intro name hn; simp at hn⟩
  simp only [List.nil_append, List.append_nil] at hm1
  rw [Unmarshal_struct, hm1]

/-- C1 as amended: for every top-level structure whose fields are unsigned integers,
`uint16` headers tagged `len:F`, `uint32` headers tagged `offset:F`, `[]byte` blocks
tagged `fixed:N`, `[]byte` blocks that have a `len` header before them, and structures
(by value or by non-nil pointer) made of unsigned integers without `len` and `offset`
directive, `fixed:N` blocks and such structures, with distinct field names and, after a
field that an earlier `offset` header names, only blocks that an earlier `offset` header
names; and for every record of it in which each integer is in the range of its type, each
byte is below 256, each `len` header stores the wire size of the field it names, each
`offset` header stores the sum of the wire sizes of the fields before the field it names
and each `fixed:N` block holds `N` bytes: `Marshal` succeeds and `Unmarshal` of its bytes
into the same structure succeeds and yields the record. -/
theorem round_trip_flat (fields : Shape) (vals : List Value)
    (h : flatRecord fields vals = true) :
    ∃ buf, Marshal (.struct fields) (.struct vals) = .ok buf
      ∧ Unmarshal buf (.struct fields) = .ok (.struct vals) :=
  ⟨_, Marshal_flat fields vals h, Unmarshal_flat fields vals h⟩

theorem round_trip_flat_witness :
    flatRecord NtlmNegotiate negotiateRecord = true
    ∧ ∃ buf, Marshal (.struct NtlmNegotiate) (.struct negotiateRecord) = .ok buf
      ∧ Unmarshal buf (.struct NtlmNegotiate) = .ok (.struct negotiateRecord) :=
  ⟨rfl, round_trip_flat NtlmNegotiate negotiateRecord rfl⟩

/-- C1 fails as stated: the record `{DataLen: 7, Data: {1}}` of the structure
`{DataLen uint16 len:Data; Data []byte}`, which has no text and no pad field, is encoded
to `{1, 0, 1}` and decoded to `{DataLen: 1, Data: {1}}`, another record. -/
theorem round_trip_stored_len_counterexample :
    Marshal (.struct TestStructWithLenField) (.struct [.u16 7, .bytes [1]]) = .ok [1, 0, 1]
    ∧ Unmarshal [1, 0, 1] (.struct TestStructWithLenField) = .ok (.struct [.u16 1, .bytes [1]])
    ∧ Value.struct [.u16 1, .bytes [1]] ≠ Value.struct [.u16 7, .bytes [1]] := by
  refine ⟨rfl, rfl, ?_⟩
  intro h
  injection h with h
  injection h with h _
  injection h with h
  exact absurd h (by decide)

/-! ## Decoding the shapes of the tests -/

/-- C2: for every `n` in `0..65535` and every buffer `LE16(n) ++ d ++ rest` with
`len(d) = n`, `Unmarshal` into `{DataLen uint16 len:Data; Data []byte}` succeeds with
`DataLen = n` and `Data = d`. -/
theorem len_directed_decode (n : Nat) (d rest : List Nat) (hn : n ≤ 65535)
    (hd : d.length = n) :
    Unmarshal (leBytes 2 n ++ d ++ rest) (.struct TestStructWithLenField)
      = .ok (.struct [.u16 n, .bytes d]) := by
  subst hd
  have hv : leValue (List.take 2 (leBytes 2 d.length ++ d ++ rest)) = d.length := by
    rw [List.append_assoc, List.take_left' (by simp)]
    exact leValue_leBytes_two _ hn
  have hdata : List.take d.length (List.drop 2 (leBytes 2 d.length ++ d ++ rest)) = d := by
    rw [List.append_assoc, List.drop_left' (by simp)]
    simp
  rw [Unmarshal_struct]
  simp only [TestStructWithLenField, unmarshalFields, parseTags_len_Data, parseTags_empty,
    topMetadata]
  rw [unmarshalStructField_uint16_len _ _ _ _ "Data" ?h0 ?h1 ?ht ?hg]
  case h0 => simp
  case h1 => simp; omega
  case ht => rfl
  case hg => rfl
  simp only [Int.toNat_zero, List.drop_zero, hv]
  rw [unmarshalStructField_len _ _ _ _ (d.length : Int) ?h0 ?h2 ?hl ?h1 ?hp ?ht ?hlen ?hoff]
  case h0 => simp
  case h2 => simp; omega
  case hl => omega
  case h1 => simp
  case hp => rfl
  case ht => rfl
  case hlen => rfl
  case hoff => rfl
  simp only [zero_add, Int.toNat_ofNat]
  rw [show Int.toNat 2 = 2 from rfl, hdata]

theorem len_directed_decode_witness :
    Unmarshal (leBytes 2 0 ++ [] ++ [7]) (.struct TestStructWithLenField)
      = .ok (.struct [.u16 0, .bytes []]) :=
  len_directed_decode 0 [] [7] (by decide) rfl

theorem leBytes_eq_map (w v : Nat) :
    leBytes w v = (List.range w).map (fun i => v / 256 ^ i % 256) := by
  induction w generalizing v with
  | zero => rfl
  | succ w ih =>
    rw [leBytes, ih, List.range_succ_eq_map, List.map_cons, List.map_map]
    simp only [pow_zero, Nat.div_one, List.cons.injEq, true_and]
    apply List.map_congr_left
    intro i _
    simp only [Function.comp, Nat.div_div_eq_div_mul, pow_succ]
    rw [Nat.mul_comm]

/-- C7: for each width of 1, 2, 4 and 8 bytes and every value `v`, `Marshal(v)` succeeds
and returns exactly `w` bytes whose `i`-th byte is `(v / 256^i) mod 256`. -/
theorem integer_encode (v : Nat) :
    Marshal .uint8 (.u8 v) = .ok ((List.range 1).map (fun i => v / 256 ^ i % 256))
    ∧ Marshal .uint16 (.u16 v) = .ok ((List.range 2).map (fun i => v / 256 ^ i % 256))
    ∧ Marshal .uint32 (.u32 v) = .ok ((List.range 4).map (fun i => v / 256 ^ i % 256))
    ∧ Marshal .uint64 (.u64 v) = .ok ((List.range 8).map (fun i => v / 256 ^ i % 256)) := by
  refine ⟨?_, ?_, ?_, ?_⟩
  · rw [← leBytes_eq_map]; rfl
  · rw [← leBytes_eq_map]; rfl
  · rw [← leBytes_eq_map]; rfl
  · rw [← leBytes_eq_map]; rfl

/-- C3: for every stored value `x` of `DataLen` and every block `d` of at most 65535
bytes, `Marshal` of `{DataLen: x, Data: d}` is `LE16(len(d)) ++ d`, whatever `x` is. -/
theorem len_directed_encode (x : Nat) (d : List Nat) (hd : d.length ≤ 65535) :
    Marshal (.struct TestStructWithLenField) (.struct [.u16 x, .bytes d])
      = .ok (leBytes 2 d.length ++ d) := by
  have ht : truncate 16 (d.length : Int) = d.length := truncate_of_lt 16 _ (by omega)
  simp [Marshal, marshal, marshalField, marshalKind, marshalFields, siblings,
    TestStructWithLenField, parseTags_len_Data, parseTags_empty, marshalMetadata,
    marshalUint16, resolveHeader, getFieldLengthByName, fieldKindLength, TagMap.Has,
    TagMap.GetString, TagMap.Get, TagMap.empty, ht]

theorem len_directed_encode_witness :
    Marshal (.struct TestStructWithLenField) (.struct [.u16 9, .bytes [1, 2, 3, 4]])
      = .ok [4, 0, 1, 2, 3, 4] :=
  len_directed_encode 9 [1, 2, 3, 4] (by decide)

theorem exists_seven_of_length (b : List Nat) (h : 7 ≤ b.length) :
    ∃ x0 x1 x2 x3 x4 x5 x6 rest, b = x0 :: x1 :: x2 :: x3 :: x4 :: x5 :: x6 :: rest := by
  match b, h with
  | x0 :: x1 :: x2 :: x3 :: x4 :: x5 :: x6 :: rest, _ => exact ⟨x0, x1, x2, x3, x4, x5, x6, rest, rfl⟩

/-- C4: for every buffer `b` of at least 7 bytes, `Unmarshal` into
`{A uint8; B []byte fixed:4; C uint16}` succeeds with `A = b[0]`, `B = b[1..5)` and
`C = b[5] + 256*b[6]`: the fixed block takes 4 bytes at the cursor and `C` is read right
after it. -/
theorem fixed_block_decode (b : List Nat) (h : 7 ≤ b.length) :
    Unmarshal b (.struct TestDecodeStructWithFixedSlice)
      = .ok (.struct [.u8 (b.getD 0 0), .bytes ((b.drop 1).take 4),
                      .u16 (b.getD 5 0 + 256 * b.getD 6 0)]) := by
  obtain ⟨x0, x1, x2, x3, x4, x5, x6, rest, rfl⟩ := exists_seven_of_length b h
  rw [Unmarshal_struct]
  simp only [TestDecodeStructWithFixedSlice, unmarshalFields, parseTags_fixed_4, parseTags_empty,
    topMetadata]
  rw [unmarshalStructField_uint8 _ _ _ _ ?h0 ?h1]
  case h0 => simp
  case h1 => simp; try omega
  simp only []
  rw [unmarshalStructField_fixed _ _ _ _ 4 ?h0 ?hn ?h1 ?hp ?ht ?hg]
  case h0 => simp
  case hn => omega
  case h1 => simp; try omega
  case hp => rfl
  case ht => rfl
  case hg => rfl
  simp only []
  rw [unmarshalStructField_uint16 _ _ _ _ ?h0 ?h1 ?ht]
  case h0 => simp
  case h1 => simp; try omega
  case ht => rfl
  simp [leValue]

theorem fixed_block_decode_witness :
    Unmarshal [1, 2, 3, 4, 5, 7, 6] (.struct TestDecodeStructWithFixedSlice)
      = .ok (.struct [.u8 1, .bytes [2, 3, 4, 5], .u16 0x0607]) :=
  fixed_block_decode [1, 2, 3, 4, 5, 7, 6] (by decide)

/-- C5: for `{Len uint16 len:Data; Off uint32 offset:Data; Data []byte; Tail uint8}` and
every buffer `b` of at least 7 bytes whose headers `Len` (at `b[0..2)`) and `Off` (at
`b[2..6)`) satisfy `Off + Len <= len(b)`, `Unmarshal` succeeds with
`Data = b[Off .. Off+Len)` and `Tail = b[6]`; `Data` does not advance the cursor, which
ends at 7. -/
theorem offset_len_decode (b : List Nat) (h : 7 ≤ b.length)
    (hb : leValue ((b.drop 2).take 4) + leValue (b.take 2) ≤ b.length) :
    Unmarshal b (.struct OffsetLenStruct)
      = .ok (.struct [.u16 (leValue (b.take 2)), .u32 (leValue ((b.drop 2).take 4)),
          .bytes ((b.drop (leValue ((b.drop 2).take 4))).take (leValue (b.take 2))),
          .u8 (b.getD 6 0)])
    ∧ unmarshalWithCursor b OffsetLenStruct
      = .ok ([.u16 (leValue (b.take 2)), .u32 (leValue ((b.drop 2).take 4)),
          .bytes ((b.drop (leValue ((b.drop 2).take 4))).take (leValue (b.take 2))),
          .u8 (b.getD 6 0)], 7) := by
  have h6 : leValue ((b.drop 6).take 1) = b.getD 6 0 := by
    obtain ⟨x0, x1, x2, x3, x4, x5, x6, rest, rfl⟩ := exists_seven_of_length b h
    simp [leValue]
  have key : unmarshalFields b OffsetLenStruct (topMetadata b)
        = .ok ([.u16 (leValue (b.take 2)), .u32 (leValue ((b.drop 2).take 4)),
          .bytes ((b.drop (leValue ((b.drop 2).take 4))).take (leValue (b.take 2))),
          .u8 (b.getD 6 0)],
          { Tags := ⟨[]⟩, Lens := [("Data", (leValue (b.take 2) : Int))],
            Offsets := [("Data", (leValue ((b.drop 2).take 4) : Int))], ParentBuf := b,
            CurrOffset := 7, CurrField := "Tail" }) := by
    simp only [OffsetLenStruct, unmarshalFields, parseTags_len_Data, parseTags_offset_Data,
      parseTags_empty, topMetadata]
    rw [unmarshalStructField_uint16_len _ _ _ _ "Data" ?h0 ?h1 ?ht ?hg]
    case h0 => simp
    case h1 => simp; try omega
    case ht => rfl
    case hg => rfl
    simp only []
    rw [unmarshalStructField_uint32_offset _ _ _ _ "Data" ?h0 ?h1 ?ht ?hg]
    case h0 => simp
    case h1 => simp; try omega
    case ht => rfl
    case hg => rfl
    simp only []
    rw [unmarshalStructField_offset _ _ _ _ (leValue (b.take 2) : Int)
      (leValue ((b.drop 2).take 4) : Int) ?h0 ?h2 ?hl ?ho ?h1 ?hp ?ht ?hlen ?hoff]
    case h0 => simp
    case h2 => simp; try omega
    case hl => omega
    case ho => omega
    case h1 => simp; try omega
    case hp => rfl
    case ht => rfl
    case hlen => simp
    case hoff => simp
    simp only []
    rw [unmarshalStructField_uint8 _ _ _ _ ?h0 ?h1]
    case h0 => simp
    case h1 => simp; try omega
    simp [h6]
  constructor
  · rw [Unmarshal_struct, key]
  · rw [unmarshalWithCursor, key]

theorem offset_len_decode_witness :
    Unmarshal [2, 0, 8, 0, 0, 0, 9, 1, 5, 6, 7] (.struct OffsetLenStruct)
      = .ok (.struct [.u16 2, .u32 8, .bytes [5, 6], .u8 9]) :=
  (offset_len_decode [2, 0, 8, 0, 0, 0, 9, 1, 5, 6, 7] (by decide) (by decide)).1

/-! ## Integers -/

theorem leValue_eq_sum (l : List Nat) :
    leValue l = Finset.sum (Finset.range l.length) (fun i => l.getD i 0 * 256 ^ i) := by
  induction l with
  | nil => simp [leValue]
  | cons x xs ih =>
    rw [leValue, ih, List.length_cons, Finset.sum_range_succ', Finset.mul_sum]
    simp only [List.getD_cons_succ, List.getD_cons_zero, pow_zero, mul_one, pow_succ]
    rw [add_comm]
    congr 1
    apply Finset.sum_congr rfl
    intro i _
    ring

theorem leValue_take_eq_sum (w : Nat) (b : List Nat) (h : w ≤ b.length) :
    leValue (b.take w) = Finset.sum (Finset.range w) (fun i => b.getD i 0 * 256 ^ i) := by
  rw [leValue_eq_sum, List.length_take, Nat.min_eq_left h]
  apply Finset.sum_congr rfl
  intro i hi
  have hi2 : i < w := Finset.mem_range.mp hi
  simp only [List.getD_eq_getElem?_getD, List.getElem?_take, hi2, if_true]

theorem Unmarshal_single_of_read (w : Nat) (k : Kind) (mk : Nat → Value) (b : List Nat)
    (hw : 0 < w)
    (hs : unmarshalStructField b { topMetadata b with CurrField := "Value", Tags := ⟨[]⟩ }
        ⟨"Value", "", k⟩ =
      match binaryRead w b with
      | .error e => .error e
      | .ok ret => .ok (mk ret, { topMetadata b with
          CurrField := "Value", Tags := ⟨[]⟩, CurrOffset := (w : Int) })) :
    Unmarshal b (.struct [⟨"Value", "", k⟩]) =
      if w ≤ b.length then
        .ok (.struct [mk (Finset.sum (Finset.range w) (fun i => b.getD i 0 * 256 ^ i))])
      else .error (if b.length = 0 then .eof else .unexpectedEOF) := by
  rw [Unmarshal_struct]
  simp only [unmarshalFields, parseTags_empty, hs]
  by_cases h : w ≤ b.length
  · rw [binaryRead_ok w b hw h, leValue_take_eq_sum w b h]
    simp [h]
  · rw [binaryRead_short w b (by omega)]
    simp [h]

theorem sliceFrom_zero (b : List Nat) : sliceFrom b 0 = .ok b := by
  rw [sliceFrom_ok _ _ (by simp) (by simp)]
  simp

/-- C6: decoding a record with a single unsigned field of 1, 2, 4 or 8 bytes yields the
little-endian value `sum over i < w of b[i] * 256^i` when the buffer has at least `w`
bytes, and returns an error (`io.EOF` on an empty buffer, `io.ErrUnexpectedEOF` on a short
one) otherwise; all-zero bytes give 0 and all-0xff bytes give `2^(8w) - 1`. -/
theorem integer_decode (b : List Nat) :
    (Unmarshal b (.struct TestDecodeUint8) =
      if 1 ≤ b.length then
        .ok (.struct [.u8 (Finset.sum (Finset.range 1) (fun i => b.getD i 0 * 256 ^ i))])
      else .error (if b.length = 0 then .eof else .unexpectedEOF))
    ∧ (Unmarshal b (.struct TestDecodeUint16) =
      if 2 ≤ b.length then
        .ok (.struct [.u16 (Finset.sum (Finset.range 2) (fun i => b.getD i 0 * 256 ^ i))])
      else .error (if b.length = 0 then .eof else .unexpectedEOF))
    ∧ (Unmarshal b (.struct TestDecodeUint32) =
      if 4 ≤ b.length then
        .ok (.struct [.u32 (Finset.sum (Finset.range 4) (fun i => b.getD i 0 * 256 ^ i))])
      else .error (if b.length = 0 then .eof else .unexpectedEOF))
    ∧ (Unmarshal b (.struct TestDecodeUint64) =
      if 8 ≤ b.length then
        .ok (.struct [.u64 (Finset.sum (Finset.range 8) (fun i => b.getD i 0 * 256 ^ i))])
      else .error (if b.length = 0 then .eof else .unexpectedEOF))
    ∧ Unmarshal (List.replicate 1 0) (.struct TestDecodeUint8) = .ok (.struct [.u8 0])
    ∧ Unmarshal (List.replicate 1 255) (.struct TestDecodeUint8) = .ok (.struct [.u8 (2 ^ 8 - 1)])
    ∧ Unmarshal (List.replicate 2 0) (.struct TestDecodeUint16) = .ok (.struct [.u16 0])
    ∧ Unmarshal (List.replicate 2 255) (.struct TestDecodeUint16)
        = .ok (.struct [.u16 (2 ^ 16 - 1)])
    ∧ Unmarshal (List.replicate 4 0) (.struct TestDecodeUint32) = .ok (.struct [.u32 0])
    ∧ Unmarshal (List.replicate 4 255) (.struct TestDecodeUint32)
        = .ok (.struct [.u32 (2 ^ 32 - 1)])
    ∧ Unmarshal (List.replicate 8 0) (.struct TestDecodeUint64) = .ok (.struct [.u64 0])
    ∧ Unmarshal (List.replicate 8 255) (.struct TestDecodeUint64)
        = .ok (.struct [.u64 (2 ^ 64 - 1)]) := by
  refine ⟨?_, ?_, ?_, ?_, rfl, rfl, rfl, rfl, rfl, rfl, rfl, rfl⟩
  · apply Unmarshal_single_of_read 1 .uint8 .u8 b (by omega)
    simp only [unmarshalStructField, topMetadata, sliceFrom_zero, unmarshalKind, unmarshalUint8]
    cases binaryRead 1 b <;> simp
  · apply Unmarshal_single_of_read 2 .uint16 .u16 b (by omega)
    simp only [unmarshalStructField, topMetadata, sliceFrom_zero, unmarshalKind, unmarshalUint16]
    cases binaryRead 2 b <;> simp [TagMap.Has]
  · apply Unmarshal_single_of_read 4 .uint32 .u32 b (by omega)
    simp only [unmarshalStructField, topMetadata, sliceFrom_zero, unmarshalKind, unmarshalUint32]
    cases binaryRead 4 b <;> simp [TagMap.Has]
  · apply Unmarshal_single_of_read 8 .uint64 .u64 b (by omega)
    simp only [unmarshalStructField, topMetadata, sliceFrom_zero, unmarshalKind, unmarshalUint64]
    cases binaryRead 8 b <;> simp

/-! ## Null-terminated text -/

theorem unmarshalStringLoop_terminated (r : List Nat) :
    ∀ (data : List Nat) (off : Int) (k : Nat), k < r.length → r.getD k 1 = 0 →
      (∀ i, i < k → r.getD i 0 ≠ 0) →
      unmarshalStringLoop r data off = .ok (data ++ r.take k, off + k + 1) := by
  induction r with
  | nil => intro data off k hk; simp at hk
  | cons ch r ih =>
    intro data off k hk hz hfirst
    cases k with
    | zero =>
      simp only [List.getD_cons_zero] at hz
      simp [unmarshalStringLoop, hz]
    | succ k =>
      have hch : ch ≠ 0 := by
        have := hfirst 0 (by omega)
        simpa using this
      have hk2 : k < r.length := by simpa using hk
      have hz2 : r.getD k 1 = 0 := by simpa using hz
      have hf2 : ∀ i, i < k → r.getD i 0 ≠ 0 := by
        intro i hi
        have := hfirst (i + 1) (by omega)
        simpa using this
      rw [unmarshalStringLoop, if_neg hch, ih (data ++ [ch]) (off + 1) k hk2 hz2 hf2]
      simp only [List.append_assoc, List.singleton_append, List.take_succ_cons, Nat.cast_add,
        Nat.cast_one, Except.ok.injEq, Prod.mk.injEq, true_and]
      omega

theorem unmarshalStringLoop_unterminated (r : List Nat) :
    ∀ (data : List Nat) (off : Int), (∀ x ∈ r, x ≠ 0) →
      unmarshalStringLoop r data off = .error .eof := by
  induction r with
  | nil => intro data off _; rfl
  | cons ch r ih =>
    intro data off h
    have hch : ch ≠ 0 := h ch (by simp)
    rw [unmarshalStringLoop, if_neg hch]
    exact ih _ _ (fun x hx => h x (by simp [hx]))

theorem unmarshalFields_string (b : List Nat) :
    unmarshalFields b TestDecodeString (topMetadata b) =
      match unmarshalStringLoop b [] 0 with
      | .error e => .error e
      | .ok (data, off) =>
        .ok ([.str data], { topMetadata b with
          CurrField := "Value", Tags := ⟨[]⟩, CurrOffset := off }) := by
  simp only [TestDecodeString, unmarshalFields, parseTags_empty, unmarshalStructField,
    topMetadata, sliceFrom_zero, unmarshalString]
  cases unmarshalStringLoop b [] 0 with
  | error e => rfl
  | ok p => rfl

/-- C8: for every buffer `b` whose first zero byte is at index `k`, `Unmarshal` into
`{Value string}` succeeds with `Value` the bytes `b[0..k)`, and the cursor ends at
`k + 1`; `{0x00}` gives the empty text and `{'h','i',0x00}` gives `"hi"`. -/
theorem text_decode (b : List Nat) (k : Nat) (hz : b[k]? = some 0)
    (hfirst : ∀ i, i < k → b[i]? ≠ some 0) :
    Unmarshal b (.struct TestDecodeString) = .ok (.struct [.str (b.take k)])
    ∧ unmarshalWithCursor b TestDecodeString = .ok ([.str (b.take k)], (k : Int) + 1) := by
  have hk : k < b.length := by
    rcases Nat.lt_or_ge k b.length with h | h
    · exact h
    · rw [List.getElem?_eq_none h] at hz
      cases hz
  have hz2 : b.getD k 1 = 0 := by
    simp [List.getD_eq_getElem?_getD, hz]
  have hf2 : ∀ i, i < k → b.getD i 0 ≠ 0 := by
    intro i hi h0
    have hib : i < b.length := by omega
    apply hfirst i hi
    rw [List.getD_eq_getElem?_getD, List.getElem?_eq_getElem hib] at h0
    rw [List.getElem?_eq_getElem hib]
    simpa using h0
  have key := unmarshalFields_string b
  rw [unmarshalStringLoop_terminated b [] 0 k hk hz2 hf2] at key
  constructor
  · rw [Unmarshal_struct, key]
    simp
  · rw [unmarshalWithCursor, key]
    simp

theorem text_decode_witness :
    (Unmarshal [0] (.struct TestDecodeString) = .ok (.struct [.str []])
      ∧ unmarshalWithCursor [0] TestDecodeString = .ok ([.str []], 1))
    ∧ (Unmarshal [104, 105, 0] (.struct TestDecodeString) = .ok (.struct [.str [104, 105]])
      ∧ unmarshalWithCursor [104, 105, 0] TestDecodeString = .ok ([.str [104, 105]], 3)) :=
  ⟨text_decode [0] 0 (by decide) (by decide),
   text_decode [104, 105, 0] 2 (by decide) (by decide)⟩

/-- C9: for every buffer without a zero byte, the empty one included, `Unmarshal` into
`{Value string}` returns an error (`io.EOF`). -/
theorem text_decode_unterminated (b : List Nat) (h : ∀ x ∈ b, x ≠ 0) :
    Unmarshal b (.struct TestDecodeString) = .error .eof
    ∧ returnsError (Unmarshal b (.struct TestDecodeString)) := by
  have key := unmarshalFields_string b
  rw [unmarshalStringLoop_unterminated b [] 0 h] at key
  have e : Unmarshal b (.struct TestDecodeString) = .error .eof := by
    rw [Unmarshal_struct, key]
  exact ⟨e, .eof, e, by decide⟩

theorem text_decode_unterminated_witness :
    (Unmarshal [] (.struct TestDecodeString) = .error .eof
      ∧ returnsError (Unmarshal [] (.struct TestDecodeString)))
    ∧ (Unmarshal [104, 105] (.struct TestDecodeString) = .error .eof
      ∧ returnsError (Unmarshal [104, 105] (.struct TestDecodeString))) :=
  ⟨text_decode_unterminated [] (by decide), text_decode_unterminated [104, 105] (by decide)⟩

/-! ## Bounds of block reads -/

theorem parseTags_len_D : parseTags "len:D" = .ok ⟨[("len", .str "D")]⟩ := by decide

theorem parseTags_fixed_1 : parseTags "fixed:1" = .ok ⟨[("fixed", .int 1)]⟩ := by decide

theorem unmarshalFields_append (buf : List Nat) (pre rest : Shape) :
    ∀ (m : Metadata), unmarshalFields buf (pre ++ rest) m =
      match unmarshalFields buf pre m with
      | .error e => .error e
      | .ok (vals, m1) =>
        match unmarshalFields buf rest m1 with
        | .error e => .error e
        | .ok (vals2, m2) => .ok (vals ++ vals2, m2) := by
  induction pre with
  | nil =>
    intro m
    simp only [List.nil_append, unmarshalFields]
    cases unmarshalFields buf rest m with
    | error e => rfl
    | ok p => rfl
  | cons f pre ih =>
    intro m
    rw [List.cons_append, unmarshalFields]
    conv_rhs => rw [unmarshalFields]
    cases parseTags f.tag with
    | error e => rfl
    | ok tags =>
      simp only []
      cases unmarshalStructField buf { m with CurrField := f.name, Tags := tags } f with
      | error e => rfl
      | ok p =>
        obtain ⟨data, m1⟩ := p
        simp only []
        rw [ih m1]
        cases unmarshalFields buf pre m1 with
        | error e => rfl
        | ok q =>
          obtain ⟨vals, m2⟩ := q
          simp only []
          cases unmarshalFields buf rest m2 with
          | error e => rfl
          | ok r => rfl

/-- Reached with the cursor within the buffer, a `fixed:N` block longer than the bytes
left at the cursor, and a block whose recorded start and length end past the buffer,
are answered by an error. -/
theorem block_read_out_of_bounds_field (buf : List Nat) (name tag : String) (tags : TagMap)
    (m : Metadata) (hpb : m.ParentBuf = buf) (hpad : tags.Has TagPad = false)
    (h0 : 0 ≤ m.CurrOffset) (h1 : m.CurrOffset ≤ (buf.length : Int))
    (hbad : (∃ n, tags.Has TagFixed = true ∧ tags.GetInt TagFixed = .ok n
        ∧ n > (buf.length : Int) - m.CurrOffset)
      ∨ (∃ l, tags.Has TagFixed = false ∧ m.Lens.lookup name = some l
        ∧ (m.Offsets.lookup name).getD m.CurrOffset + l > (buf.length : Int))) :
    unmarshalStructField buf { m with CurrField := name, Tags := tags }
        ⟨name, tag, .slice .uint8⟩ = .error .sliceLengthOutOfBounds
      ∨ unmarshalStructField buf { m with CurrField := name, Tags := tags }
        ⟨name, tag, .slice .uint8⟩ = .error .sliceOutOfBounds := by
  simp only [unmarshalStructField, sliceFrom_ok buf _ h0 h1, unmarshalKind, unmarshalSlice,
    hpad, unmarshalUint8Slice, resolveSliceParams, Bool.false_eq_true, if_false]
  rcases hbad with ⟨n, hf, hg, hn⟩ | ⟨l, hf, hl, hn⟩
  · left
    have hc : n < 0 ∨ n > ((buf.drop m.CurrOffset.toNat).length : Int) := by
      right
      simp only [List.length_drop]
      omega
    simp only [hf, hg, if_true]
    rw [if_pos hc]
  · right
    cases ho : m.Offsets.lookup name with
    | none =>
      rw [ho] at hn
      simp only [Option.getD_none] at hn
      have hc : m.CurrOffset < 0 ∨ l < 0 ∨ m.CurrOffset + l > (m.ParentBuf.length : Int) := by
        rw [hpb]; omega
      simp [hf, hl, ho, hc]
    | some o =>
      rw [ho] at hn
      simp only [Option.getD_some] at hn
      have hc : o < 0 ∨ l < 0 ∨ o + l > (m.ParentBuf.length : Int) := by
        rw [hpb]; omega
      simp [hf, hl, ho, hc]

/-- Where the fields before a `[]byte` field of a top-level structure leave the cursor
within the buffer, a `fixed:N` block longer than the bytes left at the cursor, and a
block whose recorded start and length end past the buffer, make `Unmarshal` return an
error. -/
theorem block_read_out_of_bounds (buf : List Nat) (pre post : Shape) (name tag : String)
    (tags : TagMap) (vals : List Value) (m : Metadata)
    (hpre : unmarshalFields buf pre (topMetadata buf) = .ok (vals, m))
    (hpb : m.ParentBuf = buf)
    (hp : parseTags tag = .ok tags) (hpad : tags.Has TagPad = false)
    (h0 : 0 ≤ m.CurrOffset) (h1 : m.CurrOffset ≤ (buf.length : Int))
    (hbad : (∃ n, tags.Has TagFixed = true ∧ tags.GetInt TagFixed = .ok n
        ∧ n > (buf.length : Int) - m.CurrOffset)
      ∨ (∃ l, tags.Has TagFixed = false ∧ m.Lens.lookup name = some l
        ∧ (m.Offsets.lookup name).getD m.CurrOffset + l > (buf.length : Int))) :
    returnsError (Unmarshal buf (.struct (pre ++ ⟨name, tag, .slice .uint8⟩ :: post))) := by
  rw [Unmarshal_struct, unmarshalFields_append, hpre]
  simp only []
  rcases block_read_out_of_bounds_field buf name tag tags m hpb hpad h0 h1 hbad with h | h
  · rw [unmarshalFields_cons_error hp h]
    exact ⟨_, rfl, by decide⟩
  · rw [unmarshalFields_cons_error hp h]
    exact ⟨_, rfl, by decide⟩

theorem block_read_out_of_bounds_witness :
    returnsError (Unmarshal [1, 2, 3, 4]
      (.struct ([⟨"A", "", .uint8⟩] ++ ⟨"B", "fixed:4", .slice .uint8⟩ :: [⟨"C", "", .uint16⟩]))) := by
  have hpre : unmarshalFields [1, 2, 3, 4] [⟨"A", "", .uint8⟩] (topMetadata [1, 2, 3, 4])
      = .ok ([.u8 1],
          { Tags := ⟨[]⟩, Lens := [], Offsets := [], ParentBuf := [1, 2, 3, 4],
            CurrOffset := 0 + 1, CurrField := "A" }) := rfl
  have hg : TagMap.GetInt ⟨[("fixed", .int 4)]⟩ TagFixed = .ok 4 := rfl
  exact block_read_out_of_bounds [1, 2, 3, 4] [⟨"A", "", .uint8⟩] [⟨"C", "", .uint16⟩] "B"
    "fixed:4" ⟨[("fixed", .int 4)]⟩ [.u8 1] _ hpre rfl (by decide) rfl (by decide) (by decide)
    (Or.inl ⟨4, rfl, hg, by decide⟩)

/-- C10 at a failing input: for the top-level structure
`{A uint8; In {L uint16 len:D; D []byte}; B []byte fixed:1}` and the buffer `{9, 1, 0}`,
the fields `A` and `In` are decoded and leave the cursor at 4, past the 3 bytes of the
buffer; the block `B`, which would end past the buffer, is then answered by the panic of
`buf[m.CurrOffset:]` and not by an error. -/
theorem nested_then_fixed_panics :
    unmarshalWithCursor [9, 1, 0] [⟨"A", "", .uint8⟩, ⟨"In", "", .struct LenBlockStruct⟩]
      = .ok ([.u8 9, .struct [.u16 1, .bytes [0]]], 4)
    ∧ Unmarshal [9, 1, 0] (.struct NestedThenFixed) = .error .goPanic
    ∧ ¬ returnsError (Unmarshal [9, 1, 0] (.struct NestedThenFixed)) := by
  have h1 : unmarshalWithCursor [9, 1, 0]
      [⟨"A", "", .uint8⟩, ⟨"In", "", .struct LenBlockStruct⟩]
      = .ok ([.u8 9, .struct [.u16 1, .bytes [0]]], 4) := by
    simp [unmarshalWithCursor, LenBlockStruct, unmarshalFields, parseTags_empty,
      parseTags_len_D, topMetadata, unmarshalStructField, unmarshalKind, sliceFrom,
      unmarshalUint8, unmarshalUint16, binaryRead, leValue, finishStruct, structMetadata,
      unmarshalSlice, unmarshalUint8Slice, resolveSliceParams, TagMap.Has, TagMap.GetString,
      TagMap.Get, TagMap.empty, TagPad, TagFixed]
  have h2 : Unmarshal [9, 1, 0] (.struct NestedThenFixed) = .error .goPanic := by
    rw [Unmarshal_struct]
    simp [NestedThenFixed, LenBlockStruct, unmarshalFields, parseTags_empty, parseTags_len_D,
      parseTags_fixed_1, topMetadata, unmarshalStructField, unmarshalKind, sliceFrom,
      unmarshalUint8, unmarshalUint16, binaryRead, leValue, finishStruct, structMetadata,
      unmarshalSlice, unmarshalUint8Slice, resolveSliceParams, TagMap.Has, TagMap.GetString,
      TagMap.Get, TagMap.empty, TagPad, TagFixed]
  refine ⟨h1, h2, ?_⟩
  rintro ⟨e, he, hne⟩
  rw [h2] at he
  cases he
  exact hne rfl

/-! ## Decoding a truncated `Challenge` -/

theorem parseTags_len_TargetName :
    parseTags "len:TargetName" = .ok ⟨[("len", .str "TargetName")]⟩ := by decide

theorem parseTags_offset_TargetName :
    parseTags "offset:TargetName" = .ok ⟨[("offset", .str "TargetName")]⟩ := by decide

theorem parseTags_len_TargetInfo :
    parseTags "len:TargetInfo" = .ok ⟨[("len", .str "TargetInfo")]⟩ := by decide

theorem parseTags_offset_TargetInfo :
    parseTags "offset:TargetInfo" = .ok ⟨[("offset", .str "TargetInfo")]⟩ := by decide

theorem parseTags_fixed_8 : parseTags "fixed:8" = .ok ⟨[("fixed", .int 8)]⟩ := by decide

theorem parseTags_fixed_3 : parseTags "fixed:3" = .ok ⟨[("fixed", .int 3)]⟩ := by decide

theorem challenge_before_target_info :
    unmarshalFields truncatedChallenge (NtlmChallenge.take 12) (topMetadata truncatedChallenge)
      = .ok ([.struct [.bytes [78, 84, 76, 77, 83, 83, 80, 0], .u32 2], .u16 0, .u16 0, .u32 0,
              .u32 0, .u64 0, .u64 0, .u16 4, .u16 4, .u32 56,
              .ptr (some (.struct [.u8 0, .u8 0, .u16 0, .bytes [0, 0, 0], .u8 0])), .bytes []],
             { Tags := ⟨[]⟩,
               Lens := [("TargetInfo", 4), ("TargetInfo", 4), ("TargetName", 0),
                        ("TargetName", 0)],
               Offsets := [("TargetInfo", 56), ("TargetName", 0)],
               ParentBuf := truncatedChallenge, CurrOffset := 56, CurrField := "TargetName" }) := by
  simp [NtlmChallenge, NtlmHeader, NtlmVersion, truncatedChallenge, unmarshalFields,
    parseTags_empty, parseTags_len_TargetName, parseTags_offset_TargetName,
    parseTags_len_TargetInfo, parseTags_offset_TargetInfo, parseTags_fixed_8, parseTags_fixed_3,
    topMetadata, unmarshalStructField, unmarshalKind, sliceFrom,
    unmarshalUint8, unmarshalUint16, unmarshalUint32, unmarshalUint64, binaryRead, leValue,
    finishStruct, structMetadata,
    unmarshalSlice, unmarshalUint8Slice, resolveSliceParams, TagMap.Has, TagMap.GetString,
    TagMap.GetInt, TagMap.Get, TagMap.empty, TagPad, TagFixed, TagOffset, List.replicate,
    List.lookup]

/-- C11 at a failing input: `Unmarshal` of a `Challenge` message of 56 bytes whose headers
announce 4 bytes of `TargetInfo` at offset 56 panics: `AvPairSlice.UnmarshalBinary` takes
`meta.ParentBuf[56:60]` without a bounds check.  It neither returns an error nor a record.
The structure `{A uint8; In {L uint16 len:D; D []byte}; B []byte fixed:1}` on `{9, 1, 0}`
panics too, at `buf[m.CurrOffset:]`. -/
theorem decode_panics :
    Unmarshal truncatedChallenge (.struct NtlmChallenge) = .error .goPanic
    ∧ ¬ returnsError (Unmarshal truncatedChallenge (.struct NtlmChallenge))
    ∧ ¬ succeeds (Unmarshal truncatedChallenge (.struct NtlmChallenge))
    ∧ Unmarshal [9, 1, 0] (.struct NestedThenFixed) = .error .goPanic := by
  have hsplit : NtlmChallenge = NtlmChallenge.take 12
      ++ [⟨"TargetInfo", "", .ptr (.custom AvPairSliceCodec (.slice (.struct AvPair)))⟩] := rfl
  have h1 : Unmarshal truncatedChallenge (.struct NtlmChallenge) = .error .goPanic := by
    rw [Unmarshal_struct, hsplit, unmarshalFields_append, challenge_before_target_info]
    simp only [unmarshalFields, parseTags_empty, unmarshalStructField, sliceFrom,
      unmarshalBinaryMarshallable, AvPairSliceCodec, avPairSliceUnmarshal, List.lookup]
    unfold avPairLoop
    simp [sliceRange, truncatedChallenge]
  have h2 : Unmarshal [9, 1, 0] (.struct NestedThenFixed) = .error .goPanic := by
    rw [Unmarshal_struct]
    simp [NestedThenFixed, LenBlockStruct, unmarshalFields, parseTags_empty, parseTags_len_D,
      parseTags_fixed_1, topMetadata, unmarshalStructField, unmarshalKind, sliceFrom,
      unmarshalUint8, unmarshalUint16, binaryRead, leValue, finishStruct, structMetadata,
      unmarshalSlice, unmarshalUint8Slice, resolveSliceParams, TagMap.Has, TagMap.GetString,
      TagMap.Get, TagMap.empty, TagPad, TagFixed]
  refine ⟨h1, ?_, ?_, h2⟩
  · rintro ⟨e, he, hne⟩
    rw [h1] at he
    cases he
    exact hne rfl
  · rintro ⟨a, ha⟩
    rw [h1] at ha
    cases ha

/-! ## Blocks without a recorded length -/

theorem unmarshalStructField_missing_length (buf : List Nat) (m : Metadata) (name tag : String)
    (h0 : 0 ≤ m.CurrOffset) (h1 : m.CurrOffset ≤ (buf.length : Int))
    (hp : m.Tags.Has TagPad = false) (ht : m.Tags.Has TagFixed = false)
    (hlen : m.Lens.lookup m.CurrField = none) :
    unmarshalStructField buf m ⟨name, tag, .slice .uint8⟩ = .error .missingLengthReference := by
  simp only [unmarshalStructField, sliceFrom_ok buf _ h0 h1, unmarshalKind, unmarshalSlice, hp,
    unmarshalUint8Slice, resolveSliceParams, ht, hlen, if_false, Bool.false_eq_true]

/-- When the fields before a `[]byte` field without `fixed` and without `pad` have
been decoded, no length is recorded for its name in the context of the structure, and the
cursor is within the buffer, decoding the structure (nested or top-level) fails with the
error `variable length field missing length reference`; `Unmarshal` of a top-level
structure returns that error. -/
theorem missing_length_reference (buf : List Nat) (m : Metadata) (pre post : Shape)
    (name tag : String) (tags : TagMap) (vals : List Value) (m1 : Metadata)
    (hpre : unmarshalFields buf pre m = .ok (vals, m1)) (htag : parseTags tag = .ok tags)
    (hpad : tags.Has TagPad = false) (hfix : tags.Has TagFixed = false)
    (hlen : m1.Lens.lookup name = none)
    (h0 : 0 ≤ m1.CurrOffset) (h1 : m1.CurrOffset ≤ (buf.length : Int)) :
    unmarshalFields buf (pre ++ ⟨name, tag, .slice .uint8⟩ :: post) m
        = .error .missingLengthReference
    ∧ (m = topMetadata buf →
        Unmarshal buf (.struct (pre ++ ⟨name, tag, .slice .uint8⟩ :: post))
            = .error .missingLengthReference
          ∧ returnsError (Unmarshal buf (.struct (pre ++ ⟨name, tag, .slice .uint8⟩ :: post)))) := by
  have hf : unmarshalFields buf (pre ++ ⟨name, tag, .slice .uint8⟩ :: post) m
      = .error .missingLengthReference := by
    rw [unmarshalFields_append, hpre]
    simp only [unmarshalFields, htag]
    rw [unmarshalStructField_missing_length buf
      { m1 with CurrField := name, Tags := tags } name tag h0 h1 hpad hfix hlen]
  refine ⟨hf, ?_⟩
  intro hm
  subst hm
  have hu : Unmarshal buf (.struct (pre ++ ⟨name, tag, .slice .uint8⟩ :: post))
      = .error .missingLengthReference := by
    rw [Unmarshal_struct, hf]
  exact ⟨hu, .missingLengthReference, hu, by decide⟩

theorem missing_length_reference_witness :
    Unmarshal [1, 0, 7]
        (.struct ([] ++ ⟨"Data", "", .slice .uint8⟩ :: [⟨"DataLen", "len:Data", .uint16⟩]))
      = .error .missingLengthReference :=
  ((missing_length_reference [1, 0, 7] (topMetadata [1, 0, 7]) []
      [⟨"DataLen", "len:Data", .uint16⟩] "Data" "" ⟨[]⟩ [] (topMetadata [1, 0, 7]) rfl
      parseTags_empty rfl rfl rfl (by decide) (by decide)).2 rfl).1

/-- C12 at a failing input: in the top-level structure
`{A uint8; In {L uint16 len:D; D []byte}; B []byte}` the field `B` has no `fixed`, no `pad`
and no recorded length. On the buffer `{9, 1, 0}` the fields `A` and `In` are decoded and
leave the cursor at 4, past the 3 bytes of the buffer, and no length is recorded for `B`;
decoding `B` is then answered by the panic of `buf[m.CurrOffset:]`, and `Unmarshal` returns
no error, so not the error `variable length field missing length reference`. -/
theorem missing_length_reference_panics :
    unmarshalFields [9, 1, 0] [⟨"A", "", .uint8⟩, ⟨"In", "", .struct LenBlockStruct⟩]
        (topMetadata [9, 1, 0])
      = .ok ([.u8 9, .struct [.u16 1, .bytes [0]]],
          { Tags := ⟨[]⟩, Lens := [], Offsets := [], ParentBuf := [9, 1, 0],
            CurrOffset := 4, CurrField := "In" })
    ∧ Unmarshal [9, 1, 0] (.struct NestedThenBlock) = .error .goPanic
    ∧ Unmarshal [9, 1, 0] (.struct NestedThenBlock) ≠ .error .missingLengthReference
    ∧ ¬ returnsError (Unmarshal [9, 1, 0] (.struct NestedThenBlock)) := by
  have h1 : unmarshalFields [9, 1, 0] [⟨"A", "", .uint8⟩, ⟨"In", "", .struct LenBlockStruct⟩]
        (topMetadata [9, 1, 0])
      = .ok ([.u8 9, .struct [.u16 1, .bytes [0]]],
          { Tags := ⟨[]⟩, Lens := [], Offsets := [], ParentBuf := [9, 1, 0],
            CurrOffset := 4, CurrField := "In" }) := by
    simp [LenBlockStruct, unmarshalFields, parseTags_empty,
      parseTags_len_D, topMetadata, unmarshalStructField, unmarshalKind, sliceFrom,
      unmarshalUint8, unmarshalUint16, binaryRead, leValue, finishStruct, structMetadata,
      unmarshalSlice, unmarshalUint8Slice, resolveSliceParams, TagMap.Has, TagMap.GetString,
      TagMap.Get, TagMap.empty, TagPad, TagFixed]
  have h2 : Unmarshal [9, 1, 0] (.struct NestedThenBlock) = .error .goPanic := by
    rw [Unmarshal_struct]
    simp [NestedThenBlock, LenBlockStruct, unmarshalFields, parseTags_empty, parseTags_len_D,
      topMetadata, unmarshalStructField, unmarshalKind, sliceFrom,
      unmarshalUint8, unmarshalUint16, binaryRead, leValue, finishStruct, structMetadata,
      unmarshalSlice, unmarshalUint8Slice, resolveSliceParams, TagMap.Has, TagMap.GetString,
      TagMap.Get, TagMap.empty, TagPad, TagFixed]
  refine ⟨h1, h2, ?_, ?_⟩
  · rw [h2]
    intro h
    cases h
  · rintro ⟨e, he, hne⟩
    rw [h2] at he
    cases he
    exact hne rfl

/-! ## The record after an error -/

/-- The record that `storeFields` fills agrees with `unmarshalFields`: on success it
holds the decoded values; on an error it holds the values decoded before the failing
field, then the failing field, then the fields after it as they were. -/
theorem storeFields_spec (buf : List Nat) (fields : Shape) :
    ∀ (target : List Value) (m : Metadata), target.length = fields.length →
      (∀ stored m2, storeFields buf fields target m = (stored, .ok m2) →
          unmarshalFields buf fields m = .ok (stored, m2))
      ∧ (∀ stored e, storeFields buf fields target m = (stored, .error e) →
          unmarshalFields buf fields m = .error e
          ∧ ∃ (pre : Shape) (f : Field Kind) (post : Shape) (vals : List Value)
              (m1 : Metadata) (x : Value),
              fields = pre ++ f :: post
              ∧ unmarshalFields buf pre m = .ok (vals, m1)
              ∧ stored = vals ++ x :: target.drop (pre.length + 1)) := by
  induction fields with
  | nil =>
    intro target m hlen
    cases target with
    | cons _ _ => simp at hlen
    | nil =>
      refine ⟨?_, ?_⟩
      · intro stored m2 h
        simp only [storeFields, Prod.mk.injEq, Except.ok.injEq] at h
        obtain ⟨rfl, rfl⟩ := h
        simp [unmarshalFields]
      · intro stored e h
        simp [storeFields] at h
  | cons g fields ih =>
    intro target m hlen
    cases target with
    | nil => simp at hlen
    | cons t ts =>
      have hlen2 : ts.length = fields.length := by simpa using hlen
      rw [storeFields, unmarshalFields]
      cases hp : parseTags g.tag with
      | error e0 =>
        refine ⟨?_, ?_⟩
        · intro stored m2 h
          simp at h
        · intro stored e h
          simp only [Prod.mk.injEq, Except.error.injEq] at h
          obtain ⟨rfl, rfl⟩ := h
          exact ⟨rfl, [], g, fields, [], m, t, by simp, by simp [unmarshalFields], by simp⟩
      | ok tags =>
        simp only []
        cases hf : unmarshalStructField buf { m with CurrField := g.name, Tags := tags } g with
        | error e0 =>
          refine ⟨?_, ?_⟩
          · intro stored m2 h
            simp at h
          · intro stored e h
            simp only [Prod.mk.injEq, Except.error.injEq] at h
            obtain ⟨rfl, rfl⟩ := h
            exact ⟨rfl, [], g, fields, [], m, _, by simp, by simp [unmarshalFields], rfl⟩
        | ok r =>
          obtain ⟨data, m1⟩ := r
          simp only []
          obtain ⟨ih1, ih2⟩ := ih ts m1 hlen2
          cases hs : storeFields buf fields ts m1 with
          | mk ts1 r1 =>
            refine ⟨?_, ?_⟩
            · intro stored m2 h
              simp only [Prod.mk.injEq] at h
              obtain ⟨rfl, rfl⟩ := h
              rw [ih1 ts1 m2 hs]
            · intro stored e h
              simp only [Prod.mk.injEq] at h
              obtain ⟨rfl, rfl⟩ := h
              obtain ⟨he, pre, f, post, vals, m3, x, h1, h2, h3⟩ := ih2 ts1 e hs
              refine ⟨by rw [he], g :: pre, f, post, data :: vals, m3, x, by simp [h1], ?_, ?_⟩
              · rw [unmarshalFields]
                simp only [hp, hf, h2]
              · simp [h3]

/-- C13 as amended: when `Unmarshal` into a structure returns an error, the record is left
partly filled: every field declared before the failing field holds the value decoded for
it, and every field declared after the failing field is as it was before the call. -/
theorem stored_fields_on_error (buf : List Nat) (fields : Shape) (target stored : List Value)
    (e : Error) (hlen : target.length = fields.length)
    (h : UnmarshalInto buf fields target = (stored, some e)) :
    Unmarshal buf (.struct fields) = .error e
    ∧ ∃ (pre : Shape) (f : Field Kind) (post : Shape) (vals : List Value) (m1 : Metadata)
        (x : Value),
        fields = pre ++ f :: post
        ∧ unmarshalFields buf pre (topMetadata buf) = .ok (vals, m1)
        ∧ stored = vals ++ x :: target.drop (pre.length + 1) := by
  unfold UnmarshalInto at h
  cases hs : storeFields buf fields target (topMetadata buf) with
  | mk st r =>
    rw [hs] at h
    cases r with
    | ok m2 => simp at h
    | error e2 =>
      simp only [Prod.mk.injEq, Option.some.injEq] at h
      obtain ⟨rfl, rfl⟩ := h
      obtain ⟨he, hrest⟩ := (storeFields_spec buf fields target _ hlen).2 st e2 hs
      exact ⟨by rw [Unmarshal_struct, he], hrest⟩

theorem stored_fields_on_error_witness :
    Unmarshal [7] (.struct [⟨"A", "", .uint8⟩, ⟨"B", "", .uint16⟩]) = .error .eof
    ∧ ∃ (pre : Shape) (f : Field Kind) (post : Shape) (vals : List Value) (m1 : Metadata)
        (x : Value),
        [⟨"A", "", .uint8⟩, ⟨"B", "", .uint16⟩] = pre ++ f :: post
        ∧ unmarshalFields [7] pre (topMetadata [7]) = .ok (vals, m1)
        ∧ [Value.u8 7, Value.u16 0] = vals ++ x :: [Value.u8 0, Value.u16 0].drop (pre.length + 1) :=
  stored_fields_on_error [7] [⟨"A", "", .uint8⟩, ⟨"B", "", .uint16⟩] [.u8 0, .u16 0]
    [.u8 7, .u16 0] .eof rfl rfl

/-- C13 fails as stated: `Unmarshal` of the one-byte buffer `{7}` into a zero record of
the structure `{A uint8; B uint16}` returns the error `io.EOF` (for `B`) and leaves the
record as `{A: 7, B: 0}`, not as it was. -/
theorem stored_fields_counterexample :
    UnmarshalInto [7] [⟨"A", "", .uint8⟩, ⟨"B", "", .uint16⟩] [.u8 0, .u16 0]
      = ([.u8 7, .u16 0], some .eof)
    ∧ Unmarshal [7] (.struct [⟨"A", "", .uint8⟩, ⟨"B", "", .uint16⟩]) = .error .eof
    ∧ [Value.u8 7, Value.u16 0] ≠ [Value.u8 0, Value.u16 0] := by
  refine ⟨rfl, rfl, ?_⟩
  intro h
  injection h with h _
  injection h with h
  exact absurd h (by decide)

/-! ## The output as the concatenation of the field encodings -/

theorem marshalKind_context_free (k : Kind) (v : Value) (d : Bool) (meta : Option Metadata)
    (parent : List Sibling) (h16 : k ≠ .uint16) (h32 : k ≠ .uint32) :
    marshalKind k v d meta parent =
      match marshalKind k v d none [] with
      | .ok (buf, _) => .ok (buf, meta)
      | .error e => .error e := by
  cases k with
  | uint16 => exact absurd rfl h16
  | uint32 => exact absurd rfl h32
  | uint8 => cases v <;> simp [marshalKind, marshalUint8]
  | uint64 => cases v <;> simp [marshalKind, marshalUint64]
  | string => simp [marshalKind]
  | other => simp [marshalKind]
  | ptr e => simp [marshalKind]
  | struct fs =>
    cases v <;> simp [marshalKind]
    rename_i vs
    cases marshalFields fs vs (siblings fs vs) marshalMetadata <;> rfl
  | slice e =>
    cases e <;> cases v <;> cases d <;> simp [marshalKind]
  | custom c u =>
    cases u with
    | struct fs =>
      cases v <;> simp [marshalKind]
      rename_i vs
      cases marshalFields fs vs (siblings fs vs) marshalMetadata <;> rfl
    | slice e => cases e <;> simp [marshalKind]
    | uint8 => simp [marshalKind]
    | uint16 => simp [marshalKind]
    | uint32 => simp [marshalKind]
    | uint64 => simp [marshalKind]
    | string => simp [marshalKind]
    | other => simp [marshalKind]
    | ptr e => simp [marshalKind]
    | custom c2 u2 => simp [marshalKind]

theorem marshalField_eq_marshalKind (name tag : String) (k : Kind) (v : Value)
    (meta : Option Metadata) (parent : List Sibling) (hp : ∀ e, k ≠ .ptr e) :
    marshalField ⟨name, tag, k⟩ v meta parent = marshalKind k v true meta parent := by
  cases k with
  | ptr e => exact absurd rfl (hp e)
  | _ => cases v <;> simp [marshalField]

theorem Marshal_of_marshalKind (k : Kind) (v : Value) (d : Bool) (meta : Option Metadata)
    (parent : List Sibling) (buf : List Nat) (mo : Option Metadata)
    (h16 : k ≠ .uint16) (h32 : k ≠ .uint32)
    (h : marshalKind k v d meta parent = .ok (buf, mo)) :
    marshalKind k v d none [] = .ok (buf, none) := by
  rw [marshalKind_context_free k v d meta parent h16 h32] at h
  have hn := marshalKind_context_free k v d none [] h16 h32
  cases hr : marshalKind k v d none [] with
  | error e => simp [hr] at h
  | ok r =>
    obtain ⟨b, mo2⟩ := r
    rw [hr] at h hn
    simp only [Except.ok.injEq, Prod.mk.injEq] at h hn
    rw [← h.1, hn.2]

/-- The encoding of a field whose kind is not `contextual` is `Marshal` of its value. -/
theorem marshalField_context_free (f : Field Kind) (v : Value) (m : Metadata)
    (parent : List Sibling) (buf : List Nat) (mo : Option Metadata)
    (hc : contextual f.kind = false)
    (h : marshalField f v (some m) parent = .ok (buf, mo)) : Marshal f.kind v = .ok buf := by
  obtain ⟨name, tag, k⟩ := f
  simp only at hc
  have h16 : k ≠ .uint16 := by rintro rfl; simp [contextual] at hc
  have h32 : k ≠ .uint32 := by rintro rfl; simp [contextual] at hc
  by_cases hp : ∀ e, k ≠ .ptr e
  · rw [marshalField_eq_marshalKind _ _ _ _ _ _ hp] at h
    have := Marshal_of_marshalKind k v true _ _ buf mo h16 h32 h
    simp [Marshal, marshal, marshalField_eq_marshalKind _ _ _ _ _ _ hp, this]
  · push_neg at hp
    obtain ⟨e, rfl⟩ := hp
    have he16 : e ≠ .uint16 := by rintro rfl; simp [contextual] at hc
    have he32 : e ≠ .uint32 := by rintro rfl; simp [contextual] at hc
    cases v with
    | ptr t =>
      cases t with
      | none => cases e <;> simp [marshalField] at h
      | some x =>
        cases e with
        | custom c u => simp [contextual] at hc
        | _ =>
          simp only [marshalField] at h
          have := Marshal_of_marshalKind _ x false _ _ buf mo he16 he32 h
          simp [Marshal, marshal, marshalField, this]
    | _ => cases e <;> simp [marshalField] at h

theorem marshalFields_encoded (parent : List Sibling) (fs : Shape) :
    ∀ (vs : List Value) (m : Metadata) (out : List Nat),
      marshalFields fs vs parent m = .ok out →
      ∃ bufs, FieldsEncoded parent fs vs bufs ∧ out = bufs.flatten
        ∧ bufs.length = fs.length := by
  induction fs with
  | nil =>
    intro vs m out h
    simp only [marshalFields, Except.ok.injEq] at h
    exact ⟨[], .nil vs, by simp [← h], rfl⟩
  | cons g fs ih =>
    intro vs m out h
    cases vs with
    | nil => simp [marshalFields] at h
    | cons w vs =>
      rw [marshalFields] at h
      cases hp : parseTags g.tag with
      | error e => simp [hp] at h
      | ok tags =>
        simp only [hp] at h
        cases hf : marshalField g w (some { m with Tags := tags }) parent with
        | error e => simp [hf] at h
        | ok r =>
          obtain ⟨buf, mo⟩ := r
          simp only [hf] at h
          generalize hrest : marshalFields fs vs parent _ = r at h
          cases r with
          | error e => cases h
          | ok rest =>
            cases h
            obtain ⟨bufs, h1, h2, h3⟩ := ih vs _ rest hrest
            exact ⟨buf :: bufs,
              .cons g w fs vs buf bufs { m with Tags := tags } mo hp hf
                (fun hc => marshalField_context_free g w _ parent buf mo hc hf) h1,
              by simp [h2], by simp [h3]⟩

/-- C14: when `Marshal` of a structure succeeds, its output is the concatenation, in
declaration order and with nothing between them, of one buffer for each field: the
encoding `marshal` gives the value of the field in a context with the directives of the
field (for a header, the little-endian bytes of its computed value), which is `Marshal`
of the value for every field whose encoding does not depend on the context. -/
theorem encode_concatenation (fields : Shape) (vals : List Value) (out : List Nat)
    (h : Marshal (.struct fields) (.struct vals) = .ok out) :
    ∃ bufs, FieldsEncoded (siblings fields vals) fields vals bufs ∧ out = bufs.flatten
      ∧ bufs.length = fields.length := by
  rw [Marshal_struct] at h
  exact marshalFields_encoded _ fields vals _ out h

theorem encode_concatenation_witness :
    Marshal (.struct [⟨"A", "", .uint8⟩, ⟨"B", "", .uint16⟩, ⟨"C", "", .uint32⟩])
        (.struct [.u8 1, .u16 515, .u32 67438087]) = .ok [1, 3, 2, 7, 6, 5, 4]
    ∧ ∃ bufs, FieldsEncoded
          (siblings [⟨"A", "", .uint8⟩, ⟨"B", "", .uint16⟩, ⟨"C", "", .uint32⟩]
            [.u8 1, .u16 515, .u32 67438087])
          [⟨"A", "", .uint8⟩, ⟨"B", "", .uint16⟩, ⟨"C", "", .uint32⟩]
          [.u8 1, .u16 515, .u32 67438087] bufs
        ∧ [1, 3, 2, 7, 6, 5, 4] = bufs.flatten ∧ bufs.length = 3 :=
  ⟨rfl, encode_concatenation [⟨"A", "", .uint8⟩, ⟨"B", "", .uint16⟩, ⟨"C", "", .uint32⟩]
    [.u8 1, .u16 515, .u32 67438087] [1, 3, 2, 7, 6, 5, 4] rfl⟩

theorem marshalField_eq_Marshal (f : Field Kind) (v : Value) (meta : Option Metadata)
    (parent : List Sibling) (hc : contextual f.kind = false) :
    marshalField f v meta parent =
      match Marshal f.kind v with
      | .ok buf => .ok (buf, meta)
      | .error e => .error e := by
  obtain ⟨name, tag, k⟩ := f
  simp only at hc
  have h16 : k ≠ .uint16 := by rintro rfl; simp [contextual] at hc
  have h32 : k ≠ .uint32 := by rintro rfl; simp [contextual] at hc
  by_cases hp : ∀ e, k ≠ .ptr e
  · simp only [Marshal, marshal, marshalField_eq_marshalKind _ _ _ _ _ _ hp]
    rw [marshalKind_context_free k v true meta parent h16 h32]
    cases marshalKind k v true none [] with
    | error e => rfl
    | ok r => rfl
  · push_neg at hp
    obtain ⟨e, rfl⟩ := hp
    have he16 : e ≠ .uint16 := by rintro rfl; simp [contextual] at hc
    have he32 : e ≠ .uint32 := by rintro rfl; simp [contextual] at hc
    cases v with
    | ptr t =>
      cases t with
      | none => cases e <;> simp [Marshal, marshal, marshalField]
      | some x =>
        cases e with
        | custom c u => simp [contextual] at hc
        | _ =>
          simp only [Marshal, marshal, marshalField]
          rw [marshalKind_context_free _ x false meta parent he16 he32]
          cases marshalKind _ x false none [] with
          | error e => rfl
          | ok r => rfl
    | _ => cases e <;> simp [Marshal, marshal, marshalField]

/-! ## The value of an offset header -/

theorem marshalField_length_stable (f : Field Kind) (v : Value) (m : Metadata)
    (parent : List Sibling) (buf : List Nat) (mo : Option Metadata)
    (hc : ContextFree f.kind)
    (h : marshalField f v (some m) parent = .ok (buf, mo)) :
    ∃ b, marshalField f v none [] = .ok (b, none) ∧ b.length = buf.length := by
  by_cases hctx : contextual f.kind = false
  · have h2 := marshalField_eq_Marshal f v none [] hctx
    have h3 := marshalField_context_free f v m parent buf mo hctx h
    rw [h3] at h2
    exact ⟨buf, h2, rfl⟩
  · obtain ⟨name, tag, k⟩ := f
    simp only at hc hctx
    cases k with
    | uint16 =>
      cases v <;> simp [marshalField, marshalKind, marshalUint16] at h ⊢
      generalize resolveHeader 16 _ m parent = r at h
      cases r with
      | error e => cases h
      | ok r =>
        simp only [Except.ok.injEq, Prod.mk.injEq] at h
        simp [← h.1]
    | uint32 =>
      cases v <;> simp [marshalField, marshalKind, marshalUint32] at h ⊢
      generalize resolveHeader 32 _ m parent = r at h
      cases r with
      | error e => cases h
      | ok r =>
        simp only [Except.ok.injEq, Prod.mk.injEq] at h
        simp [← h.1]
    | ptr e =>
      cases e with
      | uint16 =>
        cases v with
        | ptr t =>
          cases t with
          | none => simp [marshalField] at h
          | some x =>
            simp only [marshalField] at h ⊢
            cases x <;> simp [marshalKind, marshalUint16] at h ⊢
            generalize resolveHeader 16 _ m parent = r at h
            cases r with
            | error e => cases h
            | ok r =>
              simp only [Except.ok.injEq, Prod.mk.injEq] at h
              simp [← h.1]
        | _ => simp [marshalField] at h
      | uint32 =>
        cases v with
        | ptr t =>
          cases t with
          | none => simp [marshalField] at h
          | some x =>
            simp only [marshalField] at h ⊢
            cases x <;> simp [marshalKind, marshalUint32] at h ⊢
            generalize resolveHeader 32 _ m parent = r at h
            cases r with
            | error e => cases h
            | ok r =>
              simp only [Except.ok.injEq, Prod.mk.injEq] at h
              simp [← h.1]
        | _ => simp [marshalField] at h
      | custom c u =>
        cases v with
        | ptr t =>
          cases t with
          | none => simp [marshalField] at h
          | some x =>
            simp only [marshalField] at h ⊢
            rw [hc c u rfl x (some m)] at h
            cases hm : c.MarshalBinary x none with
            | ok b =>
              simp only [hm, Except.ok.injEq, Prod.mk.injEq] at h
              exact ⟨b, rfl, by rw [h.1]⟩
            | error e =>
              simp only [hm] at h ⊢
              have := Marshal_of_marshalKind _ x false _ _ buf mo (by simp) (by simp) h
              exact ⟨buf, this, rfl⟩
        | _ => simp [marshalField] at h
      | _ => simp [contextual] at hctx
    | _ => simp [contextual] at hctx

theorem fieldKindLength_sound (s : Sibling) (k : Kind) (v : Value) (d : Bool) (b : List Nat)
    (ret : Int) (hs : s.marshalled = .ok b)
    (hk : marshalKind k v d none [] = .ok (b, none))
    (h : fieldKindLength s k v false = .ok ret) : ret = (b.length : Int) := by
  cases k with
  | struct fs => simp [fieldKindLength, hs] at h; exact h.symm
  | slice e =>
    cases e <;> cases v <;> cases d <;>
      simp [fieldKindLength, marshalKind] at h hk
    all_goals (subst hk; exact h.symm)
  | uint8 =>
    cases v <;> simp [fieldKindLength, marshalKind, marshalUint8] at h hk
    subst hk; simp [← h]
  | uint16 =>
    cases v <;> simp [fieldKindLength, marshalKind, marshalUint16] at h hk
    subst hk; simp [← h]
  | uint32 =>
    cases v <;> simp [fieldKindLength, marshalKind, marshalUint32] at h hk
    subst hk; simp [← h]
  | uint64 =>
    cases v <;> simp [fieldKindLength, marshalKind, marshalUint64] at h hk
    subst hk; simp [← h]
  | string => simp [fieldKindLength] at h
  | ptr e => simp [fieldKindLength] at h
  | custom c u => simp [fieldKindLength] at h
  | other => simp [fieldKindLength] at h

theorem fieldKindLength_named (s : Sibling) (k : Kind) (v : Value) (b : List Nat) (ret : Int)
    (hs : s.marshalled = .ok b) (h : fieldKindLength s k v true = .ok ret) :
    ret = (b.length : Int) := by
  cases k with
  | struct fs => simp [fieldKindLength, hs] at h; exact h.symm
  | slice e => cases e <;> cases v <;> simp [fieldKindLength] at h
  | _ => simp [fieldKindLength] at h

/-- When `getFieldLengthByName` computes and memoizes the length of a field that
`Marshal` encodes, it is the length of that encoding. -/
theorem getFieldLengthByName_found (ref : String) (m : Metadata) (parent : List Sibling)
    (s0 : Sibling) (hlook : m.Lens.lookup ref = none)
    (hfind : parent.find? (fun s => s.name = ref) = some s0) (hok : SiblingOK s0)
    (l : Int) (m1 : Metadata) (h : getFieldLengthByName ref m parent = .ok (l, m1)) :
    m1 = m ∨ l = (s0.wireLength : Int) := by
  unfold getFieldLengthByName at h
  simp only [hlook, hfind] at h
  obtain ⟨name, kind, value, marshalled⟩ := s0
  obtain ⟨b, hb, hmf⟩ := hok
  simp only at hb hmf h
  subst hb
  have hw : Sibling.wireLength ⟨name, kind, value, .ok b⟩ = b.length := rfl
  rw [hw]
  cases kind with
  | ptr e =>
    cases value with
    | ptr t =>
      cases t with
      | none => cases e <;> simp [marshalField] at hmf
      | some x =>
        cases e with
        | custom c u =>
          simp only [] at h
          cases hm : c.MarshalBinary x (some m) with
          | error e => simp [hm] at h
          | ok buf =>
            simp only [hm, Except.ok.injEq, Prod.mk.injEq] at h
            exact Or.inl h.2.symm
        | _ =>
          simp only [marshalField] at hmf
          simp only [] at h
          generalize hr : fieldKindLength _ _ x false = r at h
          cases r with
          | error e => cases h
          | ok ret =>
            simp only [Except.ok.injEq, Prod.mk.injEq] at h
            obtain ⟨rfl, rfl⟩ := h
            exact Or.inr (fieldKindLength_sound _ _ x false b ret rfl hmf hr)
    | _ => cases e <;> simp [marshalField] at hmf
  | custom c u =>
    simp only [] at h
    generalize hr : fieldKindLength _ u value true = r at h
    cases r with
    | error e => cases h
    | ok ret =>
      simp only [Except.ok.injEq, Prod.mk.injEq] at h
      obtain ⟨rfl, rfl⟩ := h
      exact Or.inr (fieldKindLength_named _ u value b ret rfl hr)
  | _ =>
    rw [marshalField_eq_marshalKind _ _ _ _ _ _ (by intro e; exact Kind.noConfusion)] at hmf
    simp only [] at h
    generalize hr : fieldKindLength _ _ value false = r at h
    cases r with
    | error e => cases h
    | ok ret =>
      simp only [Except.ok.injEq, Prod.mk.injEq] at h
      obtain ⟨rfl, rfl⟩ := h
      exact Or.inr (fieldKindLength_sound _ _ value true b ret rfl hmf hr)

theorem getFieldLengthByName_shape (ref : String) (m : Metadata) (parent : List Sibling)
    (l : Int) (m1 : Metadata) (h : getFieldLengthByName ref m parent = .ok (l, m1)) :
    m1 = m ∨ m1 = { m with Lens := (ref, l) :: m.Lens } := by
  unfold getFieldLengthByName at h
  cases hlook : m.Lens.lookup ref with
  | some val =>
    simp only [hlook, Except.ok.injEq, Prod.mk.injEq] at h
    exact Or.inl h.2.symm
  | none =>
    simp only [hlook] at h
    cases hfind : parent.find? (fun s => s.name = ref) with
    | none => simp [hfind] at h
    | some s0 =>
      simp only [hfind] at h
      split at h
      · split at h
        · cases h
        · simp only [Except.ok.injEq, Prod.mk.injEq] at h
          exact Or.inl h.2.symm
      · cases h
      · split at h
        · cases h
        · simp only [Except.ok.injEq, Prod.mk.injEq] at h
          obtain ⟨rfl, rfl⟩ := h
          exact Or.inr rfl
      · cases h
      · split at h
        · cases h
        · simp only [Except.ok.injEq, Prod.mk.injEq] at h
          obtain ⟨rfl, rfl⟩ := h
          exact Or.inr rfl
      · split at h
        · cases h
        · simp only [Except.ok.injEq, Prod.mk.injEq] at h
          obtain ⟨rfl, rfl⟩ := h
          exact Or.inr rfl

theorem lensSound_cons {before : List Sibling} {lens : List (String × Int)} {ref : String}
    {l : Int} (hl : LensSound before lens)
    (h : ∀ s ∈ before, s.name = ref → l = (s.wireLength : Int)) :
    LensSound before ((ref, l) :: lens) := by
  intro name l2 hlook s hs hname
  by_cases hx : name = ref
  · subst hx
    simp [List.lookup] at hlook
    subst hlook
    exact h s hs hname
  · have hb : (name == ref) = false := by simpa using hx
    simp only [List.lookup, hb] at hlook
    exact hl name l2 hlook s hs hname

theorem getFieldLengthByName_lensSound (before parent : List Sibling) (ref : String)
    (m : Metadata) (l : Int) (m1 : Metadata)
    (huniq : ∀ s ∈ before, ∀ s2 ∈ parent, s2.name = s.name → s2 = s)
    (hok : ∀ s ∈ before, SiblingOK s) (hl : LensSound before m.Lens)
    (h : getFieldLengthByName ref m parent = .ok (l, m1)) :
    m1.Tags = m.Tags ∧ LensSound before m1.Lens := by
  rcases getFieldLengthByName_shape ref m parent l m1 h with rfl | rfl
  · exact ⟨rfl, hl⟩
  · refine ⟨rfl, lensSound_cons hl ?_⟩
    intro s hs hname
    cases hlook : m.Lens.lookup ref with
    | some val =>
      have h2 := h
      unfold getFieldLengthByName at h2
      simp only [hlook, Except.ok.injEq, Prod.mk.injEq] at h2
      rw [← h2.1]
      exact hl ref val hlook s hs hname
    | none =>
      cases hfind : parent.find? (fun s => s.name = ref) with
      | none =>
        unfold getFieldLengthByName at h
        simp [hlook, hfind] at h
      | some s0 =>
        have hmem : s0 ∈ parent := List.mem_of_find?_eq_some hfind
        have hn : s0.name = ref := by
          have := List.find?_some hfind
          simpa using this
        have hs0 : s0 = s := huniq s hs s0 hmem (by rw [hn, hname])
        subst hs0
        rcases getFieldLengthByName_found ref m parent s0 hlook hfind (hok s0 hs) l _ h
          with hm | hw
        · have hlen := congrArg (fun x => x.Lens.length) hm
          simp at hlen
        · exact hw

theorem wireLength_of_ok (s : Sibling) (buf : List Nat) (h : s.marshalled = .ok buf) :
    s.wireLength = buf.length := by
  simp [Sibling.wireLength, h]

/-- The loop of `getOffsetByFieldName` adds up the lengths of `Marshal` of the fields
before the referenced one, and keeps the memoized lengths right. -/
theorem getOffsetLoop_sum (fieldName : String) (before : List Sibling)
    (hnd : ∀ s ∈ before, ∀ s2 ∈ before, s2.name = s.name → s2 = s) :
    ∀ (ps : List Sibling) (ret : Int) (m : Metadata) (l : Int) (m1 : Metadata),
      (∀ s ∈ siblingsBefore fieldName ps, s ∈ before) → LensSound before m.Lens →
      getOffsetLoop fieldName ps ret m = .ok (l, m1) →
      l = ret + (((siblingsBefore fieldName ps).map Sibling.wireLength).sum : Nat)
        ∧ m1.Tags = m.Tags ∧ LensSound before m1.Lens := by
  intro ps
  induction ps with
  | nil => intro ret m l m1 _ _ h; simp [getOffsetLoop] at h
  | cons s rest ih =>
    intro ret m l m1 hsub hl h
    rw [getOffsetLoop] at h
    by_cases hname : s.name = fieldName
    · simp only [hname, if_true, Except.ok.injEq, Prod.mk.injEq] at h
      obtain ⟨rfl, rfl⟩ := h
      simp [siblingsBefore, hname, hl]
    · simp only [hname, if_false] at h
      have hsb : siblingsBefore fieldName (s :: rest) = s :: siblingsBefore fieldName rest := by
        simp [siblingsBefore, hname]
      rw [hsb] at hsub ⊢
      have hs : s ∈ before := hsub s (by simp)
      have hsub2 : ∀ x ∈ siblingsBefore fieldName rest, x ∈ before :=
        fun x hx => hsub x (by simp [hx])
      cases hlook : m.Lens.lookup s.name with
      | some l0 =>
        simp only [hlook] at h
        have hl0 : l0 = (s.wireLength : Int) := hl s.name l0 hlook s hs rfl
        obtain ⟨h1, h2, h3⟩ := ih _ m l m1 hsub2 hl h
        refine ⟨?_, h2, h3⟩
        rw [h1, hl0]
        simp only [List.map_cons, List.sum_cons, Nat.cast_add]
        omega
      | none =>
        simp only [hlook] at h
        cases hm : s.marshalled with
        | error e => simp [hm] at h
        | ok buf =>
          simp only [hm] at h
          have hw := wireLength_of_ok s buf hm
          obtain ⟨h1, h2, h3⟩ := ih _ _ l m1 hsub2
            (lensSound_cons hl (fun s2 hs2 hn2 => by
              rw [hnd s hs s2 hs2 hn2, hw])) h
          refine ⟨?_, h2, h3⟩
          rw [h1]
          simp only [List.map_cons, List.sum_cons, Nat.cast_add, hw]
          omega

theorem getOffsetLoop_lensSound (fieldName : String) (before parent : List Sibling)
    (huniq : ∀ s ∈ before, ∀ s2 ∈ parent, s2.name = s.name → s2 = s) :
    ∀ (ps : List Sibling) (ret : Int) (m : Metadata) (l : Int) (m1 : Metadata),
      (∀ s ∈ ps, s ∈ parent) → LensSound before m.Lens →
      getOffsetLoop fieldName ps ret m = .ok (l, m1) →
      m1.Tags = m.Tags ∧ LensSound before m1.Lens := by
  intro ps
  induction ps with
  | nil => intro ret m l m1 _ _ h; simp [getOffsetLoop] at h
  | cons s rest ih =>
    intro ret m l m1 hsub hl h
    rw [getOffsetLoop] at h
    by_cases hname : s.name = fieldName
    · simp only [hname, if_true, Except.ok.injEq, Prod.mk.injEq] at h
      obtain ⟨rfl, rfl⟩ := h
      exact ⟨rfl, hl⟩
    · simp only [hname, if_false] at h
      have hsub2 : ∀ x ∈ rest, x ∈ parent := fun x hx => hsub x (by simp [hx])
      cases hlook : m.Lens.lookup s.name with
      | some l0 =>
        simp only [hlook] at h
        exact ih _ m l m1 hsub2 hl h
      | none =>
        simp only [hlook] at h
        cases hm : s.marshalled with
        | error e => simp [hm] at h
        | ok buf =>
          simp only [hm] at h
          have hw := wireLength_of_ok s buf hm
          obtain ⟨h2, h3⟩ := ih _ _ l m1 hsub2
            (lensSound_cons hl (fun s2 hs2 hn2 => by
              rw [← huniq s2 hs2 s (hsub s (by simp)) hn2.symm, hw])) h
          exact ⟨h2, h3⟩

/-- The two steps of `resolveHeader`: after the `len` step the context `ma` has the same
directives and right memoized lengths; the `offset` step, if any, gives the value. -/
theorem resolveHeader_steps (bits data : Nat) (m : Metadata) (before parent : List Sibling)
    (x : Nat) (m1 : Metadata)
    (huniq : ∀ s ∈ before, ∀ s2 ∈ parent, s2.name = s.name → s2 = s)
    (hok : ∀ s ∈ before, SiblingOK s) (hl : LensSound before m.Lens)
    (h : resolveHeader bits data m parent = .ok (x, m1)) :
    ∃ (ma : Metadata), ma.Tags = m.Tags ∧ LensSound before ma.Lens
      ∧ ((m.Tags.Has "offset" = false ∧ m1 = ma)
         ∨ (m.Tags.Has "offset" = true ∧ ∃ ref l, m.Tags.GetString "offset" = .ok ref
              ∧ getOffsetLoop ref parent 0 ma = .ok (l, m1) ∧ x = truncate bits l)) := by
  unfold resolveHeader at h
  simp only [] at h
  have hlen : ∀ (r : Except Error (Nat × Metadata)),
      r = (if m.Tags.Has "len" then
            match m.Tags.GetString "len" with
            | .error e => .error e
            | .ok fieldName =>
              match getFieldLengthByName fieldName m parent with
              | .error e => .error e
              | .ok (l, meta1) => .ok (truncate bits l, meta1)
          else .ok (data, m)) →
      ∀ d ma, r = .ok (d, ma) → ma.Tags = m.Tags ∧ LensSound before ma.Lens := by
    intro r hr d ma hd
    rw [hr] at hd
    split at hd
    · split at hd
      · cases hd
      · rename_i ref _
        split at hd
        · cases hd
        · rename_i l meta1 hg
          simp only [Except.ok.injEq, Prod.mk.injEq] at hd
          obtain ⟨_, rfl⟩ := hd
          exact getFieldLengthByName_lensSound before parent ref m l meta1 huniq hok hl hg
    · simp only [Except.ok.injEq, Prod.mk.injEq] at hd
      obtain ⟨_, rfl⟩ := hd
      exact ⟨rfl, hl⟩
  split at h
  · cases h
  · rename_i d ma hr
    obtain ⟨ht, hla⟩ := hlen _ rfl d ma hr
    refine ⟨ma, ht, hla, ?_⟩
    rw [ht] at h
    split at h
    · rename_i hoff
      split at h
      · cases h
      · rename_i ref hget
        split at h
        · cases h
        · rename_i l meta2 hg
          simp only [Except.ok.injEq, Prod.mk.injEq] at h
          obtain ⟨rfl, rfl⟩ := h
          exact Or.inr ⟨hoff, ref, l, hget, by simpa [getOffsetByFieldName] using hg, rfl⟩
    · rename_i hoff
      simp only [Except.ok.injEq, Prod.mk.injEq] at h
      obtain ⟨_, rfl⟩ := h
      exact Or.inl ⟨by simpa using hoff, rfl⟩

theorem resolveHeader_lensSound (bits data : Nat) (m : Metadata) (before parent : List Sibling)
    (x : Nat) (m1 : Metadata)
    (huniq : ∀ s ∈ before, ∀ s2 ∈ parent, s2.name = s.name → s2 = s)
    (hok : ∀ s ∈ before, SiblingOK s) (hl : LensSound before m.Lens)
    (h : resolveHeader bits data m parent = .ok (x, m1)) :
    m1.Tags = m.Tags ∧ LensSound before m1.Lens := by
  obtain ⟨ma, ht, hla, hcase⟩ := resolveHeader_steps bits data m before parent x m1 huniq hok hl h
  rcases hcase with ⟨_, rfl⟩ | ⟨_, ref, l, _, hg, _⟩
  · exact ⟨ht, hla⟩
  · obtain ⟨h2, h3⟩ := getOffsetLoop_lensSound ref before parent huniq parent 0 ma l m1
      (fun s hs => hs) hla hg
    exact ⟨by rw [h2, ht], h3⟩

/-- The value of a header tagged `offset:F`: the sum of the lengths of `Marshal` of the
fields before `F`, converted to the width of the header. -/
theorem resolveHeader_offset (bits data : Nat) (m : Metadata) (parent : List Sibling)
    (fieldName : String) (x : Nat) (m1 : Metadata)
    (huniq : ∀ s ∈ siblingsBefore fieldName parent, ∀ s2 ∈ parent, s2.name = s.name → s2 = s)
    (hok : ∀ s ∈ siblingsBefore fieldName parent, SiblingOK s)
    (hl : LensSound (siblingsBefore fieldName parent) m.Lens)
    (hoff : m.Tags.Has "offset" = true) (hget : m.Tags.GetString "offset" = .ok fieldName)
    (h : resolveHeader bits data m parent = .ok (x, m1)) :
    x = truncate bits
      ((((siblingsBefore fieldName parent).map Sibling.wireLength).sum : Nat) : Int) := by
  obtain ⟨ma, ht, hla, hcase⟩ :=
    resolveHeader_steps bits data m _ parent x m1 huniq hok hl h
  rcases hcase with ⟨hno, _⟩ | ⟨_, ref, l, hget2, hg, hx⟩
  · rw [hoff] at hno
    cases hno
  · rw [hget] at hget2
    cases hget2
    have hsubset : ∀ s ∈ siblingsBefore fieldName parent, s ∈ parent :=
      fun s hs => List.takeWhile_subset _ hs
    obtain ⟨h1, _, _⟩ := getOffsetLoop_sum fieldName (siblingsBefore fieldName parent)
      (fun s hs s2 hs2 hn => huniq s hs s2 (hsubset s2 hs2) hn) parent 0 ma l m1
      (fun s hs => hs) hla hg
    rw [hx, h1]
    simp

theorem marshalField_lensSound (f : Field Kind) (v : Value) (m : Metadata)
    (before parent : List Sibling) (buf : List Nat) (mo : Option Metadata)
    (huniq : ∀ s ∈ before, ∀ s2 ∈ parent, s2.name = s.name → s2 = s)
    (hok : ∀ s ∈ before, SiblingOK s) (hl : LensSound before m.Lens)
    (h : marshalField f v (some m) parent = .ok (buf, mo)) :
    ∃ m1, mo = some m1 ∧ LensSound before m1.Lens := by
  by_cases hctx : contextual f.kind = false
  · rw [marshalField_eq_Marshal f v (some m) parent hctx] at h
    cases hM : Marshal f.kind v with
    | error e => simp [hM] at h
    | ok b =>
      simp only [hM, Except.ok.injEq, Prod.mk.injEq] at h
      exact ⟨m, h.2.symm, hl⟩
  · obtain ⟨name, tag, k⟩ := f
    simp only at hctx
    have hres : ∀ bits n (w : Nat),
        (match resolveHeader bits n m parent with
          | .error e => .error e
          | .ok (data1, m1) => Except.ok (leBytes w data1, some m1)) = Except.ok (buf, mo) →
        ∃ m1, mo = some m1 ∧ LensSound before m1.Lens := by
      intro bits n w hr
      cases hx : resolveHeader bits n m parent with
      | error e => simp [hx] at hr
      | ok r =>
        obtain ⟨d, m1⟩ := r
        simp only [hx, Except.ok.injEq, Prod.mk.injEq] at hr
        exact ⟨m1, hr.2.symm, (resolveHeader_lensSound bits n m before parent d m1 huniq hok hl hx).2⟩
    cases k with
    | uint16 =>
      cases v <;> simp [marshalField, marshalKind, marshalUint16] at h
      exact hres 16 _ 2 h
    | uint32 =>
      cases v <;> simp [marshalField, marshalKind, marshalUint32] at h
      exact hres 32 _ 4 h
    | ptr e =>
      cases v with
      | ptr t =>
        cases t with
        | none => cases e <;> simp [marshalField] at h
        | some x =>
          cases e with
          | uint16 =>
            simp only [marshalField] at h
            cases x <;> simp [marshalKind, marshalUint16] at h
            exact hres 16 _ 2 h
          | uint32 =>
            simp only [marshalField] at h
            cases x <;> simp [marshalKind, marshalUint32] at h
            exact hres 32 _ 4 h
          | custom c u =>
            simp only [marshalField] at h
            cases hc : c.MarshalBinary x (some m) with
            | ok b =>
              simp only [hc, Except.ok.injEq, Prod.mk.injEq] at h
              exact ⟨m, h.2.symm, hl⟩
            | error e =>
              simp only [hc] at h
              rw [marshalKind_context_free _ x false (some m) parent (by simp) (by simp)] at h
              cases hk : marshalKind (.custom c u) x false none [] with
              | error e => simp [hk] at h
              | ok r =>
                simp only [hk, Except.ok.injEq, Prod.mk.injEq] at h
                exact ⟨m, h.2.symm, hl⟩
          | _ => simp [contextual] at hctx
      | _ => cases e <;> simp [marshalField] at h
    | _ => simp [contextual] at hctx

/-- A `uint16` or `uint32` field tagged `offset:F` is encoded as the little-endian bytes
of the sum of the lengths of `Marshal` of the fields before `F`, whatever it stores. -/
theorem marshalField_offset_header (fieldName : String) (f : Field Kind) (v : Value)
    (m : Metadata) (parent : List Sibling) (buf : List Nat) (mo : Option Metadata) (w : Nat)
    (huniq : ∀ s ∈ siblingsBefore fieldName parent, ∀ s2 ∈ parent, s2.name = s.name → s2 = s)
    (hok : ∀ s ∈ siblingsBefore fieldName parent, SiblingOK s)
    (hl : LensSound (siblingsBefore fieldName parent) m.Lens)
    (htags : parseTags f.tag = .ok m.Tags) (hw : offsetHeaderWidth fieldName f = some w)
    (h : marshalField f v (some m) parent = .ok (buf, mo)) :
    buf = leBytes w (truncate (8 * w)
      ((((siblingsBefore fieldName parent).map Sibling.wireLength).sum : Nat) : Int)) := by
  obtain ⟨name, tag, k⟩ := f
  simp only [offsetHeaderWidth, htags] at hw htags
  split at hw
  · rename_i hcond
    simp only [Bool.and_eq_true, decide_eq_true_eq] at hcond
    obtain ⟨hoff, hget⟩ := hcond
    have hres : ∀ bits n (w2 : Nat),
        (match resolveHeader bits n m parent with
          | .error e => .error e
          | .ok (data1, m1) => Except.ok (leBytes w2 data1, some m1)) = Except.ok (buf, mo) →
        buf = leBytes w2 (truncate bits
          ((((siblingsBefore fieldName parent).map Sibling.wireLength).sum : Nat) : Int)) := by
      intro bits n w2 hr
      cases hx : resolveHeader bits n m parent with
      | error e => simp [hx] at hr
      | ok r =>
        obtain ⟨d, m1⟩ := r
        simp only [hx, Except.ok.injEq, Prod.mk.injEq] at hr
        rw [← hr.1, resolveHeader_offset bits n m parent fieldName d m1 huniq hok hl hoff hget hx]
    cases k with
    | uint16 =>
      simp only [Option.some.injEq] at hw
      subst hw
      cases v <;> simp [marshalField, marshalKind, marshalUint16] at h
      exact hres 16 _ 2 h
    | uint32 =>
      simp only [Option.some.injEq] at hw
      subst hw
      cases v <;> simp [marshalField, marshalKind, marshalUint32] at h
      exact hres 32 _ 4 h
    | _ => simp at hw
  · cases hw

theorem marshalField_name_irrelevant (n1 t1 n2 t2 : String) (k : Kind) (v : Value)
    (meta : Option Metadata) (parent : List Sibling) :
    marshalField ⟨n1, t1, k⟩ v meta parent = marshalField ⟨n2, t2, k⟩ v meta parent := by
  unfold marshalField
  rfl

theorem sibling_marshalled_eq (f : Field Kind) (v : Value) :
    (match marshalField f v none [] with
      | .error e => (.error e : Except Error (List Nat))
      | .ok (buf, _) => .ok buf) = Marshal f.kind v := by
  obtain ⟨n, t, k⟩ := f
  simp only [Marshal, marshal]
  rw [marshalField_name_irrelevant n t "" "" k v none []]

theorem siblingsBefore_cons_of_ne (fieldName : String) (s : Sibling) (rest : List Sibling)
    (h : s.name ≠ fieldName) :
    siblingsBefore fieldName (s :: rest) = s :: siblingsBefore fieldName rest := by
  simp [siblingsBefore, h]

theorem siblingsBefore_cons_of_eq (fieldName : String) (s : Sibling) (rest : List Sibling)
    (h : s.name = fieldName) : siblingsBefore fieldName (s :: rest) = [] := by
  simp [siblingsBefore, h]

/-- What `siblings` holds for a field: its name, type and value, and `Marshal` of the
value. -/
theorem mem_siblings (fs : Shape) :
    ∀ (vs : List Value) (s : Sibling), s ∈ siblings fs vs →
      ∃ g w, (g, w) ∈ fs.zip vs ∧ s.name = g.name ∧ s.kind = g.kind ∧ s.value = w
        ∧ s.marshalled = Marshal g.kind w := by
  induction fs with
  | nil => intro vs s hs; simp [siblings] at hs
  | cons f fs ih =>
    intro vs s hs
    cases vs with
    | nil => simp [siblings] at hs
    | cons v vs =>
      rw [siblings] at hs
      simp only [List.mem_cons] at hs
      rcases hs with rfl | hs
      · exact ⟨f, v, by simp, rfl, rfl, rfl, sibling_marshalled_eq f v⟩
      · obtain ⟨g, w, h1, h2⟩ := ih vs s hs
        exact ⟨g, w, by simp [h1], h2⟩

theorem mem_siblingsBefore (fieldName : String) (fs : Shape) :
    ∀ (vs : List Value) (s : Sibling), s ∈ siblingsBefore fieldName (siblings fs vs) →
      ∃ g w, (g, w) ∈ fs.zip vs ∧ g ∈ fs.takeWhile (fun f => decide (f.name ≠ fieldName))
        ∧ s.name = g.name ∧ s.kind = g.kind ∧ s.value = w
        ∧ s.marshalled = Marshal g.kind w := by
  induction fs with
  | nil => intro vs s hs; simp [siblings, siblingsBefore] at hs
  | cons f fs ih =>
    intro vs s hs
    cases vs with
    | nil => simp [siblings, siblingsBefore] at hs
    | cons v vs =>
      rw [siblings] at hs
      by_cases hname : f.name = fieldName
      · rw [siblingsBefore_cons_of_eq _ _ _ hname] at hs
        simp at hs
      · rw [siblingsBefore_cons_of_ne _ _ _ hname] at hs
        simp only [List.mem_cons] at hs
        rcases hs with rfl | hs
        · exact ⟨f, v, by simp,
            by rw [List.takeWhile_cons_of_pos (by simpa using hname)]
               exact List.mem_cons_self _ _,
            rfl, rfl, rfl, sibling_marshalled_eq f v⟩
        · obtain ⟨g, w, h1, h2, h3⟩ := ih vs s hs
          exact ⟨g, w, by simp [h1],
            by rw [List.takeWhile_cons_of_pos (by simpa using hname)]
               exact List.mem_cons_of_mem _ h2,
            h3⟩

theorem siblings_names_nodup (fs : Shape) :
    ∀ (vs : List Value), (fs.map (fun f => f.name)).Nodup →
      ((siblings fs vs).map (fun s => s.name)).Nodup := by
  induction fs with
  | nil => intro vs _; simp [siblings]
  | cons f fs ih =>
    intro vs hnd
    cases vs with
    | nil => simp [siblings]
    | cons v vs =>
      rw [siblings]
      simp only [List.map_cons, List.nodup_cons] at hnd ⊢
      refine ⟨?_, ih vs hnd.2⟩
      intro hmem
      obtain ⟨s, hs, hn⟩ := List.mem_map.mp hmem
      obtain ⟨g, w, hz, hgn, _⟩ := mem_siblings fs vs s hs
      apply hnd.1
      rw [← hn, hgn]
      exact List.mem_map.mpr ⟨g, (List.of_mem_zip hz).1, rfl⟩

theorem zip_unique_name (fs : Shape) :
    ∀ (vs : List Value), (fs.map (fun f => f.name)).Nodup →
      ∀ g w g2 w2, (g, w) ∈ fs.zip vs → (g2, w2) ∈ fs.zip vs → g.name = g2.name →
        g = g2 ∧ w = w2 := by
  induction fs with
  | nil => intro vs _ g w g2 w2 h; simp at h
  | cons f fs ih =>
    intro vs hnd g w g2 w2 h1 h2 hn
    cases vs with
    | nil => simp at h1
    | cons v vs =>
      simp only [List.map_cons, List.nodup_cons] at hnd
      simp only [List.zip_cons_cons, List.mem_cons, Prod.mk.injEq] at h1 h2
      have hnot : ∀ x y, (x, y) ∈ fs.zip vs → x.name ≠ f.name := by
        intro x y hx hxn
        apply hnd.1
        rw [← hxn]
        exact List.mem_map.mpr ⟨x, (List.of_mem_zip hx).1, rfl⟩
      rcases h1 with ⟨rfl, rfl⟩ | h1
      · rcases h2 with ⟨rfl, rfl⟩ | h2
        · exact ⟨rfl, rfl⟩
        · exact absurd hn.symm (hnot g2 w2 h2)
      · rcases h2 with ⟨rfl, rfl⟩ | h2
        · exact absurd hn (hnot g w h1)
        · exact ih vs hnd.2 g w g2 w2 h1 h2 hn

/-- The loop of `marshalStruct`, started with right memoized lengths: every header for
the offset of `fieldName` is encoded as the sum of the lengths of `Marshal` of the fields
before `fieldName`. -/
theorem marshalFields_offsets (fieldName : String) (parent : List Sibling)
    (huniq : ∀ s ∈ siblingsBefore fieldName parent, ∀ s2 ∈ parent, s2.name = s.name → s2 = s)
    (hok : ∀ s ∈ siblingsBefore fieldName parent, SiblingOK s) (fs : Shape) :
    ∀ (vs : List Value) (m : Metadata) (out : List Nat),
      LensSound (siblingsBefore fieldName parent) m.Lens →
      (∀ g w, (g, w) ∈ fs.zip vs → ∀ s ∈ siblingsBefore fieldName parent, s.name = g.name →
        ∀ (m2 : Metadata) buf mo, marshalField g w (some m2) parent = .ok (buf, mo) →
          (buf.length : Int) = (s.wireLength : Int)) →
      marshalFields fs vs parent m = .ok out →
      ∃ (bufs : List (List Nat)), FieldsEncoded parent fs vs bufs ∧ out = bufs.flatten
        ∧ bufs.length = fs.length
        ∧ ∀ (i : Nat) (f : Field Kind) (w : Nat), fs[i]? = some f →
            offsetHeaderWidth fieldName f = some w →
            bufs[i]? = some (leBytes w (truncate (8 * w)
              ((((siblingsBefore fieldName parent).map Sibling.wireLength).sum : Nat) : Int))) := by
  induction fs with
  | nil =>
    intro vs m out _ _ h
    simp only [marshalFields, Except.ok.injEq] at h
    exact ⟨[], .nil vs, by simp [← h], rfl, by intro i f w hi; simp at hi⟩
  | cons g fs ih =>
    intro vs m out hl hstable h
    cases vs with
    | nil => simp [marshalFields] at h
    | cons w0 vs =>
      rw [marshalFields] at h
      cases hp : parseTags g.tag with
      | error e => simp [hp] at h
      | ok tags =>
        simp only [hp] at h
        cases hf : marshalField g w0 (some { m with Tags := tags }) parent with
        | error e => simp [hf] at h
        | ok r =>
          obtain ⟨buf, mo⟩ := r
          simp only [hf] at h
          obtain ⟨m1, hmo, hl1⟩ := marshalField_lensSound g w0 { m with Tags := tags } _ parent
            buf mo huniq hok hl hf
          subst hmo
          simp only [Option.getD_some] at h
          generalize hrest : marshalFields fs vs parent _ = r at h
          cases r with
          | error e => cases h
          | ok rest =>
            cases h
            have hl2 : LensSound (siblingsBefore fieldName parent)
                ((g.name, (buf.length : Int)) :: m1.Lens) :=
              lensSound_cons hl1 (fun s hs hn =>
                hstable g w0 (by simp) s hs hn _ buf _ hf)
            obtain ⟨bufs, h1, h2, h3, h4⟩ := ih vs _ rest hl2
              (fun g2 w2 hz => hstable g2 w2 (by simp [hz])) hrest
            refine ⟨buf :: bufs,
              .cons g w0 fs vs buf bufs { m with Tags := tags } _ hp hf
                (fun hc => marshalField_context_free g w0 _ parent buf _ hc hf) h1,
              by simp [h2], by simp [h3], ?_⟩
            intro i f w hi hw
            cases i with
            | zero =>
              simp only [List.getElem?_cons_zero, Option.some.injEq] at hi
              subst hi
              simp only [List.getElem?_cons_zero, Option.some.injEq]
              exact marshalField_offset_header fieldName g w0 { m with Tags := tags } parent buf _
                w huniq hok hl hp hw hf
            | succ j =>
              simp only [List.getElem?_cons_succ] at hi ⊢
              exact h4 j f w hi hw

/-- The lengths of `Marshal` of the fields before `fieldName` add up to the lengths of
their encodings in the output. -/
theorem sum_wireLength_eq (fieldName : String) (parent : List Sibling) (fs : Shape)
    (vs : List Value) (bufs : List (List Nat)) (h : FieldsEncoded parent fs vs bufs) :
    (∀ f ∈ fs.takeWhile (fun f => decide (f.name ≠ fieldName)), ContextFree f.kind) →
    ((siblingsBefore fieldName (siblings fs vs)).map Sibling.wireLength).sum
      = ((bufs.take (fs.takeWhile (fun f => decide (f.name ≠ fieldName))).length).map
          List.length).sum := by
  induction h with
  | nil vals => intro _; simp [siblings, siblingsBefore]
  | cons f v fs vs buf bufs m mo hp hf hctx hrest ih =>
    intro hcodec
    rw [siblings]
    by_cases hname : f.name = fieldName
    · rw [siblingsBefore_cons_of_eq _ _ _ hname,
        List.takeWhile_cons_of_neg (by simpa using hname)]
      simp
    · rw [siblingsBefore_cons_of_ne _ _ _ hname,
        List.takeWhile_cons_of_pos (by simpa using hname)]
      have hc : ContextFree f.kind :=
        hcodec f (by rw [List.takeWhile_cons_of_pos (by simpa using hname)]
                     exact List.mem_cons_self _ _)
      obtain ⟨b, hb, hblen⟩ := marshalField_length_stable f v m parent buf mo hc hf
      have ih2 := ih (fun g hg => hcodec g
        (by rw [List.takeWhile_cons_of_pos (by simpa using hname)]
            exact List.mem_cons_of_mem _ hg))
      simp only [List.map_cons, List.sum_cons, List.length_cons, List.take_succ_cons, ih2]
      congr 1
      simp [Sibling.wireLength, hb, hblen]

theorem parseTags_offset_SecurityBlob :
    parseTags "offset:SecurityBlob" = .ok ⟨[("offset", .str "SecurityBlob")]⟩ := by decide

theorem parseTags_len_SecurityBlob :
    parseTags "len:SecurityBlob" = .ok ⟨[("len", .str "SecurityBlob")]⟩ := by decide

theorem smb2Header_marshalFields (parent : List Sibling) (m : Metadata) :
    marshalFields Smb2Header smb2HeaderRecord parent m
      = .ok ([254, 83, 77, 66, 64, 0, 1, 0, 0, 0, 0, 0, 1, 0, 0, 0] ++ List.replicate 48 0) := by
  rw [static_marshalFields Smb2Header smb2HeaderRecord parent m rfl]
  rfl

theorem marshalFields_step (f : Field Kind) (rest : Shape) (v : Value) (vals : List Value)
    (parent : List Sibling) (m : Metadata) (tags : TagMap) (buf : List Nat) (m1 : Metadata)
    (hp : parseTags f.tag = .ok tags)
    (hf : marshalField f v (some { m with Tags := tags }) parent = .ok (buf, some m1)) :
    marshalFields (f :: rest) (v :: vals) parent m =
      match marshalFields rest vals parent
          { m1 with Lens := (f.name, (buf.length : Int)) :: m1.Lens } with
      | .error e => .error e
      | .ok out => .ok (buf ++ out) := by
  rw [marshalFields]
  simp only [hp, hf, Option.getD_some]

theorem sessionSetup1_offset (stored : Nat) (m : Metadata)
    (hl : m.Lens = [("Channel", 4), ("Capabilities", 4), ("SecurityMode", 1), ("Flags", 1),
      ("StructureSize", 2), ("Header", 64)]) :
    marshalField ⟨"SecurityBufferOffset", "offset:SecurityBlob", .uint16⟩ (.u16 stored)
        (some { m with Tags := ⟨[("offset", .str "SecurityBlob")]⟩ })
        (siblings (SessionSetup1Req emptySequenceCodec) (sessionSetup1Record stored))
      = .ok ([88, 0], some { m with
          Tags := ⟨[("offset", .str "SecurityBlob")]⟩,
          Lens := ("PreviousSessionID", 8) :: ("SecurityBufferLength", 2)
            :: ("SecurityBufferOffset", 2) :: m.Lens }) := by
  simp [marshalField, marshalKind, marshalUint16, marshalUint64, resolveHeader,
    getOffsetByFieldName, SessionSetup1Req, sessionSetup1Record, siblings, getOffsetLoop, hl,
    List.lookup, TagMap.Has, TagMap.GetString, TagMap.Get, truncate, leBytes]

theorem sessionSetup1_len (stored : Nat) (m : Metadata)
    (hl : m.Lens = [("SecurityBufferOffset", 2), ("PreviousSessionID", 8),
      ("SecurityBufferLength", 2), ("SecurityBufferOffset", 2),
      ("Channel", 4), ("Capabilities", 4), ("SecurityMode", 1), ("Flags", 1),
      ("StructureSize", 2), ("Header", 64)]) :
    marshalField ⟨"SecurityBufferLength", "len:SecurityBlob", .uint16⟩ (.u16 0)
        (some { m with Tags := ⟨[("len", .str "SecurityBlob")]⟩ })
        (siblings (SessionSetup1Req emptySequenceCodec) (sessionSetup1Record stored))
      = .ok ([2, 0], some { m with Tags := ⟨[("len", .str "SecurityBlob")]⟩ }) := by
  simp [marshalField, marshalKind, marshalUint16, resolveHeader,
    getFieldLengthByName, SessionSetup1Req, sessionSetup1Record, siblings, hl,
    List.lookup, TagMap.Has, TagMap.GetString, TagMap.Get, truncate, leBytes,
    emptySequenceCodec, NegTokenInitCodec]

theorem marshalField_plain_uint16 (name : String) (n : Nat) (m : Metadata)
    (parent : List Sibling) :
    marshalField ⟨name, "", .uint16⟩ (.u16 n) (some { m with Tags := ⟨[]⟩ }) parent
      = .ok (leBytes 2 n, some { m with Tags := ⟨[]⟩ }) := by
  simp [marshalField, marshalKind, marshalUint16, resolveHeader, TagMap.Has]

theorem marshalField_plain_uint32 (name : String) (n : Nat) (m : Metadata)
    (parent : List Sibling) :
    marshalField ⟨name, "", .uint32⟩ (.u32 n) (some { m with Tags := ⟨[]⟩ }) parent
      = .ok (leBytes 4 n, some { m with Tags := ⟨[]⟩ }) := by
  simp [marshalField, marshalKind, marshalUint32, resolveHeader, TagMap.Has]

theorem marshalField_plain_uint8 (name tag : String) (n : Nat) (m : Metadata)
    (parent : List Sibling) :
    marshalField ⟨name, tag, .uint8⟩ (.u8 n) (some m) parent = .ok (leBytes 1 n, some m) := by
  simp [marshalField, marshalKind, marshalUint8]

theorem marshalField_plain_uint64 (name tag : String) (n : Nat) (m : Metadata)
    (parent : List Sibling) :
    marshalField ⟨name, tag, .uint64⟩ (.u64 n) (some m) parent = .ok (leBytes 8 n, some m) := by
  simp [marshalField, marshalKind, marshalUint64]

/-- `Marshal` of a session setup request: the header `SecurityBufferOffset` is emitted
as 88, whatever it stores. -/
theorem sessionSetup1_marshal (stored : Nat) :
    Marshal (.struct (SessionSetup1Req emptySequenceCodec))
        (.struct (sessionSetup1Record stored))
      = .ok ([254, 83, 77, 66, 64, 0, 1, 0, 0, 0, 0, 0, 1, 0, 0, 0] ++ List.replicate 48 0
          ++ [25, 0, 0, 1, 0, 0, 0, 0, 0, 0, 0, 0, 88, 0, 2, 0, 0, 0, 0, 0, 0, 0, 0, 0, 96, 0]) := by
  rw [Marshal_struct]
  have hoff := sessionSetup1_offset stored
  have hlen := sessionSetup1_len stored
  generalize siblings (SessionSetup1Req emptySequenceCodec) (sessionSetup1Record stored)
    = parent at hoff hlen ⊢
  have hhdr : ∀ m : Metadata,
      marshalField ⟨"Header", "", .struct Smb2Header⟩ (.struct smb2HeaderRecord)
          (some m) parent
        = .ok ([254, 83, 77, 66, 64, 0, 1, 0, 0, 0, 0, 0, 1, 0, 0, 0] ++ List.replicate 48 0,
            some m) := by
    intro m
    simp [marshalField, marshalKind, smb2Header_marshalFields]
  have hblob : ∀ (v : Value) (m : Metadata),
      marshalField ⟨"SecurityBlob", "", .ptr (.custom emptySequenceCodec (.struct NegTokenInit))⟩
          (.ptr (some v)) (some m) parent = .ok ([96, 0], some m) := by
    intro v m
    simp [marshalField, emptySequenceCodec, NegTokenInitCodec]
  unfold SessionSetup1Req sessionSetup1Record
  rw [marshalFields_step _ _ _ _ _ _ _ _ _ parseTags_empty (hhdr _)]
  rw [marshalFields_step _ _ _ _ _ _ _ _ _ parseTags_empty (marshalField_plain_uint16 _ _ _ _)]
  rw [marshalFields_step _ _ _ _ _ _ _ _ _ parseTags_empty (marshalField_plain_uint8 _ _ _ _ _)]
  rw [marshalFields_step _ _ _ _ _ _ _ _ _ parseTags_empty (marshalField_plain_uint8 _ _ _ _ _)]
  rw [marshalFields_step _ _ _ _ _ _ _ _ _ parseTags_empty (marshalField_plain_uint32 _ _ _ _)]
  rw [marshalFields_step _ _ _ _ _ _ _ _ _ parseTags_empty (marshalField_plain_uint32 _ _ _ _)]
  rw [marshalFields_step _ _ _ _ _ _ _ _ _ parseTags_offset_SecurityBlob (hoff _ (by simp [marshalMetadata, leBytes]))]
  rw [marshalFields_step _ _ _ _ _ _ _ _ _ parseTags_len_SecurityBlob (hlen _ (by simp [marshalMetadata, leBytes]))]
  rw [marshalFields_step _ _ _ _ _ _ _ _ _ parseTags_empty (marshalField_plain_uint64 _ _ _ _ _)]
  rw [marshalFields_step _ _ _ _ _ _ _ _ _ parseTags_empty (hblob _ _)]
  simp [marshalFields, leBytes]

theorem Marshal_of_marshalField_none (g : Field Kind) (w : Value) (b : List Nat)
    (mo : Option Metadata) (h : marshalField g w none [] = .ok (b, mo)) :
    Marshal g.kind w = .ok b := by
  rw [← sibling_marshalled_eq g w, h]

theorem fieldsEncoded_mem (parent : List Sibling) (fs : Shape) (vs : List Value)
    (bufs : List (List Nat)) (h : FieldsEncoded parent fs vs bufs) :
    ∀ g w, (g, w) ∈ fs.zip vs →
      ∃ (m : Metadata) (buf : List Nat) (mo : Option Metadata),
        marshalField g w (some m) parent = .ok (buf, mo) := by
  induction h with
  | nil vals => intro g w hz; simp at hz
  | cons f v fs vs buf bufs m mo hp hf hctx hrest ih =>
    intro g w hz
    simp only [List.zip_cons_cons, List.mem_cons, Prod.mk.injEq] at hz
    rcases hz with ⟨rfl, rfl⟩ | hz
    · exact ⟨m, buf, mo, hf⟩
    · exact ih g w hz

/-- C15 as amended: in every structure with distinct field names that `Marshal` encodes,
a `uint16` or `uint32` field tagged `offset:F` is emitted as the little-endian bytes of
the sum of the encoded lengths of the fields declared before `F`, reduced to the width of
the field, whatever value it stores; provided that the codec of every field before `F`
that is a pointer to a codec type returns with a context what it returns without one. -/
theorem encoded_offset_value (fields : Shape) (vals : List Value) (out : List Nat)
    (fieldName : String)
    (hM : Marshal (.struct fields) (.struct vals) = .ok out)
    (hnd : (fields.map (fun f => f.name)).Nodup)
    (hcodec : ∀ f ∈ fields.takeWhile (fun f => decide (f.name ≠ fieldName)),
      ContextFree f.kind) :
    ∃ (bufs : List (List Nat)), FieldsEncoded (siblings fields vals) fields vals bufs
      ∧ out = bufs.flatten ∧ bufs.length = fields.length
      ∧ ∀ (i : Nat) (f : Field Kind) (w : Nat), fields[i]? = some f →
          offsetHeaderWidth fieldName f = some w →
          bufs[i]? = some (leBytes w (truncate (8 * w)
            ((((bufs.take
                (fields.takeWhile (fun f => decide (f.name ≠ fieldName))).length).map
                  List.length).sum : Nat) : Int))) := by
  rw [Marshal_struct] at hM
  obtain ⟨bufs0, henc0, _, _⟩ := marshalFields_encoded _ fields vals _ out hM
  have hin := fieldsEncoded_mem _ fields vals bufs0 henc0
  have hsubset : ∀ s ∈ siblingsBefore fieldName (siblings fields vals),
      s ∈ siblings fields vals := fun s hs => List.takeWhile_subset _ hs
  have huniq : ∀ s ∈ siblingsBefore fieldName (siblings fields vals),
      ∀ s2 ∈ siblings fields vals, s2.name = s.name → s2 = s := by
    intro s hs s2 hs2 hn
    exact List.inj_on_of_nodup_map (siblings_names_nodup fields vals hnd) hs2 (hsubset s hs) hn
  have hfacts : ∀ s ∈ siblingsBefore fieldName (siblings fields vals),
      ∃ g w b, (g, w) ∈ fields.zip vals ∧ s.name = g.name ∧ s.kind = g.kind ∧ s.value = w
        ∧ ContextFree g.kind
        ∧ marshalField g w none [] = .ok (b, none) ∧ s.marshalled = .ok b := by
    intro s hs
    obtain ⟨g, w, hz, htw, h1, h2, h3, h4⟩ := mem_siblingsBefore fieldName fields vals s hs
    obtain ⟨m, buf, mo, hf⟩ := hin g w hz
    obtain ⟨b, hb, _⟩ := marshalField_length_stable g w m _ buf mo (hcodec g htw) hf
    exact ⟨g, w, b, hz, h1, h2, h3, hcodec g htw, hb,
      by rw [h4, Marshal_of_marshalField_none g w b none hb]⟩
  have hok : ∀ s ∈ siblingsBefore fieldName (siblings fields vals), SiblingOK s := by
    intro s hs
    obtain ⟨g, w, b, _, _, h2, h3, hc, hb, hm⟩ := hfacts s hs
    refine ⟨b, hm, ?_⟩
    rw [h2, h3, marshalField_name_irrelevant s.name "" g.name g.tag g.kind w none []]
    exact hb
  have hstable : ∀ g w, (g, w) ∈ fields.zip vals →
      ∀ s ∈ siblingsBefore fieldName (siblings fields vals), s.name = g.name →
        ∀ (m2 : Metadata) buf mo, marshalField g w (some m2) (siblings fields vals)
          = .ok (buf, mo) → (buf.length : Int) = (s.wireLength : Int) := by
    intro g w hz s hs hn m2 buf mo hf
    obtain ⟨g2, w2, b, hz2, h1, _, _, hc, hb, hm⟩ := hfacts s hs
    obtain ⟨rfl, rfl⟩ := zip_unique_name fields vals hnd g w g2 w2 hz hz2 (by rw [← hn, h1])
    obtain ⟨b2, hb2, hlen⟩ := marshalField_length_stable g w m2 _ buf mo hc hf
    rw [hb] at hb2
    simp only [Except.ok.injEq, Prod.mk.injEq, and_true] at hb2
    subst hb2
    rw [wireLength_of_ok s b hm, hlen]
  obtain ⟨bufs, h1, h2, h3, h4⟩ := marshalFields_offsets fieldName (siblings fields vals)
    huniq hok fields vals marshalMetadata out
    (by intro name l hlook; simp [marshalMetadata] at hlook) hstable hM
  refine ⟨bufs, h1, h2, h3, ?_⟩
  intro i f w hi hw
  rw [h4 i f w hi hw, sum_wireLength_eq fieldName _ fields vals bufs h1 hcodec]

theorem encoded_offset_value_witness :
    Marshal (.struct (SessionSetup1Req emptySequenceCodec)) (.struct (sessionSetup1Record 0))
      = .ok ([254, 83, 77, 66, 64, 0, 1, 0, 0, 0, 0, 0, 1, 0, 0, 0] ++ List.replicate 48 0
          ++ [25, 0, 0, 1, 0, 0, 0, 0, 0, 0, 0, 0, 88, 0, 2, 0, 0, 0, 0, 0, 0, 0, 0, 0, 96, 0])
    ∧ ∃ (bufs : List (List Nat)),
        FieldsEncoded
          (siblings (SessionSetup1Req emptySequenceCodec) (sessionSetup1Record 0))
          (SessionSetup1Req emptySequenceCodec) (sessionSetup1Record 0) bufs
      ∧ ([254, 83, 77, 66, 64, 0, 1, 0, 0, 0, 0, 0, 1, 0, 0, 0] ++ List.replicate 48 0
          ++ [25, 0, 0, 1, 0, 0, 0, 0, 0, 0, 0, 0, 88, 0, 2, 0, 0, 0, 0, 0, 0, 0, 0, 0, 96, 0])
          = bufs.flatten
      ∧ bufs.length = (SessionSetup1Req emptySequenceCodec).length
      ∧ ∀ (i : Nat) (f : Field Kind) (w : Nat),
          (SessionSetup1Req emptySequenceCodec)[i]? = some f →
          offsetHeaderWidth "SecurityBlob" f = some w →
          bufs[i]? = some (leBytes w (truncate (8 * w)
            ((((bufs.take
                ((SessionSetup1Req emptySequenceCodec).takeWhile
                  (fun f => decide (f.name ≠ "SecurityBlob"))).length).map
                  List.length).sum : Nat) : Int))) :=
  ⟨sessionSetup1_marshal 0,
    encoded_offset_value (SessionSetup1Req emptySequenceCodec) (sessionSetup1Record 0) _
      "SecurityBlob" (sessionSetup1_marshal 0) (by decide)
      (fun f hf c u hk => by
        have hall : ((SessionSetup1Req emptySequenceCodec).takeWhile
            (fun f => decide (f.name ≠ "SecurityBlob"))).all
            (fun f => !codecPointer f.kind) = true := by decide
        have := List.all_eq_true.mp hall f hf
        simp [hk, codecPointer] at this)⟩

/-- C15 fails as stated: in `{Off uint16 offset:F; X *T; F []byte}`, where the codec of
`T` returns one byte without a context and two bytes with one, `Marshal` emits 3 for
`Off` (it measures `X` by `Marshal` without a context), while `Off` and `X` are encoded
to 2 + 2 = 4 bytes before `F`. -/
theorem encoded_offset_counterexample :
    Marshal (.struct (OffsetOverCodec contextCodec))
        (.struct [.u16 0, .ptr (some (.struct [])), .bytes [9]])
      = .ok ([3, 0] ++ [1, 2] ++ [9])
    ∧ ([3, 0] : List Nat) ≠ leBytes 2 (([3, 0] : List Nat).length + ([1, 2] : List Nat).length) :=
  ⟨rfl, by decide⟩

/-! ## Blocks tagged `fixed` in the encoder -/

/-- The field at a position of a structure that `marshalFields` encodes: the fields
before it are encoded first, the field is encoded in some context that holds its
directives, and its bytes follow theirs in the output. -/
theorem marshalFields_split (parent : List Sibling) (f : Field Kind) (v : Value) (post : Shape)
    (qv : List Value) :
    ∀ (pre : Shape) (pv : List Value) (m : Metadata) (out : List Nat),
      pv.length = pre.length →
      marshalFields (pre ++ f :: post) (pv ++ v :: qv) parent m = .ok out →
      ∃ (o1 : List Nat) (m1 : Metadata) (tags : TagMap) (buf : List Nat)
          (mo : Option Metadata) (o2 : List Nat), marshalFields pre pv parent m = .ok o1
        ∧ parseTags f.tag = .ok tags
        ∧ marshalField f v (some { m1 with Tags := tags }) parent = .ok (buf, mo)
        ∧ out = o1 ++ buf ++ o2 := by
  intro pre
  induction pre with
  | nil =>
    intro pv m out hlen h
    cases pv with
    | cons _ _ => simp at hlen
    | nil =>
      simp only [List.nil_append, marshalFields] at h
      cases hp : parseTags f.tag with
      | error e => simp [hp] at h
      | ok tags =>
        simp only [hp] at h
        cases hf : marshalField f v (some { m with Tags := tags }) parent with
        | error e => simp [hf] at h
        | ok r =>
          obtain ⟨buf, mo⟩ := r
          simp only [hf] at h
          generalize marshalFields post qv parent _ = r at h
          cases r with
          | error e => cases h
          | ok o2 =>
            cases h
            exact ⟨[], m, tags, buf, mo, o2, by simp [marshalFields], rfl, hf, by simp⟩
  | cons g pre ih =>
    intro pv m out hlen h
    cases pv with
    | nil => simp at hlen
    | cons w pv =>
      simp only [List.cons_append, marshalFields] at h
      cases hp : parseTags g.tag with
      | error e => simp [hp] at h
      | ok tags =>
        simp only [hp] at h
        cases hf : marshalField g w (some { m with Tags := tags }) parent with
        | error e => simp [hf] at h
        | ok r =>
          obtain ⟨buf, mo⟩ := r
          simp only [hf] at h
          generalize hrest : marshalFields (pre ++ f :: post) (pv ++ v :: qv) parent _ = r at h
          cases r with
          | error e => cases h
          | ok rest =>
            cases h
            obtain ⟨o1, m1, tags1, buf1, mo1, o2, h1, h2, h3, h4⟩ :=
              ih pv _ rest (by simpa using hlen) hrest
            refine ⟨buf ++ o1, m1, tags1, buf1, mo1, o2, ?_, h2, h3, ?_⟩
            · rw [marshalFields]
              simp only [hp, hf, h1]
            · rw [h4]
              simp [List.append_assoc]

theorem marshalField_bytes (name tag : String) (b : List Nat) (meta : Option Metadata)
    (parent : List Sibling) :
    marshalField ⟨name, tag, .slice .uint8⟩ (.bytes b) meta parent = .ok (b, meta) := by
  simp [marshalField, marshalKind]

/-- C17 as amended: a `[]byte` field contributes exactly its stored bytes to the output of
`Marshal`, whatever its directives (`fixed:N` included): in every structure that
`Marshal` encodes, the bytes of the field stand right after the encoding of the fields
before it. -/
theorem fixed_block_encode (pre post : Shape) (pv qv : List Value) (name tag : String)
    (b out : List Nat) (hlen : pv.length = pre.length)
    (h : Marshal (.struct (pre ++ ⟨name, tag, .slice .uint8⟩ :: post))
          (.struct (pv ++ .bytes b :: qv)) = .ok out) :
    ∃ o1 o2, marshalFields pre pv
          (siblings (pre ++ ⟨name, tag, .slice .uint8⟩ :: post) (pv ++ .bytes b :: qv))
          marshalMetadata = .ok o1
      ∧ out = o1 ++ b ++ o2 := by
  rw [Marshal_struct] at h
  obtain ⟨o1, m1, tags, buf, mo, o2, h1, _, h3, h4⟩ :=
    marshalFields_split _ _ _ _ _ pre pv _ out hlen h
  rw [marshalField_bytes] at h3
  cases h3
  exact ⟨o1, o2, h1, h4⟩

theorem fixed_block_encode_witness :
    ∃ o1 o2, marshalFields [⟨"A", "", .uint8⟩] [.u8 1]
          (siblings ([⟨"A", "", .uint8⟩] ++ ⟨"B", "fixed:4", .slice .uint8⟩ :: [⟨"C", "", .uint16⟩])
            ([.u8 1] ++ .bytes [2, 3] :: [.u16 1543]))
          marshalMetadata = .ok o1
      ∧ [1, 2, 3, 7, 6] = o1 ++ [2, 3] ++ o2 :=
  fixed_block_encode [⟨"A", "", .uint8⟩] [⟨"C", "", .uint16⟩] [.u8 1] [.u16 1543] "B" "fixed:4"
    [2, 3] [1, 2, 3, 7, 6] rfl rfl

/-- C17 fails as stated: in `TestStructWithFixedSlice` (`{A uint8; B []byte fixed:4;
C uint16}`) the record `{A: 1, B: {2, 3}, C: 0x0607}` is encoded, without error, to the
5 bytes `{1, 2, 3, 7, 6}`: between the byte of `A` and the two bytes of `C` the field `B`
contributes 2 bytes, not 4. -/
theorem fixed_block_encode_counterexample :
    Marshal (.struct [⟨"A", "", .uint8⟩, ⟨"B", "fixed:4", .slice .uint8⟩, ⟨"C", "", .uint16⟩])
        (.struct [.u8 1, .bytes [2, 3], .u16 1543])
      = .ok ([1] ++ [2, 3] ++ [7, 6])
    ∧ Marshal .uint8 (.u8 1) = .ok [1] ∧ Marshal .uint16 (.u16 1543) = .ok [7, 6]
    ∧ ([2, 3] : List Nat).length ≠ 4 :=
  ⟨rfl, rfl, rfl, by decide⟩

/-! ## Text in the encoder -/

theorem marshalField_string (name tag : String) (v : Value) (meta : Option Metadata)
    (parent : List Sibling) :
    marshalField ⟨name, tag, .string⟩ v meta parent = .error .notImplementedKind := by
  cases v <;> simp [marshalField, marshalKind]

theorem marshalFields_text (parent : List Sibling) (fs : Shape) :
    ∀ (vs : List Value) (m : Metadata) (out : List Nat),
      (∃ f ∈ fs, f.kind = .string) → marshalFields fs vs parent m ≠ .ok out := by
  induction fs with
  | nil => intro vs m out h; simp at h
  | cons g fs ih =>
    intro vs m out h hok
    cases vs with
    | nil => simp [marshalFields] at hok
    | cons w vs =>
      rw [marshalFields] at hok
      cases hp : parseTags g.tag with
      | error e => simp [hp] at hok
      | ok tags =>
        simp only [hp] at hok
        cases hf : marshalField g w (some { m with Tags := tags }) parent with
        | error e => simp [hf] at hok
        | ok r =>
          obtain ⟨buf, mo⟩ := r
          simp only [hf] at hok
          generalize hrest : marshalFields fs vs parent _ = r at hok
          cases r with
          | error e => cases hok
          | ok rest =>
            obtain ⟨f, hmem, hk⟩ := h
            simp only [List.mem_cons] at hmem
            rcases hmem with rfl | hmem
            · obtain ⟨name, tag, kind⟩ := f
              simp only at hk
              subst hk
              rw [marshalField_string] at hf
              cases hf
            · exact ih vs _ rest ⟨f, hmem, hk⟩ hrest

/-- C18 as amended: text fields are not encodable.  `Marshal` of a text value returns
the error `marshal not implemented for kind: string`, in every context, and `Marshal`
never succeeds on a structure that has a text field. -/
theorem text_encode (fields : Shape) (vals : List Value) (h : ∃ f ∈ fields, f.kind = .string) :
    ¬ succeeds (Marshal (.struct fields) (.struct vals))
    ∧ (∀ (name tag : String) (v : Value) (meta : Option Metadata) (parent : List Sibling),
        marshalField ⟨name, tag, .string⟩ v meta parent = .error .notImplementedKind)
    ∧ ∀ v, Marshal .string v = .error .notImplementedKind := by
  refine ⟨?_, marshalField_string, ?_⟩
  · rintro ⟨out, hout⟩
    rw [Marshal_struct] at hout
    exact marshalFields_text _ fields vals _ out h hout
  · intro v
    simp [Marshal, marshal, marshalField_string]

theorem text_encode_witness :
    ¬ succeeds (Marshal (.struct [⟨"A", "", .uint8⟩, ⟨"Name", "", .string⟩])
        (.struct [.u8 1, .str [65]])) :=
  (text_encode [⟨"A", "", .uint8⟩, ⟨"Name", "", .string⟩] [.u8 1, .str [65]]
    ⟨⟨"Name", "", .string⟩, by simp, rfl⟩).1

/-- C18 fails as stated: `Marshal` of the record `{A: 1, Name: "A"}` of the structure
`{A uint8; Name string}` returns the error `marshal not implemented for kind: string`;
it does not succeed. -/
theorem text_encode_counterexample :
    Marshal (.struct [⟨"A", "", .uint8⟩, ⟨"Name", "", .string⟩]) (.struct [.u8 1, .str [65]])
      = .error .notImplementedKind
    ∧ ¬ succeeds (Marshal (.struct [⟨"A", "", .uint8⟩, ⟨"Name", "", .string⟩])
        (.struct [.u8 1, .str [65]])) := by
  have h : Marshal (.struct [⟨"A", "", .uint8⟩, ⟨"Name", "", .string⟩])
      (.struct [.u8 1, .str [65]]) = .error .notImplementedKind := rfl
  refine ⟨h, ?_⟩
  rintro ⟨out, hout⟩
  rw [h] at hout
  cases hout

/-! ## Padding -/

theorem padBytes_le (l : List Nat) : padBytes l ≤ l.length := by
  induction l with
  | nil => simp [padBytes]
  | cons x xs ih =>
    by_cases hx : x = 0
    · simp [padBytes, hx, ih]
    · simp [padBytes, hx]

theorem take_padBytes (l : List Nat) : l.take (padBytes l) = List.replicate (padBytes l) 0 := by
  induction l with
  | nil => simp [padBytes]
  | cons x xs ih =>
    by_cases hx : x = 0
    · simp [padBytes, hx, ih, List.replicate_succ]
    · simp [padBytes, hx]

theorem getElem?_padBytes (l : List Nat) : l[padBytes l]? ≠ some 0 := by
  induction l with
  | nil => simp [padBytes]
  | cons x xs ih =>
    by_cases hx : x = 0
    · simpa [padBytes, hx] using ih
    · simp [padBytes, hx]

theorem getElem?_lt_padBytes (l : List Nat) : ∀ i, i < padBytes l → l[i]? = some 0 := by
  induction l with
  | nil => intro i hi; simp [padBytes] at hi
  | cons x xs ih =>
    intro i hi
    by_cases hx : x = 0
    · simp only [padBytes, hx, ne_eq, not_true_eq_false, if_false] at hi
      cases i with
      | zero => simp [hx]
      | succ j => simpa using ih j (by omega)
    · simp [padBytes, hx] at hi

/-- Decoding a `[]byte` field tagged `pad` with the cursor within the buffer succeeds;
with `k` the count of zero bytes from the cursor up to the first non-zero byte or the end
of the buffer, the field receives `k` zero bytes and the cursor advances by `k`; the `k`
bytes from the cursor are zero and the byte at the new cursor, if any, is not. -/
theorem pad_decode (buf : List Nat) (m : Metadata) (name tag : String)
    (h0 : 0 ≤ m.CurrOffset) (h1 : m.CurrOffset ≤ (buf.length : Int))
    (hpad : m.Tags.Has TagPad = true) :
    unmarshalStructField buf m ⟨name, tag, .slice .uint8⟩
        = .ok (.bytes (List.replicate (padBytes (buf.drop m.CurrOffset.toNat)) 0),
               { m with CurrOffset :=
                   m.CurrOffset + (padBytes (buf.drop m.CurrOffset.toNat) : Int) })
    ∧ (∀ i, i < padBytes (buf.drop m.CurrOffset.toNat) → buf[m.CurrOffset.toNat + i]? = some 0)
    ∧ buf[m.CurrOffset.toNat + padBytes (buf.drop m.CurrOffset.toNat)]? ≠ some 0
    ∧ m.CurrOffset.toNat + padBytes (buf.drop m.CurrOffset.toNat) ≤ buf.length := by
  refine ⟨?_, ?_, ?_, ?_⟩
  · simp only [unmarshalStructField, sliceFrom_ok buf _ h0 h1, unmarshalKind, unmarshalSlice,
      hpad, if_true, unmarshalPad, take_padBytes]
  · intro i hi
    have := getElem?_lt_padBytes (buf.drop m.CurrOffset.toNat) i hi
    simpa [List.getElem?_drop] using this
  · have := getElem?_padBytes (buf.drop m.CurrOffset.toNat)
    simpa [List.getElem?_drop] using this
  · have := padBytes_le (buf.drop m.CurrOffset.toNat)
    simp only [List.length_drop] at this
    omega

theorem pad_decode_witness :
    unmarshalStructField [7, 0, 0, 5]
        { Tags := ⟨[("pad", .bool true)]⟩, Lens := [], Offsets := [], ParentBuf := [7, 0, 0, 5],
          CurrOffset := 1, CurrField := "Pad" } ⟨"Pad", "pad", .slice .uint8⟩
      = .ok (.bytes [0, 0],
             { Tags := ⟨[("pad", .bool true)]⟩, Lens := [], Offsets := [],
               ParentBuf := [7, 0, 0, 5], CurrOffset := 3, CurrField := "Pad" }) :=
  (pad_decode [7, 0, 0, 5]
    { Tags := ⟨[("pad", .bool true)]⟩, Lens := [], Offsets := [], ParentBuf := [7, 0, 0, 5],
      CurrOffset := 1, CurrField := "Pad" } "Pad" "pad" (by decide) (by decide) rfl).1

theorem parseTags_pad : parseTags "pad" = .ok ⟨[("pad", .bool true)]⟩ := by decide

/-- C19 at a failing input: in the top-level structure
`{A uint8; In {L uint16 len:D; D []byte}; P []byte pad}` the field `P` is tagged `pad`. On
the buffer `{9, 1, 0}` the fields `A` and `In` are decoded and leave the cursor at 4, past
the 3 bytes of the buffer; decoding `P` is then answered by the panic of
`buf[m.CurrOffset:]`: the pad field fails, where a run of zero bytes of length zero was to
be consumed. -/
theorem pad_decode_panics :
    unmarshalFields [9, 1, 0] [⟨"A", "", .uint8⟩, ⟨"In", "", .struct LenBlockStruct⟩]
        (topMetadata [9, 1, 0])
      = .ok ([.u8 9, .struct [.u16 1, .bytes [0]]],
          { Tags := ⟨[]⟩, Lens := [], Offsets := [], ParentBuf := [9, 1, 0],
            CurrOffset := 4, CurrField := "In" })
    ∧ unmarshalStructField [9, 1, 0]
        { Tags := ⟨[("pad", .bool true)]⟩, Lens := [], Offsets := [], ParentBuf := [9, 1, 0],
          CurrOffset := 4, CurrField := "P" } ⟨"P", "pad", .slice .uint8⟩ = .error .goPanic
    ∧ Unmarshal [9, 1, 0] (.struct NestedThenPad) = .error .goPanic
    ∧ ¬ succeeds (Unmarshal [9, 1, 0] (.struct NestedThenPad)) := by
  have h1 : unmarshalFields [9, 1, 0] [⟨"A", "", .uint8⟩, ⟨"In", "", .struct LenBlockStruct⟩]
        (topMetadata [9, 1, 0])
      = .ok ([.u8 9, .struct [.u16 1, .bytes [0]]],
          { Tags := ⟨[]⟩, Lens := [], Offsets := [], ParentBuf := [9, 1, 0],
            CurrOffset := 4, CurrField := "In" }) := by
    simp [LenBlockStruct, unmarshalFields, parseTags_empty,
      parseTags_len_D, topMetadata, unmarshalStructField, unmarshalKind, sliceFrom,
      unmarshalUint8, unmarshalUint16, binaryRead, leValue, finishStruct, structMetadata,
      unmarshalSlice, unmarshalUint8Slice, resolveSliceParams, TagMap.Has, TagMap.GetString,
      TagMap.Get, TagMap.empty, TagPad, TagFixed]
  have h2 : Unmarshal [9, 1, 0] (.struct NestedThenPad) = .error .goPanic := by
    rw [Unmarshal_struct]
    simp [NestedThenPad, LenBlockStruct, unmarshalFields, parseTags_empty, parseTags_len_D,
      parseTags_pad, topMetadata, unmarshalStructField, unmarshalKind, sliceFrom,
      unmarshalUint8, unmarshalUint16, binaryRead, leValue, finishStruct, structMetadata,
      unmarshalSlice, unmarshalUint8Slice, resolveSliceParams, TagMap.Has, TagMap.GetString,
      TagMap.Get, TagMap.empty, TagPad, TagFixed]
  refine ⟨h1, ?_, h2, ?_⟩
  · simp [unmarshalStructField, sliceFrom]
  · rintro ⟨v, hv⟩
    rw [h2] at hv
    cases hv

/-! ## Errors of a codec in the encoder -/

/-- C20 at a failing input: for a type `struct { Value uint16 }` whose `MarshalBinary`
returns an error, `Marshal` of a pointer to the record `{Value: 0x0102}` does not return
that error: it falls back to the reflection path and returns the bytes `{2, 1}`; so does
`Marshal` of a structure that holds such a pointer as a field. -/
theorem codec_error_recovered :
    (failingCodec 7).MarshalBinary (.struct [.u16 258]) none = .error (.codec 7)
    ∧ Marshal (.ptr (.custom (failingCodec 7) (.struct TestCustomMarshal)))
        (.ptr (some (.struct [.u16 258]))) = .ok [2, 1]
    ∧ Marshal (.struct [⟨"F", "", .ptr (.custom (failingCodec 7) (.struct TestCustomMarshal))⟩])
        (.struct [.ptr (some (.struct [.u16 258]))]) = .ok [2, 1] :=
  ⟨rfl, rfl, rfl⟩

/-! ## Tokens of a field annotation: unknown keys -/

theorem splitOnChar_ne_nil (sep : Char) (s : List Char) : splitOnChar sep s ≠ [] := by
  cases s with
  | nil => simp [splitOnChar]
  | cons c cs =>
    rw [splitOnChar]
    cases splitOnChar sep cs with
    | nil => simp
    | cons t ts =>
      by_cases h : c = sep
      · simp [h]
      · simp [h]

theorem splitOnChar_append_sep (sep : Char) (a b : List Char) :
    splitOnChar sep (a ++ sep :: b) = splitOnChar sep a ++ splitOnChar sep b := by
  induction a with
  | nil =>
    have hb := splitOnChar_ne_nil sep b
    simp only [List.nil_append]
    rw [splitOnChar]
    cases hs : splitOnChar sep b with
    | nil => exact absurd hs hb
    | cons t ts => simp [splitOnChar, hs]
  | cons c cs ih =>
    have ha := splitOnChar_ne_nil sep cs
    simp only [List.cons_append]
    rw [splitOnChar, ih, splitOnChar]
    cases hs : splitOnChar sep cs with
    | nil => exact absurd hs ha
    | cons t ts =>
      by_cases h : c = sep
      · simp [h]
      · simp [h]

theorem splitOnChar_no_sep (sep : Char) (s : List Char) (h : sep ∉ s) :
    splitOnChar sep s = [s] := by
  induction s with
  | nil => rfl
  | cons c cs ih =>
    have hc : c ≠ sep := fun e => h (by simp [e])
    have hcs : sep ∉ cs := fun e => h (by simp [e])
    rw [splitOnChar, ih hcs]
    simp [hc]

theorem parseTag_unknown (ret : TagMap) (t : List Char) (h : knownKey (tagKey t) = false) :
    parseTag ret t = .ok ret := by
  unfold parseTag
  unfold tagKey at h
  cases hs : (splitOnChar ':' t).map String.mk with
  | nil => rfl
  | cons key args =>
    rw [hs] at h
    simp only [knownKey, decide_eq_false_iff_not, not_or] at h
    obtain ⟨h1, h2, h3, h4, h5⟩ := h
    simp [h1, h2, h3, h4, h5]

theorem parseTagsLoop_filter_known (ts : List (List Char)) :
    ∀ (ret : TagMap),
      parseTagsLoop ts ret = parseTagsLoop (ts.filter (fun tok => knownKey (tagKey tok))) ret := by
  induction ts with
  | nil => intro ret; rfl
  | cons t rest ih =>
    intro ret
    by_cases h : knownKey (tagKey t) = true
    · simp only [List.filter_cons, h, if_true]
      rw [parseTagsLoop, parseTagsLoop]
      cases parseTag ret t with
      | error e => rfl
      | ok r => exact ih r
    · have h2 : knownKey (tagKey t) = false := by simpa using h
      simp only [List.filter_cons, h2, Bool.false_eq_true, if_false]
      rw [parseTagsLoop, parseTag_unknown ret t h2]
      exact ih ret

theorem toList_append_comma (a b : String) :
    (a ++ "," ++ b).toList = a.toList ++ ',' :: b.toList := by
  simp [String.toList, String.data_append]

/-- C22: tokens with an unknown key are ignored.  The loop of `parseTags` over the tokens
of an annotation gives what it gives over the tokens with a known key alone (so the other
tokens neither fail nor change the directive map); and for a token `t` whose key is not
one of `len`, `offset`, `fixed`, `asn1`, `pad`, `parseTags` of an annotation with `t`
inserted between two parts, before one or after one equals `parseTags` of the annotation
without it, and `parseTags` of `t` alone is the empty map. -/
theorem unknown_keys_ignored (a b t : String) (hsep : ',' ∉ t.toList)
    (hkey : knownKey (tagKey t.toList) = false) :
    (∀ (tag : String), parseTags tag
        = parseTagsLoop ((splitOnChar ',' tag.toList).filter (fun tok => knownKey (tagKey tok)))
            ⟨[]⟩)
      ∧ parseTags (a ++ "," ++ t ++ "," ++ b) = parseTags (a ++ "," ++ b)
      ∧ parseTags (t ++ "," ++ b) = parseTags b
      ∧ parseTags (a ++ "," ++ t) = parseTags a
      ∧ parseTags t = .ok ⟨[]⟩ := by
  have hf : [t.toList].filter (fun tok => knownKey (tagKey tok)) = [] := by
    simp only [List.filter, hkey]
  have hst := splitOnChar_no_sep ',' t.toList hsep
  refine ⟨fun tag => parseTagsLoop_filter_known _ _, ?_, ?_, ?_, ?_⟩
  · unfold parseTags
    rw [toList_append_comma, toList_append_comma, toList_append_comma,
      splitOnChar_append_sep, splitOnChar_append_sep, splitOnChar_append_sep,
      parseTagsLoop_filter_known, hst]
    rw [parseTagsLoop_filter_known (splitOnChar ',' a.toList ++ splitOnChar ',' b.toList)]
    simp only [List.filter_append, hf, List.append_nil]
  · unfold parseTags
    rw [toList_append_comma, splitOnChar_append_sep, parseTagsLoop_filter_known, hst]
    rw [parseTagsLoop_filter_known (splitOnChar ',' b.toList)]
    simp only [List.filter_append, hf, List.nil_append]
  · unfold parseTags
    rw [toList_append_comma, splitOnChar_append_sep, parseTagsLoop_filter_known, hst]
    rw [parseTagsLoop_filter_known (splitOnChar ',' a.toList)]
    simp only [List.filter_append, hf, List.append_nil]
  · unfold parseTags
    rw [parseTagsLoop_filter_known, hst, hf]
    rfl

theorem unknown_keys_ignored_witness :
    (∀ (tag : String), parseTags tag
        = parseTagsLoop ((splitOnChar ',' tag.toList).filter (fun tok => knownKey (tagKey tok)))
            ⟨[]⟩)
      ∧ parseTags ("len:Data" ++ "," ++ "count:Dialects" ++ "," ++ "fixed:4")
          = parseTags ("len:Data" ++ "," ++ "fixed:4")
      ∧ parseTags ("count:Dialects" ++ "," ++ "fixed:4") = parseTags "fixed:4"
      ∧ parseTags ("len:Data" ++ "," ++ "count:Dialects") = parseTags "len:Data"
      ∧ parseTags "count:Dialects" = .ok ⟨[]⟩ :=
  unknown_keys_ignored "len:Data" "fixed:4" "count:Dialects" (by decide) (by decide)

/-! ## Directives without argument -/

theorem atoi_error_kind (s : List Char) (e : Error) (h : atoi s = .error e) :
    e = .atoiFailed := by
  unfold atoi at h
  simp only at h
  repeat' split at h
  all_goals (cases h; try rfl)

theorem parseTag_error_kind (ret : TagMap) (t : List Char) (e : Error)
    (h : parseTag ret t = .error e) : e = .missingTagData ∨ e = .atoiFailed := by
  unfold parseTag at h
  simp only at h
  split at h
  · cases h
  · split at h
    · split at h
      · cases h
      · cases h; exact Or.inl rfl
    · split at h
      · split at h
        · split at h
          · cases h
          · rename_i e2 he
            cases h
            exact Or.inr (atoi_error_kind _ _ he)
        · cases h; exact Or.inl rfl
      · repeat' split at h
        all_goals cases h

theorem parseTagsLoop_error_kind (ts : List (List Char)) :
    ∀ (ret : TagMap) (e : Error), parseTagsLoop ts ret = .error e →
      e = .missingTagData ∨ e = .atoiFailed := by
  induction ts with
  | nil => intro ret e h; cases h
  | cons t rest ih =>
    intro ret e h
    rw [parseTagsLoop] at h
    cases hp : parseTag ret t with
    | error e2 =>
      rw [hp] at h
      cases h
      exact parseTag_error_kind ret t e hp
    | ok r =>
      rw [hp] at h
      exact ih r e h

theorem parseTagsLoop_failing_token (t : List Char)
    (hfail : ∀ ret, ∃ e, parseTag ret t = .error e) (ts : List (List Char)) :
    ∀ (ret : TagMap), t ∈ ts → ∃ e, parseTagsLoop ts ret = .error e := by
  induction ts with
  | nil => intro ret h; simp at h
  | cons t2 rest ih =>
    intro ret h
    rw [parseTagsLoop]
    cases hp : parseTag ret t2 with
    | error e2 => exact ⟨e2, rfl⟩
    | ok r =>
      rcases List.mem_cons.mp h with h1 | h1
      · subst h1
        obtain ⟨e, he⟩ := hfail ret
        rw [he] at hp
        cases hp
      · exact ih r h1

/-- An annotation that holds the token `len`, `offset` or `fixed` without `:` and
argument, or the token `fixed:` with an empty size, makes `parseTags` return an error,
wherever the token stands among the tokens of the annotation. -/
theorem missing_argument (tag t : String)
    (hmem : t.toList ∈ splitOnChar ',' tag.toList)
    (ht : t = "len" ∨ t = "offset" ∨ t = "fixed" ∨ t = "fixed:") :
    returnsError (parseTags tag) := by
  have hfail : ∀ ret, ∃ e, parseTag ret t.toList = .error e := by
    intro ret
    rcases ht with h | h | h | h <;> subst h
    · exact ⟨.missingTagData, by simp [parseTag, splitOnChar, TagLen, TagOffset, TagFixed]⟩
    · exact ⟨.missingTagData, by simp [parseTag, splitOnChar, TagLen, TagOffset, TagFixed]⟩
    · exact ⟨.missingTagData, by simp [parseTag, splitOnChar, TagLen, TagOffset, TagFixed]⟩
    · exact ⟨.atoiFailed, by
        simp [parseTag, splitOnChar, TagLen, TagOffset, TagFixed, atoi]⟩
  obtain ⟨e, he⟩ := parseTagsLoop_failing_token t.toList hfail _ ⟨[]⟩ hmem
  refine ⟨e, he, ?_⟩
  rcases parseTagsLoop_error_kind _ _ _ he with h | h <;> rw [h] <;> decide

theorem missing_argument_witness :
    returnsError (parseTags "len") ∧ returnsError (parseTags "offset")
      ∧ returnsError (parseTags "fixed") ∧ returnsError (parseTags "fixed:")
      ∧ returnsError (parseTags "asn1,len,fixed:4") :=
  ⟨missing_argument "len" "len" (by decide) (by decide),
   missing_argument "offset" "offset" (by decide) (by decide),
   missing_argument "fixed" "fixed" (by decide) (by decide),
   missing_argument "fixed:" "fixed:" (by decide) (by decide),
   missing_argument "asn1,len,fixed:4" "len" (by decide) (by decide)⟩

/-- C23 at a failing input: the annotations `len:` and `offset:` hold a directive with no
target name, and `parseTags` returns no error for them: the test `len(tokens) != 2` passes
and the empty string is stored as the name, while the sibling `fixed:` is rejected; a
structure `{L uint16 len:; A uint8}` is decoded from `{1, 0, 7}` without error. -/
theorem missing_argument_accepted :
    parseTags "len:" = .ok ⟨[("len", .str "")]⟩
      ∧ parseTags "offset:" = .ok ⟨[("offset", .str "")]⟩
      ∧ ¬ returnsError (parseTags "len:")
      ∧ ¬ returnsError (parseTags "offset:")
      ∧ parseTags "fixed:" = .error .atoiFailed
      ∧ Unmarshal [1, 0, 7] (.struct [⟨"L", "len:", .uint16⟩, ⟨"A", "", .uint8⟩])
          = .ok (.struct [.u16 1, .u8 7]) := by
  have h1 : parseTags "len:" = .ok ⟨[("len", .str "")]⟩ := by decide
  have h2 : parseTags "offset:" = .ok ⟨[("offset", .str "")]⟩ := by decide
  refine ⟨h1, h2, ?_, ?_, by decide, ?_⟩
  · rintro ⟨e, he, _⟩
    rw [h1] at he
    cases he
  · rintro ⟨e, he, _⟩
    rw [h2] at he
    cases he
  · rfl

/-! ## The accessors of the directive map -/

theorem has_of_getString (t : TagMap) (key F : String) (h : t.GetString key = .ok F) :
    t.Has key = true := by
  unfold TagMap.GetString at h
  by_cases hh : t.Has key = true
  · exact hh
  · simp [hh] at h

theorem digitsValue_digits (ds : List Char) :
    ∀ (acc n : Nat), digitsValue ds acc = some n →
      ∀ c ∈ ds, 48 ≤ c.toNat ∧ c.toNat ≤ 57 := by
  induction ds with
  | nil => intro acc n _ c hc; simp at hc
  | cons d rest ih =>
    intro acc n h c hc
    rw [digitsValue] at h
    by_cases hd : 48 ≤ d.toNat ∧ d.toNat ≤ 57
    · rw [if_pos hd] at h
      rcases List.mem_cons.mp hc with h1 | h1
      · rw [h1]; exact hd
      · exact ih _ _ h c h1
    · rw [if_neg hd] at h
      cases h

theorem atoi_chars (s : List Char) (N : Int) (h : atoi s = .ok N) :
    ∀ c ∈ s, c = '-' ∨ c = '+' ∨ (48 ≤ c.toNat ∧ c.toNat ≤ 57) := by
  cases s with
  | nil => intro c hc; simp at hc
  | cons c0 cs =>
    have key : ∀ (neg : Bool) (ds : List Char),
        (match ds with
          | [] => (.error .atoiFailed : Except Error Int)
          | _ =>
            match digitsValue ds 0 with
            | none => .error .atoiFailed
            | some n =>
              if neg then (if n ≤ 2 ^ 63 then .ok (-(n : Int)) else .error .atoiFailed)
              else (if n < 2 ^ 63 then .ok (n : Int) else .error .atoiFailed)) = .ok N →
        ∀ c ∈ ds, 48 ≤ c.toNat ∧ c.toNat ≤ 57 := by
      intro neg ds hb
      cases hd : digitsValue ds 0 with
      | none =>
        cases ds with
        | nil => intro c hc; simp at hc
        | cons d rest => simp only [hd] at hb; cases hb
      | some n => exact digitsValue_digits ds 0 n hd
    unfold atoi at h
    simp only at h
    intro c hc
    by_cases hm : c0 = '-'
    · simp only [hm, if_true] at h
      rcases List.mem_cons.mp hc with h1 | h1
      · exact Or.inl (h1.trans hm)
      · exact Or.inr (Or.inr (key true cs h c h1))
    · by_cases hp : c0 = '+'
      · simp only [hm, hp, if_true, if_false] at h
        rcases List.mem_cons.mp hc with h1 | h1
        · exact Or.inr (Or.inl (h1.trans hp))
        · have h2 : ('+' : Char) = '-' ↔ False := by decide
          simp only [h2, if_false] at h
          exact Or.inr (Or.inr (key false cs h c h1))
      · simp only [hm, hp, if_false] at h
        exact Or.inr (Or.inr (key false (c0 :: cs) h c hc))

theorem atoi_no_separator (s : List Char) (N : Int) (h : atoi s = .ok N) :
    ',' ∉ s ∧ ':' ∉ s := by
  have hc := atoi_chars s N h
  constructor
  · intro hm
    rcases hc _ hm with h1 | h1 | h1
    · exact absurd h1 (by decide)
    · exact absurd h1 (by decide)
    · exact absurd h1 (by decide)
  · intro hm
    rcases hc _ hm with h1 | h1 | h1
    · exact absurd h1 (by decide)
    · exact absurd h1 (by decide)
    · exact absurd h1 (by decide)

theorem parseTags_key_value (key val : String) (hk : ',' ∉ key.toList ∧ ':' ∉ key.toList)
    (hv : ',' ∉ val.toList ∧ ':' ∉ val.toList) :
    parseTags (key ++ ":" ++ val) = parseTag ⟨[]⟩ (key.toList ++ ':' :: val.toList)
      ∧ (splitOnChar ':' (key.toList ++ ':' :: val.toList)).map String.mk = [key, val] := by
  have e : (key ++ ":" ++ val).toList = key.toList ++ ':' :: val.toList := by
    simp [String.toList, String.data_append]
  have hno : ',' ∉ key.toList ++ ':' :: val.toList := by
    intro hm
    rcases List.mem_append.mp hm with h1 | h1
    · exact hk.1 h1
    · rcases List.mem_cons.mp h1 with h2 | h2
      · exact absurd h2 (by decide)
      · exact hv.1 h2
  constructor
  · unfold parseTags
    rw [e, splitOnChar_no_sep ',' _ hno]
    simp only [parseTagsLoop]
    cases parseTag ⟨[]⟩ (key.toList ++ ':' :: val.toList) <;> rfl
  · rw [splitOnChar_append_sep, splitOnChar_no_sep ':' _ hk.2, splitOnChar_no_sep ':' _ hv.2]
    rfl

/-- C24: on every directive map `t` (those that `parseTags` returns among them) and for
every key, `GetInt` returns a value exactly when the key is present with that integer as
value and returns an error otherwise, and `GetString` returns a value exactly when the key
is present with that string as value and returns an error otherwise; after `fixed:N`,
`GetInt` of `fixed` is `N` and `GetString` of `fixed` is an error, and after `len:F`,
`GetString` of `len` is `F` and `GetInt` of `len` is an error. -/
theorem typed_accessors (t : TagMap) (key : String) :
    (∀ i, t.GetInt key = .ok i ↔ (t.Has key = true ∧ t.Get key = some (.int i)))
      ∧ ((∀ i, t.Get key ≠ some (.int i)) → returnsError (t.GetInt key))
      ∧ (∀ s, t.GetString key = .ok s ↔ (t.Has key = true ∧ t.Get key = some (.str s)))
      ∧ ((∀ s, t.Get key ≠ some (.str s)) → returnsError (t.GetString key))
      ∧ (∀ (s : String) (N : Int), atoi s.toList = .ok N →
          ∃ t1, parseTags ("fixed" ++ ":" ++ s) = .ok t1 ∧ t1.GetInt "fixed" = .ok N
            ∧ returnsError (t1.GetString "fixed"))
      ∧ (∀ (F : String), ',' ∉ F.toList → ':' ∉ F.toList →
          ∃ t1, parseTags ("len" ++ ":" ++ F) = .ok t1 ∧ t1.GetString "len" = .ok F
            ∧ returnsError (t1.GetInt "len")) := by
  refine ⟨?_, ?_, ?_, ?_, ?_, ?_⟩
  · intro i
    unfold TagMap.GetInt TagMap.Has TagMap.Get
    cases hl : t.entries.lookup key with
    | none => simp
    | some v => cases v <;> simp
  · intro hne
    unfold TagMap.GetInt TagMap.Has
    unfold TagMap.Get at hne ⊢
    cases hl : t.entries.lookup key with
    | none => exact ⟨.keyDoesNotExist, by simp, by decide⟩
    | some v =>
      cases v with
      | int i => exact absurd hl (hne i)
      | str s => exact ⟨.notAnInt, by simp, by decide⟩
      | bool b => exact ⟨.notAnInt, by simp, by decide⟩
  · intro s
    unfold TagMap.GetString TagMap.Has TagMap.Get
    cases hl : t.entries.lookup key with
    | none => simp
    | some v => cases v <;> simp
  · intro hne
    unfold TagMap.GetString TagMap.Has
    unfold TagMap.Get at hne ⊢
    cases hl : t.entries.lookup key with
    | none => exact ⟨.keyDoesNotExist, by simp, by decide⟩
    | some v =>
      cases v with
      | str s => exact absurd hl (hne s)
      | int i => exact ⟨.notAString, by simp, by decide⟩
      | bool b => exact ⟨.notAString, by simp, by decide⟩
  · intro s N hs
    obtain ⟨h1, h2⟩ := parseTags_key_value "fixed" s (by decide) (atoi_no_separator _ _ hs)
    refine ⟨⟨[("fixed", .int N)]⟩, ?_, ?_, ⟨.notAString, ?_, by decide⟩⟩
    rotate_left
    · simp [TagMap.GetInt, TagMap.Has, TagMap.Get, List.lookup]
    · simp [TagMap.GetString, TagMap.Has, TagMap.Get, List.lookup]
    rw [h1]
    unfold parseTag
    simp only [h2]
    have e1 : (("fixed" : String) = TagLen ∨ ("fixed" : String) = TagOffset) = False :=
      eq_false (by decide)
    have e2 : (("fixed" : String) = TagFixed) = True := eq_true (by decide)
    simp only [e1, e2, if_true, if_false, hs, TagMap.Set]
  · intro F hF1 hF2
    obtain ⟨h1, h2⟩ := parseTags_key_value "len" F (by decide) ⟨hF1, hF2⟩
    refine ⟨⟨[("len", .str F)]⟩, ?_, ?_, ⟨.notAnInt, ?_, by decide⟩⟩
    · rw [h1]
      unfold parseTag
      simp only [h2]
      have e1 : (("len" : String) = TagLen ∨ ("len" : String) = TagOffset) = True :=
        eq_true (by decide)
      simp only [e1, if_true, TagMap.Set]
    · simp [TagMap.GetString, TagMap.Has, TagMap.Get, List.lookup]
    · simp [TagMap.GetInt, TagMap.Has, TagMap.Get, List.lookup]

theorem typed_accessors_witness :
    (∀ i, (⟨[("fixed", .int 4)]⟩ : TagMap).GetInt "fixed" = .ok i ↔
        ((⟨[("fixed", .int 4)]⟩ : TagMap).Has "fixed" = true
          ∧ (⟨[("fixed", .int 4)]⟩ : TagMap).Get "fixed" = some (.int i)))
      ∧ ((∀ i, (⟨[("fixed", .int 4)]⟩ : TagMap).Get "fixed" ≠ some (.int i)) →
          returnsError ((⟨[("fixed", .int 4)]⟩ : TagMap).GetInt "fixed"))
      ∧ (∀ s, (⟨[("fixed", .int 4)]⟩ : TagMap).GetString "fixed" = .ok s ↔
          ((⟨[("fixed", .int 4)]⟩ : TagMap).Has "fixed" = true
            ∧ (⟨[("fixed", .int 4)]⟩ : TagMap).Get "fixed" = some (.str s)))
      ∧ ((∀ s, (⟨[("fixed", .int 4)]⟩ : TagMap).Get "fixed" ≠ some (.str s)) →
          returnsError ((⟨[("fixed", .int 4)]⟩ : TagMap).GetString "fixed"))
      ∧ (∀ (s : String) (N : Int), atoi s.toList = .ok N →
          ∃ t1, parseTags ("fixed" ++ ":" ++ s) = .ok t1 ∧ t1.GetInt "fixed" = .ok N
            ∧ returnsError (t1.GetString "fixed"))
      ∧ (∀ (F : String), ',' ∉ F.toList → ':' ∉ F.toList →
          ∃ t1, parseTags ("len" ++ ":" ++ F) = .ok t1 ∧ t1.GetString "len" = .ok F
            ∧ returnsError (t1.GetInt "len")) :=
  typed_accessors ⟨[("fixed", .int 4)]⟩ "fixed"

/-! ## Encoding a list of `AvPair` -/

theorem parseTags_len_Value : parseTags "len:Value" = .ok ⟨[("len", .str "Value")]⟩ := by
  decide

theorem avPair_marshal (p : AvPairRecord) (h : p.Value.length ≤ 65535) :
    Marshal (.struct AvPair) p.toValue
      = .ok (leBytes 2 p.AvID ++ leBytes 2 p.Value.length ++ p.Value) := by
  have ht : truncate 16 (p.Value.length : Int) = p.Value.length :=
    truncate_of_lt 16 _ (by omega)
  simp [Marshal, marshal, marshalField, marshalKind, marshalFields, siblings,
    AvPair, AvPairRecord.toValue, parseTags_len_Value, parseTags_empty, marshalMetadata,
    marshalUint16, resolveHeader, getFieldLengthByName, fieldKindLength, TagMap.Has,
    TagMap.GetString, TagMap.Get, TagMap.empty, ht, List.lookup]

theorem avPairsMarshal_wire (ps : List AvPairRecord)
    (h : ∀ p ∈ ps, p.Value.length ≤ 65535) :
    avPairsMarshal (ps.map AvPairRecord.toValue)
      = .ok ((ps.map (fun p => leBytes 2 p.AvID ++ leBytes 2 p.Value.length ++ p.Value)).flatten) := by
  induction ps with
  | nil => rfl
  | cons p rest ih =>
    have h1 := avPair_marshal p (h p (by simp))
    have h2 := ih (fun q hq => h q (by simp [hq]))
    simp only [List.map_cons, avPairsMarshal, h1, h2, List.flatten_cons]

/-- C25: for every list `ps` of `AvPair` values whose `Value` has at most 65535 bytes,
`Marshal` of the `AvPairSlice` (through its pointer, which has the codec) returns the
concatenation over the pairs, in order, of the two bytes of `AvID`, the two bytes of the
length of `Value` and `Value`, whatever `AvLen` stores; the empty list gives no bytes. -/
theorem avpair_slice_encode (ps : List AvPairRecord)
    (h : ∀ p ∈ ps, p.Value.length ≤ 65535) :
    Marshal (.ptr AvPairSliceKind) (.ptr (some (.list (ps.map AvPairRecord.toValue))))
        = .ok ((ps.map
            (fun p => leBytes 2 p.AvID ++ leBytes 2 p.Value.length ++ p.Value)).flatten)
      ∧ Marshal (.ptr AvPairSliceKind) (.ptr (some (.list []))) = .ok [] := by
  constructor
  · simp only [Marshal, marshal, marshalField, AvPairSliceKind, AvPairSliceCodec,
      avPairsMarshal_wire ps h]
  · rfl

theorem avpair_slice_encode_witness :
    Marshal (.ptr AvPairSliceKind)
        (.ptr (some (.list [.struct [.u16 1, .u16 0, .bytes [1, 2, 3, 4]],
          .struct [.u16 0, .u16 7, .bytes []]])))
        = .ok [1, 0, 4, 0, 1, 2, 3, 4, 0, 0, 0, 0]
      ∧ Marshal (.ptr AvPairSliceKind) (.ptr (some (.list []))) = .ok [] :=
  avpair_slice_encode [⟨1, 0, [1, 2, 3, 4]⟩, ⟨0, 7, []⟩] (by decide)

/-! ## Decoding a list of `AvPair` -/

theorem avPair_unmarshal (p : AvPairRecord) (tail : List Nat) (hid : p.AvID ≤ 65535)
    (hl : p.AvLen = p.Value.length) (hv : p.Value.length ≤ 65535) :
    Unmarshal (leBytes 2 p.AvID ++ leBytes 2 p.Value.length ++ p.Value ++ tail)
        (.struct AvPair) = .ok p.toValue := by
  have hv1 : leValue (List.take 2
      (leBytes 2 p.AvID ++ leBytes 2 p.Value.length ++ p.Value ++ tail)) = p.AvID := by
    rw [List.append_assoc, List.append_assoc, List.take_left' (by simp)]
    exact leValue_leBytes_two _ hid
  have hv2 : leValue (List.take 2 (List.drop 2
      (leBytes 2 p.AvID ++ leBytes 2 p.Value.length ++ p.Value ++ tail))) = p.Value.length := by
    rw [List.append_assoc, List.append_assoc, List.drop_left' (by simp),
      List.take_left' (by simp)]
    exact leValue_leBytes_two _ hv
  have hdata : List.take p.Value.length (List.drop 4
      (leBytes 2 p.AvID ++ leBytes 2 p.Value.length ++ p.Value ++ tail)) = p.Value := by
    have e : leBytes 2 p.AvID ++ leBytes 2 p.Value.length ++ p.Value ++ tail
        = (leBytes 2 p.AvID ++ leBytes 2 p.Value.length) ++ (p.Value ++ tail) := by
      simp only [List.append_assoc]
    rw [e, List.drop_left' (by simp)]
    simp
  rw [Unmarshal_struct]
  simp only [AvPair, unmarshalFields, parseTags_len_Value, parseTags_empty, topMetadata]
  rw [unmarshalStructField_uint16 _ _ _ _ ?h0 ?h1 ?ht]
  case h0 => simp
  case h1 => simp; omega
  case ht => rfl
  simp only [Int.toNat_zero, List.drop_zero, hv1]
  rw [unmarshalStructField_uint16_len _ _ _ _ "Value" ?h0 ?h1 ?ht ?hg]
  case h0 => simp
  case h1 => simp; omega
  case ht => rfl
  case hg => rfl
  have e2 : ((0 : Int) + 2).toNat = 2 := rfl
  simp only [e2, hv2]
  rw [unmarshalStructField_len _ _ _ _ (p.Value.length : Int) ?h0 ?h2 ?hl ?h1 ?hp ?ht ?hlen ?hoff]
  case h0 => simp
  case h2 => simp; omega
  case hl => omega
  case h1 => simp; omega
  case hp => rfl
  case ht => rfl
  case hlen => simp [List.lookup]
  case hoff => rfl
  have e4 : ((0 : Int) + 2 + 2).toNat = 4 := rfl
  simp only [e4, Int.toNat_ofNat, hdata, AvPairRecord.toValue, hl]

theorem sliceRange_suffix (pre w : List Nat) :
    sliceRange (pre ++ w) (pre.length : Int) ((pre.length : Int) + (w.length : Int)) = .ok w := by
  unfold sliceRange
  have h : (0 : Int) ≤ pre.length ∧ (pre.length : Int) ≤ (pre.length : Int) + (w.length : Int)
      ∧ (pre.length : Int) + (w.length : Int) ≤ ((pre ++ w).length : Int) := by
    simp only [List.length_append, Nat.cast_add]; omega
  rw [if_pos h]
  have e : ((pre.length : Int) + (w.length : Int) - (pre.length : Int)).toNat = w.length := by
    omega
  simp [e]

theorem avPairLoop_wire (ps : List AvPairRecord) :
    ∀ (pre : List Nat) (acc : List Value),
      (∀ p ∈ ps, p.AvID ≤ 65535 ∧ p.AvLen = p.Value.length ∧ p.Value.length ≤ 65535) →
      avPairLoop
          (pre ++ (ps.map
            (fun p => leBytes 2 p.AvID ++ leBytes 2 p.Value.length ++ p.Value)).flatten)
          (pre.length : Int)
          (((ps.map
            (fun p => leBytes 2 p.AvID ++ leBytes 2 p.Value.length ++ p.Value)).flatten.length
              : Nat) : Int) acc
        = .ok (acc ++ ps.map AvPairRecord.toValue,
            (pre.length : Int) + (((ps.map
              (fun p => leBytes 2 p.AvID ++ leBytes 2 p.Value.length ++ p.Value)).flatten.length
                : Nat) : Int)) := by
  induction ps with
  | nil =>
    intro pre acc _
    unfold avPairLoop
    simp
  | cons p rest ih =>
    intro pre acc h
    obtain ⟨hid, hl, hv⟩ := h p (by simp)
    have hrest : ∀ q ∈ rest, q.AvID ≤ 65535 ∧ q.AvLen = q.Value.length
        ∧ q.Value.length ≤ 65535 := fun q hq => h q (by simp [hq])
    generalize hw : (rest.map
      (fun p => leBytes 2 p.AvID ++ leBytes 2 p.Value.length ++ p.Value)).flatten = w at ih ⊢
    simp only [List.map_cons, List.flatten_cons, hw]
    unfold avPairLoop
    have hpos : (0 : Int)
        < ((leBytes 2 p.AvID ++ leBytes 2 p.Value.length ++ p.Value ++ w).length : Nat) := by
      simp only [List.length_append, length_leBytes, Nat.cast_add]; omega
    rw [dif_pos hpos, sliceRange_suffix]
    simp only [avPair_unmarshal p w hid hl hv, AvPairRecord.toValue]
    have e1 : pre ++ (leBytes 2 p.AvID ++ leBytes 2 p.Value.length ++ p.Value ++ w)
        = (pre ++ (leBytes 2 p.AvID ++ leBytes 2 p.Value.length ++ p.Value)) ++ w := by
      simp only [List.append_assoc]
    have e2 : (pre.length : Int) + (4 + (p.AvLen : Int))
        = ((pre ++ (leBytes 2 p.AvID ++ leBytes 2 p.Value.length ++ p.Value)).length : Nat) := by
      simp only [List.length_append, length_leBytes, Nat.cast_add, hl]; omega
    have e3 : (((leBytes 2 p.AvID ++ leBytes 2 p.Value.length ++ p.Value ++ w).length : Nat)
        : Int) - (4 + (p.AvLen : Int)) = ((w.length : Nat) : Int) := by
      simp only [List.length_append, length_leBytes, Nat.cast_add, hl]; omega
    rw [e1, e2, e3, ih _ _ hrest]
    simp only [List.append_assoc, List.singleton_append, List.length_append, length_leBytes,
      Nat.cast_add, AvPairRecord.toValue]
    congr 2
    omega

/-- C26: for every list `ps` of `AvPair` values in which `AvLen` is the length of `Value`
(and `AvID` is a 16-bit value) and whose encoding `e` has at most 65535 bytes, `Unmarshal`
of the two bytes of `len(e)`, the four bytes of the offset 6 and `e` into
`{Len uint16 len:Data; Offset uint32 offset:Data; Data AvPairSlice}` succeeds, and `Data`
is the list `ps`. -/
theorem avpair_slice_decode (ps : List AvPairRecord) (e : List Nat)
    (hid : ∀ p ∈ ps, p.AvID ≤ 65535) (hlen : ∀ p ∈ ps, p.AvLen = p.Value.length)
    (he : e = (ps.map
      (fun p => leBytes 2 p.AvID ++ leBytes 2 p.Value.length ++ p.Value)).flatten)
    (hsize : e.length ≤ 65535) :
    Unmarshal (leBytes 2 e.length ++ leBytes 4 6 ++ e) (.struct TestAvPairSliceStruct)
      = .ok (.struct [.u16 e.length, .u32 6, .list (ps.map AvPairRecord.toValue)]) := by
  have hmem : ∀ p ∈ ps, p.Value.length ≤ 65535 := by
    intro p hp
    have h1 : (leBytes 2 p.AvID ++ leBytes 2 p.Value.length ++ p.Value).length ≤ e.length := by
      rw [he, List.length_flatten]
      apply List.single_le_sum (by intro x _; omega)
      simp only [List.mem_map]
      exact ⟨_, ⟨p, hp, rfl⟩, rfl⟩
    simp only [List.length_append, length_leBytes] at h1
    omega
  have hall : ∀ p ∈ ps, p.AvID ≤ 65535 ∧ p.AvLen = p.Value.length ∧ p.Value.length ≤ 65535 :=
    fun p hp => ⟨hid p hp, hlen p hp, hmem p hp⟩
  have hloop := avPairLoop_wire ps (leBytes 2 e.length ++ leBytes 4 6) [] hall
  rw [← he] at hloop
  have hv1 : leValue (List.take 2 (leBytes 2 e.length ++ leBytes 4 6 ++ e)) = e.length := by
    rw [List.append_assoc, List.take_left' (by simp)]
    exact leValue_leBytes_two _ hsize
  have hv2 : leValue (List.take 4 (List.drop 2 (leBytes 2 e.length ++ leBytes 4 6 ++ e)))
      = 6 := by
    rw [List.append_assoc, List.drop_left' (by simp), List.take_left' (by simp)]
    rfl
  rw [Unmarshal_struct]
  simp only [TestAvPairSliceStruct, unmarshalFields, parseTags_len_Data, parseTags_offset_Data,
    parseTags_empty, topMetadata]
  rw [unmarshalStructField_uint16_len _ _ _ _ "Data" ?h0 ?h1 ?ht ?hg]
  case h0 => simp
  case h1 => simp; omega
  case ht => rfl
  case hg => rfl
  simp only [Int.toNat_zero, List.drop_zero, hv1]
  rw [unmarshalStructField_uint32_offset _ _ _ _ "Data" ?h0 ?h1 ?ht ?hg]
  case h0 => simp
  case h1 => simp; omega
  case ht => rfl
  case hg => rfl
  have e2 : ((0 : Int) + 2).toNat = 2 := rfl
  simp only [e2, hv2]
  have hlen6 : ((leBytes 2 e.length ++ leBytes 4 6).length : Int) = 6 := by simp
  rw [hlen6] at hloop
  have hsl : sliceFrom (leBytes 2 e.length ++ leBytes 4 6 ++ e) ((0 : Int) + 2 + 4)
      = .ok e := by
    rw [sliceFrom_ok _ _ (by omega) (by simp; omega)]
    have e6 : ((0 : Int) + 2 + 4).toNat = 6 := rfl
    rw [e6, List.drop_left' (by simp)]
  simp only [unmarshalStructField, AvPairSliceKind, hsl, unmarshalBinaryMarshallable,
    AvPairSliceCodec, avPairSliceUnmarshal, List.lookup]
  simp only [beq_self_eq_true, Nat.cast_ofNat, hloop, List.nil_append, Option.map_some',
    Option.getD_some]

theorem avpair_slice_decode_witness :
    Unmarshal ([12, 0] ++ [6, 0, 0, 0] ++ [1, 0, 4, 0, 1, 2, 3, 4, 0, 0, 0, 0])
        (.struct TestAvPairSliceStruct)
      = .ok (.struct [.u16 12, .u32 6,
          .list [.struct [.u16 1, .u16 4, .bytes [1, 2, 3, 4]],
                 .struct [.u16 0, .u16 0, .bytes []]]]) :=
  avpair_slice_decode [⟨1, 4, [1, 2, 3, 4]⟩, ⟨0, 0, []⟩]
    [1, 0, 4, 0, 1, 2, 3, 4, 0, 0, 0, 0] (by decide) (by decide) rfl (by decide)

/-! ## Slices of 16-bit integers -/

theorem getElem?_pairs_flatten (f g : Nat → Nat) :
    ∀ (s : List Nat) (i x : Nat), s[i]? = some x →
      ((s.map (fun y => [f y, g y])).flatten)[2 * i]? = some (f x)
        ∧ ((s.map (fun y => [f y, g y])).flatten)[2 * i + 1]? = some (g x) := by
  intro s
  induction s with
  | nil => intro i x h; simp at h
  | cons y rest ih =>
    intro i x h
    cases i with
    | zero =>
      simp only [List.getElem?_cons_zero, Option.some.injEq] at h
      subst h
      simp
    | succ i =>
      simp only [List.getElem?_cons_succ] at h
      have h2 := ih i x h
      have e1 : 2 * (i + 1) = (2 * i + 1) + 1 := by omega
      simp only [List.map_cons, List.flatten_cons, List.cons_append, List.nil_append]
      rw [e1]
      simp only [List.getElem?_cons_succ]
      exact h2

/-- C27: `Marshal` of a `[]uint16` succeeds for every list `s`; the output has
`2 * len(s)` bytes, byte `2i` is the low byte of `s[i]` and byte `2i+1` its high byte,
and the empty list gives no bytes. -/
theorem slice_uint16_encode (s : List Nat) :
    ∃ (out : List Nat), Marshal (.slice .uint16) (.u16s s) = .ok out
      ∧ out.length = 2 * s.length
      ∧ (∀ (i x : Nat), s[i]? = some x →
          out[2 * i]? = some (x % 256) ∧ out[2 * i + 1]? = some (x / 256 % 256))
      ∧ (s = [] → out = []) := by
  refine ⟨(s.map (fun y => [y % 256, y / 256 % 256])).flatten, ?_, ?_, ?_, ?_⟩
  · simp only [Marshal, marshal, marshalField, marshalKind, if_true]
    have : (fun y => leBytes 2 y) = (fun y => [y % 256, y / 256 % 256]) := by
      funext y; simp [leBytes]
    have e : List.map (leBytes 2) s = List.map (fun y => [y % 256, y / 256 % 256]) s := by
      rw [← this]
    rw [e]
  · induction s with
    | nil => rfl
    | cons y rest ih => simp only [List.map_cons, List.flatten_cons, List.length_append, ih,
        List.length_cons, List.length_nil]; omega
  · exact getElem?_pairs_flatten _ _ s
  · intro h; subst h; rfl

theorem slice_uint16_encode_witness :
    ∃ (out : List Nat), Marshal (.slice .uint16) (.u16s [258, 772, 1286]) = .ok out
      ∧ out.length = 2 * [258, 772, 1286].length
      ∧ (∀ (i x : Nat), [258, 772, 1286][i]? = some x →
          out[2 * i]? = some (x % 256) ∧ out[2 * i + 1]? = some (x / 256 % 256))
      ∧ ([258, 772, 1286] = ([] : List Nat) → out = []) :=
  slice_uint16_encode [258, 772, 1286]

/-! ## NetBIOS framing -/

theorem beBytes_four (n : Nat) :
    beBytes 4 n = [n / 16777216 % 256, n / 65536 % 256, n / 256 % 256, n % 256] := by
  simp [beBytes]

theorem beValue_beBytes_four (n : Nat) (h : n < 2 ^ 32) : beValue (beBytes 4 n) 0 = n := by
  rw [beBytes_four]
  simp only [beValue]
  omega

/-- C28: for every message `d` of at most `0x00FFFFFF` bytes, `SendNetBIOSMessage`
appends to the stream the four bytes of `len(d)` in big-endian order followed by `d`,
and `ReceiveNetBIOSMessage` on a stream that starts with those bytes returns `d` without
error and leaves what follows them. -/
theorem netbios_round_trip (d conn rest : List Nat) (h : d.length ≤ 0x00FFFFFF) :
    SendNetBIOSMessage conn d
        = .ok (conn ++ ([d.length / 16777216 % 256, d.length / 65536 % 256,
            d.length / 256 % 256, d.length % 256] ++ d))
      ∧ ReceiveNetBIOSMessage
          ([d.length / 16777216 % 256, d.length / 65536 % 256, d.length / 256 % 256,
            d.length % 256] ++ d ++ rest) = .ok (d, rest)
      ∧ (∀ conn1, SendNetBIOSMessage [] d = .ok conn1 →
          ReceiveNetBIOSMessage conn1 = .ok (d, [])) := by
  have hmod : d.length % 2 ^ 32 = d.length := Nat.mod_eq_of_lt (by omega)
  have hsend : ∀ c, SendNetBIOSMessage c d
      = .ok (c ++ ([d.length / 16777216 % 256, d.length / 65536 % 256,
            d.length / 256 % 256, d.length % 256] ++ d)) := by
    intro c
    simp only [SendNetBIOSMessage, connWrite, hmod, beBytes_four]
  have hrecv : ∀ r, ReceiveNetBIOSMessage
          ([d.length / 16777216 % 256, d.length / 65536 % 256, d.length / 256 % 256,
            d.length % 256] ++ d ++ r) = .ok (d, r) := by
    intro r
    have hv := beValue_beBytes_four d.length (by omega)
    rw [beBytes_four] at hv
    have h4 : connReadFull ([d.length / 16777216 % 256, d.length / 65536 % 256,
        d.length / 256 % 256, d.length % 256] ++ d ++ r) 4
        = .ok ([d.length / 16777216 % 256, d.length / 65536 % 256,
            d.length / 256 % 256, d.length % 256], d ++ r) := by
      simp [connReadFull]
    have hd : connReadFull (d ++ r) d.length = .ok (d, r) := by
      unfold connReadFull
      by_cases h0 : d.length = 0
      · have : d = [] := List.length_eq_zero.mp h0
        subst this
        simp
      · have h1 : ¬ (d ++ r).length = 0 := by simp only [List.length_append]; omega
        have h2 : ¬ (d ++ r).length < d.length := by simp only [List.length_append]; omega
        simp only [h0, h1, h2, if_false, List.take_left, List.drop_left]
    have hmax : ¬ d.length > maxNetBIOSSize := by
      simp only [maxNetBIOSSize]; omega
    simp only [ReceiveNetBIOSMessage, h4, hv, hmax, hd, hmod, if_false, ne_eq,
      not_true_eq_false]
  refine ⟨hsend conn, hrecv rest, ?_⟩
  intro conn1 h1
  rw [hsend] at h1
  injection h1 with h1
  subst h1
  have := hrecv []
  simpa using this

theorem netbios_round_trip_witness :
    SendNetBIOSMessage [9] [1, 2, 3] = .ok ([9] ++ ([0, 0, 0, 3] ++ [1, 2, 3]))
      ∧ ReceiveNetBIOSMessage ([0, 0, 0, 3] ++ [1, 2, 3] ++ [8]) = .ok ([1, 2, 3], [8])
      ∧ (∀ conn1, SendNetBIOSMessage [] [1, 2, 3] = .ok conn1 →
          ReceiveNetBIOSMessage conn1 = .ok ([1, 2, 3], [])) :=
  netbios_round_trip [1, 2, 3] [9] [8] (by decide)

/-! ## Headers recorded by the decoder -/

theorem parseTags_offset_D : parseTags "offset:D" = .ok ⟨[("offset", .str "D")]⟩ := by
  decide

/-- C29 as amended: the decoder records `len` headers of 16 bits and `offset` headers of
32 bits.  For a field of a structure decoded at a cursor with enough bytes, with the
directives `m.Tags` of its annotation: a `uint16` field tagged `len:F` is decoded, moves
the cursor by 2 and records its value as the length of `F`; a `uint32` field tagged
`offset:F` is decoded, moves the cursor by 4 and records its value as the offset of `F`.
For every buffer that holds the header and the block, `{L uint16 len:D; D []byte}` decodes
`D` as the `L` bytes following the header, and
`{L uint16 len:D; O uint32 offset:D; D []byte}` decodes `D` from `buf[O .. O+L)`. -/
theorem header_recording (buf : List Nat) (m : Metadata) (name tag : String)
    (h0 : 0 ≤ m.CurrOffset) :
    (∀ F, m.CurrOffset + 2 ≤ (buf.length : Int) → m.Tags.GetString "len" = .ok F →
        ∃ m1, unmarshalStructField buf m ⟨name, tag, .uint16⟩ =
            .ok (.u16 (leValue ((buf.drop m.CurrOffset.toNat).take 2)), m1)
          ∧ m1.Lens = (F, (leValue ((buf.drop m.CurrOffset.toNat).take 2) : Int)) :: m.Lens
          ∧ m1.Lens.lookup F = some (leValue ((buf.drop m.CurrOffset.toNat).take 2) : Int)
          ∧ m1.CurrOffset = m.CurrOffset + 2)
      ∧ (∀ F, m.CurrOffset + 4 ≤ (buf.length : Int) → m.Tags.GetString "offset" = .ok F →
        ∃ m1, unmarshalStructField buf m ⟨name, tag, .uint32⟩ =
            .ok (.u32 (leValue ((buf.drop m.CurrOffset.toNat).take 4)), m1)
          ∧ m1.Offsets
              = (F, (leValue ((buf.drop m.CurrOffset.toNat).take 4) : Int)) :: m.Offsets
          ∧ m1.Offsets.lookup F = some (leValue ((buf.drop m.CurrOffset.toNat).take 4) : Int)
          ∧ m1.CurrOffset = m.CurrOffset + 4)
      ∧ (2 + leValue (buf.take 2) ≤ buf.length →
        Unmarshal buf (.struct LenBlockStruct)
          = .ok (.struct [.u16 (leValue (buf.take 2)),
              .bytes ((buf.drop 2).take (leValue (buf.take 2)))]))
      ∧ (6 ≤ buf.length → leValue ((buf.drop 2).take 4) + leValue (buf.take 2) ≤ buf.length →
        Unmarshal buf (.struct LenOffsetBlockStruct)
          = .ok (.struct [.u16 (leValue (buf.take 2)), .u32 (leValue ((buf.drop 2).take 4)),
              .bytes ((buf.drop (leValue ((buf.drop 2).take 4))).take
                (leValue (buf.take 2)))])) := by
  refine ⟨?_, ?_, ?_, ?_⟩
  · intro F h1 hg
    refine ⟨_, unmarshalStructField_uint16_len buf m name tag F h0 h1
      (has_of_getString _ _ _ hg) hg, rfl, ?_, rfl⟩
    simp [List.lookup]
  · intro F h1 hg
    refine ⟨_, unmarshalStructField_uint32_offset buf m name tag F h0 h1
      (has_of_getString _ _ _ hg) hg, rfl, ?_, rfl⟩
    simp [List.lookup]
  · intro hb
    rw [Unmarshal_struct]
    simp only [LenBlockStruct, unmarshalFields, parseTags_len_D, parseTags_empty, topMetadata]
    rw [unmarshalStructField_uint16_len _ _ _ _ "D" ?h0 ?h1 ?ht ?hg]
    case h0 => simp
    case h1 => simp; try omega
    case ht => rfl
    case hg => rfl
    simp only []
    rw [unmarshalStructField_len _ _ _ _ (leValue (buf.take 2) : Int) ?h0 ?h2 ?hl ?h1 ?hp ?ht
      ?hlen ?hoff]
    case h0 => simp
    case h2 => simp; try omega
    case hl => omega
    case h1 => simp; try omega
    case hp => rfl
    case ht => rfl
    case hlen => simp
    case hoff => simp
    simp
  · intro h6 hb
    rw [Unmarshal_struct]
    simp only [LenOffsetBlockStruct, unmarshalFields, parseTags_len_D, parseTags_offset_D,
      parseTags_empty, topMetadata]
    rw [unmarshalStructField_uint16_len _ _ _ _ "D" ?h0 ?h1 ?ht ?hg]
    case h0 => simp
    case h1 => simp; try omega
    case ht => rfl
    case hg => rfl
    simp only []
    rw [unmarshalStructField_uint32_offset _ _ _ _ "D" ?h0 ?h1 ?ht ?hg]
    case h0 => simp
    case h1 => simp; try omega
    case ht => rfl
    case hg => rfl
    simp only []
    rw [unmarshalStructField_offset _ _ _ _ (leValue (buf.take 2) : Int)
      (leValue ((buf.drop 2).take 4) : Int) ?h0 ?h2 ?hl ?ho ?h1 ?hp ?ht ?hlen ?hoff]
    case h0 => simp
    case h2 => simp; try omega
    case hl => omega
    case ho => omega
    case h1 => simp; try omega
    case hp => rfl
    case ht => rfl
    case hlen => simp
    case hoff => simp
    simp

theorem header_recording_witness :
    Unmarshal [1, 0, 7, 0, 0, 0, 9, 5] (.struct LenOffsetBlockStruct)
      = .ok (.struct [.u16 1, .u32 7, .bytes [5]]) :=
  (header_recording [1, 0, 7, 0, 0, 0, 9, 5] (topMetadata [1, 0, 7, 0, 0, 0, 9, 5]) "L" "len:D"
    (by decide)).2.2.2 (by decide) (by decide)

/-- C29 fails as stated: a header of 8 or of 64 bits tagged `len:D` records nothing, so
`{L uint8 len:D; D []byte}` and `{L uint64 len:D; D []byte}` are not decoded (no length of
`D` is known); neither is `{L uint32 len:D; D []byte}`; and in
`{L uint16 len:D; O uint16 offset:D; D []byte}` on `{1, 0, 5, 0, 9, 7}` the block `D` is
the byte `9` at the cursor, not the byte `7` at offset 5. -/
theorem header_recording_counterexample :
    Unmarshal [2, 0, 0, 0, 7, 8] (.struct [⟨"L", "len:D", .uint32⟩, ⟨"D", "", .slice .uint8⟩])
        = .error .missingLengthReference
      ∧ Unmarshal [2, 7, 8] (.struct [⟨"L", "len:D", .uint8⟩, ⟨"D", "", .slice .uint8⟩])
        = .error .missingLengthReference
      ∧ Unmarshal [2, 0, 0, 0, 0, 0, 0, 0, 7, 8]
          (.struct [⟨"L", "len:D", .uint64⟩, ⟨"D", "", .slice .uint8⟩])
        = .error .missingLengthReference
      ∧ Unmarshal [1, 0, 5, 0, 9, 7]
          (.struct [⟨"L", "len:D", .uint16⟩, ⟨"O", "offset:D", .uint16⟩,
            ⟨"D", "", .slice .uint8⟩])
        = .ok (.struct [.u16 1, .u16 5, .bytes [9]]) := by
  refine ⟨?_, ?_, ?_, ?_⟩ <;> rfl

/-! ## Headers that name no field -/

theorem resolveHeader_cases (bits data : Nat) (m : Metadata) (parent : List Sibling)
    (x : Nat) (m1 : Metadata) (h : resolveHeader bits data m parent = .ok (x, m1)) :
    ∃ (ma : Metadata) (data1 : Nat),
      ((m.Tags.Has "len" = false ∧ ma = m ∧ data1 = data)
        ∨ (∃ ref l, m.Tags.GetString "len" = .ok ref
            ∧ getFieldLengthByName ref m parent = .ok (l, ma) ∧ data1 = truncate bits l))
      ∧ ma.Tags = m.Tags
      ∧ ((m.Tags.Has "offset" = false ∧ m1 = ma ∧ x = data1)
        ∨ (∃ ref l, m.Tags.GetString "offset" = .ok ref
            ∧ getOffsetLoop ref parent 0 ma = .ok (l, m1) ∧ x = truncate bits l)) := by
  unfold resolveHeader at h
  simp only [] at h
  have hlen : ∀ (r : Except Error (Nat × Metadata)),
      r = (if m.Tags.Has "len" then
            match m.Tags.GetString "len" with
            | .error e => .error e
            | .ok fieldName =>
              match getFieldLengthByName fieldName m parent with
              | .error e => .error e
              | .ok (l, meta1) => .ok (truncate bits l, meta1)
          else .ok (data, m)) →
      ∀ d ma, r = .ok (d, ma) →
        ((m.Tags.Has "len" = false ∧ ma = m ∧ d = data)
          ∨ (∃ ref l, m.Tags.GetString "len" = .ok ref
              ∧ getFieldLengthByName ref m parent = .ok (l, ma) ∧ d = truncate bits l))
        ∧ ma.Tags = m.Tags := by
    intro r hr d ma hd
    rw [hr] at hd
    split at hd
    · split at hd
      · cases hd
      · rename_i ref href
        split at hd
        · cases hd
        · rename_i l meta1 hg
          simp only [Except.ok.injEq, Prod.mk.injEq] at hd
          obtain ⟨rfl, rfl⟩ := hd
          refine ⟨Or.inr ⟨ref, l, href, hg, rfl⟩, ?_⟩
          rcases getFieldLengthByName_shape ref m parent l meta1 hg with h1 | h1 <;> rw [h1]
    · rename_i hno
      simp only [Except.ok.injEq, Prod.mk.injEq] at hd
      obtain ⟨rfl, rfl⟩ := hd
      exact ⟨Or.inl ⟨by simpa using hno, rfl, rfl⟩, rfl⟩
  split at h
  · cases h
  · rename_i d ma hr
    obtain ⟨hphase, ht⟩ := hlen _ rfl d ma hr
    refine ⟨ma, d, hphase, ht, ?_⟩
    rw [ht] at h
    split at h
    · split at h
      · cases h
      · rename_i ref hget
        split at h
        · cases h
        · rename_i l meta2 hg
          simp only [Except.ok.injEq, Prod.mk.injEq] at h
          obtain ⟨rfl, rfl⟩ := h
          exact Or.inr ⟨ref, l, hget, by simpa [getOffsetByFieldName] using hg, rfl⟩
    · rename_i hoff
      simp only [Except.ok.injEq, Prod.mk.injEq] at h
      obtain ⟨rfl, rfl⟩ := h
      exact Or.inl ⟨by simpa using hoff, rfl, rfl⟩

/-- The context after a field is encoded: the context before, or the one that the
resolution of a header returned. -/
theorem marshalField_meta (f : Field Kind) (v : Value) (m : Metadata)
    (parent : List Sibling) (buf : List Nat) (mo : Option Metadata)
    (h : marshalField f v (some m) parent = .ok (buf, mo)) :
    ∃ m1, mo = some m1
      ∧ (m1 = m ∨ ∃ bits data x, resolveHeader bits data m parent = .ok (x, m1)) := by
  by_cases hctx : contextual f.kind = false
  · rw [marshalField_eq_Marshal f v (some m) parent hctx] at h
    cases hM : Marshal f.kind v with
    | error e => simp [hM] at h
    | ok b =>
      simp only [hM, Except.ok.injEq, Prod.mk.injEq] at h
      exact ⟨m, h.2.symm, Or.inl rfl⟩
  · obtain ⟨name, tag, k⟩ := f
    simp only at hctx
    have hres : ∀ bits n (w : Nat),
        (match resolveHeader bits n m parent with
          | .error e => .error e
          | .ok (data1, m1) => Except.ok (leBytes w data1, some m1)) = Except.ok (buf, mo) →
        ∃ m1, mo = some m1
          ∧ (m1 = m ∨ ∃ bits data x, resolveHeader bits data m parent = .ok (x, m1)) := by
      intro bits n w hr
      cases hx : resolveHeader bits n m parent with
      | error e => simp [hx] at hr
      | ok r =>
        obtain ⟨d, m1⟩ := r
        simp only [hx, Except.ok.injEq, Prod.mk.injEq] at hr
        exact ⟨m1, hr.2.symm, Or.inr ⟨bits, n, d, hx⟩⟩
    cases k with
    | uint16 =>
      cases v <;> simp [marshalField, marshalKind, marshalUint16] at h
      exact hres 16 _ 2 h
    | uint32 =>
      cases v <;> simp [marshalField, marshalKind, marshalUint32] at h
      exact hres 32 _ 4 h
    | ptr e =>
      cases v with
      | ptr t =>
        cases t with
        | none => cases e <;> simp [marshalField] at h
        | some x =>
          cases e with
          | uint16 =>
            simp only [marshalField] at h
            cases x <;> simp [marshalKind, marshalUint16] at h
            exact hres 16 _ 2 h
          | uint32 =>
            simp only [marshalField] at h
            cases x <;> simp [marshalKind, marshalUint32] at h
            exact hres 32 _ 4 h
          | custom c u =>
            simp only [marshalField] at h
            cases hc : c.MarshalBinary x (some m) with
            | ok b =>
              simp only [hc, Except.ok.injEq, Prod.mk.injEq] at h
              exact ⟨m, h.2.symm, Or.inl rfl⟩
            | error e =>
              simp only [hc] at h
              rw [marshalKind_context_free _ x false (some m) parent (by simp) (by simp)] at h
              cases hk : marshalKind (.custom c u) x false none [] with
              | error e => simp [hk] at h
              | ok r =>
                simp only [hk, Except.ok.injEq, Prod.mk.injEq] at h
                exact ⟨m, h.2.symm, Or.inl rfl⟩
          | _ => simp [contextual] at hctx
      | _ => cases e <;> simp [marshalField] at h
    | _ => simp [contextual] at hctx

theorem lookup_cons_ne (F ref : String) (l : Int) (lens : List (String × Int))
    (h : ref ≠ F) : ((ref, l) :: lens).lookup F = lens.lookup F := by
  have hb : (F == ref) = false := by
    simp only [beq_eq_false_iff_ne, ne_eq]
    exact fun e => h e.symm
  simp only [List.lookup, hb]

theorem getFieldLengthByName_dangling (F : String) (m : Metadata) (parent : List Sibling)
    (hF : ∀ s ∈ parent, s.name ≠ F) (hk : m.Lens.lookup F = none) :
    getFieldLengthByName F m parent = .error .invalidField := by
  have hfind : parent.find? (fun s => decide (s.name = F)) = none := by
    rw [List.find?_eq_none]
    intro s hs
    simpa using hF s hs
  unfold getFieldLengthByName
  simp only [hk, hfind]

theorem getFieldLengthByName_keeps (F ref : String) (m : Metadata) (parent : List Sibling)
    (l : Int) (m1 : Metadata) (hF : ∀ s ∈ parent, s.name ≠ F)
    (hk : m.Lens.lookup F = none)
    (h : getFieldLengthByName ref m parent = .ok (l, m1)) : m1.Lens.lookup F = none := by
  by_cases hr : ref = F
  · subst hr
    rw [getFieldLengthByName_dangling ref m parent hF hk] at h
    cases h
  · rcases getFieldLengthByName_shape ref m parent l m1 h with h1 | h1
    · rw [h1]; exact hk
    · rw [h1]
      simp only [lookup_cons_ne F ref l m.Lens hr, hk]

theorem getOffsetLoop_keeps (F fieldName : String) :
    ∀ (ps : List Sibling) (ret : Int) (m : Metadata) (l : Int) (m1 : Metadata),
      (∀ s ∈ ps, s.name ≠ F) → m.Lens.lookup F = none →
      getOffsetLoop fieldName ps ret m = .ok (l, m1) → m1.Lens.lookup F = none := by
  intro ps
  induction ps with
  | nil => intro ret m l m1 _ _ h; simp [getOffsetLoop] at h
  | cons s rest ih =>
    intro ret m l m1 hF hk h
    rw [getOffsetLoop] at h
    split at h
    · simp only [Except.ok.injEq, Prod.mk.injEq] at h
      rw [← h.2]; exact hk
    · split at h
      · exact ih _ _ _ _ (fun s2 hs2 => hF s2 (by simp [hs2])) hk h
      · split at h
        · cases h
        · refine ih _ _ _ _ (fun s2 hs2 => hF s2 (by simp [hs2])) ?_ h
          simp only [lookup_cons_ne F s.name _ m.Lens (hF s (by simp)), hk]

theorem getOffsetLoop_dangling (F : String) :
    ∀ (ps : List Sibling) (ret : Int) (m : Metadata), (∀ s ∈ ps, s.name ≠ F) →
      ∃ e, getOffsetLoop F ps ret m = .error e
        ∧ (e = .fieldNotFound ∨ ∃ s ∈ ps, s.marshalled = .error e) := by
  intro ps
  induction ps with
  | nil => intro ret m _; exact ⟨.fieldNotFound, rfl, Or.inl rfl⟩
  | cons s rest ih =>
    intro ret m hF
    have hs : s.name ≠ F := hF s (by simp)
    have hrest : ∀ s2 ∈ rest, s2.name ≠ F := fun s2 hs2 => hF s2 (by simp [hs2])
    rw [getOffsetLoop]
    simp only [hs, if_false]
    cases hl : m.Lens.lookup s.name with
    | some l =>
      obtain ⟨e, he, hc⟩ := ih (ret + l) m hrest
      refine ⟨e, he, ?_⟩
      rcases hc with hc | ⟨s2, hs2, hc⟩
      · exact Or.inl hc
      · exact Or.inr ⟨s2, by simp [hs2], hc⟩
    | none =>
      cases hm : s.marshalled with
      | error e => exact ⟨e, rfl, Or.inr ⟨s, by simp, hm⟩⟩
      | ok buf =>
        obtain ⟨e, he, hc⟩ := ih (ret + buf.length)
          { m with Lens := (s.name, (buf.length : Int)) :: m.Lens } hrest
        refine ⟨e, he, ?_⟩
        rcases hc with hc | ⟨s2, hs2, hc⟩
        · exact Or.inl hc
        · exact Or.inr ⟨s2, by simp [hs2], hc⟩

theorem resolveHeader_keeps (F : String) (bits data : Nat) (m : Metadata)
    (parent : List Sibling) (x : Nat) (m1 : Metadata) (hF : ∀ s ∈ parent, s.name ≠ F)
    (hk : m.Lens.lookup F = none)
    (h : resolveHeader bits data m parent = .ok (x, m1)) : m1.Lens.lookup F = none := by
  obtain ⟨ma, d, hphase, _, hoff⟩ := resolveHeader_cases bits data m parent x m1 h
  have hka : ma.Lens.lookup F = none := by
    rcases hphase with ⟨_, rfl, _⟩ | ⟨ref, l, _, hg, _⟩
    · exact hk
    · exact getFieldLengthByName_keeps F ref m parent l ma hF hk hg
  rcases hoff with ⟨_, rfl, _⟩ | ⟨ref, l, _, hg, _⟩
  · exact hka
  · exact getOffsetLoop_keeps F ref parent 0 ma l m1 hF hka hg

theorem marshalField_keeps (F : String) (f : Field Kind) (v : Value) (m : Metadata)
    (parent : List Sibling) (buf : List Nat) (mo : Option Metadata)
    (hF : ∀ s ∈ parent, s.name ≠ F) (hk : m.Lens.lookup F = none)
    (h : marshalField f v (some m) parent = .ok (buf, mo)) :
    ∃ m1, mo = some m1 ∧ m1.Lens.lookup F = none := by
  obtain ⟨m1, hmo, hc⟩ := marshalField_meta f v m parent buf mo h
  refine ⟨m1, hmo, ?_⟩
  rcases hc with rfl | ⟨bits, data, x, hr⟩
  · exact hk
  · exact resolveHeader_keeps F bits data m parent x m1 hF hk hr

/-- The resolution of a header that refers to a name `F` that no field of the parent has:
it never succeeds; with `len:F` the error is the one of `getFieldLengthByName`, and with
`offset:F` alone it is the one of `getOffsetByFieldName` or the error of `Marshal` on a
field of the parent. -/
theorem resolveHeader_dangling (F : String) (bits data : Nat) (m : Metadata)
    (parent : List Sibling) (hF : ∀ s ∈ parent, s.name ≠ F) (hk : m.Lens.lookup F = none)
    (href : m.Tags.GetString "len" = .ok F ∨ m.Tags.GetString "offset" = .ok F) :
    (∃ e, resolveHeader bits data m parent = .error e)
      ∧ (m.Tags.GetString "len" = .ok F →
          resolveHeader bits data m parent = .error .invalidField)
      ∧ (m.Tags.Has "len" = false →
          ∃ e, resolveHeader bits data m parent = .error e
            ∧ (e = .fieldNotFound ∨ ∃ s ∈ parent, s.marshalled = .error e)) := by
  have hlen : m.Tags.GetString "len" = .ok F →
      resolveHeader bits data m parent = .error .invalidField := by
    intro hg
    unfold resolveHeader
    simp only [has_of_getString _ _ _ hg, hg, if_true,
      getFieldLengthByName_dangling F m parent hF hk]
  have hoff : m.Tags.GetString "offset" = .ok F → m.Tags.Has "len" = false →
      ∃ e, resolveHeader bits data m parent = .error e
        ∧ (e = .fieldNotFound ∨ ∃ s ∈ parent, s.marshalled = .error e) := by
    intro hg hno
    obtain ⟨e, he, hc⟩ := getOffsetLoop_dangling F parent 0 m hF
    refine ⟨e, ?_, hc⟩
    unfold resolveHeader
    simp only [hno, Bool.false_eq_true, if_false, has_of_getString _ _ _ hg, hg, if_true,
      getOffsetByFieldName, he]
  refine ⟨?_, hlen, ?_⟩
  · cases hr : resolveHeader bits data m parent with
    | error e => exact ⟨e, rfl⟩
    | ok r =>
      exfalso
      obtain ⟨x, m1⟩ := r
      obtain ⟨ma, d, hphase, ht, hofs⟩ := resolveHeader_cases bits data m parent x m1 hr
      rcases href with hg | hg
      · rw [hlen hg] at hr; cases hr
      · rcases hofs with ⟨hno, _, _⟩ | ⟨ref, l, hget, hloop, _⟩
        · rw [has_of_getString _ _ _ hg] at hno; cases hno
        · rw [hg] at hget
          injection hget with hget
          subst hget
          obtain ⟨e, he, _⟩ := getOffsetLoop_dangling F parent 0 ma hF
          rw [he] at hloop
          cases hloop
  · intro hno
    rcases href with hg | hg
    · rw [has_of_getString _ _ _ hg] at hno; cases hno
    · exact hoff hg hno

theorem marshalField_header (name tag : String) (k : Kind) (v : Value) (m : Metadata)
    (parent : List Sibling) (hk : k = .uint16 ∨ k = .uint32) :
    (∀ n, k = .uint16 → v = .u16 n →
        marshalField ⟨name, tag, k⟩ v (some m) parent = marshalUint16 n (some m) parent)
      ∧ (∀ n, k = .uint32 → v = .u32 n →
        marshalField ⟨name, tag, k⟩ v (some m) parent = marshalUint32 n (some m) parent)
      ∧ (¬ headerValue k v →
          marshalField ⟨name, tag, k⟩ v (some m) parent = .error .invalidType) := by
  refine ⟨?_, ?_, ?_⟩
  · rintro n rfl rfl
    simp [marshalField, marshalKind]
  · rintro n rfl rfl
    simp [marshalField, marshalKind]
  · intro hv
    rcases hk with rfl | rfl
    · cases v <;> first
        | (exfalso; exact hv (Or.inl ⟨rfl, _, rfl⟩))
        | simp [marshalField, marshalKind]
    · cases v <;> first
        | (exfalso; exact hv (Or.inr ⟨rfl, _, rfl⟩))
        | simp [marshalField, marshalKind]

theorem marshalUint16_error (n : Nat) (m : Metadata) (parent : List Sibling) (e : Error)
    (h : resolveHeader 16 n m parent = .error e) :
    marshalUint16 n (some m) parent = .error e := by
  simp only [marshalUint16, h]

theorem marshalUint32_error (n : Nat) (m : Metadata) (parent : List Sibling) (e : Error)
    (h : resolveHeader 32 n m parent = .error e) :
    marshalUint32 n (some m) parent = .error e := by
  simp only [marshalUint32, h]

theorem marshalField_header_dangling (F name tag : String) (k : Kind) (v : Value)
    (m : Metadata) (parent : List Sibling) (hk : k = .uint16 ∨ k = .uint32)
    (hF : ∀ s ∈ parent, s.name ≠ F) (hlook : m.Lens.lookup F = none)
    (href : m.Tags.GetString "len" = .ok F ∨ m.Tags.GetString "offset" = .ok F) :
    (∃ e, marshalField ⟨name, tag, k⟩ v (some m) parent = .error e)
      ∧ (headerValue k v → m.Tags.GetString "len" = .ok F →
          marshalField ⟨name, tag, k⟩ v (some m) parent = .error .invalidField)
      ∧ (headerValue k v → m.Tags.Has "len" = false →
          ∃ e, marshalField ⟨name, tag, k⟩ v (some m) parent = .error e
            ∧ (e = .fieldNotFound ∨ ∃ s ∈ parent, s.marshalled = .error e)) := by
  have hone : ∀ bits n e, resolveHeader bits n m parent = .error e → headerValue k v →
      (bits = 16 ∧ v = .u16 n ∨ bits = 32 ∧ v = .u32 n) →
      marshalField ⟨name, tag, k⟩ v (some m) parent = .error e := by
    intro bits n e hr hv hb
    rcases hv with ⟨rfl, n2, rfl⟩ | ⟨rfl, n2, rfl⟩
    · rcases hb with ⟨rfl, hn⟩ | ⟨_, hn⟩
      · injection hn with hn
        subst hn
        rw [(marshalField_header name tag _ _ m parent (Or.inl rfl)).1 n2 rfl rfl]
        exact marshalUint16_error n2 m parent e hr
      · cases hn
    · rcases hb with ⟨_, hn⟩ | ⟨rfl, hn⟩
      · cases hn
      · injection hn with hn
        subst hn
        rw [(marshalField_header name tag _ _ m parent (Or.inr rfl)).2.1 n2 rfl rfl]
        exact marshalUint32_error n2 m parent e hr
  have hbits : headerValue k v → ∃ bits n, (bits = 16 ∧ v = .u16 n ∨ bits = 32 ∧ v = .u32 n) := by
    rintro (⟨_, n, rfl⟩ | ⟨_, n, rfl⟩)
    · exact ⟨16, n, Or.inl ⟨rfl, rfl⟩⟩
    · exact ⟨32, n, Or.inr ⟨rfl, rfl⟩⟩
  refine ⟨?_, ?_, ?_⟩
  · by_cases hv : headerValue k v
    · obtain ⟨bits, n, hb⟩ := hbits hv
      obtain ⟨⟨e, hr⟩, _, _⟩ := resolveHeader_dangling F bits n m parent hF hlook href
      exact ⟨e, hone bits n e hr hv hb⟩
    · exact ⟨.invalidType, (marshalField_header name tag k v m parent hk).2.2 hv⟩
  · intro hv hg
    obtain ⟨bits, n, hb⟩ := hbits hv
    obtain ⟨_, hr, _⟩ := resolveHeader_dangling F bits n m parent hF hlook href
    exact hone bits n _ (hr hg) hv hb
  · intro hv hno
    obtain ⟨bits, n, hb⟩ := hbits hv
    obtain ⟨_, _, hr⟩ := resolveHeader_dangling F bits n m parent hF hlook href
    obtain ⟨e, hre, hc⟩ := hr hno
    exact ⟨e, hone bits n e hre hv hb, hc⟩

theorem marshalFields_cons_parse_error (f : Field Kind) (rest : Shape) (v : Value)
    (vals : List Value) (parent : List Sibling) (m : Metadata) (e : Error)
    (hp : parseTags f.tag = .error e) :
    marshalFields (f :: rest) (v :: vals) parent m = .error e := by
  rw [marshalFields]
  simp only [hp]

theorem marshalFields_cons_field_error (f : Field Kind) (rest : Shape) (v : Value)
    (vals : List Value) (parent : List Sibling) (m : Metadata) (tags : TagMap) (e : Error)
    (hp : parseTags f.tag = .ok tags)
    (hf : marshalField f v (some { m with Tags := tags }) parent = .error e) :
    marshalFields (f :: rest) (v :: vals) parent m = .error e := by
  rw [marshalFields]
  simp only [hp, hf]

theorem marshalFields_cons_rest_error (f : Field Kind) (rest : Shape) (v : Value)
    (vals : List Value) (parent : List Sibling) (m : Metadata) (tags : TagMap)
    (buf : List Nat) (m1 : Metadata) (e : Error)
    (hp : parseTags f.tag = .ok tags)
    (hf : marshalField f v (some { m with Tags := tags }) parent = .ok (buf, some m1))
    (hr : marshalFields rest vals parent
      { m1 with Lens := (f.name, (buf.length : Int)) :: m1.Lens } = .error e) :
    marshalFields (f :: rest) (v :: vals) parent m = .error e := by
  rw [marshalFields]
  simp only [hp, hf, Option.getD_some, hr]

theorem marshalFields_cons_ok (f : Field Kind) (rest : Shape) (v : Value)
    (vals : List Value) (parent : List Sibling) (m : Metadata) (tags : TagMap)
    (buf : List Nat) (m1 : Metadata) (o1 : List Nat)
    (hp : parseTags f.tag = .ok tags)
    (hf : marshalField f v (some { m with Tags := tags }) parent = .ok (buf, some m1))
    (h : marshalFields (f :: rest) (v :: vals) parent m = .ok o1) :
    ∃ o2, marshalFields rest vals parent
      { m1 with Lens := (f.name, (buf.length : Int)) :: m1.Lens } = .ok o2 := by
  rw [marshalFields] at h
  simp only [hp, hf, Option.getD_some] at h
  cases hr : marshalFields rest vals parent
      { m1 with Lens := (f.name, (buf.length : Int)) :: m1.Lens } with
  | error e => rw [hr] at h; cases h
  | ok o2 => exact ⟨o2, rfl⟩

theorem marshalFields_dangling (F name tag : String) (k : Kind) (v : Value)
    (parent : List Sibling) (post : Shape) (qv : List Value) (tags : TagMap)
    (hk : k = .uint16 ∨ k = .uint32) (hF : ∀ s ∈ parent, s.name ≠ F)
    (htag : parseTags tag = .ok tags)
    (href : tags.GetString "len" = .ok F ∨ tags.GetString "offset" = .ok F) :
    ∀ (pre : Shape) (pv : List Value) (m : Metadata),
      pv.length = pre.length → (∀ g ∈ pre, g.name ≠ F) → m.Lens.lookup F = none →
      (∃ e, marshalFields (pre ++ ⟨name, tag, k⟩ :: post) (pv ++ v :: qv) parent m = .error e)
        ∧ (∀ o1, marshalFields pre pv parent m = .ok o1 → headerValue k v →
            (tags.GetString "len" = .ok F →
              marshalFields (pre ++ ⟨name, tag, k⟩ :: post) (pv ++ v :: qv) parent m
                = .error .invalidField)
            ∧ (tags.Has "len" = false →
              ∃ e, marshalFields (pre ++ ⟨name, tag, k⟩ :: post) (pv ++ v :: qv) parent m
                  = .error e
                ∧ (e = .fieldNotFound ∨ ∃ s ∈ parent, s.marshalled = .error e))) := by
  intro pre
  induction pre with
  | nil =>
    intro pv m hlen _ hlook
    cases pv with
    | cons _ _ => simp at hlen
    | nil =>
      obtain ⟨⟨e, he⟩, h2, h3⟩ := marshalField_header_dangling F name tag k v
        { m with Tags := tags } parent hk hF hlook href
      simp only [List.nil_append]
      refine ⟨⟨e, marshalFields_cons_field_error _ post v qv parent m tags e htag he⟩, ?_⟩
      intro o1 _ hv
      refine ⟨fun hg => marshalFields_cons_field_error _ post v qv parent m tags _ htag
        (h2 hv hg), fun hno => ?_⟩
      obtain ⟨e2, he2, hc⟩ := h3 hv hno
      exact ⟨e2, marshalFields_cons_field_error _ post v qv parent m tags e2 htag he2, hc⟩
  | cons g pre ih =>
    intro pv m hlen hpre hlook
    cases pv with
    | nil => simp at hlen
    | cons w pv =>
      have hlen2 : pv.length = pre.length := by simpa using hlen
      have hpre2 : ∀ g2 ∈ pre, g2.name ≠ F := fun g2 hg2 => hpre g2 (by simp [hg2])
      simp only [List.cons_append]
      cases hp : parseTags g.tag with
      | error e =>
        refine ⟨⟨e, marshalFields_cons_parse_error g _ w _ parent m e hp⟩, ?_⟩
        intro o1 ho
        rw [marshalFields_cons_parse_error g _ w _ parent m e hp] at ho
        cases ho
      | ok gtags =>
        cases hf : marshalField g w (some { m with Tags := gtags }) parent with
        | error e =>
          refine ⟨⟨e, marshalFields_cons_field_error g _ w _ parent m gtags e hp hf⟩, ?_⟩
          intro o1 ho
          rw [marshalFields_cons_field_error g _ w _ parent m gtags e hp hf] at ho
          cases ho
        | ok r =>
          obtain ⟨buf, mo⟩ := r
          obtain ⟨m1, hmo, hk1⟩ := marshalField_keeps F g w { m with Tags := gtags } parent
            buf mo hF hlook hf
          subst hmo
          have hk2 : ({ m1 with Lens := (g.name, (buf.length : Int)) :: m1.Lens }
              : Metadata).Lens.lookup F = none := by
            simp only [lookup_cons_ne F g.name _ m1.Lens (hpre g (by simp)), hk1]
          obtain ⟨⟨e, he⟩, h2⟩ := ih pv _ hlen2 hpre2 hk2
          refine ⟨⟨e, marshalFields_cons_rest_error g _ w _ parent m gtags buf m1 e hp hf he⟩,
            ?_⟩
          intro o1 ho hv
          obtain ⟨o2, hrest⟩ := marshalFields_cons_ok g pre w pv parent m gtags buf m1 o1 hp hf ho
          obtain ⟨h3, h4⟩ := h2 o2 hrest hv
          refine ⟨fun hg => marshalFields_cons_rest_error g _ w _ parent m gtags buf m1 _ hp hf
            (h3 hg), fun hno => ?_⟩
          obtain ⟨e2, he2, hc⟩ := h4 hno
          exact ⟨e2, marshalFields_cons_rest_error g _ w _ parent m gtags buf m1 e2 hp hf he2,
            hc⟩

theorem getOffsetLoop_error (fieldName : String) :
    ∀ (ps : List Sibling) (ret : Int) (m : Metadata) (e : Error),
      getOffsetLoop fieldName ps ret m = .error e →
      e = .fieldNotFound ∨ ∃ s ∈ ps, s.marshalled = .error e := by
  intro ps
  induction ps with
  | nil =>
    intro ret m e h
    simp only [getOffsetLoop, Except.error.injEq] at h
    exact Or.inl h.symm
  | cons s rest ih =>
    intro ret m e h
    rw [getOffsetLoop] at h
    split at h
    · cases h
    · split at h
      · rcases ih _ _ _ h with hc | ⟨s2, hs2, hc⟩
        · exact Or.inl hc
        · exact Or.inr ⟨s2, by simp [hs2], hc⟩
      · split at h
        · rename_i e2 hm
          simp only [Except.error.injEq] at h
          subst h
          exact Or.inr ⟨s, by simp, hm⟩
        · rcases ih _ _ _ h with hc | ⟨s2, hs2, hc⟩
          · exact Or.inl hc
          · exact Or.inr ⟨s2, by simp [hs2], hc⟩

theorem getString_error_ne_panic (t : TagMap) (key : String) (e : Error)
    (h : t.GetString key = .error e) : e ≠ .goPanic := by
  unfold TagMap.GetString at h
  split at h
  · simp only [Except.error.injEq] at h
    subst h
    decide
  · split at h
    · cases h
    · simp only [Except.error.injEq] at h
      subst h
      decide

/-- An error of the resolution of a header is the error of a directive map, the error of
`getFieldLengthByName` on the name that `len` gives, the error of
`getOffsetByFieldName` for a name that no field has, or the error of `Marshal` on a field
of the parent. -/
theorem resolveHeader_error (bits data : Nat) (m : Metadata) (parent : List Sibling)
    (e : Error) (h : resolveHeader bits data m parent = .error e) :
    e ≠ .goPanic
      ∨ (∃ G, m.Tags.GetString "len" = .ok G ∧ getFieldLengthByName G m parent = .error e)
      ∨ (∃ s ∈ parent, s.marshalled = .error e) := by
  unfold resolveHeader at h
  simp only [] at h
  split at h
  · rename_i e1 hr
    simp only [Except.error.injEq] at h
    subst h
    split at hr
    · split at hr
      · rename_i e2 hg
        simp only [Except.error.injEq] at hr
        subst hr
        exact Or.inl (getString_error_ne_panic _ _ _ hg)
      · rename_i G hg
        split at hr
        · rename_i e3 hl
          simp only [Except.error.injEq] at hr
          subst hr
          exact Or.inr (Or.inl ⟨G, hg, hl⟩)
        · cases hr
    · cases hr
  · rename_i d ma hr
    split at h
    · split at h
      · rename_i e2 hg
        simp only [Except.error.injEq] at h
        subst h
        exact Or.inl (getString_error_ne_panic _ _ _ hg)
      · rename_i G hg
        split at h
        · rename_i e3 hl
          simp only [Except.error.injEq] at h
          subst h
          rcases getOffsetLoop_error G parent 0 ma e3 (by simpa [getOffsetByFieldName] using hl)
            with hc | hc
          · subst hc
            exact Or.inl (by decide)
          · exact Or.inr (Or.inr hc)
        · cases h
    · cases h

theorem marshalField_header_error (name tag : String) (k : Kind) (v : Value) (m : Metadata)
    (parent : List Sibling) (e : Error) (hk : k = .uint16 ∨ k = .uint32)
    (h : marshalField ⟨name, tag, k⟩ v (some m) parent = .error e) :
    e = .invalidType ∨ ∃ bits n, resolveHeader bits n m parent = .error e := by
  by_cases hv : headerValue k v
  · rcases hv with ⟨rfl, n, rfl⟩ | ⟨rfl, n, rfl⟩
    · rw [(marshalField_header name tag _ _ m parent (Or.inl rfl)).1 n rfl rfl] at h
      simp only [marshalUint16] at h
      split at h
      · rename_i e2 hr
        simp only [Except.error.injEq] at h
        subst h
        exact Or.inr ⟨16, n, hr⟩
      · cases h
    · rw [(marshalField_header name tag _ _ m parent (Or.inr rfl)).2.1 n rfl rfl] at h
      simp only [marshalUint32] at h
      split at h
      · rename_i e2 hr
        simp only [Except.error.injEq] at h
        subst h
        exact Or.inr ⟨32, n, hr⟩
      · cases h
  · rw [(marshalField_header name tag k v m parent hk).2.2 hv] at h
    simp only [Except.error.injEq] at h
    exact Or.inl h.symm

/-- The error of a structure with a header that refers to a name `F` that no field has:
the error of the fields before the header, or the error of the header, raised with no
length recorded for `F`. -/
theorem marshalFields_dangling_error (F name tag : String) (k : Kind) (v : Value)
    (parent : List Sibling) (post : Shape) (qv : List Value) (tags : TagMap)
    (hk : k = .uint16 ∨ k = .uint32) (hF : ∀ s ∈ parent, s.name ≠ F)
    (htag : parseTags tag = .ok tags)
    (href : tags.GetString "len" = .ok F ∨ tags.GetString "offset" = .ok F) :
    ∀ (pre : Shape) (pv : List Value) (m : Metadata) (e : Error),
      pv.length = pre.length → (∀ g ∈ pre, g.name ≠ F) → m.Lens.lookup F = none →
      marshalFields (pre ++ ⟨name, tag, k⟩ :: post) (pv ++ v :: qv) parent m = .error e →
      marshalFields pre pv parent m = .error e
        ∨ e = .invalidType
        ∨ ∃ (m1 : Metadata) (bits n : Nat), m1.Lens.lookup F = none ∧ m1.Tags = tags
            ∧ resolveHeader bits n m1 parent = .error e := by
  intro pre
  induction pre with
  | nil =>
    intro pv m e hlen _ hlook h
    cases pv with
    | cons _ _ => simp at hlen
    | nil =>
      simp only [List.nil_append] at h
      rw [marshalFields] at h
      simp only [htag] at h
      split at h
      · rename_i e2 hf
        simp only [Except.error.injEq] at h
        subst h
        rcases marshalField_header_error name tag k v _ parent e2 hk hf with hc | ⟨bits, n, hr⟩
        · exact Or.inr (Or.inl hc)
        · exact Or.inr (Or.inr ⟨{ m with Tags := tags }, bits, n, hlook, rfl, hr⟩)
      · rename_i buf m1 hf
        exfalso
        obtain ⟨⟨e3, he3⟩, _, _⟩ := marshalField_header_dangling F name tag k v
          { m with Tags := tags } parent hk hF hlook href
        rw [he3] at hf
        cases hf
  | cons g pre ih =>
    intro pv m e hlen hpre hlook h
    cases pv with
    | nil => simp at hlen
    | cons w pv =>
      have hlen2 : pv.length = pre.length := by simpa using hlen
      have hpre2 : ∀ g2 ∈ pre, g2.name ≠ F := fun g2 hg2 => hpre g2 (by simp [hg2])
      simp only [List.cons_append] at h
      cases hp : parseTags g.tag with
      | error e1 =>
        rw [marshalFields_cons_parse_error g _ w _ parent m e1 hp] at h
        rw [marshalFields_cons_parse_error g _ w _ parent m e1 hp]
        exact Or.inl h
      | ok gtags =>
        cases hf : marshalField g w (some { m with Tags := gtags }) parent with
        | error e1 =>
          rw [marshalFields_cons_field_error g _ w _ parent m gtags e1 hp hf] at h
          rw [marshalFields_cons_field_error g _ w _ parent m gtags e1 hp hf]
          exact Or.inl h
        | ok r =>
          obtain ⟨buf, mo⟩ := r
          obtain ⟨m1, hmo, hk1⟩ := marshalField_keeps F g w { m with Tags := gtags } parent
            buf mo hF hlook hf
          subst hmo
          have hk2 : ({ m1 with Lens := (g.name, (buf.length : Int)) :: m1.Lens }
              : Metadata).Lens.lookup F = none := by
            simp only [lookup_cons_ne F g.name _ m1.Lens (hpre g (by simp)), hk1]
          have hrest : marshalFields (pre ++ ⟨name, tag, k⟩ :: post) (pv ++ v :: qv) parent
              { m1 with Lens := (g.name, (buf.length : Int)) :: m1.Lens } = .error e := by
            rw [marshalFields] at h
            simp only [hp, hf, Option.getD_some] at h
            split at h
            · rename_i e2 hr
              simp only [Except.error.injEq] at h
              subst h
              exact hr
            · cases h
          rcases ih pv _ e hlen2 hpre2 hk2 hrest with hc | hc
          · exact Or.inl
              (marshalFields_cons_rest_error g _ w _ parent m gtags buf m1 e hp hf hc)
          · exact Or.inr hc

theorem ne_of_namedInFields (F : String) :
    ∀ (fs : Shape), namedInFields F fs = false → ∀ f ∈ fs, f.name ≠ F := by
  intro fs
  induction fs with
  | nil => intro _ f hf; simp at hf
  | cons g rest ih =>
    intro h f hf
    obtain ⟨gname, gtag, gkind⟩ := g
    simp only [namedInFields, namedInField, Bool.or_eq_false_iff, decide_eq_false_iff_not]
      at h
    rcases List.mem_cons.mp hf with rfl | hf2
    · exact h.1.1
    · exact ih h.2 f hf2

/-- In a structure where a `uint16` or `uint32` field carries `len:F` or `offset:F`
(its directive map gives `F` for the key) and `F` is not the name of a field of the
structure, `Marshal` never succeeds, and it returns an error unless it panics: the result
is an `error` value when the fields before the header are encoded without panic, `Marshal` panics on
no field of the structure, and the length of a field that `len` names beside `offset:F`
is measured without panic.  When the fields before the header are encoded and the header
holds a value of its type, the error for `len:F` is the one of `getFieldLengthByName`.
The fields of the structure are those it declares and, for `len:F`, where `FieldByName`
also finds promoted fields, those of the structures it holds: the embedding does not tell
an embedded structure from a named field, so `F` is asked to lie in no field at any
depth. -/
theorem dangling_reference_encode (pre post : Shape) (pv qv : List Value)
    (name tag : String) (k : Kind) (v : Value) (tags : TagMap) (F : String)
    (hlen : pv.length = pre.length)
    (hk : k = .uint16 ∨ k = .uint32)
    (htag : parseTags tag = .ok tags)
    (href : tags.GetString "len" = .ok F ∨ tags.GetString "offset" = .ok F)
    (hF : ∀ f ∈ pre ++ ⟨name, tag, k⟩ :: post, f.name ≠ F)
    (hprom : tags.GetString "len" = .ok F →
      namedInFields F (pre ++ ⟨name, tag, k⟩ :: post) = false) :
    ¬ succeeds (Marshal (.struct (pre ++ ⟨name, tag, k⟩ :: post)) (.struct (pv ++ v :: qv)))
      ∧ (marshalFields pre pv
            (siblings (pre ++ ⟨name, tag, k⟩ :: post) (pv ++ v :: qv)) marshalMetadata
              ≠ .error .goPanic →
          (∀ s ∈ siblings (pre ++ ⟨name, tag, k⟩ :: post) (pv ++ v :: qv),
            s.marshalled ≠ .error .goPanic) →
          (∀ G m, tags.GetString "len" = .ok G → G ≠ F →
            getFieldLengthByName G m
              (siblings (pre ++ ⟨name, tag, k⟩ :: post) (pv ++ v :: qv))
                ≠ .error .goPanic) →
          returnsError
            (Marshal (.struct (pre ++ ⟨name, tag, k⟩ :: post)) (.struct (pv ++ v :: qv))))
      ∧ (∀ o1, marshalFields pre pv
            (siblings (pre ++ ⟨name, tag, k⟩ :: post) (pv ++ v :: qv)) marshalMetadata = .ok o1 →
          headerValue k v → tags.GetString "len" = .ok F →
          Marshal (.struct (pre ++ ⟨name, tag, k⟩ :: post)) (.struct (pv ++ v :: qv))
            = .error .invalidField) := by
  have hsib : ∀ s ∈ siblings (pre ++ ⟨name, tag, k⟩ :: post) (pv ++ v :: qv),
      s.name ≠ F := by
    intro s hs
    obtain ⟨g, w, hz, hn, _⟩ := mem_siblings _ _ s hs
    rw [hn]
    exact hF g (List.of_mem_zip hz).1
  obtain ⟨⟨e, he⟩, h2⟩ := marshalFields_dangling F name tag k v _ post qv tags hk hsib htag
    href pre pv marshalMetadata hlen (fun g hg => hF g (by simp [hg])) rfl
  rw [Marshal_struct]
  refine ⟨?_, ?_, ?_⟩
  · rintro ⟨a, ha⟩
    rw [he] at ha
    cases ha
  · intro hnp hpanic hmeasure
    refine ⟨e, he, ?_⟩
    rcases marshalFields_dangling_error F name tag k v _ post qv tags hk hsib htag href
      pre pv marshalMetadata e hlen (fun g hg => hF g (by simp [hg])) rfl he
      with hc | hc | ⟨m1, bits, n, hlook, ht, hr⟩
    · intro heq
      subst heq
      exact hnp hc
    · subst hc
      decide
    · rcases resolveHeader_error bits n m1 _ e hr with hc | ⟨G, hg, hl⟩ | ⟨s, hs, hm⟩
      · exact hc
      · rw [ht] at hg
        by_cases hGF : G = F
        · subst hGF
          rw [getFieldLengthByName_dangling G m1 _ hsib hlook] at hl
          simp only [Except.error.injEq] at hl
          subst hl
          decide
        · intro heq
          subst heq
          exact hmeasure G m1 hg hGF hl
      · intro heq
        subst heq
        exact hpanic s hs hm
  · intro o1 ho hv hg
    exact (h2 o1 ho hv).1 hg

theorem dangling_reference_encode_witness :
    ¬ succeeds (Marshal (.struct [⟨"L", "len:Nope", .uint16⟩, ⟨"D", "", .slice .uint8⟩])
        (.struct [.u16 0, .bytes [1]]))
      ∧ Marshal (.struct [⟨"L", "len:Nope", .uint16⟩, ⟨"D", "", .slice .uint8⟩])
          (.struct [.u16 0, .bytes [1]]) = .error .invalidField
      ∧ returnsError (Marshal
          (.struct [⟨"D", "", .slice .uint8⟩, ⟨"O", "offset:Nope", .uint32⟩])
          (.struct [.bytes [1], .u32 0])) :=
  have h1 := dangling_reference_encode [] [⟨"D", "", .slice .uint8⟩] [] [.bytes [1]]
    "L" "len:Nope" .uint16 (.u16 0) ⟨[("len", .str "Nope")]⟩ "Nope" rfl (Or.inl rfl)
    (by decide) (Or.inl (by decide)) (by simp) (fun _ => by
      simp [namedInFields, namedInField, namedInKind])
  have h2 := dangling_reference_encode [⟨"D", "", .slice .uint8⟩] [] [.bytes [1]] []
    "O" "offset:Nope" .uint32 (.u32 0) ⟨[("offset", .str "Nope")]⟩ "Nope" rfl (Or.inr rfl)
    (by decide) (Or.inr (by decide)) (by simp) (fun h => by
      simp [TagMap.GetString, TagMap.Has, TagMap.Get] at h)
  ⟨h1.1, h1.2.2 [] rfl (Or.inl ⟨rfl, 0, rfl⟩) (by decide),
    h2.2.1 (by simp [marshalFields, parseTags_empty, marshalField, marshalKind])
      (by
        intro s hs
        simp only [List.cons_append, List.nil_append, siblings, List.mem_cons,
          List.mem_singleton, List.not_mem_nil, or_false] at hs
        rcases hs with rfl | rfl <;> simp [marshalField, marshalKind, marshalUint32])
      (by
        intro G m hG
        simp [TagMap.GetString, TagMap.Has, TagMap.Get] at hG)⟩

/-- C21 at a failing input: in `{O uint32 offset:Nope; B *[]byte}` no field is named
`Nope`.  For the record `{O: 0, B: &[]byte{1}}`, `getOffsetByFieldName` walks all the
fields without meeting `Nope` and calls `Marshal` on each; on `B` the type assertion
`v.([]uint8)` of `marshalSlice` meets the pointer and panics, so `Marshal` of the record
returns no error.  With `B []byte` in place of the pointer the walk ends and the error
`cannot find field name within struct` is returned. -/
theorem dangling_reference_panics :
    Marshal (.ptr (.slice .uint8)) (.ptr (some (.bytes [1]))) = .error .goPanic
    ∧ Marshal (.struct [⟨"O", "offset:Nope", .uint32⟩, ⟨"B", "", .ptr (.slice .uint8)⟩])
        (.struct [.u32 0, .ptr (some (.bytes [1]))]) = .error .goPanic
    ∧ ¬ returnsError
        (Marshal (.struct [⟨"O", "offset:Nope", .uint32⟩, ⟨"B", "", .ptr (.slice .uint8)⟩])
          (.struct [.u32 0, .ptr (some (.bytes [1]))]))
    ∧ Marshal (.struct [⟨"O", "offset:Nope", .uint32⟩, ⟨"B", "", .slice .uint8⟩])
        (.struct [.u32 0, .bytes [1]]) = .error .fieldNotFound := by
  have h2 : Marshal
      (.struct [⟨"O", "offset:Nope", .uint32⟩, ⟨"B", "", .ptr (.slice .uint8)⟩])
      (.struct [.u32 0, .ptr (some (.bytes [1]))]) = .error .goPanic := rfl
  refine ⟨rfl, h2, ?_, rfl⟩
  rintro ⟨e, he, hne⟩
  rw [h2] at he
  cases he
  exact hne rfl

/-! ## The value of a length header -/

theorem getFieldLengthByName_value (ref : String) (m : Metadata) (parent : List Sibling)
    (s0 : Sibling) (hlook : m.Lens.lookup ref = none)
    (hfind : parent.find? (fun s => s.name = ref) = some s0) (hok : SiblingOK s0)
    (hcf : ContextFree s0.kind)
    (l : Int) (m1 : Metadata) (h : getFieldLengthByName ref m parent = .ok (l, m1)) :
    l = (s0.wireLength : Int) := by
  rcases getFieldLengthByName_found ref m parent s0 hlook hfind hok l m1 h with h1 | h1
  · unfold getFieldLengthByName at h
    simp only [hlook, hfind] at h
    obtain ⟨name, kind, value, marshalled⟩ := s0
    obtain ⟨b, hb, hmf⟩ := hok
    simp only at hb hmf h hcf
    subst hb
    have hw : Sibling.wireLength ⟨name, kind, value, .ok b⟩ = b.length := rfl
    rw [hw]
    have hne : ∀ (ret : Int),
        ({ m with Lens := (ref, ret) :: m.Lens } : Metadata) ≠ m := by
      intro ret heq
      have : ((ref, ret) :: m.Lens).lookup ref = m.Lens.lookup ref := by
        have := congrArg (fun x => x.Lens.lookup ref) heq
        simpa using this
      rw [hlook] at this
      simp [List.lookup] at this
    cases kind with
    | ptr e =>
      cases value with
      | ptr t =>
        cases t with
        | none => cases e <;> simp [marshalField] at hmf
        | some x =>
          cases e with
          | custom c u =>
            simp only [] at h
            cases hm : c.MarshalBinary x (some m) with
            | error e => simp [hm] at h
            | ok buf =>
              simp only [hm, Except.ok.injEq, Prod.mk.injEq] at h
              rw [hcf c u rfl x (some m)] at hm
              simp only [marshalField, hm, Except.ok.injEq, Prod.mk.injEq, and_true] at hmf
              rw [← h.1, hmf]
          | _ =>
            simp only [] at h
            generalize hr : fieldKindLength _ _ x false = r at h
            cases r with
            | error e => cases h
            | ok ret =>
              simp only [Except.ok.injEq, Prod.mk.injEq] at h
              obtain ⟨_, h2⟩ := h
              rw [h1] at h2
              exact absurd h2 (hne ret)
      | _ => cases e <;> simp [marshalField] at hmf
    | custom c u =>
      simp only [] at h
      generalize hr : fieldKindLength _ u value true = r at h
      cases r with
      | error e => cases h
      | ok ret =>
        simp only [Except.ok.injEq, Prod.mk.injEq] at h
        obtain ⟨_, h2⟩ := h
        rw [h1] at h2
        exact absurd h2 (hne ret)
    | _ =>
      simp only [] at h
      generalize hr : fieldKindLength _ _ value false = r at h
      cases r with
      | error e => cases h
      | ok ret =>
        simp only [Except.ok.injEq, Prod.mk.injEq] at h
        obtain ⟨_, h2⟩ := h
        rw [h1] at h2
        exact absurd h2 (hne ret)
  · exact h1

theorem resolveHeader_len (bits data : Nat) (m : Metadata) (parent : List Sibling)
    (F : String) (x : Nat) (m1 : Metadata) (s0 : Sibling)
    (hfind : parent.find? (fun s => s.name = F) = some s0) (hok : SiblingOK s0)
    (hcf : ContextFree s0.kind) (hl : LensSound [s0] m.Lens)
    (hget : m.Tags.GetString "len" = .ok F) (hoff : m.Tags.Has "offset" = false)
    (h : resolveHeader bits data m parent = .ok (x, m1)) :
    x = truncate bits (s0.wireLength : Int) := by
  have hname : s0.name = F := by
    have := List.find?_some hfind
    simpa using this
  obtain ⟨ma, d, hphase, _, hofs⟩ := resolveHeader_cases bits data m parent x m1 h
  have hx : x = d := by
    rcases hofs with ⟨_, _, hx⟩ | ⟨ref, l, hg, _, _⟩
    · exact hx
    · rw [has_of_getString _ _ _ hg] at hoff; cases hoff
  rcases hphase with ⟨hno, _, _⟩ | ⟨ref, l, hg, hlen, hd⟩
  · rw [has_of_getString _ _ _ hget] at hno; cases hno
  · rw [hget] at hg
    injection hg with hg
    subst hg
    rw [hx, hd]
    congr 1
    cases hlook : m.Lens.lookup F with
    | some val =>
      unfold getFieldLengthByName at hlen
      simp only [hlook, Except.ok.injEq, Prod.mk.injEq] at hlen
      rw [← hlen.1]
      exact hl F val hlook s0 (by simp) hname
    | none => exact getFieldLengthByName_value F m parent s0 hlook hfind hok hcf l ma hlen

/-- A `uint16` or `uint32` field tagged `len:F`, without `offset`, is encoded as the
little-endian bytes of the length of `Marshal` of the field `F`, whatever it stores. -/
theorem marshalField_len_header (F : String) (f : Field Kind) (v : Value)
    (m : Metadata) (parent : List Sibling) (buf : List Nat) (mo : Option Metadata) (w : Nat)
    (s0 : Sibling) (hfind : parent.find? (fun s => s.name = F) = some s0)
    (hok : SiblingOK s0) (hcf : ContextFree s0.kind) (hl : LensSound [s0] m.Lens)
    (htags : parseTags f.tag = .ok m.Tags) (hw : lenHeaderWidth F f = some w)
    (h : marshalField f v (some m) parent = .ok (buf, mo)) :
    buf = leBytes w (truncate (8 * w) (s0.wireLength : Int)) := by
  obtain ⟨name, tag, k⟩ := f
  simp only [lenHeaderWidth, htags] at hw htags
  split at hw
  · rename_i hcond
    simp only [Bool.and_eq_true, decide_eq_true_eq, Bool.not_eq_true'] at hcond
    obtain ⟨hget, hoff⟩ := hcond
    cases k with
    | uint16 =>
      simp only [Option.some.injEq] at hw
      subst hw
      cases v <;> simp [marshalField, marshalKind, marshalUint16] at h
      rename_i n
      cases hr : resolveHeader 16 n m parent with
      | error e => simp [hr] at h
      | ok r =>
        obtain ⟨d, ma⟩ := r
        simp only [hr, Except.ok.injEq, Prod.mk.injEq] at h
        rw [← h.1, resolveHeader_len 16 n m parent F d ma s0 hfind hok hcf hl hget hoff hr]
    | uint32 =>
      simp only [Option.some.injEq] at hw
      subst hw
      cases v <;> simp [marshalField, marshalKind, marshalUint32] at h
      rename_i n
      cases hr : resolveHeader 32 n m parent with
      | error e => simp [hr] at h
      | ok r =>
        obtain ⟨d, ma⟩ := r
        simp only [hr, Except.ok.injEq, Prod.mk.injEq] at h
        rw [← h.1, resolveHeader_len 32 n m parent F d ma s0 hfind hok hcf hl hget hoff hr]
    | _ => simp at hw
  · cases hw

theorem marshalFields_lens (F : String) (parent : List Sibling) (s0 : Sibling)
    (hfind : parent.find? (fun s => s.name = F) = some s0)
    (huniq : ∀ s ∈ [s0], ∀ s2 ∈ parent, s2.name = s.name → s2 = s)
    (hok : ∀ s ∈ [s0], SiblingOK s) (hcf : ContextFree s0.kind) (fs : Shape) :
    ∀ (vs : List Value) (m : Metadata) (out : List Nat),
      LensSound [s0] m.Lens →
      (∀ g w, (g, w) ∈ fs.zip vs → ∀ s ∈ [s0], s.name = g.name →
        ∀ (m2 : Metadata) buf mo, marshalField g w (some m2) parent = .ok (buf, mo) →
          (buf.length : Int) = (s.wireLength : Int)) →
      marshalFields fs vs parent m = .ok out →
      ∃ (bufs : List (List Nat)), FieldsEncoded parent fs vs bufs ∧ out = bufs.flatten
        ∧ bufs.length = fs.length
        ∧ ∀ (i : Nat) (f : Field Kind) (w : Nat), fs[i]? = some f →
            lenHeaderWidth F f = some w →
            bufs[i]? = some (leBytes w (truncate (8 * w) (s0.wireLength : Int))) := by
  induction fs with
  | nil =>
    intro vs m out _ _ h
    simp only [marshalFields, Except.ok.injEq] at h
    exact ⟨[], .nil vs, by simp [← h], rfl, by intro i f w hi; simp at hi⟩
  | cons g fs ih =>
    intro vs m out hl hstable h
    cases vs with
    | nil => simp [marshalFields] at h
    | cons w0 vs =>
      rw [marshalFields] at h
      cases hp : parseTags g.tag with
      | error e => simp [hp] at h
      | ok tags =>
        simp only [hp] at h
        cases hf : marshalField g w0 (some { m with Tags := tags }) parent with
        | error e => simp [hf] at h
        | ok r =>
          obtain ⟨buf, mo⟩ := r
          simp only [hf] at h
          obtain ⟨m1, hmo, hl1⟩ := marshalField_lensSound g w0 { m with Tags := tags } _ parent
            buf mo huniq hok hl hf
          subst hmo
          simp only [Option.getD_some] at h
          generalize hrest : marshalFields fs vs parent _ = r at h
          cases r with
          | error e => cases h
          | ok rest =>
            cases h
            have hl2 : LensSound [s0] ((g.name, (buf.length : Int)) :: m1.Lens) :=
              lensSound_cons hl1 (fun s hs hn =>
                hstable g w0 (by simp) s hs hn _ buf _ hf)
            obtain ⟨bufs, h1, h2, h3, h4⟩ := ih vs _ rest hl2
              (fun g2 w2 hz => hstable g2 w2 (by simp [hz])) hrest
            refine ⟨buf :: bufs,
              .cons g w0 fs vs buf bufs { m with Tags := tags } _ hp hf
                (fun hc => marshalField_context_free g w0 _ parent buf _ hc hf) h1,
              by simp [h2], by simp [h3], ?_⟩
            intro i f w hi hw
            cases i with
            | zero =>
              simp only [List.getElem?_cons_zero, Option.some.injEq] at hi
              subst hi
              simp only [List.getElem?_cons_zero, Option.some.injEq]
              exact marshalField_len_header F g w0 { m with Tags := tags } parent buf _
                w s0 hfind (hok s0 (by simp)) hcf hl hp hw hf
            | succ j =>
              simp only [List.getElem?_cons_succ] at hi ⊢
              exact h4 j f w hi hw

theorem fieldsEncoded_getElem (parent : List Sibling) (fs : Shape) (vs : List Value)
    (bufs : List (List Nat)) (h : FieldsEncoded parent fs vs bufs) :
    ∀ (j : Nat) (g : Field Kind), fs[j]? = some g →
      ∃ (w : Value) (buf : List Nat) (m : Metadata) (mo : Option Metadata),
        vs[j]? = some w ∧ bufs[j]? = some buf
          ∧ marshalField g w (some m) parent = .ok (buf, mo)
          ∧ (contextual g.kind = false → Marshal g.kind w = .ok buf) := by
  induction h with
  | nil vals => intro j g hj; simp at hj
  | cons f v fs vs buf bufs m mo hp hf hctx hrest ih =>
    intro j g hj
    cases j with
    | zero =>
      simp only [List.getElem?_cons_zero, Option.some.injEq] at hj
      subst hj
      exact ⟨v, buf, m, mo, by simp, by simp, hf, hctx⟩
    | succ j =>
      simp only [List.getElem?_cons_succ] at hj ⊢
      exact ih j g hj

theorem exists_sibling_of_zip (fs : Shape) :
    ∀ (vs : List Value) (g : Field Kind) (w : Value), (g, w) ∈ fs.zip vs →
      ∃ s ∈ siblings fs vs, s.name = g.name := by
  induction fs with
  | nil => intro vs g w hz; simp at hz
  | cons f fs ih =>
    intro vs g w hz
    cases vs with
    | nil => simp at hz
    | cons v vs =>
      simp only [List.zip_cons_cons, List.mem_cons, Prod.mk.injEq] at hz
      rcases hz with ⟨rfl, rfl⟩ | hz
      · rw [siblings]
        exact ⟨_, List.mem_cons_self _ _, rfl⟩
      · obtain ⟨s, hs, hn⟩ := ih vs g w hz
        rw [siblings]
        exact ⟨s, List.mem_cons_of_mem _ hs, hn⟩

/-- C30 as amended: in every structure with distinct field names that `Marshal` encodes,
a `uint16` or `uint32` field tagged `len:F` (and not `offset`) is emitted as the
little-endian bytes of the length of the encoding of the field `F`, reduced to the width of
the header, whatever value it stores, provided that the codec of `F`, when `F` is a pointer
to a codec type, returns the same bytes in every context; a `uint8` or `uint64` field is
emitted with the value it stores, whatever its directives. -/
theorem encoded_len_value (fields : Shape) (vals : List Value) (out : List Nat)
    (fieldName : String)
    (hM : Marshal (.struct fields) (.struct vals) = .ok out)
    (hnd : (fields.map (fun f => f.name)).Nodup)
    (hcodec : ∀ f ∈ fields, f.name = fieldName → ContextFree f.kind) :
    ∃ (bufs : List (List Nat)), FieldsEncoded (siblings fields vals) fields vals bufs
      ∧ out = bufs.flatten ∧ bufs.length = fields.length
      ∧ (∀ (i j : Nat) (f g : Field Kind) (w : Nat), fields[i]? = some f →
          lenHeaderWidth fieldName f = some w → fields[j]? = some g → g.name = fieldName →
          ∃ (b : List Nat), bufs[j]? = some b
            ∧ bufs[i]? = some (leBytes w (truncate (8 * w) (b.length : Int))))
      ∧ (∀ (i : Nat) (f : Field Kind) (n : Nat), fields[i]? = some f →
          (f.kind = .uint8 → vals[i]? = some (.u8 n) → bufs[i]? = some (leBytes 1 n))
          ∧ (f.kind = .uint64 → vals[i]? = some (.u64 n) → bufs[i]? = some (leBytes 8 n))) := by
  rw [Marshal_struct] at hM
  have hints : ∀ (bufs : List (List Nat)),
      FieldsEncoded (siblings fields vals) fields vals bufs →
      ∀ (i : Nat) (f : Field Kind) (n : Nat), fields[i]? = some f →
        (f.kind = .uint8 → vals[i]? = some (.u8 n) → bufs[i]? = some (leBytes 1 n))
        ∧ (f.kind = .uint64 → vals[i]? = some (.u64 n) → bufs[i]? = some (leBytes 8 n)) := by
    intro bufs henc i f n hi
    obtain ⟨w, buf, m, mo, hv, hb, _, hctx⟩ := fieldsEncoded_getElem _ fields vals bufs henc i f hi
    constructor
    · intro hk hn
      rw [hn] at hv
      injection hv with hv
      subst hv
      have := hctx (by rw [hk]; rfl)
      rw [hk] at this
      simp only [Marshal, marshal, marshalField, marshalKind, marshalUint8, Except.ok.injEq]
        at this
      rw [hb, this]
    · intro hk hn
      rw [hn] at hv
      injection hv with hv
      subst hv
      have := hctx (by rw [hk]; rfl)
      rw [hk] at this
      simp only [Marshal, marshal, marshalField, marshalKind, marshalUint64, Except.ok.injEq]
        at this
      rw [hb, this]
  obtain ⟨bufs0, henc0, hflat0, hlen0⟩ := marshalFields_encoded _ fields vals _ out hM
  by_cases hex : ∃ (j : Nat) (g : Field Kind), fields[j]? = some g ∧ g.name = fieldName
  · obtain ⟨j0, g0, hj0, hg0⟩ := hex
    obtain ⟨w0, buf0, m0, mo0, hv0, _, hf0, _⟩ :=
      fieldsEncoded_getElem _ fields vals bufs0 henc0 j0 g0 hj0
    have hz0 : (g0, w0) ∈ fields.zip vals := by
      apply List.mem_iff_getElem?.mpr
      exact ⟨j0, by rw [List.getElem?_zip_eq_some]; exact ⟨hj0, hv0⟩⟩
    have hcf0 : ContextFree g0.kind := hcodec g0 (List.getElem?_mem hj0) hg0
    obtain ⟨b0, hb0, _⟩ := marshalField_length_stable g0 w0 m0 _ buf0 mo0 hcf0 hf0
    have hsome : ∃ s0, (siblings fields vals).find? (fun s => s.name = fieldName) = some s0 := by
      cases hfd : (siblings fields vals).find? (fun s => s.name = fieldName) with
      | some s0 => exact ⟨s0, rfl⟩
      | none =>
        exfalso
        rw [List.find?_eq_none] at hfd
        obtain ⟨s, hs, hn⟩ := exists_sibling_of_zip fields vals g0 w0 hz0
        exact hfd s hs (by simp [hn, hg0])
    obtain ⟨s0, hfind⟩ := hsome
    have hs0mem : s0 ∈ siblings fields vals := List.mem_of_find?_eq_some hfind
    have hs0name : s0.name = fieldName := by
      have := List.find?_some hfind
      simpa using this
    obtain ⟨g1, w1, hz1, hn1, hk1, hv1, hm1⟩ := mem_siblings fields vals s0 hs0mem
    obtain ⟨rfl, rfl⟩ := zip_unique_name fields vals hnd g0 w0 g1 w1 hz0 hz1
      (by rw [hg0, ← hn1, hs0name])
    have hmar : s0.marshalled = .ok b0 := by
      rw [hm1, Marshal_of_marshalField_none g0 w0 b0 none hb0]
    have hcf : ContextFree s0.kind := by rw [hk1]; exact hcf0
    have hok : ∀ s ∈ [s0], SiblingOK s := by
      intro s hs
      simp only [List.mem_singleton] at hs
      subst hs
      refine ⟨b0, hmar, ?_⟩
      rw [hk1, hv1, marshalField_name_irrelevant s.name "" g0.name g0.tag g0.kind w0 none []]
      exact hb0
    have huniq : ∀ s ∈ [s0], ∀ s2 ∈ siblings fields vals, s2.name = s.name → s2 = s := by
      intro s hs s2 hs2 hn
      simp only [List.mem_singleton] at hs
      subst hs
      exact List.inj_on_of_nodup_map (siblings_names_nodup fields vals hnd) hs2 hs0mem hn
    have hstable : ∀ g w, (g, w) ∈ fields.zip vals → ∀ s ∈ [s0], s.name = g.name →
        ∀ (m2 : Metadata) buf mo, marshalField g w (some m2) (siblings fields vals)
          = .ok (buf, mo) → (buf.length : Int) = (s.wireLength : Int) := by
      intro g w hz s hs hn m2 buf mo hf
      simp only [List.mem_singleton] at hs
      subst hs
      obtain ⟨rfl, rfl⟩ := zip_unique_name fields vals hnd g w g0 w0 hz hz0 (by rw [← hn, hn1])
      obtain ⟨b2, hb2, hlen⟩ := marshalField_length_stable g w m2 _ buf mo hcf0 hf
      rw [hb0] at hb2
      simp only [Except.ok.injEq, Prod.mk.injEq, and_true] at hb2
      subst hb2
      rw [wireLength_of_ok s b0 hmar, hlen]
    obtain ⟨bufs, h1, h2, h3, h4⟩ := marshalFields_lens fieldName (siblings fields vals) s0
      hfind huniq hok hcf fields vals marshalMetadata out
      (by intro name l hlook; simp [marshalMetadata] at hlook) hstable hM
    refine ⟨bufs, h1, h2, h3, ?_, hints bufs h1⟩
    intro i j f g w hi hw hj hg
    obtain ⟨wj, bj, mj, moj, hvj, hbj, hfj, _⟩ :=
      fieldsEncoded_getElem _ fields vals bufs h1 j g hj
    have hzj : (g, wj) ∈ fields.zip vals := by
      apply List.mem_iff_getElem?.mpr
      exact ⟨j, by rw [List.getElem?_zip_eq_some]; exact ⟨hj, hvj⟩⟩
    have hlenj := hstable g wj hzj s0 (by simp) (by rw [hs0name, hg]) mj bj moj hfj
    refine ⟨bj, hbj, ?_⟩
    rw [h4 i f w hi hw, hlenj]
  · refine ⟨bufs0, henc0, hflat0, hlen0, ?_, hints bufs0 henc0⟩
    intro i j f g w _ _ hj hg
    exact absurd ⟨j, g, hj, hg⟩ hex

theorem encoded_len_value_witness :
    ∃ (bufs : List (List Nat)),
      FieldsEncoded (siblings TestStructWithLenField [.u16 9, .bytes [1, 2, 3, 4]])
        TestStructWithLenField [.u16 9, .bytes [1, 2, 3, 4]] bufs
      ∧ [4, 0, 1, 2, 3, 4] = bufs.flatten ∧ bufs.length = TestStructWithLenField.length
      ∧ (∀ (i j : Nat) (f g : Field Kind) (w : Nat), TestStructWithLenField[i]? = some f →
          lenHeaderWidth "Data" f = some w → TestStructWithLenField[j]? = some g →
          g.name = "Data" →
          ∃ (b : List Nat), bufs[j]? = some b
            ∧ bufs[i]? = some (leBytes w (truncate (8 * w) (b.length : Int))))
      ∧ (∀ (i : Nat) (f : Field Kind) (n : Nat), TestStructWithLenField[i]? = some f →
          (f.kind = .uint8 → [Value.u16 9, .bytes [1, 2, 3, 4]][i]? = some (.u8 n) →
            bufs[i]? = some (leBytes 1 n))
          ∧ (f.kind = .uint64 → [Value.u16 9, .bytes [1, 2, 3, 4]][i]? = some (.u64 n) →
            bufs[i]? = some (leBytes 8 n))) :=
  encoded_len_value TestStructWithLenField [.u16 9, .bytes [1, 2, 3, 4]] [4, 0, 1, 2, 3, 4]
    "Data" rfl (by decide) (by
      intro f hf _ c u hk
      simp only [TestStructWithLenField, List.mem_cons, List.mem_singleton,
        List.not_mem_nil, or_false] at hf
      rcases hf with rfl | rfl <;> cases hk)

/-- C30 fails as stated: a `uint8` and a `uint64` field tagged `len:D` are emitted with
the value they store, 7, and not with the length 2 of `D`. -/
theorem encoded_len_counterexample :
    Marshal (.struct [⟨"L", "len:D", .uint8⟩, ⟨"D", "", .slice .uint8⟩])
        (.struct [.u8 7, .bytes [1, 2]]) = .ok [7, 1, 2]
      ∧ Marshal (.struct [⟨"L", "len:D", .uint64⟩, ⟨"D", "", .slice .uint8⟩])
        (.struct [.u64 7, .bytes [1, 2]]) = .ok [7, 0, 0, 0, 0, 0, 0, 0, 1, 2] := by
  constructor <;> rfl

/-! ## The cursor after a list of `AvPair` -/

/-- A field of type `AvPairSlice` whose pairs lie at the end of the parent buffer, at the
recorded offset and with the recorded length: the pairs are decoded and the cursor of the
structure advances by the recorded length, the count that `UnmarshalBinary` returns. -/
theorem avPairSlice_field (buf : List Nat) (m : Metadata) (name tag : String)
    (ps : List AvPairRecord) (pre : List Nat)
    (hall : ∀ p ∈ ps, p.AvID ≤ 65535 ∧ p.AvLen = p.Value.length ∧ p.Value.length ≤ 65535)
    (h0 : 0 ≤ m.CurrOffset) (h1 : m.CurrOffset ≤ (buf.length : Int))
    (hpb : m.ParentBuf = pre ++ (ps.map
      (fun p => leBytes 2 p.AvID ++ leBytes 2 p.Value.length ++ p.Value)).flatten)
    (hlen : m.Lens.lookup m.CurrField = some (((ps.map
      (fun p => leBytes 2 p.AvID ++ leBytes 2 p.Value.length ++ p.Value)).flatten.length
        : Nat) : Int))
    (hoff : m.Offsets.lookup m.CurrField = some (pre.length : Int)) :
    unmarshalStructField buf m ⟨name, tag, AvPairSliceKind⟩
      = .ok (.list (ps.map AvPairRecord.toValue),
          { m with CurrOffset := m.CurrOffset + (((ps.map
            (fun p => leBytes 2 p.AvID ++ leBytes 2 p.Value.length ++ p.Value)).flatten.length
              : Nat) : Int) }) := by
  have hloop := avPairLoop_wire ps pre [] hall
  rw [← hpb] at hloop
  simp only [unmarshalStructField, AvPairSliceKind, sliceFrom_ok buf _ h0 h1,
    unmarshalBinaryMarshallable, AvPairSliceCodec, avPairSliceUnmarshal, hlen, hoff, hloop,
    List.nil_append, Option.map_some', Option.getD_some, add_sub_cancel_left]

/-- C31 at a failing input: the decode of an `AvPairSlice` that is read at the recorded
offset reports the count of bytes it decoded, not 0, and the cursor of the structure
moves by that count.  In `{Len; Offset; Data AvPairSlice}` on the 18 bytes of the test the
cursor is 6 before `Data` and 18 after it.  In `{Len; Offset; Data AvPairSlice; Tail uint8}`
on `{4,0, 7,0,0,0, 9, 1,0,0,0}` the pair lies at offset 7 and `Tail` is read at 10 (the
byte `0`), not at 6 (the byte `9`), where it is read when `Data` is a `[]byte`. -/
theorem avpair_slice_cursor_moves :
    unmarshalWithCursor ([12, 0, 6, 0, 0, 0] ++ [1, 0, 4, 0, 1, 2, 3, 4, 0, 0, 0, 0])
        (TestAvPairSliceStruct.take 2) = .ok ([.u16 12, .u32 6], 6)
      ∧ unmarshalWithCursor ([12, 0, 6, 0, 0, 0] ++ [1, 0, 4, 0, 1, 2, 3, 4, 0, 0, 0, 0])
          TestAvPairSliceStruct
        = .ok ([.u16 12, .u32 6,
            .list [.struct [.u16 1, .u16 4, .bytes [1, 2, 3, 4]],
                   .struct [.u16 0, .u16 0, .bytes []]]], 6 + 12)
      ∧ Unmarshal ([4, 0, 7, 0, 0, 0, 9] ++ [1, 0, 0, 0]) (.struct AvPairSliceThenTail)
        = .ok (.struct [.u16 4, .u32 7, .list [.struct [.u16 1, .u16 0, .bytes []]], .u8 0])
      ∧ Unmarshal ([4, 0, 7, 0, 0, 0, 9] ++ [1, 0, 0, 0]) (.struct OffsetLenStruct)
        = .ok (.struct [.u16 4, .u32 7, .bytes [1, 0, 0, 0], .u8 9]) := by
  have hA := avPairSlice_field ([12, 0, 6, 0, 0, 0] ++ [1, 0, 4, 0, 1, 2, 3, 4, 0, 0, 0, 0])
    { Tags := ⟨[]⟩, Lens := [("Data", 12)], Offsets := [("Data", 6)],
      ParentBuf := [12, 0, 6, 0, 0, 0] ++ [1, 0, 4, 0, 1, 2, 3, 4, 0, 0, 0, 0],
      CurrOffset := 6, CurrField := "Data" } "Data" ""
    [⟨1, 4, [1, 2, 3, 4]⟩, ⟨0, 0, []⟩] [12, 0, 6, 0, 0, 0] (by decide) (by decide) (by decide)
    rfl rfl rfl
  have hB := avPairSlice_field ([4, 0, 7, 0, 0, 0, 9] ++ [1, 0, 0, 0])
    { Tags := ⟨[]⟩, Lens := [("Data", 4)], Offsets := [("Data", 7)],
      ParentBuf := [4, 0, 7, 0, 0, 0, 9] ++ [1, 0, 0, 0],
      CurrOffset := 6, CurrField := "Data" } "Data" ""
    [⟨1, 0, []⟩] [4, 0, 7, 0, 0, 0, 9] (by decide) (by decide) (by decide) rfl rfl rfl
  have hheadA : unmarshalFields ([12, 0, 6, 0, 0, 0] ++ [1, 0, 4, 0, 1, 2, 3, 4, 0, 0, 0, 0])
      (TestAvPairSliceStruct.take 2)
      (topMetadata ([12, 0, 6, 0, 0, 0] ++ [1, 0, 4, 0, 1, 2, 3, 4, 0, 0, 0, 0]))
        = .ok ([.u16 12, .u32 6],
            { Tags := ⟨[("offset", .str "Data")]⟩, Lens := [("Data", 12)],
              Offsets := [("Data", 6)],
              ParentBuf := [12, 0, 6, 0, 0, 0] ++ [1, 0, 4, 0, 1, 2, 3, 4, 0, 0, 0, 0],
              CurrOffset := 6, CurrField := "Offset" }) := rfl
  have hheadB : unmarshalFields ([4, 0, 7, 0, 0, 0, 9] ++ [1, 0, 0, 0])
      (TestAvPairSliceStruct.take 2) (topMetadata ([4, 0, 7, 0, 0, 0, 9] ++ [1, 0, 0, 0]))
        = .ok ([.u16 4, .u32 7],
            { Tags := ⟨[("offset", .str "Data")]⟩, Lens := [("Data", 4)],
              Offsets := [("Data", 7)],
              ParentBuf := [4, 0, 7, 0, 0, 0, 9] ++ [1, 0, 0, 0],
              CurrOffset := 6, CurrField := "Offset" }) := rfl
  refine ⟨?_, ?_, ?_, ?_⟩
  · rfl
  · have hs : TestAvPairSliceStruct
        = TestAvPairSliceStruct.take 2 ++ [⟨"Data", "", AvPairSliceKind⟩] := rfl
    rw [unmarshalWithCursor, hs, unmarshalFields_append,
      hheadA]
    simp only [unmarshalFields, parseTags_empty]
    have hA2 := hA
    simp only [AvPairRecord.toValue, List.map] at hA2
    norm_num at hA2 ⊢
    rw [hA2]
  · have hs : AvPairSliceThenTail
        = TestAvPairSliceStruct.take 2
          ++ [⟨"Data", "", AvPairSliceKind⟩, ⟨"Tail", "", .uint8⟩] := rfl
    rw [Unmarshal_struct, hs, unmarshalFields_append, hheadB]
    simp only [unmarshalFields, parseTags_empty]
    have hB2 := hB
    simp only [AvPairRecord.toValue, List.map] at hB2
    norm_num at hB2 ⊢
    rw [hB2]
    simp [unmarshalStructField, unmarshalKind, sliceFrom, unmarshalUint8, binaryRead, leValue]
  · rfl

/-! ## Blocks of a nested structure -/

/-- C32 at a failing input: in `{A uint8; In {L uint16 len:D; D []byte}}` on
`{9, 1, 0, 7}` the nested structure starts at the cursor 1 and its block `D` is the byte
`0` at index 2 of the whole buffer, where the local cursor of `In` points in the parent
buffer; decoded alone from `{1, 0, 7}` the structure has `D = {7}`.  Both consume three
bytes. -/
theorem nested_block_misread :
    Unmarshal [9, 1, 0, 7] (.struct [⟨"A", "", .uint8⟩, ⟨"In", "", .struct LenBlockStruct⟩])
        = .ok (.struct [.u8 9, .struct [.u16 1, .bytes [0]]])
      ∧ Unmarshal ([9, 1, 0, 7].drop 1) (.struct LenBlockStruct)
        = .ok (.struct [.u16 1, .bytes [7]])
      ∧ unmarshalWithCursor [9, 1, 0, 7]
          [⟨"A", "", .uint8⟩, ⟨"In", "", .struct LenBlockStruct⟩]
        = .ok ([.u8 9, .struct [.u16 1, .bytes [0]]], 1 + 3)
      ∧ unmarshalWithCursor ([9, 1, 0, 7].drop 1) LenBlockStruct
        = .ok ([.u16 1, .bytes [7]], 3) := by
  refine ⟨?_, ?_, ?_, ?_⟩ <;> rfl

/-! ## Codecs reached by the encoder -/

/-- C33 as amended: the encoder reaches a codec through a field that is a
non-nil pointer to the type, and there it delegates to the codec and returns its output
when the codec succeeds.  A record `{Len uint16 len:Data; Offset uint32 offset:Data;
Data *AvPairSlice}` whose list encodes to `n <= 65535` bytes `e` is encoded as
`LE16(n) ++ LE32(6) ++ e`, whatever `Len` and `Offset` store.  With `Data AvPairSlice`
held by value the codec is not reached and no record is encoded: the header `Len` fails
with the error of an unknown slice type. -/
theorem codec_on_pointer_fields (ps : List AvPairRecord) (x o : Nat)
    (h : ∀ p ∈ ps, p.Value.length ≤ 65535)
    (hn : (ps.map (fun p => leBytes 2 p.AvID ++ leBytes 2 p.Value.length ++ p.Value)).flatten.length
      ≤ 65535) :
    (∀ (name tag : String) (c : Codec) (u : Kind) (v : Value) (meta : Option Metadata)
        (parent : List Sibling) (buf : List Nat), c.MarshalBinary v meta = .ok buf →
        marshalField ⟨name, tag, .ptr (.custom c u)⟩ (.ptr (some v)) meta parent
          = .ok (buf, meta))
      ∧ Marshal (.struct AvPairSlicePtrStruct)
          (.struct [.u16 x, .u32 o, .ptr (some (.list (ps.map AvPairRecord.toValue)))])
        = .ok (leBytes 2 (ps.map (fun p =>
              leBytes 2 p.AvID ++ leBytes 2 p.Value.length ++ p.Value)).flatten.length
            ++ leBytes 4 6
            ++ (ps.map (fun p =>
              leBytes 2 p.AvID ++ leBytes 2 p.Value.length ++ p.Value)).flatten)
      ∧ Marshal (.struct TestAvPairSliceStruct)
          (.struct [.u16 x, .u32 o, .list (ps.map AvPairRecord.toValue)])
        = .error .unknownSliceType := by
  refine ⟨?_, ?_, ?_⟩
  · intro name tag c u v meta parent buf hc
    simp only [marshalField, hc]
  · have hw := avPairsMarshal_wire ps h
    generalize (ps.map (fun p =>
      leBytes 2 p.AvID ++ leBytes 2 p.Value.length ++ p.Value)).flatten = w at hw hn ⊢
    have ht : truncate 16 ((w.length : Nat) : Int) = w.length :=
      truncate_of_lt 16 _ (by omega)
    have h6 : truncate 32 6 = 6 := by decide
    rw [Marshal_struct]
    simp [AvPairSlicePtrStruct, AvPairSliceKind, AvPairSliceCodec, marshalFields, siblings,
      marshalField, marshalKind, parseTags_len_Data, parseTags_offset_Data, parseTags_empty,
      marshalMetadata, marshalUint16, marshalUint32, resolveHeader, getFieldLengthByName,
      getOffsetByFieldName, getOffsetLoop, fieldKindLength, TagMap.Has, TagMap.GetString,
      TagMap.Get, TagMap.empty, hw, ht, h6, List.lookup]
  · rw [Marshal_struct]
    simp [TestAvPairSliceStruct, AvPairSliceKind, marshalFields, siblings,
      marshalField, marshalKind, parseTags_len_Data, parseTags_offset_Data, parseTags_empty,
      marshalMetadata, marshalUint16, resolveHeader, getFieldLengthByName,
      fieldKindLength, TagMap.Has, TagMap.GetString,
      TagMap.Get, TagMap.empty, List.lookup]

theorem codec_on_pointer_fields_witness :
    (∀ (name tag : String) (c : Codec) (u : Kind) (v : Value) (meta : Option Metadata)
        (parent : List Sibling) (buf : List Nat), c.MarshalBinary v meta = .ok buf →
        marshalField ⟨name, tag, .ptr (.custom c u)⟩ (.ptr (some v)) meta parent
          = .ok (buf, meta))
      ∧ Marshal (.struct AvPairSlicePtrStruct)
          (.struct [.u16 0, .u32 0,
            .ptr (some (.list [.struct [.u16 1, .u16 4, .bytes [1, 2, 3, 4]],
              .struct [.u16 0, .u16 0, .bytes []]]))])
        = .ok ([12, 0] ++ [6, 0, 0, 0] ++ [1, 0, 4, 0, 1, 2, 3, 4, 0, 0, 0, 0])
      ∧ Marshal (.struct TestAvPairSliceStruct)
          (.struct [.u16 0, .u32 0,
            .list [.struct [.u16 1, .u16 4, .bytes [1, 2, 3, 4]],
              .struct [.u16 0, .u16 0, .bytes []]]])
        = .error .unknownSliceType :=
  codec_on_pointer_fields [⟨1, 4, [1, 2, 3, 4]⟩, ⟨0, 0, []⟩] 0 0 (by decide) (by decide)

/-- C33 fails as stated: the record that `TestUnmarshal_AvPairSlice` decodes, of the
shape `{Len uint16 len:Data; Offset uint32 offset:Data; Data AvPairSlice}`, is not
encoded as `LE16(12) ++ LE32(6) ++ e`: `Marshal` returns the error of an unknown slice
type, since the field `Data`, held by value, does not provide the codec. -/
theorem codec_on_pointer_fields_counterexample :
    Marshal (.struct TestAvPairSliceStruct)
        (.struct [.u16 12, .u32 6,
          .list [.struct [.u16 1, .u16 4, .bytes [1, 2, 3, 4]],
            .struct [.u16 0, .u16 0, .bytes []]]])
      = .error .unknownSliceType
    ∧ Marshal (.struct TestAvPairSliceStruct)
        (.struct [.u16 12, .u32 6,
          .list [.struct [.u16 1, .u16 4, .bytes [1, 2, 3, 4]],
            .struct [.u16 0, .u16 0, .bytes []]]])
      ≠ .ok ([12, 0] ++ [6, 0, 0, 0] ++ [1, 0, 4, 0, 1, 2, 3, 4, 0, 0, 0, 0]) := by
  have h : Marshal (.struct TestAvPairSliceStruct)
      (.struct [.u16 12, .u32 6,
        .list [.struct [.u16 1, .u16 4, .bytes [1, 2, 3, 4]],
          .struct [.u16 0, .u16 0, .bytes []]]])
      = .error .unknownSliceType := rfl
  refine ⟨h, ?_⟩
  rw [h]
  intro hc
  cases hc

/-! ## `Filetime` -/

/-- C34 as amended: for every `LowDateTime` and `HighDateTime` (32-bit values among them),
`Nanoseconds()` is `100 * (HighDateTime * 2^32 + LowDateTime - 116444736000000000)`
reduced to an `int64` (modulo `2^64`); it is that number itself exactly when the number
fits an `int64`, which it does for the tick counts from 24211015631452242 to
208678456368547758; the tick count 116444736000000000 gives 0. -/
theorem filetime_nanoseconds (low high : Nat) :
    FiletimeNanoseconds low high
        = wrapInt64 (100 * ((high : Int) * 2 ^ 32 + (low : Int) - 116444736000000000))
      ∧ (24211015631452242 ≤ high * 2 ^ 32 + low → high * 2 ^ 32 + low ≤ 208678456368547758 →
          FiletimeNanoseconds low high
            = 100 * ((high : Int) * 2 ^ 32 + (low : Int) - 116444736000000000))
      ∧ (FiletimeNanoseconds low high
            = 100 * ((high : Int) * 2 ^ 32 + (low : Int) - 116444736000000000) →
          24211015631452242 ≤ high * 2 ^ 32 + low ∧ high * 2 ^ 32 + low ≤ 208678456368547758)
      ∧ (high * 2 ^ 32 + low = 116444736000000000 → FiletimeNanoseconds low high = 0) := by
  simp only [FiletimeNanoseconds, wrapInt64]
  norm_num
  refine ⟨?_, ?_, ?_, ?_⟩
  · omega
  · intro h1 h2; omega
  · intro h; omega
  · intro h; omega

theorem filetime_nanoseconds_witness :
    FiletimeNanoseconds 3577643008 27111902
        = wrapInt64 (100 * (((27111902 : Nat) : Int) * 2 ^ 32 + ((3577643008 : Nat) : Int)
            - 116444736000000000))
      ∧ (24211015631452242 ≤ 27111902 * 2 ^ 32 + 3577643008 →
          27111902 * 2 ^ 32 + 3577643008 ≤ 208678456368547758 →
          FiletimeNanoseconds 3577643008 27111902
            = 100 * (((27111902 : Nat) : Int) * 2 ^ 32 + ((3577643008 : Nat) : Int)
                - 116444736000000000))
      ∧ (FiletimeNanoseconds 3577643008 27111902
            = 100 * (((27111902 : Nat) : Int) * 2 ^ 32 + ((3577643008 : Nat) : Int)
                - 116444736000000000) →
          24211015631452242 ≤ 27111902 * 2 ^ 32 + 3577643008
            ∧ 27111902 * 2 ^ 32 + 3577643008 ≤ 208678456368547758)
      ∧ (27111902 * 2 ^ 32 + 3577643008 = 116444736000000000 →
          FiletimeNanoseconds 3577643008 27111902 = 0) :=
  filetime_nanoseconds 3577643008 27111902

/-- C34 fails as stated: for the `Filetime` with both fields 0 the formula gives
`-11644473600000000000`, which is no `int64`, and `Nanoseconds()` returns
`6802270473709551616`. -/
theorem filetime_nanoseconds_counterexample :
    FiletimeNanoseconds 0 0 = 6802270473709551616
      ∧ (100 * (((0 : Nat) : Int) * 2 ^ 32 + ((0 : Nat) : Int) - 116444736000000000) : Int)
          = -11644473600000000000
      ∧ FiletimeNanoseconds 0 0
          ≠ 100 * (((0 : Nat) : Int) * 2 ^ 32 + ((0 : Nat) : Int) - 116444736000000000) := by
  refine ⟨by decide, by norm_num, by decide⟩

/-! ## Length headers that do not fit -/

theorem truncate_natCast (bits n : Nat) : truncate bits (n : Int) = n % 2 ^ bits := by
  unfold truncate
  have h : ((n : Int) % (2 ^ bits : Int)) = ((n % 2 ^ bits : Nat) : Int) := by
    push_cast
    rfl
  rw [h]
  exact Int.toNat_natCast _

/-- C35: for every record of the shape `{DataLen uint16 len:Data; Data []byte}`, whatever
`DataLen` stores and however long `Data` is, `Marshal` succeeds and emits the two bytes of
`len(Data) mod 65536` followed by `Data`; for a `Data` of 65536 bytes the header is
`00 00`. -/
theorem len_header_truncated (x : Nat) (d : List Nat) :
    Marshal (.struct TestStructWithLenField) (.struct [.u16 x, .bytes d])
        = .ok (leBytes 2 (d.length % 65536) ++ d)
      ∧ (d.length = 65536 →
          Marshal (.struct TestStructWithLenField) (.struct [.u16 x, .bytes d])
            = .ok ([0, 0] ++ d)) := by
  have ht : truncate 16 (d.length : Int) = d.length % 65536 := truncate_natCast 16 _
  have h1 : Marshal (.struct TestStructWithLenField) (.struct [.u16 x, .bytes d])
      = .ok (leBytes 2 (d.length % 65536) ++ d) := by
    simp [Marshal, marshal, marshalField, marshalKind, marshalFields, siblings,
      TestStructWithLenField, parseTags_len_Data, parseTags_empty, marshalMetadata,
      marshalUint16, resolveHeader, getFieldLengthByName, fieldKindLength, TagMap.Has,
      TagMap.GetString, TagMap.Get, TagMap.empty, ht]
  refine ⟨h1, ?_⟩
  intro hd
  rw [h1, hd]
  rfl

theorem len_header_truncated_witness :
    Marshal (.struct TestStructWithLenField)
        (.struct [.u16 7, .bytes (List.replicate 65536 0)])
        = .ok (leBytes 2 ((List.replicate 65536 0).length % 65536) ++ List.replicate 65536 0)
      ∧ ((List.replicate 65536 0).length = 65536 →
          Marshal (.struct TestStructWithLenField)
              (.struct [.u16 7, .bytes (List.replicate 65536 0)])
            = .ok ([0, 0] ++ List.replicate 65536 0)) :=
  len_header_truncated 7 (List.replicate 65536 0)

/-! ## The cursor of a record without nested structures -/

theorem parseTags_not_panic (tag : String) : parseTags tag ≠ .error .goPanic := by
  intro h
  rcases parseTagsLoop_error_kind _ _ _ h with h1 | h1 <;> cases h1

theorem binaryRead_cases (w : Nat) (buf : List Nat) (hw : 0 < w) :
    (∃ e, binaryRead w buf = .error e ∧ e ≠ .goPanic)
      ∨ (w ≤ buf.length ∧ binaryRead w buf = .ok (leValue (buf.take w))) := by
  by_cases h : w ≤ buf.length
  · exact Or.inr ⟨h, binaryRead_ok w buf hw h⟩
  · refine Or.inl ⟨_, binaryRead_short w buf (by omega), ?_⟩
    split <;> intro hc <;> cases hc

theorem getString_not_panic (t : TagMap) (key : String) :
    t.GetString key ≠ .error .goPanic := by
  unfold TagMap.GetString
  repeat' split
  all_goals (intro h; cases h)

theorem getInt_not_panic (t : TagMap) (key : String) :
    t.GetInt key ≠ .error .goPanic := by
  unfold TagMap.GetInt
  repeat' split
  all_goals (intro h; cases h)

theorem unmarshalStringLoop_bound (r : List Nat) :
    ∀ (data : List Nat) (off : Int),
      unmarshalStringLoop r data off ≠ .error .goPanic
        ∧ ∀ out off1, unmarshalStringLoop r data off = .ok (out, off1) →
          off ≤ off1 ∧ off1 ≤ off + (r.length : Int) := by
  induction r with
  | nil =>
    intro data off
    refine ⟨(by intro h; cases h), ?_⟩
    intro out off1 h
    cases h
  | cons ch r ih =>
    intro data off
    rw [unmarshalStringLoop]
    by_cases hch : ch = 0
    · rw [if_pos hch]
      refine ⟨(by intro h; cases h), ?_⟩
      intro out off1 h
      cases h
      simp only [List.length_cons, Nat.cast_add, Nat.cast_one]
      omega
    · rw [if_neg hch]
      obtain ⟨h1, h2⟩ := ih (data ++ [ch]) (off + 1)
      refine ⟨h1, ?_⟩
      intro out off1 h
      have := h2 out off1 h
      simp only [List.length_cons, Nat.cast_add, Nat.cast_one]
      omega

/-- One field of a record without nested structures, decoded with the cursor within the
buffer: the decode does not panic, and when it succeeds the cursor is within the buffer
again and the parent buffer is unchanged. -/
theorem leaf_field_cursor (buf : List Nat) (m : Metadata) (f : Field Kind)
    (hk : leafKind f.kind = true) (h0 : 0 ≤ m.CurrOffset)
    (h1 : m.CurrOffset ≤ (buf.length : Int)) (hpb : m.ParentBuf.length = buf.length) :
    unmarshalStructField buf m f ≠ .error .goPanic
      ∧ ∀ v m1, unmarshalStructField buf m f = .ok (v, m1) →
        m1.ParentBuf = m.ParentBuf ∧ 0 ≤ m1.CurrOffset
          ∧ m1.CurrOffset ≤ (buf.length : Int) := by
  obtain ⟨name, tag, kind⟩ := f
  have hs := sliceFrom_ok buf _ h0 h1
  have hsl : ((buf.drop m.CurrOffset.toNat).length : Int) = (buf.length : Int) - m.CurrOffset := by
    simp only [List.length_drop]
    omega
  cases kind with
  | uint8 =>
    simp only [unmarshalStructField, hs, unmarshalKind, unmarshalUint8]
    rcases binaryRead_cases 1 (buf.drop m.CurrOffset.toNat) (by omega) with ⟨e, he, hne⟩ | ⟨hw, hr⟩
    · simp only [he]
      exact ⟨fun h => hne (by cases h; rfl), fun v m1 h => by cases h⟩
    · simp only [hr]
      refine ⟨(by intro h; cases h), ?_⟩
      intro v m1 h
      cases h
      exact ⟨rfl, by simp only; omega, by simp only; omega⟩
  | uint16 =>
    simp only [unmarshalStructField, hs, unmarshalKind, unmarshalUint16]
    rcases binaryRead_cases 2 (buf.drop m.CurrOffset.toNat) (by omega) with ⟨e, he, hne⟩ | ⟨hw, hr⟩
    · simp only [he]
      exact ⟨fun h => hne (by cases h; rfl), fun v m1 h => by cases h⟩
    · simp only [hr]
      have hg := getString_not_panic m.Tags "len"
      generalize m.Tags.GetString "len" = g at hg
      cases m.Tags.Has "len" <;> cases g <;> simp only [if_true, if_false, Bool.false_eq_true]
      all_goals refine ⟨(by intro h; cases h; try exact hg rfl), ?_⟩
      all_goals intro v m1 h
      all_goals cases h
      all_goals exact ⟨rfl, by simp only; omega, by simp only; omega⟩
  | uint32 =>
    simp only [unmarshalStructField, hs, unmarshalKind, unmarshalUint32]
    rcases binaryRead_cases 4 (buf.drop m.CurrOffset.toNat) (by omega) with ⟨e, he, hne⟩ | ⟨hw, hr⟩
    · simp only [he]
      exact ⟨fun h => hne (by cases h; rfl), fun v m1 h => by cases h⟩
    · simp only [hr]
      have hg := getString_not_panic m.Tags TagOffset
      generalize m.Tags.GetString TagOffset = g at hg
      cases m.Tags.Has TagOffset <;> cases g <;> simp only [if_true, if_false, Bool.false_eq_true]
      all_goals refine ⟨(by intro h; cases h; try exact hg rfl), ?_⟩
      all_goals intro v m1 h
      all_goals cases h
      all_goals exact ⟨rfl, by simp only; omega, by simp only; omega⟩
  | uint64 =>
    simp only [unmarshalStructField, hs, unmarshalKind, unmarshalUint64]
    rcases binaryRead_cases 8 (buf.drop m.CurrOffset.toNat) (by omega) with ⟨e, he, hne⟩ | ⟨hw, hr⟩
    · simp only [he]
      exact ⟨fun h => hne (by cases h; rfl), fun v m1 h => by cases h⟩
    · simp only [hr]
      refine ⟨(by intro h; cases h), ?_⟩
      intro v m1 h
      cases h
      exact ⟨rfl, by simp only; omega, by simp only; omega⟩
  | string =>
    simp only [unmarshalStructField, hs, unmarshalString]
    obtain ⟨hnp, hb⟩ := unmarshalStringLoop_bound (buf.drop m.CurrOffset.toNat) [] m.CurrOffset
    generalize unmarshalStringLoop (buf.drop m.CurrOffset.toNat) [] m.CurrOffset = r at hnp hb
    cases r with
    | error e =>
      exact ⟨fun h => hnp (by cases h; rfl), fun v m1 h => by cases h⟩
    | ok p =>
      obtain ⟨data, off⟩ := p
      refine ⟨(by intro h; cases h), ?_⟩
      intro v m1 h
      cases h
      have := hb data off rfl
      exact ⟨rfl, by simp only; omega, by simp only; omega⟩
  | slice elem =>
    cases elem with
    | uint8 =>
      simp only [unmarshalStructField, hs, unmarshalKind, unmarshalSlice]
      cases hp : m.Tags.Has TagPad
      case true =>
        simp only [if_true, unmarshalPad]
        refine ⟨(by intro h; cases h), ?_⟩
        intro v m1 h
        cases h
        have := padBytes_le (buf.drop m.CurrOffset.toNat)
        exact ⟨rfl, by simp only; omega, by simp only; omega⟩
      case false =>
        simp only [Bool.false_eq_true, if_false, unmarshalUint8Slice, resolveSliceParams]
        cases hf : m.Tags.Has TagFixed
        case true =>
          simp only [if_true]
          have hg := getInt_not_panic m.Tags TagFixed
          generalize m.Tags.GetInt TagFixed = g at hg
          cases g with
          | error e => exact ⟨fun h => hg (by cases h; rfl), fun v m1 h => by cases h⟩
          | ok length =>
            simp only []
            by_cases hb : length < 0 ∨ length > ((buf.drop m.CurrOffset.toNat).length : Int)
            · simp only [hb, if_true]
              exact ⟨(by intro h; cases h), fun v m1 h => by cases h⟩
            · simp only [hb, if_false]
              by_cases hr : (((buf.drop m.CurrOffset.toNat).take length.toNat).length : Int)
                  < length
              · simp only [hr, if_true]
                refine ⟨?_, fun v m1 h => by cases h⟩
                split <;> intro h <;> cases h
              · simp only [hr, if_false]
                refine ⟨(by intro h; cases h), ?_⟩
                intro v m1 h
                cases h
                exact ⟨rfl, by simp only; omega, by simp only; omega⟩
        case false =>
          simp only [Bool.false_eq_true, if_false]
          cases m.Lens.lookup m.CurrField with
          | none => exact ⟨(by intro h; cases h), fun v m1 h => by cases h⟩
          | some length =>
            cases m.Offsets.lookup m.CurrField with
            | none =>
              simp only []
              by_cases hb : m.CurrOffset < 0 ∨ length < 0
                  ∨ m.CurrOffset + length > (m.ParentBuf.length : Int)
              · simp only [hb, if_true]
                exact ⟨(by intro h; cases h), fun v m1 h => by cases h⟩
              · simp only [hb, if_false]
                by_cases hr : (((m.ParentBuf.drop m.CurrOffset.toNat).take length.toNat).length
                    : Int) < length
                · simp only [hr, if_true]
                  refine ⟨?_, fun v m1 h => by cases h⟩
                  split <;> intro h <;> cases h
                · simp only [hr, if_false]
                  refine ⟨(by intro h; cases h), ?_⟩
                  intro v m1 h
                  cases h
                  exact ⟨rfl, by simp only; omega, by simp only; omega⟩
            | some offset =>
              simp only []
              by_cases hb : offset < 0 ∨ length < 0
                  ∨ offset + length > (m.ParentBuf.length : Int)
              · simp only [hb, if_true]
                exact ⟨(by intro h; cases h), fun v m1 h => by cases h⟩
              · simp only [hb, if_false]
                by_cases hr : (((m.ParentBuf.drop offset.toNat).take length.toNat).length
                    : Int) < length
                · simp only [hr, if_true]
                  refine ⟨?_, fun v m1 h => by cases h⟩
                  split <;> intro h <;> cases h
                · simp only [hr, if_false]
                  refine ⟨(by intro h; cases h), ?_⟩
                  intro v m1 h
                  cases h
                  exact ⟨rfl, h0, h1⟩
    | _ => simp [leafKind] at hk
  | _ => simp [leafKind] at hk

theorem leaf_fields_cursor (buf : List Nat) (fields : Shape) :
    ∀ (m : Metadata), (∀ f ∈ fields, leafKind f.kind = true) → 0 ≤ m.CurrOffset →
      m.CurrOffset ≤ (buf.length : Int) → m.ParentBuf.length = buf.length →
      unmarshalFields buf fields m ≠ .error .goPanic
        ∧ ∀ vals m1, unmarshalFields buf fields m = .ok (vals, m1) →
          m1.ParentBuf.length = buf.length ∧ 0 ≤ m1.CurrOffset
            ∧ m1.CurrOffset ≤ (buf.length : Int) := by
  induction fields with
  | nil =>
    intro m _ h0 h1 hpb
    refine ⟨(by intro h; cases h), ?_⟩
    intro vals m1 h
    cases h
    exact ⟨hpb, h0, h1⟩
  | cons f rest ih =>
    intro m hall h0 h1 hpb
    rw [unmarshalFields]
    have hpt := parseTags_not_panic f.tag
    generalize parseTags f.tag = pt at hpt
    cases pt with
    | error e => exact ⟨fun h => hpt (by cases h; rfl), fun vals m1 h => by cases h⟩
    | ok tags =>
      simp only []
      obtain ⟨hf1, hf2⟩ := leaf_field_cursor buf { m with CurrField := f.name, Tags := tags } f
        (hall f (by simp)) h0 h1 hpb
      generalize unmarshalStructField buf { m with CurrField := f.name, Tags := tags } f = r
        at hf1 hf2
      cases r with
      | error e => exact ⟨fun h => hf1 (by cases h; rfl), fun vals m1 h => by cases h⟩
      | ok p =>
        obtain ⟨data, m1⟩ := p
        obtain ⟨hp1, hc0, hc1⟩ := hf2 data m1 rfl
        simp only []
        obtain ⟨hr1, hr2⟩ := ih m1 (fun g hg => hall g (by simp [hg])) hc0 hc1
          (by rw [hp1]; exact hpb)
        generalize unmarshalFields buf rest m1 = r2 at hr1 hr2
        cases r2 with
        | error e => exact ⟨fun h => hr1 (by cases h; rfl), fun vals m1 h => by cases h⟩
        | ok q =>
          obtain ⟨vals, m2⟩ := q
          refine ⟨(by intro h; cases h), ?_⟩
          intro vals2 m3 h
          cases h
          exact hr2 vals m2 rfl

/-- C39: a top-level record whose fields are unsigned integers, texts and byte blocks
(fixed, pad, or directed by len and offset headers), on any buffer.  After every field
that was decoded (the fields before any position `n` of the record) the cursor satisfies
`0 <= cursor <= len(buffer)`, so that the slice `buf[cursor:]` taken for the next field
is in range; and `Unmarshal` returns a record or an error: it does not panic. -/
theorem cursor_within_buffer (buf : List Nat) (fields : Shape)
    (hflat : ∀ f ∈ fields, leafKind f.kind = true) :
    (∀ (n : Nat) (vals : List Value) (m : Metadata),
        unmarshalFields buf (fields.take n) (topMetadata buf) = .ok (vals, m) →
        0 ≤ m.CurrOffset ∧ m.CurrOffset ≤ (buf.length : Int)
          ∧ sliceFrom buf m.CurrOffset = .ok (buf.drop m.CurrOffset.toNat))
      ∧ (succeeds (Unmarshal buf (.struct fields))
          ∨ returnsError (Unmarshal buf (.struct fields))) := by
  constructor
  · intro n vals m h
    obtain ⟨_, h2⟩ := leaf_fields_cursor buf (fields.take n) (topMetadata buf)
      (fun f hf => hflat f (List.mem_of_mem_take hf)) (le_refl _) (by simp [topMetadata]) rfl
    obtain ⟨_, hc0, hc1⟩ := h2 vals m h
    exact ⟨hc0, hc1, sliceFrom_ok buf _ hc0 hc1⟩
  · obtain ⟨h1, _⟩ := leaf_fields_cursor buf fields (topMetadata buf) hflat (le_refl _)
      (by simp [topMetadata]) rfl
    rw [Unmarshal_struct]
    generalize unmarshalFields buf fields (topMetadata buf) = r at h1
    cases r with
    | error e => exact Or.inr ⟨e, rfl, fun he => h1 (by rw [he])⟩
    | ok p => exact Or.inl ⟨_, rfl⟩

theorem cursor_within_buffer_witness :
    (∀ (n : Nat) (vals : List Value) (m : Metadata),
        unmarshalFields [1, 0, 7, 0, 0] (OffsetLenStruct.take n) (topMetadata [1, 0, 7, 0, 0])
          = .ok (vals, m) →
        0 ≤ m.CurrOffset ∧ m.CurrOffset ≤ (([1, 0, 7, 0, 0] : List Nat).length : Int)
          ∧ sliceFrom [1, 0, 7, 0, 0] m.CurrOffset
            = .ok (([1, 0, 7, 0, 0] : List Nat).drop m.CurrOffset.toNat))
      ∧ (succeeds (Unmarshal [1, 0, 7, 0, 0] (.struct OffsetLenStruct))
          ∨ returnsError (Unmarshal [1, 0, 7, 0, 0] (.struct OffsetLenStruct))) :=
  cursor_within_buffer [1, 0, 7, 0, 0] OffsetLenStruct (by decide)

/-! ## Lengths recorded by the decoder -/

theorem resolveSliceParams_lens {buf : List Nat} {m m1 : Metadata} {length : Int}
    {r : List Nat} (h : resolveSliceParams buf m = .ok (length, r, m1)) :
    m1.Lens = m.Lens := by
  unfold resolveSliceParams at h
  split at h
  · split at h
    · cases h
    · split at h
      · cases h
      · cases h
        rfl
  · split at h
    · cases h
    · split at h
      split at h
      · cases h
      · rename_i heq _
        cases h
        split at heq
        · cases heq
          rfl
        · cases heq
          rfl

/-- The lengths recorded after a value of a type without codec has been decoded are
the lengths recorded before, with one more entry when the type is `uint16` and the
directives of the field hold `len`. -/
theorem unmarshalKind_lens {buf : List Nat} {k : Kind} {m m1 : Metadata} {v : Value}
    (hk : ∀ c u, k ≠ .custom c u) (h : unmarshalKind buf k m = .ok (v, m1)) :
    m1.Lens = m.Lens
      ∨ (k = .uint16 ∧ ∃ ref x, m.Tags.GetString "len" = .ok ref ∧ v = .u16 x
          ∧ m1.Lens = (ref, (x : Int)) :: m.Lens) := by
  cases k with
  | uint8 =>
    simp only [unmarshalKind, unmarshalUint8] at h
    split at h
    · cases h
    · cases h
      exact Or.inl rfl
  | uint16 =>
    simp only [unmarshalKind, unmarshalUint16] at h
    split at h
    · cases h
    · rename_i ret _
      split at h
      · split at h
        · cases h
        · rename_i ref hg
          cases h
          exact Or.inr ⟨rfl, ref, ret, hg, rfl, rfl⟩
      · cases h
        exact Or.inl rfl
  | uint32 =>
    simp only [unmarshalKind, unmarshalUint32] at h
    split at h
    · cases h
    · split at h
      · split at h
        · cases h
        · cases h
          exact Or.inl rfl
      · cases h
        exact Or.inl rfl
  | uint64 =>
    simp only [unmarshalKind, unmarshalUint64] at h
    split at h
    · cases h
    · cases h
      exact Or.inl rfl
  | string =>
    simp only [unmarshalKind, unmarshalString] at h
    split at h
    · cases h
    · cases h
      exact Or.inl rfl
  | struct fields =>
    simp only [unmarshalKind, finishStruct] at h
    split at h
    · cases h
    · cases h
      exact Or.inl rfl
  | slice elem =>
    simp only [unmarshalKind, unmarshalSlice] at h
    split at h
    · simp only [unmarshalPad] at h
      cases h
      exact Or.inl rfl
    · split at h
      · simp only [unmarshalUint8Slice] at h
        split at h
        · cases h
        · rename_i length r meta1 hr
          split at h
          · cases h
          · cases h
            exact Or.inl (resolveSliceParams_lens hr)
      · cases h
  | ptr elem => simp only [unmarshalKind] at h; cases h
  | custom c u => exact absurd rfl (hk c u)
  | other => simp only [unmarshalKind] at h; cases h

theorem unmarshalBinaryMarshallable_lens {bm : Codec} {buf : List Nat} {m : Metadata}
    {v : Value} {m1 : Option Metadata}
    (h : unmarshalBinaryMarshallable bm buf (some m) = .ok (v, m1)) :
    (m1.getD m).Lens = m.Lens := by
  simp only [unmarshalBinaryMarshallable] at h
  split at h
  · cases h
  · cases h
    rfl

/-- The lengths recorded after a field has been decoded are the lengths recorded before,
with one more entry when the field is a `uint16` (or a pointer to one) whose directives
hold `len`. -/
theorem unmarshalStructField_lens {buf : List Nat} {m m1 : Metadata} {f : Field Kind}
    {v : Value} (h : unmarshalStructField buf m f = .ok (v, m1)) :
    m1.Lens = m.Lens
      ∨ ((f.kind = .uint16 ∨ f.kind = .ptr .uint16)
          ∧ ∃ ref x, m.Tags.GetString "len" = .ok ref
            ∧ m1.Lens = (ref, (x : Int)) :: m.Lens) := by
  obtain ⟨name, tag, kind⟩ := f
  have hun : ∀ (sub : List Nat) (k : Kind) (w : Value), (∀ c u, k ≠ .custom c u) →
      unmarshalKind sub k m = .ok (w, m1) →
      m1.Lens = m.Lens ∨ (k = .uint16 ∧ ∃ ref x, m.Tags.GetString "len" = .ok ref
        ∧ m1.Lens = (ref, (x : Int)) :: m.Lens) := by
    intro sub k w hk hu
    rcases unmarshalKind_lens hk hu with h1 | ⟨h1, ref, x, hg, _, hl⟩
    · exact Or.inl h1
    · exact Or.inr ⟨h1, ref, x, hg, hl⟩
  unfold unmarshalStructField at h
  split at h
  · cases h
  · rename_i sub _
    split at h
    · split at h
      · cases h
      · cases h
        simp only [unmarshalString] at *
        rename_i hs
        split at hs
        · cases hs
        · cases hs
          exact Or.inl rfl
      · cases h
    · split at h
      · cases h
      · rename_i hb
        cases h
        exact Or.inl (unmarshalBinaryMarshallable_lens hb)
    · split at h
      · cases h
      · cases h
    · split at h
      · cases h
      · rename_i result m2 hu
        cases h
        rcases hun sub (.slice .uint8) result (by intro c u hc; cases hc) hu with h1 | ⟨h1, _⟩
        · exact Or.inl h1
        · cases h1
    · split at h
      · cases h
      · cases h
    · split at h
      · cases h
      · rename_i elem hne _ _ _ _ result m2 hu
        cases h
        rcases hun sub elem result (fun c u hc => hne c u hc) hu with h1 | ⟨h1, rest⟩
        · exact Or.inl h1
        · subst h1
          exact Or.inr ⟨Or.inr rfl, rest⟩
    · split at h
      · cases h
      · cases h
    · split at h
      · cases h
      · cases h
    · split at h
      · cases h
      · rename_i hb
        cases h
        exact Or.inl (unmarshalBinaryMarshallable_lens hb)
      · rename_i hb
        cases h
        exact Or.inl (unmarshalBinaryMarshallable_lens hb)
    · rcases hun sub (.slice .uint8) v (by intro c u hc; cases hc) h with h1 | ⟨h1, _⟩
      · exact Or.inl h1
      · cases h1
    · split at h
      · cases h
      · cases h
    · rename_i hne _ _
      rcases hun sub kind v (fun c u hc => hne c u hc) h with h1 | ⟨h1, rest⟩
      · exact Or.inl h1
      · exact Or.inr ⟨Or.inl h1, rest⟩

theorem unmarshalFields_cons_inv {buf : List Nat} {f : Field Kind} {rest : Shape}
    {m m2 : Metadata} {vals : List Value}
    (h : unmarshalFields buf (f :: rest) m = .ok (vals, m2)) :
    ∃ tags v m1 vs, parseTags f.tag = .ok tags
      ∧ unmarshalStructField buf { m with CurrField := f.name, Tags := tags } f = .ok (v, m1)
      ∧ unmarshalFields buf rest m1 = .ok (vs, m2) ∧ vals = v :: vs := by
  rw [unmarshalFields] at h
  split at h
  · cases h
  · rename_i tags hp
    split at h
    · cases h
    · rename_i data m1 hf
      split at h
      · cases h
      · rename_i vs m3 hr
        cases h
        exact ⟨tags, data, m1, vs, hp, hf, hr, rfl⟩

theorem unmarshalFields_append_inv {buf : List Nat} {pre rest : Shape}
    {m m2 : Metadata} {vals : List Value}
    (h : unmarshalFields buf (pre ++ rest) m = .ok (vals, m2)) :
    ∃ vs1 m1 vs2, unmarshalFields buf pre m = .ok (vs1, m1)
      ∧ unmarshalFields buf rest m1 = .ok (vs2, m2) ∧ vals = vs1 ++ vs2 := by
  rw [unmarshalFields_append] at h
  split at h
  · cases h
  · rename_i vs1 m1 h1
    split at h
    · cases h
    · rename_i vs2 m3 h2
      cases h
      exact ⟨vs1, m1, vs2, h1, h2, rfl⟩

theorem unmarshalFields_length (buf : List Nat) (fields : Shape) :
    ∀ (m m1 : Metadata) (vals : List Value),
      unmarshalFields buf fields m = .ok (vals, m1) → vals.length = fields.length := by
  induction fields with
  | nil =>
    intro m m1 vals h
    cases h
    rfl
  | cons f rest ih =>
    intro m m1 vals h
    obtain ⟨tags, v, m2, vs, _, _, hr, hv⟩ := unmarshalFields_cons_inv h
    subst hv
    simp [ih _ _ _ hr]

/-- Fields that record no length for `ref` leave the length recorded for `ref` as it
was. -/
theorem unmarshalFields_lens_lookup (buf : List Nat) (ref : String) (fields : Shape) :
    ∀ (m m1 : Metadata) (vals : List Value), (∀ f ∈ fields, recordsLen ref f = false) →
      unmarshalFields buf fields m = .ok (vals, m1) →
      m1.Lens.lookup ref = m.Lens.lookup ref := by
  induction fields with
  | nil =>
    intro m m1 vals _ h
    cases h
    rfl
  | cons f rest ih =>
    intro m m1 vals hall h
    obtain ⟨tags, v, m2, vs, hp, hf, hr, _⟩ := unmarshalFields_cons_inv h
    rw [ih m2 m1 vs (fun g hg => hall g (by simp [hg])) hr]
    rcases unmarshalStructField_lens hf with h1 | ⟨hk, ref2, x, hg, hl⟩
    · rw [h1]
    · have hrec := hall f (by simp)
      have hne : ref2 ≠ ref := by
        intro heq
        subst heq
        rcases hk with hk | hk <;>
          simp [recordsLen, hk, hp] at hrec <;> exact hrec hg
      rw [hl]
      simp only [List.lookup]
      have hb : (ref == ref2) = false := by
        simp only [beq_eq_false_iff_ne, ne_eq]
        exact fun h => hne h.symm
      rw [hb]

/-- A `uint16` whose directives hold `len:ref` records its value as the length of
`ref`. -/
theorem unmarshalStructField_header {buf : List Nat} {m m1 : Metadata} {name tag ref : String}
    {v : Value} (hg : m.Tags.GetString "len" = .ok ref)
    (h : unmarshalStructField buf m ⟨name, tag, .uint16⟩ = .ok (v, m1)) :
    ∃ x : Nat, v = .u16 x ∧ m1.Lens = (ref, (x : Int)) :: m.Lens := by
  have hh := has_of_getString _ _ _ hg
  simp only [unmarshalStructField, unmarshalKind, unmarshalUint16, hh, hg, if_true] at h
  split at h
  · cases h
  · split at h
    · cases h
    · rename_i ret _
      cases h
      exact ⟨ret, rfl, rfl⟩

/-- A byte block without `pad` and `fixed` holds as many bytes as the length recorded
for it. -/
theorem unmarshalStructField_block_length {buf : List Nat} {m m1 : Metadata}
    {name tag : String} {v : Value} {x : Nat}
    (hp : m.Tags.Has TagPad = false) (hf : m.Tags.Has TagFixed = false)
    (hlen : m.Lens.lookup m.CurrField = some (x : Int))
    (h : unmarshalStructField buf m ⟨name, tag, .slice .uint8⟩ = .ok (v, m1)) :
    ∃ d, v = .bytes d ∧ d.length = x := by
  simp only [unmarshalStructField, unmarshalKind, unmarshalSlice, hp, unmarshalUint8Slice,
    resolveSliceParams, hf, hlen, Bool.false_eq_true, if_false] at h
  split at h
  · cases h
  · split at h
    · cases h
    · rename_i hr
      split at hr
      · cases hr
      · cases hr
        split at h
        · cases h
        · rename_i hlt
          cases h
          refine ⟨_, rfl, ?_⟩
          simp only [List.length_take, Int.toNat_ofNat] at hlt ⊢
          omega

/-- C36: a structure in which a `uint16` header `L` tagged `len:D` precedes the byte
block `D` (without `pad` and `fixed`), no field between them recording a length for `D`;
any fields may come before `L`, in particular an earlier `uint16` header tagged `len:D`,
as `TargetNameLen` comes before `TargetNameMaxLen` in the NTLM `Challenge`.  Whenever
`Unmarshal` succeeds, the decoded `D` has as many bytes as the value decoded for `L`,
whatever the earlier header holds. -/
theorem last_len_header_wins (buf : List Nat) (pre mid post : Shape)
    (L tL D tD : String) (tagsL tagsD : TagMap) (r : Value)
    (hL : parseTags tL = .ok tagsL) (href : tagsL.GetString "len" = .ok D)
    (hmid : ∀ f ∈ mid, recordsLen D f = false)
    (hD : parseTags tD = .ok tagsD) (hpad : tagsD.Has TagPad = false)
    (hfix : tagsD.Has TagFixed = false)
    (h : Unmarshal buf (.struct
      (pre ++ (⟨L, tL, .uint16⟩ :: (mid ++ (⟨D, tD, .slice .uint8⟩ :: post))))) = .ok r) :
    ∃ (vals : List Value) (x : Nat) (d : List Nat), r = .struct vals
      ∧ vals[pre.length]? = some (.u16 x)
      ∧ vals[pre.length + 1 + mid.length]? = some (.bytes d)
      ∧ d.length = x := by
  rw [Unmarshal_struct] at h
  split at h
  · cases h
  · rename_i vals mEnd hrun
    cases h
    obtain ⟨vs1, m1, vs2, hpre, hrest, hv⟩ := unmarshalFields_append_inv hrun
    obtain ⟨tags, vL, m2, vs3, hp, hfL, hrest2, hv2⟩ := unmarshalFields_cons_inv hrest
    rw [hL] at hp
    cases hp
    obtain ⟨x, hvL, hlens⟩ := unmarshalStructField_header href hfL
    obtain ⟨vs4, m3, vs5, hmidrun, hrest3, hv3⟩ := unmarshalFields_append_inv hrest2
    obtain ⟨tags2, vD, m4, vs6, hp2, hfD, _, hv4⟩ := unmarshalFields_cons_inv hrest3
    rw [hD] at hp2
    cases hp2
    have hlook : m3.Lens.lookup D = some (x : Int) := by
      rw [unmarshalFields_lens_lookup buf D mid m2 m3 vs4 hmid hmidrun, hlens]
      simp [List.lookup]
    obtain ⟨d, hvD, hdl⟩ := unmarshalStructField_block_length hpad hfix hlook hfD
    have hl1 := unmarshalFields_length buf pre _ _ _ hpre
    have hl4 := unmarshalFields_length buf mid _ _ _ hmidrun
    subst hv hv2 hv3 hv4 hvL hvD
    refine ⟨_, x, d, rfl, ?_, ?_, hdl⟩
    · rw [List.getElem?_append_right (by omega)]
      simp [hl1]
    · rw [List.getElem?_append_right (by omega)]
      have e : pre.length + 1 + mid.length - vs1.length = mid.length + 1 := by omega
      rw [e, List.getElem?_cons_succ, List.getElem?_append_right (by omega)]
      simp [hl4]

theorem last_len_header_wins_witness :
    ∃ (vals : List Value) (x : Nat) (d : List Nat),
      Value.struct [.u16 5, .u16 2, .bytes [7, 8]] = .struct vals
      ∧ vals[([⟨"L1", "len:D", .uint16⟩] : Shape).length]? = some (.u16 x)
      ∧ vals[([⟨"L1", "len:D", .uint16⟩] : Shape).length + 1 + ([] : Shape).length]?
          = some (.bytes d)
      ∧ d.length = x :=
  last_len_header_wins [5, 0, 2, 0, 7, 8, 9] [⟨"L1", "len:D", .uint16⟩] [] []
    "L2" "len:D" "D" "" ⟨[("len", .str "D")]⟩ ⟨[]⟩ _
    (by decide) (by decide) (by simp) (by decide) (by decide) (by decide) rfl

/-! ## The loop of `AvPairSlice.UnmarshalBinary` -/

/-- What `Unmarshal` of one `AvPair` can answer on a buffer: it does not panic, and a
decoded pair holds `AvLen` bytes of `Value`, which the buffer has after the two headers. -/
theorem avPair_unmarshal_cases (sub : List Nat) :
    Unmarshal sub (.struct AvPair) ≠ .error .goPanic
      ∧ ∀ v, Unmarshal sub (.struct AvPair) = .ok v →
        ∃ id avLen value, v = .struct [.u16 id, .u16 avLen, .bytes value]
          ∧ value.length = avLen ∧ 4 + avLen ≤ sub.length := by
  rw [Unmarshal_struct]
  simp only [AvPair, unmarshalFields, parseTags_len_Value, parseTags_empty, topMetadata]
  by_cases h2 : 2 ≤ sub.length
  · rw [unmarshalStructField_uint16 _ _ _ _ ?h0 ?h1 ?ht]
    case h0 => simp
    case h1 => simp; omega
    case ht => rfl
    simp only [Int.toNat_zero, List.drop_zero]
    by_cases h4 : 4 ≤ sub.length
    · rw [unmarshalStructField_uint16_len _ _ _ _ "Value" ?h0 ?h1 ?ht ?hg]
      case h0 => simp
      case h1 => simp; omega
      case ht => rfl
      case hg => rfl
      have e2 : ((0 : Int) + 2).toNat = 2 := rfl
      simp only [e2, Int.toNat_zero, List.drop_zero]
      generalize leValue (List.take 2 (List.drop 2 sub)) = avLen
      generalize leValue (List.take 2 sub) = id
      by_cases hv : 4 + avLen ≤ sub.length
      · rw [unmarshalStructField_len _ _ _ _ (avLen : Int) ?h0 ?h2 ?hl ?h1 ?hp ?ht ?hlen ?hoff]
        case h0 => simp
        case h2 => simp; omega
        case hl => omega
        case h1 => simp; omega
        case hp => rfl
        case ht => rfl
        case hlen => simp [List.lookup]
        case hoff => rfl
        have e4 : ((0 : Int) + 2 + 2).toNat = 4 := rfl
        simp only [e4, Int.toNat_ofNat]
        constructor
        · intro h
          cases h
        · intro v hv2
          cases hv2
          refine ⟨id, avLen, _, rfl, ?_, hv⟩
          simp only [List.length_take, List.length_drop]
          omega
      · have h3 : ((avLen : Int) < 0 ∨ (sub.length : Int) < 4 + (avLen : Int)) := by omega
        have hs : sliceFrom sub 4 = .ok (sub.drop 4) :=
          sliceFrom_ok sub _ (by omega) (by omega)
        simp [unmarshalStructField, hs, unmarshalKind, unmarshalSlice,
          unmarshalUint8Slice, resolveSliceParams, TagMap.Has, TagMap.Get, TagPad, TagFixed,
          List.lookup, h3]
    · have hs : sliceFrom sub ((0 : Int) + 2) = .ok (sub.drop 2) :=
        sliceFrom_ok sub _ (by omega) (by omega)
      have hr := binaryRead_short 2 (sub.drop 2) (by simp; omega)
      simp only [unmarshalStructField, hs, unmarshalKind, unmarshalUint16, hr]
      refine ⟨?_, ?_⟩
      · split <;> intro h <;> cases h
      · intro v h
        cases h
  · have hs : sliceFrom sub 0 = .ok sub := by
      simpa using sliceFrom_ok sub 0 (by omega) (by omega)
    have hr := binaryRead_short 2 sub (by omega)
    simp only [unmarshalStructField, hs, unmarshalKind, unmarshalUint16, hr]
    refine ⟨?_, ?_⟩
    · split <;> intro h <;> cases h
    · intro v h
      cases h

/-- The loop of `AvPairSlice.UnmarshalBinary` on a region that lies within the parent
buffer: it does not panic, and a run that succeeds has appended well-formed pairs whose
sizes add up to the length it started with. -/
theorem avPairLoop_spec (parentBuf : List Nat) :
    ∀ (n : Nat) (o i : Int) (acc : List Value), i.toNat = n → 0 ≤ o → 0 ≤ i →
      o + i ≤ (parentBuf.length : Int) →
      avPairLoop parentBuf o i acc ≠ .error .goPanic
        ∧ ∀ slice o1, avPairLoop parentBuf o i acc = .ok (slice, o1) →
          ∃ new, slice = acc ++ new ∧ o1 = o + i ∧ 4 * (new.length : Int) ≤ i
            ∧ (∀ v ∈ new, ∃ id avLen value,
                v = .struct [.u16 id, .u16 avLen, .bytes value] ∧ value.length = avLen)
            ∧ (((new.map AvPairSize).sum : Nat) : Int) = i := by
  intro n
  induction n using Nat.strong_induction_on with
  | _ n ih =>
    intro o i acc hn h0 hi hle
    unfold avPairLoop
    by_cases hpos : 0 < i
    · rw [dif_pos hpos]
      have hsr : sliceRange parentBuf o (o + i)
          = .ok ((parentBuf.drop o.toNat).take i.toNat) := by
        unfold sliceRange
        have hc : 0 ≤ o ∧ o ≤ o + i ∧ o + i ≤ (parentBuf.length : Int) := ⟨h0, by omega, hle⟩
        rw [if_pos hc]
        simp
      have hsub : ((parentBuf.drop o.toNat).take i.toNat).length = i.toNat := by
        simp only [List.length_take, List.length_drop]
        omega
      obtain ⟨hnp, hok⟩ := avPair_unmarshal_cases ((parentBuf.drop o.toNat).take i.toNat)
      simp only [hsr]
      generalize hr : Unmarshal ((parentBuf.drop o.toNat).take i.toNat) (.struct AvPair) = r
        at hnp hok
      cases r with
      | error e =>
        refine ⟨?_, ?_⟩
        · intro h
          cases h
          exact hnp rfl
        · intro slice o1 h
          cases h
      | ok v =>
        obtain ⟨id, avLen, value, hv, hvl, hfit⟩ := hok v rfl
        subst hv
        simp only []
        have hfit2 : 4 + (avLen : Int) ≤ i := by omega
        obtain ⟨ih1, ih2⟩ := ih (i - (4 + (avLen : Int))).toNat (by omega)
          (o + (4 + (avLen : Int))) (i - (4 + (avLen : Int)))
          (acc ++ [.struct [.u16 id, .u16 avLen, .bytes value]]) rfl (by omega) (by omega)
          (by omega)
        refine ⟨ih1, ?_⟩
        intro slice o1 h
        obtain ⟨new, hs, ho1, hcount, hwf, hsum⟩ := ih2 slice o1 h
        refine ⟨.struct [.u16 id, .u16 avLen, .bytes value] :: new, ?_, ?_, ?_, ?_, ?_⟩
        · rw [hs]
          simp
        · omega
        · simp only [List.length_cons, Nat.cast_add, Nat.cast_one]
          omega
        · intro v hv
          rcases List.mem_cons.mp hv with rfl | hv
          · exact ⟨id, avLen, value, rfl, hvl⟩
          · exact hwf v hv
        · simp only [List.map_cons, List.sum_cons, AvPairSize, Nat.cast_add]
          push_cast at hsum ⊢
          omega
    · rw [dif_neg hpos]
      refine ⟨(by intro h; cases h), ?_⟩
      intro slice o1 h
      cases h
      refine ⟨[], (by simp), (by omega), (by simp; omega), (by simp), (by simp; omega)⟩

/-- C40: `AvPairSlice.UnmarshalBinary` on a region `ParentBuf[o .. o+l)` that lies within
the parent buffer (with `0 <= o` and `0 <= l` recorded for the field).  The decode ends
(the loop is defined by recursion on the remaining length, which every decoded pair
reduces by `4 + AvLen`, never below zero): it returns a list or an error and does not
panic.  Whenever it succeeds it reports `l` bytes, the list has at most `l / 4` pairs,
every pair holds `AvLen` bytes of `Value`, and the sizes `4 + AvLen` of the pairs sum
to `l`. -/
theorem avpair_slice_decode_terminates (buf : List Nat) (m : Metadata) (o l : Int)
    (hlen : m.Lens.lookup m.CurrField = some l) (hoff : m.Offsets.lookup m.CurrField = some o)
    (ho : 0 ≤ o) (hl : 0 ≤ l) (h : o + l ≤ (m.ParentBuf.length : Int)) :
    (succeeds (avPairSliceUnmarshal buf (some m))
        ∨ returnsError (avPairSliceUnmarshal buf (some m)))
      ∧ ∀ v n, avPairSliceUnmarshal buf (some m) = .ok (v, n) →
        n = l ∧ ∃ slice, v = .list slice ∧ 4 * (slice.length : Int) ≤ l
          ∧ (∀ p ∈ slice, ∃ id avLen value,
              p = .struct [.u16 id, .u16 avLen, .bytes value] ∧ value.length = avLen)
          ∧ (((slice.map AvPairSize).sum : Nat) : Int) = l := by
  obtain ⟨hnp, hok⟩ := avPairLoop_spec m.ParentBuf l.toNat o l [] rfl ho hl h
  simp only [avPairSliceUnmarshal, hlen, hoff]
  generalize avPairLoop m.ParentBuf o l [] = r at hnp hok
  cases r with
  | error e =>
    refine ⟨Or.inr ⟨e, rfl, fun he => hnp (by rw [he])⟩, ?_⟩
    intro v n hv
    cases hv
  | ok p =>
    obtain ⟨slice, o1⟩ := p
    refine ⟨Or.inl ⟨_, rfl⟩, ?_⟩
    intro v n hv
    cases hv
    obtain ⟨new, hs, ho1, hcount, hwf, hsum⟩ := hok slice o1 rfl
    simp only [List.nil_append] at hs
    subst hs
    exact ⟨by omega, slice, rfl, hcount, hwf, hsum⟩

theorem avpair_slice_decode_terminates_witness :
    (succeeds (avPairSliceUnmarshal [] (some avPairSliceTestContext))
        ∨ returnsError (avPairSliceUnmarshal [] (some avPairSliceTestContext)))
      ∧ ∀ v n, avPairSliceUnmarshal [] (some avPairSliceTestContext) = .ok (v, n) →
        n = 12 ∧ ∃ slice, v = .list slice ∧ 4 * (slice.length : Int) ≤ 12
          ∧ (∀ p ∈ slice, ∃ id avLen value,
              p = .struct [.u16 id, .u16 avLen, .bytes value] ∧ value.length = avLen)
          ∧ (((slice.map AvPairSize).sum : Nat) : Int) = 12 :=
  avpair_slice_decode_terminates [] avPairSliceTestContext 6 12 rfl rfl (by decide) (by decide)
    (by decide)

/-! ## Bytes after the consumed part -/

theorem sliceFrom_extend {buf sub : List Nat} {off : Int} (ext : List Nat)
    (h : sliceFrom buf off = .ok sub) : sliceFrom (buf ++ ext) off = .ok (sub ++ ext) := by
  unfold sliceFrom at h ⊢
  split at h
  · rename_i hc
    cases h
    have hc2 : 0 ≤ off ∧ off ≤ ((buf ++ ext).length : Int) := by
      simp only [List.length_append, Nat.cast_add]
      omega
    rw [if_pos hc2, List.drop_append_of_le_length (by omega)]
  · cases h

theorem binaryRead_extend {w : Nat} {buf : List Nat} {n : Nat} (ext : List Nat) (hw : 0 < w)
    (h : binaryRead w buf = .ok n) : binaryRead w (buf ++ ext) = .ok n := by
  rcases binaryRead_cases w buf hw with ⟨e, he, _⟩ | ⟨hle, hr⟩
  · rw [he] at h
    cases h
  · rw [hr] at h
    cases h
    rw [binaryRead_ok w (buf ++ ext) hw (by simp only [List.length_append]; omega),
      List.take_append_of_le_length hle]

theorem unmarshalStringLoop_extend (ext : List Nat) (r : List Nat) :
    ∀ (data : List Nat) (off : Int) (res : List Nat × Int),
      unmarshalStringLoop r data off = .ok res →
      unmarshalStringLoop (r ++ ext) data off = .ok res := by
  induction r with
  | nil =>
    intro data off res h
    cases h
  | cons ch r ih =>
    intro data off res h
    rw [unmarshalStringLoop] at h
    rw [List.cons_append, unmarshalStringLoop]
    by_cases hch : ch = 0
    · rw [if_pos hch] at h ⊢
      exact h
    · rw [if_neg hch] at h ⊢
      exact ih _ _ _ h

theorem resolveSliceParams_extend {buf : List Nat} {m m1 : Metadata} {length : Int}
    {r : List Nat} (e1 e2 : List Nat) (h : resolveSliceParams buf m = .ok (length, r, m1)) :
    resolveSliceParams (buf ++ e1) { m with ParentBuf := m.ParentBuf ++ e2 }
      = .ok (length, r, { m1 with ParentBuf := m1.ParentBuf ++ e2 }) := by
  unfold resolveSliceParams at h ⊢
  simp only
  split at h
  · rename_i hf
    rw [if_pos hf]
    split at h
    · cases h
    · rename_i len hg
      split at h
      · cases h
      · rename_i hb
        cases h
        have hb2 : ¬ (length < 0 ∨ length > ((buf ++ e1).length : Int)) := by
          simp only [List.length_append, Nat.cast_add]
          omega
        rw [if_neg hb2, List.take_append_of_le_length (by omega)]
  · rename_i hf
    rw [if_neg hf]
    split at h
    · cases h
    · rename_i len hl
      cases hv : List.lookup m.CurrField m.Offsets with
      | none =>
        simp only [hv] at h ⊢
        split at h
        · cases h
        · rename_i hb
          cases h
          have hb2 : ¬ (m.CurrOffset < 0 ∨ length < 0
              ∨ m.CurrOffset + length > ((m.ParentBuf ++ e2).length : Int)) := by
            simp only [List.length_append, Nat.cast_add]
            omega
          rw [if_neg hb2, List.drop_append_of_le_length (by omega),
            List.take_append_of_le_length (by simp only [List.length_drop]; omega)]
      | some val =>
        simp only [hv] at h ⊢
        split at h
        · cases h
        · rename_i hb
          cases h
          have hb2 : ¬ (val < 0 ∨ length < 0
              ∨ val + length > ((m.ParentBuf ++ e2).length : Int)) := by
            simp only [List.length_append, Nat.cast_add]
            omega
          rw [if_neg hb2, List.drop_append_of_le_length (by omega),
            List.take_append_of_le_length (by simp only [List.length_drop]; omega)]

/-- A value whose type is no structure and has no codec, decoded without `pad`: the
decode of the same value succeeds when bytes are appended to the buffer and to the parent
buffer. -/
theorem unmarshalKind_extend_leaf {buf : List Nat} {k : Kind} {m m1 : Metadata} {v : Value}
    (e1 e2 : List Nat) (hk : ∀ fs, k ≠ .struct fs) (hc : ∀ c u, k ≠ .custom c u)
    (hp : m.Tags.Has TagPad = false) (h : unmarshalKind buf k m = .ok (v, m1)) :
    unmarshalKind (buf ++ e1) k { m with ParentBuf := m.ParentBuf ++ e2 }
      = .ok (v, { m1 with ParentBuf := m1.ParentBuf ++ e2 }) := by
  cases k with
  | uint8 =>
    simp only [unmarshalKind, unmarshalUint8] at h ⊢
    split at h
    · cases h
    · rename_i ret hr
      cases h
      rw [binaryRead_extend e1 (by omega) hr]
  | uint16 =>
    simp only [unmarshalKind, unmarshalUint16] at h ⊢
    split at h
    · cases h
    · rename_i ret hr
      rw [binaryRead_extend e1 (by omega) hr]
      simp only
      split at h
      · rename_i hh
        rw [if_pos hh]
        split at h
        · cases h
        · cases h
          rfl
      · rename_i hh
        rw [if_neg hh]
        cases h
        rfl
  | uint32 =>
    simp only [unmarshalKind, unmarshalUint32] at h ⊢
    split at h
    · cases h
    · rename_i ret hr
      rw [binaryRead_extend e1 (by omega) hr]
      simp only
      split at h
      · rename_i hh
        rw [if_pos hh]
        split at h
        · cases h
        · cases h
          rfl
      · rename_i hh
        rw [if_neg hh]
        cases h
        rfl
  | uint64 =>
    simp only [unmarshalKind, unmarshalUint64] at h ⊢
    split at h
    · cases h
    · rename_i ret hr
      cases h
      rw [binaryRead_extend e1 (by omega) hr]
  | string =>
    simp only [unmarshalKind, unmarshalString] at h ⊢
    split at h
    · cases h
    · rename_i data off hr
      cases h
      rw [unmarshalStringLoop_extend e1 _ _ _ _ hr]
  | slice elem =>
    simp only [unmarshalKind, unmarshalSlice, hp, Bool.false_eq_true, if_false] at h ⊢
    split at h
    · simp only [unmarshalUint8Slice] at h ⊢
      split at h
      · cases h
      · rename_i length r meta1 hr
        rw [resolveSliceParams_extend e1 e2 hr]
        simp only
        split at h
        · cases h
        · rename_i hlt
          cases h
          rw [if_neg hlt]
    · cases h
  | struct fs => exact absurd rfl (hk fs)
  | ptr elem => simp only [unmarshalKind] at h; cases h
  | custom c u => exact absurd rfl (hc c u)
  | other => simp only [unmarshalKind] at h; cases h

theorem noPad_has {tag : String} {tags : TagMap} (h : noPad tag = true)
    (hp : parseTags tag = .ok tags) : tags.Has TagPad = false := by
  simp only [noPad, hp, Bool.not_eq_true'] at h
  exact h

theorem sliceFrom_of_field_ok {buf : List Nat} {m m1 : Metadata} {f : Field Kind} {v : Value}
    (h : unmarshalStructField buf m f = .ok (v, m1)) :
    ∃ sub, sliceFrom buf m.CurrOffset = .ok sub := by
  unfold unmarshalStructField at h
  split at h
  · cases h
  · rename_i sub hs
    exact ⟨sub, hs⟩

/-- A field whose type is plain and is neither a structure nor a pointer to one, decoded
without `pad`: the decode of the same value succeeds when bytes are appended to the buffer
and to the parent buffer. -/
theorem unmarshalStructField_extend_leaf (e1 e2 : List Nat) (name tag : String) (kind : Kind)
    (buf : List Nat) (m m1 : Metadata) (v : Value) (hk : plainKind kind = true)
    (hns : ∀ fs, kind ≠ .struct fs) (hnp : ∀ fs, kind ≠ .ptr (.struct fs))
    (hp : m.Tags.Has TagPad = false)
    (h : unmarshalStructField buf m ⟨name, tag, kind⟩ = .ok (v, m1)) :
    unmarshalStructField (buf ++ e1) { m with ParentBuf := m.ParentBuf ++ e2 } ⟨name, tag, kind⟩
      = .ok (v, { m1 with ParentBuf := m1.ParentBuf ++ e2 }) := by
  obtain ⟨sub, hs⟩ := sliceFrom_of_field_ok h
  have hs2 := sliceFrom_extend e1 hs
  cases kind with
  | uint8 =>
    simp only [unmarshalStructField, hs] at h
    simp only [unmarshalStructField, hs2]
    exact unmarshalKind_extend_leaf e1 e2 (by intro fs hh; cases hh) (by intro c u hh; cases hh) hp h
  | uint16 =>
    simp only [unmarshalStructField, hs] at h
    simp only [unmarshalStructField, hs2]
    exact unmarshalKind_extend_leaf e1 e2 (by intro fs hh; cases hh) (by intro c u hh; cases hh) hp h
  | uint32 =>
    simp only [unmarshalStructField, hs] at h
    simp only [unmarshalStructField, hs2]
    exact unmarshalKind_extend_leaf e1 e2 (by intro fs hh; cases hh) (by intro c u hh; cases hh) hp h
  | uint64 =>
    simp only [unmarshalStructField, hs] at h
    simp only [unmarshalStructField, hs2]
    exact unmarshalKind_extend_leaf e1 e2 (by intro fs hh; cases hh) (by intro c u hh; cases hh) hp h
  | slice elem =>
    cases elem with
    | uint8 =>
      simp only [unmarshalStructField, hs] at h
      simp only [unmarshalStructField, hs2]
      exact unmarshalKind_extend_leaf e1 e2 (by intro fs hh; cases hh) (by intro c u hh; cases hh) hp h
    | _ =>
      simp only [unmarshalStructField, hs] at h
      split at h <;> cases h
  | struct fs => exact absurd rfl (hns fs)
  | other =>
    simp only [unmarshalStructField, hs] at h
    simp only [unmarshalStructField, hs2]
    exact unmarshalKind_extend_leaf e1 e2 (by intro fs hh; cases hh) (by intro c u hh; cases hh) hp h
  | custom c u => simp [plainKind] at hk
  | string =>
    simp only [unmarshalStructField, hs] at h
    simp only [unmarshalStructField, hs2]
    cases hr : unmarshalString sub m with
    | error e =>
      rw [hr] at h
      cases h
    | ok p =>
      obtain ⟨w, mm⟩ := p
      have hx := unmarshalKind_extend_leaf (k := .string) e1 e2
        (by intro fs hh; cases hh) (by intro c u hh; cases hh) hp
        (by simpa only [unmarshalKind] using hr)
      simp only [unmarshalKind] at hx
      rw [hx]
      rw [hr] at h
      split at h
      · cases h
      · rename_i heq
        cases heq
        cases h
        rfl
      · cases h
  | ptr elem =>
    cases elem with
    | custom c u => simp [plainKind] at hk
    | string =>
      simp only [unmarshalStructField, hs] at h
      split at h <;> cases h
    | uint8 =>
      simp only [unmarshalStructField, hs] at h
      simp only [unmarshalStructField, hs2]
      split at h
      · cases h
      · rename_i result mm hu
        cases h
        rw [unmarshalKind_extend_leaf e1 e2 (by intro fs hh; cases hh) (by intro c u hh; cases hh) hp hu]
    | uint16 =>
      simp only [unmarshalStructField, hs] at h
      simp only [unmarshalStructField, hs2]
      split at h
      · cases h
      · rename_i result mm hu
        cases h
        rw [unmarshalKind_extend_leaf e1 e2 (by intro fs hh; cases hh) (by intro c u hh; cases hh) hp hu]
    | uint32 =>
      simp only [unmarshalStructField, hs] at h
      simp only [unmarshalStructField, hs2]
      split at h
      · cases h
      · rename_i result mm hu
        cases h
        rw [unmarshalKind_extend_leaf e1 e2 (by intro fs hh; cases hh) (by intro c u hh; cases hh) hp hu]
    | uint64 =>
      simp only [unmarshalStructField, hs] at h
      simp only [unmarshalStructField, hs2]
      split at h
      · cases h
      · rename_i result mm hu
        cases h
        rw [unmarshalKind_extend_leaf e1 e2 (by intro fs hh; cases hh) (by intro c u hh; cases hh) hp hu]
    | slice el =>
      cases el with
      | uint8 =>
        simp only [unmarshalStructField, hs] at h
        simp only [unmarshalStructField, hs2]
        split at h
        · cases h
        · rename_i result mm hu
          cases h
          rw [unmarshalKind_extend_leaf e1 e2 (by intro fs hh; cases hh) (by intro c u hh; cases hh) hp hu]
      | _ =>
        simp only [unmarshalStructField, hs] at h
        split at h <;> cases h
    | struct fs => exact absurd rfl (hnp fs)
    | ptr el =>
      simp only [unmarshalStructField, hs, unmarshalKind] at h
      cases h
    | other =>
      simp only [unmarshalStructField, hs, unmarshalKind] at h
      cases h

mutual

/-- A value of a plain type, decoded without `pad`: the decode of the same value
succeeds when bytes are appended to the buffer and to the parent buffer. -/
theorem unmarshalKind_extend (e1 e2 : List Nat) (k : Kind) (buf : List Nat)
    (m m1 : Metadata) (v : Value) (hk : plainKind k = true)
    (hp : m.Tags.Has TagPad = false) (h : unmarshalKind buf k m = .ok (v, m1)) :
    unmarshalKind (buf ++ e1) k { m with ParentBuf := m.ParentBuf ++ e2 }
      = .ok (v, { m1 with ParentBuf := m1.ParentBuf ++ e2 }) := by
  match k, hk, h with
  | .struct fs, hk, h =>
    simp only [unmarshalKind, finishStruct] at h ⊢
    split at h
    · cases h
    · rename_i vals mm hr
      cases h
      have hfs : plainFields fs = true := by simpa [plainKind] using hk
      have hx := unmarshalFields_extend e1 e2 fs buf (structMetadata m) mm vals hfs hr
      simp only [structMetadata] at hx ⊢
      rw [hx]
  | .custom c u, hk, _ => simp [plainKind] at hk
  | .uint8, _, h => exact unmarshalKind_extend_leaf e1 e2 (by intro fs hh; cases hh) (by intro c u hh; cases hh) hp h
  | .uint16, _, h => exact unmarshalKind_extend_leaf e1 e2 (by intro fs hh; cases hh) (by intro c u hh; cases hh) hp h
  | .uint32, _, h => exact unmarshalKind_extend_leaf e1 e2 (by intro fs hh; cases hh) (by intro c u hh; cases hh) hp h
  | .uint64, _, h => exact unmarshalKind_extend_leaf e1 e2 (by intro fs hh; cases hh) (by intro c u hh; cases hh) hp h
  | .string, _, h => exact unmarshalKind_extend_leaf e1 e2 (by intro fs hh; cases hh) (by intro c u hh; cases hh) hp h
  | .slice _, _, h => exact unmarshalKind_extend_leaf e1 e2 (by intro fs hh; cases hh) (by intro c u hh; cases hh) hp h
  | .ptr _, _, h => exact unmarshalKind_extend_leaf e1 e2 (by intro fs hh; cases hh) (by intro c u hh; cases hh) hp h
  | .other, _, h => exact unmarshalKind_extend_leaf e1 e2 (by intro fs hh; cases hh) (by intro c u hh; cases hh) hp h
termination_by sizeOf k

/-- The fields of a plain structure: the decode of the same values succeeds when bytes
are appended to the buffer and to the parent buffer. -/
theorem unmarshalFields_extend (e1 e2 : List Nat) (fields : List (Field Kind))
    (buf : List Nat) (m m1 : Metadata) (vals : List Value)
    (hk : plainFields fields = true) (h : unmarshalFields buf fields m = .ok (vals, m1)) :
    unmarshalFields (buf ++ e1) fields { m with ParentBuf := m.ParentBuf ++ e2 }
      = .ok (vals, { m1 with ParentBuf := m1.ParentBuf ++ e2 }) := by
  match fields, hk, h with
  | [], _, h =>
    simp only [unmarshalFields] at h ⊢
    cases h
    rfl
  | f :: rest, hk, h =>
    obtain ⟨tags, v, m2, vs, hp, hf, hr, hv⟩ := unmarshalFields_cons_inv h
    subst hv
    simp only [plainFields, Bool.and_eq_true] at hk
    obtain ⟨hkf, hkr⟩ := hk
    have hkf2 : noPad f.tag = true ∧ plainKind f.kind = true := by
      cases f
      simpa [plainField] using hkf
    have hf2 := unmarshalStructField_extend e1 e2 f buf
      { m with CurrField := f.name, Tags := tags } m2 v hkf2.2 (noPad_has hkf2.1 hp) hf
    have hr2 := unmarshalFields_extend e1 e2 rest buf m2 m1 vs hkr hr
    exact unmarshalFields_cons_ok hp hf2 hr2
termination_by sizeOf fields

/-- A field of a plain type, decoded without `pad`: the decode of the same value
succeeds when bytes are appended to the buffer and to the parent buffer. -/
theorem unmarshalStructField_extend (e1 e2 : List Nat) (f : Field Kind) (buf : List Nat)
    (m m1 : Metadata) (v : Value) (hk : plainKind f.kind = true)
    (hp : m.Tags.Has TagPad = false) (h : unmarshalStructField buf m f = .ok (v, m1)) :
    unmarshalStructField (buf ++ e1) { m with ParentBuf := m.ParentBuf ++ e2 } f
      = .ok (v, { m1 with ParentBuf := m1.ParentBuf ++ e2 }) := by
  match f, hk, h with
  | ⟨name, tag, .struct fs⟩, hk, h =>
    obtain ⟨sub, hs⟩ := sliceFrom_of_field_ok h
    have hs2 := sliceFrom_extend e1 hs
    simp only [unmarshalStructField, hs] at h
    simp only [unmarshalStructField, hs2]
    exact unmarshalKind_extend e1 e2 (.struct fs) sub m m1 v hk hp h
  | ⟨name, tag, .ptr (.struct fs)⟩, hk, h =>
    obtain ⟨sub, hs⟩ := sliceFrom_of_field_ok h
    have hs2 := sliceFrom_extend e1 hs
    simp only [unmarshalStructField, hs] at h
    simp only [unmarshalStructField, hs2]
    split at h
    · cases h
    · rename_i result mm hu
      cases h
      rw [unmarshalKind_extend e1 e2 (.struct fs) sub m m1 result
        (by simpa [plainKind] using hk) hp hu]
  | ⟨_, _, .custom c u⟩, hk, _ => simp [plainKind] at hk
  | ⟨name, tag, .uint8⟩, hk, h =>
    exact unmarshalStructField_extend_leaf e1 e2 name tag _ buf m m1 v hk (by intro fs hh; cases hh) (by intro fs hh; cases hh) hp h
  | ⟨name, tag, .uint16⟩, hk, h =>
    exact unmarshalStructField_extend_leaf e1 e2 name tag _ buf m m1 v hk (by intro fs hh; cases hh) (by intro fs hh; cases hh) hp h
  | ⟨name, tag, .uint32⟩, hk, h =>
    exact unmarshalStructField_extend_leaf e1 e2 name tag _ buf m m1 v hk (by intro fs hh; cases hh) (by intro fs hh; cases hh) hp h
  | ⟨name, tag, .uint64⟩, hk, h =>
    exact unmarshalStructField_extend_leaf e1 e2 name tag _ buf m m1 v hk (by intro fs hh; cases hh) (by intro fs hh; cases hh) hp h
  | ⟨name, tag, .string⟩, hk, h =>
    exact unmarshalStructField_extend_leaf e1 e2 name tag _ buf m m1 v hk (by intro fs hh; cases hh) (by intro fs hh; cases hh) hp h
  | ⟨name, tag, .slice _⟩, hk, h =>
    exact unmarshalStructField_extend_leaf e1 e2 name tag _ buf m m1 v hk (by intro fs hh; cases hh) (by intro fs hh; cases hh) hp h
  | ⟨name, tag, .other⟩, hk, h =>
    exact unmarshalStructField_extend_leaf e1 e2 name tag _ buf m m1 v hk (by intro fs hh; cases hh) (by intro fs hh; cases hh) hp h
  | ⟨name, tag, .ptr .uint8⟩, hk, h =>
    exact unmarshalStructField_extend_leaf e1 e2 name tag _ buf m m1 v hk (by intro fs hh; cases hh) (by intro fs hh; cases hh) hp h
  | ⟨name, tag, .ptr .uint16⟩, hk, h =>
    exact unmarshalStructField_extend_leaf e1 e2 name tag _ buf m m1 v hk (by intro fs hh; cases hh) (by intro fs hh; cases hh) hp h
  | ⟨name, tag, .ptr .uint32⟩, hk, h =>
    exact unmarshalStructField_extend_leaf e1 e2 name tag _ buf m m1 v hk (by intro fs hh; cases hh) (by intro fs hh; cases hh) hp h
  | ⟨name, tag, .ptr .uint64⟩, hk, h =>
    exact unmarshalStructField_extend_leaf e1 e2 name tag _ buf m m1 v hk (by intro fs hh; cases hh) (by intro fs hh; cases hh) hp h
  | ⟨name, tag, .ptr .string⟩, hk, h =>
    exact unmarshalStructField_extend_leaf e1 e2 name tag _ buf m m1 v hk (by intro fs hh; cases hh) (by intro fs hh; cases hh) hp h
  | ⟨name, tag, .ptr (.slice _)⟩, hk, h =>
    exact unmarshalStructField_extend_leaf e1 e2 name tag _ buf m m1 v hk (by intro fs hh; cases hh) (by intro fs hh; cases hh) hp h
  | ⟨name, tag, .ptr (.ptr _)⟩, hk, h =>
    exact unmarshalStructField_extend_leaf e1 e2 name tag _ buf m m1 v hk (by intro fs hh; cases hh) (by intro fs hh; cases hh) hp h
  | ⟨name, tag, .ptr (.custom _ _)⟩, hk, h =>
    exact unmarshalStructField_extend_leaf e1 e2 name tag _ buf m m1 v hk (by intro fs hh; cases hh) (by intro fs hh; cases hh) hp h
  | ⟨name, tag, .ptr .other⟩, hk, h =>
    exact unmarshalStructField_extend_leaf e1 e2 name tag _ buf m m1 v hk (by intro fs hh; cases hh) (by intro fs hh; cases hh) hp h
termination_by sizeOf f

end

/-- C37: a record shape without `pad` field and without field with a custom codec, at
any depth.  If `Unmarshal` of `b` succeeds with the record `r`, then `Unmarshal` of
`b ++ ext` succeeds with the same record `r`, and the cursor ends at the same position:
the bytes after the consumed part are ignored and are no error. -/
theorem decode_extension_stable (fields : Shape) (b ext : List Nat) (r : Value)
    (hplain : plainFields fields = true) (h : Unmarshal b (.struct fields) = .ok r) :
    Unmarshal (b ++ ext) (.struct fields) = .ok r
      ∧ ∀ vals k, unmarshalWithCursor b fields = .ok (vals, k) →
        unmarshalWithCursor (b ++ ext) fields = .ok (vals, k) := by
  have key : ∀ vals m, unmarshalFields b fields (topMetadata b) = .ok (vals, m) →
      unmarshalFields (b ++ ext) fields (topMetadata (b ++ ext))
        = .ok (vals, { m with ParentBuf := m.ParentBuf ++ ext }) := by
    intro vals m hr
    have hx := unmarshalFields_extend ext ext fields b (topMetadata b) m vals hplain hr
    simp only [topMetadata] at hx ⊢
    exact hx
  constructor
  · rw [Unmarshal_struct] at h ⊢
    split at h
    · cases h
    · rename_i vals m hr
      cases h
      rw [key vals m hr]
  · intro vals k hk
    simp only [unmarshalWithCursor] at hk ⊢
    split at hk
    · cases hk
    · rename_i vs m hr
      cases hk
      rw [key vals m hr]

theorem decode_extension_stable_witness :
    Unmarshal ([9, 1, 0, 7] ++ [5, 5])
        (.struct [⟨"A", "", .uint8⟩, ⟨"In", "", .struct LenBlockStruct⟩])
        = .ok (.struct [.u8 9, .struct [.u16 1, .bytes [0]]])
      ∧ ∀ vals k, unmarshalWithCursor [9, 1, 0, 7]
          [⟨"A", "", .uint8⟩, ⟨"In", "", .struct LenBlockStruct⟩] = .ok (vals, k) →
        unmarshalWithCursor ([9, 1, 0, 7] ++ [5, 5])
          [⟨"A", "", .uint8⟩, ⟨"In", "", .struct LenBlockStruct⟩] = .ok (vals, k) :=
  decode_extension_stable [⟨"A", "", .uint8⟩, ⟨"In", "", .struct LenBlockStruct⟩]
    [9, 1, 0, 7] [5, 5] _ (by decide) rfl

/-! ## Encoding a decoded record -/

theorem leValue_lt (bs : List Nat) (h : ∀ x ∈ bs, x < 256) : leValue bs < 256 ^ bs.length := by
  induction bs with
  | nil => simp [leValue]
  | cons b bs ih =>
    have h1 : b < 256 := h b (by simp)
    have h2 := ih (fun x hx => h x (by simp [hx]))
    simp only [leValue, List.length_cons, pow_succ]
    omega

theorem leBytes_leValue (bs : List Nat) (h : ∀ x ∈ bs, x < 256) :
    leBytes bs.length (leValue bs) = bs := by
  induction bs with
  | nil => rfl
  | cons b bs ih =>
    have h1 : b < 256 := h b (by simp)
    have h2 := ih (fun x hx => h x (by simp [hx]))
    simp only [List.length_cons, leBytes, leValue]
    have e1 : (b + 256 * leValue bs) % 256 = b := by omega
    have e2 : (b + 256 * leValue bs) / 256 = leValue bs := by omega
    rw [e1, e2, h2]

/-- The `w` bytes read at the cursor are written back by the encoder of the integer. -/
theorem leBytes_leValue_take (buf : List Nat) (c w : Nat) (hb : ∀ x ∈ buf, x < 256)
    (hw : w ≤ (buf.drop c).length) :
    leBytes w (leValue ((buf.drop c).take w)) = (buf.drop c).take w
      ∧ leValue ((buf.drop c).take w) < 256 ^ w := by
  have hl : ((buf.drop c).take w).length = w := by
    rw [List.length_take]
    omega
  have hx : ∀ x ∈ (buf.drop c).take w, x < 256 :=
    fun x hx => hb x (List.mem_of_mem_drop (List.mem_of_mem_take hx))
  have h1 := leBytes_leValue _ hx
  have h2 := leValue_lt _ hx
  rw [hl] at h1 h2
  exact ⟨h1, h2⟩

/-- One field of a record that is re-encoded to the bytes it was decoded from: an
unsigned integer, a `uint16` header `len:ref`, a `fixed:N` block, or a block with a
recorded length and no recorded offset.  The decoded value takes `valueSize v` bytes at
the cursor, the encoding of the value is these bytes, and the value passes the check of
a flat record when the header stores the size of the field it refers to. -/
theorem reencode_field (buf : List Nat) (m m1 : Metadata) (f : Field Kind) (r : FlatField)
    (v : Value) (c : Nat) (hb : ∀ x ∈ buf, x < 256) (hpb : m.ParentBuf = buf)
    (hoff : m.Offsets = []) (hc : m.CurrOffset = (c : Int)) (hcl : c ≤ buf.length)
    (hp : parseTags f.tag = .ok m.Tags) (hcf : m.CurrField = f.name)
    (hr : flatField f = some r) (hnoff : ∀ ref, r ≠ .offsetHeader ref) (hnn : r ≠ .nested)
    (hblk : r = .block → ∃ n : Nat, m.Lens.lookup f.name = some (n : Int))
    (hf : unmarshalStructField buf m f = .ok (v, m1)) :
    m1.ParentBuf = buf ∧ m1.Offsets = [] ∧ m1.CurrOffset = ((c + valueSize v : Nat) : Int)
      ∧ c + valueSize v ≤ buf.length
      ∧ encodeValue v = (buf.drop c).take (valueSize v)
      ∧ (∀ ref, r = .lenHeader ref →
          ∃ n : Nat, v = .u16 n ∧ m1.Lens = (ref, (n : Int)) :: m.Lens)
      ∧ ((∀ ref, r ≠ .lenHeader ref) → m1.Lens = m.Lens)
      ∧ (r = .block → ∀ n : Nat, m.Lens.lookup f.name = some (n : Int) → valueSize v = n)
      ∧ (∀ (size offset : String → Option Nat) (hdrs : List String),
          (∀ ref n, r = .lenHeader ref → v = .u16 n → size ref = some n) →
          (r = .block → f.name ∈ hdrs) →
          flatFieldOK size offset hdrs [] false f v = true) := by
  obtain ⟨name, tag, kind⟩ := f
  have hs : sliceFrom buf m.CurrOffset = .ok (buf.drop c) := by
    rw [sliceFrom_ok buf _ (by omega) (by omega), hc]
    rfl
  have hsl : (buf.drop c).length = buf.length - c := List.length_drop _ _
  simp only at hp hcf
  unfold flatField at hr
  simp only [hp] at hr
  cases kind with
  | uint8 =>
    cases hr
    simp only [unmarshalStructField, hs, unmarshalKind, unmarshalUint8] at hf
    rcases binaryRead_cases 1 (buf.drop c) (by omega) with ⟨e, he, _⟩ | ⟨hw, hrd⟩
    · rw [he] at hf
      cases hf
    · rw [hrd] at hf
      cases hf
      obtain ⟨hle, hlt⟩ := leBytes_leValue_take buf c 1 hb hw
      refine ⟨hpb, hoff, ?_, ?_, ?_, ?_, ?_, ?_, ?_⟩
      · simp only [valueSize, hc, Nat.cast_add, Nat.cast_one]
      · simp only [valueSize]
        omega
      · simp only [encodeValue, valueSize, hle]
      · intro ref h
        cases h
      · intro _
        rfl
      · intro h
        cases h
      · intro size offset hdrs _ _
        simp only [flatFieldOK, flatField, hp]
        simpa using hlt
  | uint64 =>
    cases hr
    simp only [unmarshalStructField, hs, unmarshalKind, unmarshalUint64] at hf
    rcases binaryRead_cases 8 (buf.drop c) (by omega) with ⟨e, he, _⟩ | ⟨hw, hrd⟩
    · rw [he] at hf
      cases hf
    · rw [hrd] at hf
      cases hf
      obtain ⟨hle, hlt⟩ := leBytes_leValue_take buf c 8 hb hw
      refine ⟨hpb, hoff, ?_, ?_, ?_, ?_, ?_, ?_, ?_⟩
      · simp only [valueSize, hc, Nat.cast_add, Nat.cast_ofNat]
      · simp only [valueSize]
        omega
      · simp only [encodeValue, valueSize, hle]
      · intro ref h
        cases h
      · intro _
        rfl
      · intro h
        cases h
      · intro size offset hdrs _ _
        simp only [flatFieldOK, flatField, hp]
        simpa using hlt
  | uint16 =>
    simp only [unmarshalStructField, hs, unmarshalKind, unmarshalUint16] at hf
    rcases binaryRead_cases 2 (buf.drop c) (by omega) with ⟨e, he, _⟩ | ⟨hw, hrd⟩
    · rw [he] at hf
      cases hf
    · rw [hrd] at hf
      obtain ⟨hle, hlt⟩ := leBytes_leValue_take buf c 2 hb hw
      cases ho : m.Tags.Has "offset"
      case true => simp [ho] at hr
      case false =>
        cases hl : m.Tags.Has "len"
        case false =>
          simp only [ho, hl, Bool.false_eq_true, if_false, Option.some.injEq] at hr
          subst hr
          simp only [hl, Bool.false_eq_true, if_false] at hf
          cases hf
          refine ⟨hpb, hoff, ?_, ?_, ?_, ?_, ?_, ?_, ?_⟩
          · simp only [valueSize, hc, Nat.cast_add, Nat.cast_ofNat]
          · simp only [valueSize]
            omega
          · simp only [encodeValue, valueSize, hle]
          · intro ref h
            cases h
          · intro _
            rfl
          · intro h
            cases h
          · intro size offset hdrs _ _
            simp only [flatFieldOK, flatField, hp, ho, hl]
            simpa using hlt
        case true =>
          cases hg : m.Tags.GetString "len" with
          | error e => simp [ho, hl, hg] at hr
          | ok ref =>
            simp only [ho, hl, hg, Bool.false_eq_true, if_false, if_true,
              Option.some.injEq] at hr
            subst hr
            simp only [hl, hg, if_true] at hf
            cases hf
            refine ⟨hpb, hoff, ?_, ?_, ?_, ?_, ?_, ?_, ?_⟩
            · simp only [valueSize, hc, Nat.cast_add, Nat.cast_ofNat]
            · simp only [valueSize]
              omega
            · simp only [encodeValue, valueSize, hle]
            · intro ref2 h
              cases h
              exact ⟨_, rfl, rfl⟩
            · intro h
              exact absurd rfl (h ref)
            · intro h
              cases h
            · intro size offset hdrs hsz _
              have h2 := hsz ref _ rfl rfl
              simp only [flatFieldOK, flatField, hp, ho, hl, hg]
              simpa using ⟨hlt, h2⟩
  | uint32 =>
    simp only [unmarshalStructField, hs, unmarshalKind, unmarshalUint32, TagOffset] at hf
    rcases binaryRead_cases 4 (buf.drop c) (by omega) with ⟨e, he, _⟩ | ⟨hw, hrd⟩
    · rw [he] at hf
      cases hf
    · rw [hrd] at hf
      obtain ⟨hle, hlt⟩ := leBytes_leValue_take buf c 4 hb hw
      cases hl : m.Tags.Has "len"
      case true => simp [hl] at hr
      case false =>
        cases ho : m.Tags.Has "offset"
        case true =>
          cases hg : m.Tags.GetString "offset" with
          | error e => simp [ho, hl, hg] at hr
          | ok ref =>
            simp only [ho, hl, hg, Bool.false_eq_true, if_false, if_true,
              Option.some.injEq] at hr
            exact absurd hr.symm (hnoff ref)
        case false =>
          simp only [ho, hl, Bool.false_eq_true, if_false, Option.some.injEq] at hr
          subst hr
          simp only [ho, Bool.false_eq_true, if_false] at hf
          cases hf
          refine ⟨hpb, hoff, ?_, ?_, ?_, ?_, ?_, ?_, ?_⟩
          · simp only [valueSize, hc, Nat.cast_add, Nat.cast_ofNat]
          · simp only [valueSize]
            omega
          · simp only [encodeValue, valueSize, hle]
          · intro ref h
            cases h
          · intro _
            rfl
          · intro h
            cases h
          · intro size offset hdrs _ _
            simp only [flatFieldOK, flatField, hp, ho, hl]
            simpa using hlt
  | slice elem =>
    cases elem with
    | uint8 =>
      cases hpad : m.Tags.Has TagPad
      case true => simp [hpad] at hr
      case false =>
        simp only [unmarshalStructField, hs, unmarshalKind, unmarshalSlice, hpad,
          Bool.false_eq_true, if_false, unmarshalUint8Slice, resolveSliceParams] at hf
        cases hfix : m.Tags.Has TagFixed
        case true =>
          cases hg : m.Tags.GetInt TagFixed with
          | error e => simp [hpad, hfix, hg] at hr
          | ok n =>
            by_cases hn : 0 ≤ n
            · simp only [hpad, hfix, hg, hn, Bool.false_eq_true, if_false, if_true,
                Option.some.injEq] at hr
              subst hr
              simp only [hfix, hg, if_true] at hf
              by_cases hbd : n < 0 ∨ n > ((buf.drop c).length : Int)
              · simp only [hbd, if_true] at hf
                cases hf
              · simp only [hbd, if_false] at hf
                have hlt : ¬ ((((buf.drop c).take n.toNat).length : Int) < n) := by
                  simp only [List.length_take]
                  omega
                simp only [hlt, if_false, List.take_take, min_self] at hf
                cases hf
                have hvs : ((buf.drop c).take n.toNat).length = n.toNat := by
                  simp only [List.length_take]
                  omega
                refine ⟨hpb, hoff, ?_, ?_, ?_, ?_, ?_, ?_, ?_⟩
                · simp only [valueSize, hvs, hc, Nat.cast_add]
                  omega
                · simp only [valueSize, hvs]
                  omega
                · simp only [encodeValue, valueSize, hvs]
                · intro ref h
                  cases h
                · intro _
                  rfl
                · intro h
                  cases h
                · intro size offset hdrs _ _
                  simp only [flatFieldOK, flatField, hp, hpad, hfix, hg, hn]
                  simp only [Bool.false_eq_true, if_false, if_true, Bool.not_false,
                    Bool.true_and, Bool.and_eq_true, decide_eq_true_eq, List.all_eq_true]
                  exact ⟨hvs, fun x hx =>
                    hb x (List.mem_of_mem_drop (List.mem_of_mem_take hx))⟩
            · simp [hpad, hfix, hg, hn] at hr
        case false =>
          simp only [hpad, hfix, Bool.false_eq_true, if_false, Option.some.injEq] at hr
          subst hr
          obtain ⟨n, hn⟩ := hblk rfl
          simp only at hn
          simp only [hfix, Bool.false_eq_true, if_false, hcf, hn, hoff, List.lookup] at hf
          by_cases hbd : m.CurrOffset < 0 ∨ (n : Int) < 0
              ∨ m.CurrOffset + (n : Int) > (m.ParentBuf.length : Int)
          · simp only [hbd, if_true] at hf
            cases hf
          · simp only [hbd, if_false] at hf
            have e : List.drop m.CurrOffset.toNat m.ParentBuf = buf.drop c := by
              rw [hpb, hc]
              rfl
            rw [hpb, hc] at hbd
            have hvs : ((buf.drop c).take n).length = n := by
              simp only [List.length_take]
              omega
            have hlt : ¬ ((((buf.drop c).take n).length : Int) < (n : Int)) := by
              rw [hvs]
              omega
            simp only [e, Int.toNat_ofNat, hlt, if_false, List.take_take, min_self] at hf
            cases hf
            refine ⟨hpb, rfl, ?_, ?_, ?_, ?_, ?_, ?_, ?_⟩
            · simp only [valueSize, hvs, hc, Nat.cast_add]
            · simp only [valueSize, hvs]
              omega
            · simp only [encodeValue, valueSize, hvs]
            · intro ref h
              cases h
            · intro _
              rfl
            · intro _ n2 hn2
              rw [hn] at hn2
              simp only [valueSize, hvs]
              have := Option.some.inj hn2
              omega
            · intro size offset hdrs _ hh
              have hmem := hh rfl
              simp only at hmem
              simp only [flatFieldOK, flatField, hp, hpad, hfix]
              simp only [Bool.false_eq_true, if_false, Bool.not_false,
                Bool.and_eq_true, decide_eq_true_eq, List.all_eq_true, Bool.or_true,
                and_true]
              exact ⟨fun x hx =>
                hb x (List.mem_of_mem_drop (List.mem_of_mem_take hx)), hmem⟩
    | _ => simp at hr
  | struct fs =>
    simp only [Option.some.injEq] at hr
    exact absurd hr.symm hnn
  | ptr elem =>
    cases elem with
    | struct fs =>
      simp only [Option.some.injEq] at hr
      exact absurd hr.symm hnn
    | _ => simp at hr
  | string => simp at hr
  | custom cd u => simp at hr
  | other => simp at hr

theorem take_drop_add (buf : List Nat) (c a b : Nat) :
    (buf.drop c).take (a + b) = (buf.drop c).take a ++ (buf.drop (c + a)).take b := by
  rw [List.take_add, List.drop_drop]

theorem reencode_fields (buf : List Nat) (hb : ∀ x ∈ buf, x < 256)
    (size offset : String → Option Nat) :
    ∀ (fields : Shape) (pending hdrs : List String) (m m1 : Metadata) (vals : List Value)
      (c : Nat), reencodableFields pending fields = true →
      m.ParentBuf = buf → m.Offsets = [] → m.CurrOffset = (c : Int) → c ≤ buf.length →
      (∀ ref ∈ pending, ∃ n : Nat, m.Lens.lookup ref = some (n : Int)) →
      (∀ ref ∈ pending, ref ∈ hdrs) →
      unmarshalFields buf fields m = .ok (vals, m1) →
      (∀ p ∈ fields.zip vals, size p.1.name = some (valueSize p.2)) →
      flatFieldsOK size offset hdrs [] false fields vals = true
        ∧ (∀ ref ∈ pending, ∀ n : Nat, m.Lens.lookup ref = some (n : Int) → size ref = some n)
        ∧ m1.CurrOffset = ((c + valueSizes vals : Nat) : Int)
        ∧ c + valueSizes vals ≤ buf.length
        ∧ encodeValues vals = (buf.drop c).take (valueSizes vals) := by
  intro fields
  induction fields with
  | nil =>
    intro pending hdrs m m1 vals c hre hpb hoff hc hcl hpend hsub hrun hsize
    cases hrun
    simp only [reencodableFields, List.isEmpty_iff] at hre
    subst hre
    refine ⟨rfl, ?_, ?_, ?_, ?_⟩
    · intro ref href
      simp at href
    · simp [valueSizes, hc]
    · simp [valueSizes, hcl]
    · simp [valueSizes, encodeValues]
  | cons f fs ih =>
    intro pending hdrs m m1 vals c hre hpb hoff hc hcl hpend hsub hrun hsize
    obtain ⟨tags, v, m2, vs, hp, hf, hr, hv⟩ := unmarshalFields_cons_inv hrun
    subst hv
    have hsize2 : ∀ p ∈ fs.zip vs, size p.1.name = some (valueSize p.2) :=
      fun p hp2 => hsize p (by simp [hp2])
    have hhead : size f.name = some (valueSize v) := hsize (f, v) (by simp)
    rw [reencodableFields] at hre
    cases hrole : flatField f with
    | none => simp [hrole] at hre
    | some r =>
      have key := reencode_field buf { m with CurrField := f.name, Tags := tags } m2 f r v c hb
        hpb hoff hc hcl hp rfl hrole
      have hfin : ∀ (hdrs2 : List String) (c2 : Nat),
          flatFieldOK size offset hdrs [] false f v = true →
          addHeader hdrs f = hdrs2 → m2.CurrOffset = ((c + valueSize v : Nat) : Int) →
          c + valueSize v ≤ buf.length →
          encodeValue v = (buf.drop c).take (valueSize v) →
          (flatFieldsOK size offset hdrs2 [] false fs vs = true
            ∧ m1.CurrOffset = ((c + valueSize v + valueSizes vs : Nat) : Int)
            ∧ c + valueSize v + valueSizes vs ≤ buf.length
            ∧ encodeValues vs = (buf.drop (c + valueSize v)).take (valueSizes vs)) →
          flatFieldsOK size offset hdrs [] false (f :: fs) (v :: vs) = true
            ∧ m1.CurrOffset = ((c + valueSizes (v :: vs) : Nat) : Int)
            ∧ c + valueSizes (v :: vs) ≤ buf.length
            ∧ encodeValues (v :: vs) = (buf.drop c).take (valueSizes (v :: vs)) := by
        intro hdrs2 c2 hok hadd _ _ henc ⟨h1, h2, h3, h4⟩
        have hao : addOffset [] f = [] := by
          cases r <;> simp [addOffset, hrole] at hre ⊢
        refine ⟨?_, ?_, ?_, ?_⟩
        · simp only [flatFieldsOK, hok, hadd, hao, List.not_mem_nil, decide_False,
            Bool.or_false, Bool.true_and, h1]
        · rw [h2]
          simp only [valueSizes, Nat.add_assoc]
        · simp only [valueSizes]
          omega
        · simp only [encodeValues, valueSizes, take_drop_add, henc, h4]
      cases r with
      | offsetHeader ref => simp [hrole] at hre
      | nested => simp [hrole] at hre
      | uint w =>
        simp only [hrole] at hre
        obtain ⟨k1, k2, k3, k4, k5, _, k7, _, k9⟩ := key (by intro ref h; cases h)
          (by intro h; cases h) (by intro h; cases h) hf
        have hl : m2.Lens = m.Lens := k7 (by intro ref h; cases h)
        obtain ⟨i1, i2, i3, i4, i5⟩ := ih pending hdrs m2 m1 vs (c + valueSize v) hre k1 k2 k3 k4
          (by rw [hl]; exact hpend) hsub hr hsize2
        have hok := k9 size offset hdrs (by intro ref n h; cases h) (by intro h; cases h)
        have hadd : addHeader hdrs f = hdrs := by simp [addHeader, hrole]
        obtain ⟨r1, r2, r3, r4⟩ := hfin hdrs 0 hok hadd k3 k4 k5 ⟨i1, i3, i4, i5⟩
        refine ⟨r1, ?_, r2, r3, r4⟩
        intro ref href n hn
        exact i2 ref href n (by rw [hl]; exact hn)
      | fixed w =>
        simp only [hrole] at hre
        obtain ⟨k1, k2, k3, k4, k5, _, k7, _, k9⟩ := key (by intro ref h; cases h)
          (by intro h; cases h) (by intro h; cases h) hf
        have hl : m2.Lens = m.Lens := k7 (by intro ref h; cases h)
        obtain ⟨i1, i2, i3, i4, i5⟩ := ih pending hdrs m2 m1 vs (c + valueSize v) hre k1 k2 k3 k4
          (by rw [hl]; exact hpend) hsub hr hsize2
        have hok := k9 size offset hdrs (by intro ref n h; cases h) (by intro h; cases h)
        have hadd : addHeader hdrs f = hdrs := by simp [addHeader, hrole]
        obtain ⟨r1, r2, r3, r4⟩ := hfin hdrs 0 hok hadd k3 k4 k5 ⟨i1, i3, i4, i5⟩
        refine ⟨r1, ?_, r2, r3, r4⟩
        intro ref href n hn
        exact i2 ref href n (by rw [hl]; exact hn)
      | lenHeader ref =>
        simp only [hrole, Bool.and_eq_true, decide_eq_true_eq] at hre
        obtain ⟨hnew, hre2⟩ := hre
        obtain ⟨k1, k2, k3, k4, k5, k6, _, _, k9⟩ := key (by intro ref h; cases h)
          (by intro h; cases h) (by intro h; cases h) hf
        obtain ⟨n, hvn, hl⟩ := k6 ref rfl
        have hkeep : ∀ r2 ∈ pending, m2.Lens.lookup r2 = m.Lens.lookup r2 := by
          intro r2 hr2
          rw [hl]
          exact lookup_cons_ne r2 ref n m.Lens (fun h => hnew (h ▸ hr2))
        have hself : m2.Lens.lookup ref = some (n : Int) := by
          rw [hl]
          simp [List.lookup]
        obtain ⟨i1, i2, i3, i4, i5⟩ := ih (ref :: pending) (ref :: hdrs) m2 m1 vs
          (c + valueSize v) hre2 k1 k2 k3 k4
          (by
            intro r2 hr2
            rcases List.mem_cons.mp hr2 with h | h
            · subst h
              exact ⟨n, hself⟩
            · rw [hkeep r2 h]
              exact hpend r2 h)
          (by
            intro r2 hr2
            rcases List.mem_cons.mp hr2 with h | h
            · subst h
              exact List.mem_cons_self _ _
            · exact List.mem_cons_of_mem _ (hsub r2 h))
          hr hsize2
        have hsz : size ref = some n := i2 ref (List.mem_cons_self _ _) n hself
        have hok := k9 size offset hdrs
          (by
            intro ref2 n2 h1 h2
            cases h1
            rw [hvn] at h2
            cases h2
            exact hsz)
          (by intro h; cases h)
        have hadd : addHeader hdrs f = ref :: hdrs := by simp [addHeader, hrole]
        obtain ⟨r1, r2, r3, r4⟩ := hfin (ref :: hdrs) 0 hok hadd k3 k4 k5 ⟨i1, i3, i4, i5⟩
        refine ⟨r1, ?_, r2, r3, r4⟩
        intro r2 hr2 n2 hn2
        exact i2 r2 (List.mem_cons_of_mem _ hr2) n2 (by rw [hkeep r2 hr2]; exact hn2)
      | block =>
        simp only [hrole, Bool.and_eq_true, decide_eq_true_eq] at hre
        obtain ⟨hmem, hre2⟩ := hre
        obtain ⟨k1, k2, k3, k4, k5, _, k7, k8, k9⟩ := key (by intro ref h; cases h)
          (by intro h; cases h) (fun _ => hpend f.name hmem) hf
        have hl : m2.Lens = m.Lens := k7 (by intro ref h; cases h)
        obtain ⟨i1, i2, i3, i4, i5⟩ := ih (pending.erase f.name) hdrs m2 m1 vs
          (c + valueSize v) hre2 k1 k2 k3 k4
          (by
            intro r2 hr2
            rw [hl]
            exact hpend r2 (List.mem_of_mem_erase hr2))
          (fun r2 hr2 => hsub r2 (List.mem_of_mem_erase hr2)) hr hsize2
        have hok := k9 size offset hdrs (by intro ref n h; cases h) (fun _ => hsub f.name hmem)
        have hadd : addHeader hdrs f = hdrs := by simp [addHeader, hrole]
        obtain ⟨r1, r2, r3, r4⟩ := hfin hdrs 0 hok hadd k3 k4 k5 ⟨i1, i3, i4, i5⟩
        refine ⟨r1, ?_, r2, r3, r4⟩
        intro r2 hr2 n hn
        by_cases heq : r2 = f.name
        · subst heq
          rw [hhead, k8 rfl n hn]
        · exact i2 r2 ((List.mem_erase_of_ne heq).mpr hr2) n (by rw [hl]; exact hn)

/-- C38: a top-level record shape built only from unsigned integers, `fixed:N` byte
blocks and byte blocks sized by exactly one preceding `uint16` header `len` (no offset
headers, no text, no pad, distinct field names), and a buffer `b` of bytes on which
`Unmarshal` succeeds with the record `vals`, the cursor ending at `k`.  Then `k` lies
within the buffer and `Marshal` of the decoded record returns the consumed bytes
`b[0..k)`. -/
theorem reencode_consumed_bytes (fields : Shape) (b : List Nat) (vals : List Value) (k : Int)
    (hshape : reencodable fields = true) (hbytes : ∀ x ∈ b, x < 256)
    (h : unmarshalWithCursor b fields = .ok (vals, k)) :
    Unmarshal b (.struct fields) = .ok (.struct vals)
      ∧ 0 ≤ k ∧ k ≤ (b.length : Int)
      ∧ Marshal (.struct fields) (.struct vals) = .ok (b.take k.toNat) := by
  simp only [reencodable, Bool.and_eq_true, decide_eq_true_eq] at hshape
  obtain ⟨hnd, hre⟩ := hshape
  simp only [unmarshalWithCursor] at h
  split at h
  · cases h
  · rename_i vs m hrun
    cases h
    have hself := sizeByName_self fields vals hnd
    obtain ⟨hflat, _, hcur, hle, henc⟩ := reencode_fields b hbytes (sizeByName fields vals)
      (offsetByName fields vals) fields [] [] (topMetadata b) m vals 0 hre rfl rfl rfl
      (Nat.zero_le _) (by intro ref h; simp at h) (by intro ref h; simp at h) hrun hself
    have hrec : flatRecord fields vals = true := by
      simp only [flatRecord, Bool.and_eq_true, decide_eq_true_eq]
      exact ⟨hnd, hflat⟩
    refine ⟨?_, ?_, ?_, ?_⟩
    · rw [Unmarshal_struct, hrun]
    · rw [hcur]
      omega
    · rw [hcur]
      omega
    · rw [Marshal_flat fields vals hrec, henc, hcur]
      simp

theorem reencode_consumed_bytes_witness :
    Unmarshal [2, 0, 7, 8, 1, 2, 3, 4, 5, 6] (.struct
        [⟨"L", "len:D", .uint16⟩, ⟨"D", "", .slice .uint8⟩, ⟨"F", "fixed:3", .slice .uint8⟩])
        = .ok (.struct [.u16 2, .bytes [7, 8], .bytes [1, 2, 3]])
      ∧ 0 ≤ (7 : Int) ∧ (7 : Int) ≤ (([2, 0, 7, 8, 1, 2, 3, 4, 5, 6] : List Nat).length : Int)
      ∧ Marshal (.struct
          [⟨"L", "len:D", .uint16⟩, ⟨"D", "", .slice .uint8⟩, ⟨"F", "fixed:3", .slice .uint8⟩])
          (.struct [.u16 2, .bytes [7, 8], .bytes [1, 2, 3]])
        = .ok (([2, 0, 7, 8, 1, 2, 3, 4, 5, 6] : List Nat).take (7 : Int).toNat) :=
  reencode_consumed_bytes
    [⟨"L", "len:D", .uint16⟩, ⟨"D", "", .slice .uint8⟩, ⟨"F", "fixed:3", .slice .uint8⟩]
    [2, 0, 7, 8, 1, 2, 3, 4, 5, 6] [.u16 2, .bytes [7, 8], .bytes [1, 2, 3]] 7
    rfl (by decide) rfl

/-! ## Encoding twice -/

theorem fieldKindLengthSt_quiet (s : SiblingSt) (v : Value) (k : Kind) (x : Value)
    (named : Bool) (hq : (s.marshalled v).2 = v) :
    fieldKindLengthSt s v k x named
      = (fieldKindLength
          { name := s.name, kind := s.kind, value := v, marshalled := (s.marshalled v).1 }
          k x named, v) := by
  cases k with
  | struct fs =>
    simp only [fieldKindLengthSt, fieldKindLength]
    cases hm : s.marshalled v with
    | mk r v1 =>
      rw [hm] at hq
      simp only at hq
      subst hq
      cases r <;> rfl
  | slice e =>
    cases e <;> cases x <;> simp [fieldKindLengthSt, fieldKindLength]
  | _ => simp [fieldKindLengthSt, fieldKindLength]

theorem lengthOfFieldSt_quiet (w : Writes) (hw : ∀ c x meta, w c x meta = x)
    (fieldName : String) (meta : Metadata) (hlook : meta.Lens.lookup fieldName = none) :
    ∀ (ps : List SiblingSt) (vals : List Value), quiet ps vals →
      lengthOfFieldSt w fieldName meta ps vals
        = (getFieldLengthByName fieldName meta (pureSiblings ps vals), vals) := by
  intro ps
  induction ps with
  | nil =>
    intro vals _
    simp [lengthOfFieldSt, pureSiblings, getFieldLengthByName, hlook]
  | cons s rest ih =>
    intro vals hq
    cases vals with
    | nil => simp [lengthOfFieldSt, pureSiblings, getFieldLengthByName, hlook]
    | cons v vals =>
      obtain ⟨hq1, hq2⟩ := hq
      by_cases hn : s.name = fieldName
      · simp only [lengthOfFieldSt, hn, if_true, pureSiblings]
        unfold getFieldLengthByName
        simp only [hlook, List.find?, hn, decide_True]
        obtain ⟨sn, sk, sm⟩ := s
        simp only at hn hq1 ⊢
        subst hn
        have key := fun k x named => fieldKindLengthSt_quiet ⟨sn, sk, sm⟩ v k x named hq1
        simp only at key
        cases sk with
        | ptr e =>
          cases v with
          | ptr t =>
            cases t with
            | none => cases e <;> simp [fieldLengthSt]
            | some x =>
              cases e with
              | custom c u =>
                cases hc : c.MarshalBinary x (some meta) <;> simp [fieldLengthSt, hc, hw]
              | _ =>
                simp [fieldLengthSt, key]
          | _ => cases e <;> simp [fieldLengthSt]
        | _ =>
          simp [fieldLengthSt, key]
      · simp only [lengthOfFieldSt, hn, if_false, pureSiblings]
        rw [getFieldLengthByName_skip _ _ _ _ hn, ih vals hq2]

theorem getFieldLengthByNameSt_quiet (w : Writes) (hw : ∀ c x meta, w c x meta = x)
    (fieldName : String) (meta : Metadata) (ps : List SiblingSt) (vals : List Value)
    (hq : quiet ps vals) :
    getFieldLengthByNameSt w fieldName meta ps vals
      = (getFieldLengthByName fieldName meta (pureSiblings ps vals), vals) := by
  cases hlook : meta.Lens.lookup fieldName with
  | some val =>
    simp only [getFieldLengthByNameSt, hlook]
    unfold getFieldLengthByName
    simp only [hlook]
  | none =>
    simp only [getFieldLengthByNameSt, hlook]
    exact lengthOfFieldSt_quiet w hw fieldName meta hlook ps vals hq

theorem getOffsetLoopSt_quiet (fieldName : String) :
    ∀ (ps : List SiblingSt) (vals : List Value) (ret : Int) (meta : Metadata),
      quiet ps vals →
      getOffsetLoopSt fieldName ps vals ret meta
        = (getOffsetLoop fieldName (pureSiblings ps vals) ret meta, vals) := by
  intro ps
  induction ps with
  | nil =>
    intro vals ret meta _
    simp [getOffsetLoopSt, pureSiblings, getOffsetLoop]
  | cons s rest ih =>
    intro vals ret meta hq
    cases vals with
    | nil => simp [getOffsetLoopSt, pureSiblings, getOffsetLoop]
    | cons v vals =>
      obtain ⟨hq1, hq2⟩ := hq
      simp only [getOffsetLoopSt, pureSiblings, getOffsetLoop]
      by_cases hn : s.name = fieldName
      · simp only [hn, if_true]
      · simp only [hn, if_false]
        cases hl : meta.Lens.lookup s.name with
        | some l =>
          simp only [ih vals _ _ hq2]
        | none =>
          simp only
          cases hm : s.marshalled v with
          | mk r v1 =>
            rw [hm] at hq1
            simp only at hq1
            subst hq1
            cases r with
            | error e => rfl
            | ok buf => simp only [ih vals _ _ hq2]

theorem resolveHeaderSt_quiet (w : Writes) (hw : ∀ c x meta, w c x meta = x)
    (bits data : Nat) (meta : Metadata) (ps : List SiblingSt) (vals : List Value)
    (hq : quiet ps vals) :
    resolveHeaderSt w bits data meta ps vals
      = (resolveHeader bits data meta (pureSiblings ps vals), vals) := by
  unfold resolveHeaderSt resolveHeader
  simp only [getFieldLengthByNameSt_quiet w hw _ _ ps vals hq, getOffsetByFieldName]
  cases meta.Tags.Has "len" with
  | false =>
    simp only [Bool.false_eq_true, if_false]
    cases meta.Tags.Has "offset" with
    | false => simp
    | true =>
      simp only [if_true]
      cases meta.Tags.GetString "offset" with
      | error e => rfl
      | ok F =>
        simp only [getOffsetLoopSt_quiet F ps vals _ _ hq]
        cases getOffsetLoop F (pureSiblings ps vals) 0 meta with
        | error e => rfl
        | ok r => rfl
  | true =>
    simp only [if_true]
    cases meta.Tags.GetString "len" with
    | error e => rfl
    | ok G =>
      simp only
      cases getFieldLengthByName G meta (pureSiblings ps vals) with
      | error e => rfl
      | ok r =>
        obtain ⟨l, meta1⟩ := r
        simp only
        cases meta1.Tags.Has "offset" with
        | false => simp
        | true =>
          simp only [if_true]
          cases meta1.Tags.GetString "offset" with
          | error e => rfl
          | ok F =>
            simp only [getOffsetLoopSt_quiet F ps vals _ _ hq]
            cases getOffsetLoop F (pureSiblings ps vals) 0 meta1 with
            | error e => rfl
            | ok r => rfl

theorem marshalUint16St_quiet (w : Writes) (hw : ∀ c x meta, w c x meta = x)
    (data : Nat) (meta : Option Metadata) (ps : List SiblingSt) (vals : List Value)
    (hq : quiet ps vals) :
    marshalUint16St w data meta ps vals
      = (marshalUint16 data meta (pureSiblings ps vals), vals) := by
  cases meta with
  | none => rfl
  | some m =>
    simp only [marshalUint16St, marshalUint16, resolveHeaderSt_quiet w hw _ _ m ps vals hq]
    cases resolveHeader 16 data m (pureSiblings ps vals) with
    | error e => rfl
    | ok r => rfl

theorem marshalUint32St_quiet (w : Writes) (hw : ∀ c x meta, w c x meta = x)
    (data : Nat) (meta : Option Metadata) (ps : List SiblingSt) (vals : List Value)
    (hq : quiet ps vals) :
    marshalUint32St w data meta ps vals
      = (marshalUint32 data meta (pureSiblings ps vals), vals) := by
  cases meta with
  | none => rfl
  | some m =>
    simp only [marshalUint32St, marshalUint32, resolveHeaderSt_quiet w hw _ _ m ps vals hq]
    cases resolveHeader 32 data m (pureSiblings ps vals) with
    | error e => rfl
    | ok r => rfl

theorem marshalKindSt_leaf (w : Writes) (k : Kind) (v : Value) (d : Bool)
    (meta : Option Metadata) (ps : List SiblingSt) (pvals : List Value) (parent : List Sibling)
    (hs : ∀ fs, k ≠ .struct fs) (hc : ∀ c fs, k ≠ .custom c (.struct fs))
    (h16 : k ≠ .uint16) (h32 : k ≠ .uint32) :
    marshalKindSt w k v d meta ps pvals = (marshalKind k v d meta parent, v, pvals) := by
  have hp : marshalKind k v d meta [] = marshalKind k v d meta parent := by
    rw [marshalKind_context_free k v d meta parent h16 h32,
      marshalKind_context_free k v d meta [] h16 h32]
  cases k with
  | struct fs => exact absurd rfl (hs fs)
  | uint16 => exact absurd rfl h16
  | uint32 => exact absurd rfl h32
  | custom c u =>
    cases u with
    | struct fs => exact absurd rfl (hc c fs)
    | _ => simp only [marshalKindSt, hp]
  | _ => simp only [marshalKindSt, hp]

theorem set_of_getElem? (vals : List Value) (j : Nat) (v : Value) (h : vals[j]? = some v) :
    vals.set j v = vals := by
  induction vals generalizing j with
  | nil => simp
  | cons x xs ih =>
    cases j with
    | zero =>
      simp only [List.getElem?_cons_zero, Option.some.injEq] at h
      simp [h]
    | succ j =>
      simp only [List.getElem?_cons_succ] at h
      simp [ih j h]

theorem drop_of_getElem? (vals : List Value) (j : Nat) (v : Value) (h : vals[j]? = some v) :
    vals.drop j = v :: vals.drop (j + 1) := by
  induction vals generalizing j with
  | nil => simp at h
  | cons x xs ih =>
    cases j with
    | zero =>
      simp only [List.getElem?_cons_zero, Option.some.injEq] at h
      simp [h]
    | succ j =>
      simp only [List.getElem?_cons_succ] at h
      simpa using ih j h

theorem drop_of_getElem?_none (vals : List Value) (j : Nat) (h : vals[j]? = none) :
    vals.drop j = [] := by
  rw [List.getElem?_eq_none_iff] at h
  exact List.drop_eq_nil_of_le h

mutual

theorem marshalKindSt_quiet (w : Writes) (hw : ∀ c x meta, w c x meta = x) (k : Kind) :
    ∀ (v : Value) (d : Bool) (meta : Option Metadata) (ps : List SiblingSt)
      (pvals : List Value), quiet ps pvals →
      marshalKindSt w k v d meta ps pvals
        = (marshalKind k v d meta (pureSiblings ps pvals), v, pvals) := by
  match k with
  | .struct fs =>
    intro v d meta ps pvals hq
    cases v with
    | struct vals =>
      obtain ⟨hA, hB⟩ := siblingsSt_quiet w hw fs vals
      simp only [marshalKindSt, marshalKind,
        marshalFieldsSt_quiet w hw fs 0 (siblingsSt w fs) vals marshalMetadata hA, hB,
        List.drop_zero]
      cases marshalFields fs vals (siblings fs vals) marshalMetadata <;> rfl
    | _ => simp [marshalKindSt, marshalKind]
  | .custom c (.struct fs) =>
    intro v d meta ps pvals hq
    cases v with
    | struct vals =>
      obtain ⟨hA, hB⟩ := siblingsSt_quiet w hw fs vals
      simp only [marshalKindSt, marshalKind,
        marshalFieldsSt_quiet w hw fs 0 (siblingsSt w fs) vals marshalMetadata hA, hB,
        List.drop_zero]
      cases marshalFields fs vals (siblings fs vals) marshalMetadata <;> rfl
    | _ => simp [marshalKindSt, marshalKind]
  | .uint16 =>
    intro v d meta ps pvals hq
    cases v with
    | u16 n =>
      simp only [marshalKindSt, marshalKind, marshalUint16St_quiet w hw n meta ps pvals hq]
    | _ => simp [marshalKindSt, marshalKind]
  | .uint32 =>
    intro v d meta ps pvals hq
    cases v with
    | u32 n =>
      simp only [marshalKindSt, marshalKind, marshalUint32St_quiet w hw n meta ps pvals hq]
    | _ => simp [marshalKindSt, marshalKind]
  | .uint8 =>
    intro v d meta ps pvals _
    exact marshalKindSt_leaf w _ v d meta ps pvals _ (by intro fs h; cases h)
      (by intro c fs h; cases h) (by intro h; cases h) (by intro h; cases h)
  | .uint64 =>
    intro v d meta ps pvals _
    exact marshalKindSt_leaf w _ v d meta ps pvals _ (by intro fs h; cases h)
      (by intro c fs h; cases h) (by intro h; cases h) (by intro h; cases h)
  | .string =>
    intro v d meta ps pvals _
    exact marshalKindSt_leaf w _ v d meta ps pvals _ (by intro fs h; cases h)
      (by intro c fs h; cases h) (by intro h; cases h) (by intro h; cases h)
  | .slice _ =>
    intro v d meta ps pvals _
    exact marshalKindSt_leaf w _ v d meta ps pvals _ (by intro fs h; cases h)
      (by intro c fs h; cases h) (by intro h; cases h) (by intro h; cases h)
  | .ptr _ =>
    intro v d meta ps pvals _
    exact marshalKindSt_leaf w _ v d meta ps pvals _ (by intro fs h; cases h)
      (by intro c fs h; cases h) (by intro h; cases h) (by intro h; cases h)
  | .other =>
    intro v d meta ps pvals _
    exact marshalKindSt_leaf w _ v d meta ps pvals _ (by intro fs h; cases h)
      (by intro c fs h; cases h) (by intro h; cases h) (by intro h; cases h)
  | .custom c .uint8 =>
    intro v d meta ps pvals _
    exact marshalKindSt_leaf w _ v d meta ps pvals _ (by intro fs h; cases h)
      (by intro c fs h; cases h) (by intro h; cases h) (by intro h; cases h)
  | .custom c .uint16 =>
    intro v d meta ps pvals _
    exact marshalKindSt_leaf w _ v d meta ps pvals _ (by intro fs h; cases h)
      (by intro c fs h; cases h) (by intro h; cases h) (by intro h; cases h)
  | .custom c .uint32 =>
    intro v d meta ps pvals _
    exact marshalKindSt_leaf w _ v d meta ps pvals _ (by intro fs h; cases h)
      (by intro c fs h; cases h) (by intro h; cases h) (by intro h; cases h)
  | .custom c .uint64 =>
    intro v d meta ps pvals _
    exact marshalKindSt_leaf w _ v d meta ps pvals _ (by intro fs h; cases h)
      (by intro c fs h; cases h) (by intro h; cases h) (by intro h; cases h)
  | .custom c .string =>
    intro v d meta ps pvals _
    exact marshalKindSt_leaf w _ v d meta ps pvals _ (by intro fs h; cases h)
      (by intro c fs h; cases h) (by intro h; cases h) (by intro h; cases h)
  | .custom c (.slice _) =>
    intro v d meta ps pvals _
    exact marshalKindSt_leaf w _ v d meta ps pvals _ (by intro fs h; cases h)
      (by intro c fs h; cases h) (by intro h; cases h) (by intro h; cases h)
  | .custom c (.ptr _) =>
    intro v d meta ps pvals _
    exact marshalKindSt_leaf w _ v d meta ps pvals _ (by intro fs h; cases h)
      (by intro c fs h; cases h) (by intro h; cases h) (by intro h; cases h)
  | .custom c (.custom _ _) =>
    intro v d meta ps pvals _
    exact marshalKindSt_leaf w _ v d meta ps pvals _ (by intro fs h; cases h)
      (by intro c fs h; cases h) (by intro h; cases h) (by intro h; cases h)
  | .custom c .other =>
    intro v d meta ps pvals _
    exact marshalKindSt_leaf w _ v d meta ps pvals _ (by intro fs h; cases h)
      (by intro c fs h; cases h) (by intro h; cases h) (by intro h; cases h)
termination_by sizeOf k

theorem siblingsSt_quiet (w : Writes) (hw : ∀ c x meta, w c x meta = x) (fs : Shape) :
    ∀ (vals : List Value),
      quiet (siblingsSt w fs) vals ∧ pureSiblings (siblingsSt w fs) vals = siblings fs vals := by
  match fs with
  | [] =>
    intro vals
    simp [siblingsSt, quiet, pureSiblings, siblings]
  | f :: rest =>
    intro vals
    cases vals with
    | nil => simp [siblingsSt, quiet, pureSiblings, siblings]
    | cons v vals =>
      obtain ⟨hA, hB⟩ := siblingsSt_quiet w hw rest vals
      have hf := marshalFieldSt_quiet w hw f v none [] [] trivial
      simp only [pureSiblings] at hf
      simp only [siblingsSt, quiet, pureSiblings, siblings, hf, hA, hB]
      cases marshalField f v none [] with
      | error e => simp
      | ok r => simp
termination_by sizeOf fs

theorem marshalFieldsSt_quiet (w : Writes) (hw : ∀ c x meta, w c x meta = x) (fs : Shape) :
    ∀ (j : Nat) (ps : List SiblingSt) (vals : List Value) (m : Metadata), quiet ps vals →
      marshalFieldsSt w fs j ps vals m
        = (marshalFields fs (vals.drop j) (pureSiblings ps vals) m, vals) := by
  match fs with
  | [] =>
    intro j ps vals m _
    simp [marshalFieldsSt, marshalFields]
  | f :: rest =>
    intro j ps vals m hq
    cases hv : vals[j]? with
    | none =>
      simp only [marshalFieldsSt, hv, drop_of_getElem?_none vals j hv, marshalFields]
    | some v =>
      simp only [marshalFieldsSt, hv, drop_of_getElem? vals j v hv, marshalFields]
      cases hp : parseTags f.tag with
      | error e => rfl
      | ok tags =>
        simp only [marshalFieldSt_quiet w hw f v _ ps vals hq]
        cases hf : marshalField f v (some { m with Tags := tags }) (pureSiblings ps vals) with
        | error e => simp only [set_of_getElem? vals j v hv]
        | ok r =>
          obtain ⟨buf, m1⟩ := r
          simp only [set_of_getElem? vals j v hv,
            marshalFieldsSt_quiet w hw rest (j + 1) ps vals _ hq]
          cases marshalFields rest (vals.drop (j + 1)) (pureSiblings ps vals)
              { (m1.getD { m with Tags := tags }) with
                Lens := (f.name, (buf.length : Int)) :: (m1.getD { m with Tags := tags }).Lens }
            with
          | error e => rfl
          | ok out => rfl
termination_by sizeOf fs

theorem marshalFieldSt_quiet (w : Writes) (hw : ∀ c x meta, w c x meta = x)
    (f : Field Kind) :
    ∀ (v : Value) (meta : Option Metadata) (ps : List SiblingSt) (pvals : List Value),
      quiet ps pvals →
      marshalFieldSt w f v meta ps pvals
        = (marshalField f v meta (pureSiblings ps pvals), v, pvals) := by
  match f with
  | ⟨name, tag, .ptr (.custom bm under)⟩ =>
    intro v meta ps pvals hq
    have hk := marshalKindSt_quiet w hw (.custom bm under)
    cases v with
    | ptr t =>
      cases t with
      | none => simp [marshalFieldSt, marshalField]
      | some x =>
        simp only [marshalFieldSt, marshalField, hw]
        cases bm.MarshalBinary x meta with
        | ok buf => rfl
        | error e => simp only [hk x false meta ps pvals hq]
    | _ => simp [marshalFieldSt, marshalField]
  | ⟨name, tag, .ptr elem⟩ =>
    intro v meta ps pvals hq
    have hk := marshalKindSt_quiet w hw elem
    cases v with
    | ptr t =>
      cases t with
      | none => cases elem <;> simp [marshalFieldSt, marshalField]
      | some x =>
        cases elem with
        | custom bm under =>
          simp only [marshalFieldSt, marshalField, hw]
          cases bm.MarshalBinary x meta with
          | ok buf => rfl
          | error e => simp only [hk x false meta ps pvals hq]
        | _ => simp only [marshalFieldSt, marshalField, hk x false meta ps pvals hq]
    | _ => cases elem <;> simp [marshalFieldSt, marshalField]
  | ⟨name, tag, k⟩ =>
    intro v meta ps pvals hq
    have hk := marshalKindSt_quiet w hw k
    cases k with
    | ptr elem =>
      have hk2 := marshalKindSt_quiet w hw elem
      cases v with
      | ptr t =>
        cases t with
        | none => cases elem <;> simp [marshalFieldSt, marshalField]
        | some x =>
          cases elem with
          | custom bm under =>
            simp only [marshalFieldSt, marshalField, hw]
            cases bm.MarshalBinary x meta with
            | ok buf => rfl
            | error e => simp only [hk2 x false meta ps pvals hq]
          | _ => simp only [marshalFieldSt, marshalField, hk2 x false meta ps pvals hq]
      | _ => cases elem <;> simp [marshalFieldSt, marshalField]
    | _ => cases v <;> simp only [marshalFieldSt, marshalField, hk _ true meta ps pvals hq]
termination_by sizeOf f

end

/-- With codecs that leave their receiver as it is, the encoder that follows the writes
returns what `Marshal` returns and leaves the record as it is. -/
theorem MarshalSt_quiet (w : Writes) (hw : ∀ c x meta, w c x meta = x) (kind : Kind)
    (v : Value) : MarshalSt w kind v = (Marshal kind v, v) := by
  have h := marshalFieldSt_quiet w hw ⟨"", "", kind⟩ v none [] [] trivial
  simp only [pureSiblings] at h
  simp only [MarshalSt, Marshal, marshal, h]
  cases marshalField ⟨"", "", kind⟩ v none [] with
  | error e => rfl
  | ok r => rfl

/-- C16 as amended: when the codecs that the encoder calls leave their receiver as it is,
`Marshal(r)` leaves the record as it is, for every type and every record `r`, whether it
returns bytes or an error; the second of two successive calls, which runs on the record
that the first has left, returns the same bytes or the same error, and leaves the record
as it is too.  The result is the one of the encoder without writes, `Marshal`. -/
theorem encode_twice (w : Writes) (kind : Kind) (r : Value)
    (hw : ∀ c x meta, w c x meta = x) :
    (MarshalSt w kind r).2 = r
      ∧ (MarshalSt w kind (MarshalSt w kind r).2).1 = (MarshalSt w kind r).1
      ∧ (MarshalSt w kind (MarshalSt w kind r).2).2 = r
      ∧ (MarshalSt w kind r).1 = Marshal kind r := by
  have h := MarshalSt_quiet w hw kind r
  simp only [h, and_self]

theorem encode_twice_witness :
    (MarshalSt noWrites (.struct [⟨"Len", "len:TargetInfo", .uint16⟩,
          ⟨"TargetInfo", "", .ptr AvPairSliceKind⟩])
        (.struct [.u16 0, .ptr (some (.list [.struct [.u16 1, .u16 2, .bytes [7, 8]]]))])).2
      = .struct [.u16 0, .ptr (some (.list [.struct [.u16 1, .u16 2, .bytes [7, 8]]]))]
    ∧ (MarshalSt noWrites (.struct [⟨"Len", "len:TargetInfo", .uint16⟩,
          ⟨"TargetInfo", "", .ptr AvPairSliceKind⟩])
        (.struct [.u16 0, .ptr (some (.list [.struct [.u16 1, .u16 2, .bytes [7, 8]]]))])).1
      = Marshal (.struct [⟨"Len", "len:TargetInfo", .uint16⟩,
          ⟨"TargetInfo", "", .ptr AvPairSliceKind⟩])
        (.struct [.u16 0, .ptr (some (.list [.struct [.u16 1, .u16 2, .bytes [7, 8]]]))]) :=
  have h := encode_twice noWrites (.struct [⟨"Len", "len:TargetInfo", .uint16⟩,
      ⟨"TargetInfo", "", .ptr AvPairSliceKind⟩])
    (.struct [.u16 0, .ptr (some (.list [.struct [.u16 1, .u16 2, .bytes [7, 8]]]))])
    (fun _ _ _ => rfl)
  ⟨h.1, h.2.2.2⟩

/-- C16 fails as stated: a record `R{C: &Counter{N: 1}}` whose codec `MarshalBinary`
returns the byte `N` and adds one to `N`.  The first `Marshal(r)` returns `{1}` and leaves
`N = 2` in the record; the second returns `{2}`. -/
theorem encode_twice_counterexample :
    MarshalSt countingWrites (.struct CounterHolder) (.struct [.ptr (some (.struct [.u8 1]))])
        = (.ok [1], .struct [.ptr (some (.struct [.u8 2]))])
      ∧ MarshalSt countingWrites (.struct CounterHolder)
          (.struct [.ptr (some (.struct [.u8 2]))])
        = (.ok [2], .struct [.ptr (some (.struct [.u8 3]))])
      ∧ (MarshalSt countingWrites (.struct CounterHolder)
          (.struct [.ptr (some (.struct [.u8 1]))])).2
        ≠ .struct [.ptr (some (.struct [.u8 1]))]
      ∧ (MarshalSt countingWrites (.struct CounterHolder)
          (MarshalSt countingWrites (.struct CounterHolder)
            (.struct [.ptr (some (.struct [.u8 1]))])).2).1
        ≠ (MarshalSt countingWrites (.struct CounterHolder)
            (.struct [.ptr (some (.struct [.u8 1]))])).1 := by
  have h1 : MarshalSt countingWrites (.struct CounterHolder)
      (.struct [.ptr (some (.struct [.u8 1]))])
        = (.ok [1], .struct [.ptr (some (.struct [.u8 2]))]) := rfl
  have h2 : MarshalSt countingWrites (.struct CounterHolder)
      (.struct [.ptr (some (.struct [.u8 2]))])
        = (.ok [2], .struct [.ptr (some (.struct [.u8 3]))]) := rfl
  refine ⟨h1, h2, ?_, ?_⟩
  · rw [h1]
    simp
  · rw [h1]
    simp only
    rw [h2]
    simp

end Encoding
